import Mathlib

/-!
# voip-answer: SIP byte-range scanners and composers (siptools.c, sip_parsers.c)

A shallow embedding of the byte-range scanners and of the header composers
of `siptools.c`, and of `read_unsigned` of `sip_parsers.c`.

* A buffer is a list of octets (`Bytes`, octets as natural numbers).
* A C pointer into a buffer is its offset (`Nat`); a pointer that may be
  `NULL` is an `Option Nat`.
* An octet read outside the list gives `0`: the list models the memory up
  to, and not including, a terminating NUL.
* A `while (p < e && cond (*p)) p++` loop is `scanWhile`; the backward
  loop `while (q > s && cond (q[-1])) q--` is `scanBack`.  Loops with a
  richer body carry an explicit fuel argument that bounds the number of
  iterations by the length of the range.  The loop of `sip_find_comma`
  need not end: its model counts the iterations and tells a run that has
  not returned from a return of `NULL`.
* A scanner that returns a start pointer and stores an end pointer through
  its `end` argument returns `Option (Nat × Nat)`: `none` is `NULL`.
-/

namespace VoipAnswer

/-! ## Octets, buffers and `<ctype.h>` in the C locale -/

/-- Modelled from the spec: the octet type `ui8` of the sources is declared in
`sip_parsers.h`, which is not among them; it is taken as an unsigned 8-bit integer (the
spec speaks of octets throughout). A buffer of octets is a list of natural numbers; the
comparisons and the arithmetic of the scanners are those of unsigned octets, and the one
place where a wider value is stored into an octet (`sip_deescape`) reduces it modulo 256. -/
abbrev Bytes := List Nat

/-- The octet `*p` of buffer `b` at offset `p`. -/
def byteAt (b : Bytes) (p : Nat) : Nat := b.getD p 0

/-- C `isdigit`. -/
def isdigit (c : Nat) : Bool := decide (48 ≤ c) && decide (c ≤ 57)

/-- C `isupper` in the C locale. -/
def isupper (c : Nat) : Bool := decide (65 ≤ c) && decide (c ≤ 90)

/-- C `islower` in the C locale. -/
def islower (c : Nat) : Bool := decide (97 ≤ c) && decide (c ≤ 122)

/-- C `isalpha` in the C locale. -/
def isalpha (c : Nat) : Bool := isupper c || islower c

/-- C `isxdigit`. -/
def isxdigit (c : Nat) : Bool :=
  isdigit c || (decide (65 ≤ c) && decide (c ≤ 70)) || (decide (97 ≤ c) && decide (c ≤ 102))

/-- C `tolower` in the C locale. -/
def tolower (c : Nat) : Nat := if isupper c then c + 32 else c

/-! ## Elementary loops -/

/-- The loop `while (p < e && P (*p)) p++`, with fuel. -/
def scanFuel (b : Bytes) (P : Nat → Bool) (e : Nat) : Nat → Nat → Nat
  | 0, p => p
  | fuel + 1, p => if p < e ∧ P (byteAt b p) = true then scanFuel b P e fuel (p + 1) else p

/-- The loop `while (p < e && P (*p)) p++`: the position where it stops. -/
def scanWhile (b : Bytes) (P : Nat → Bool) (p e : Nat) : Nat := scanFuel b P e (e - p) p

/-- The loop `while (q > s && P (q[-1])) q--`, with fuel. -/
def scanBackFuel (b : Bytes) (P : Nat → Bool) (s : Nat) : Nat → Nat → Nat
  | 0, q => q
  | fuel + 1, q => if s < q ∧ P (byteAt b (q - 1)) = true then scanBackFuel b P s fuel (q - 1) else q

/-- The loop `while (q > s && P (q[-1])) q--`: the position where it stops. -/
def scanBack (b : Bytes) (P : Nat → Bool) (s q : Nat) : Nat := scanBackFuel b P s (q - s) q

/-- C `strlen (s)`: the number of octets before the first NUL at or after `s`. -/
def strlen (b : Bytes) (s : Nat) : Nat := scanWhile b (fun c => decide (c ≠ 0)) s b.length - s

/-- The end of a range whose end pointer may be absent:
`if (!e) e = s + strlen (s);`. -/
def rangeEnd (b : Bytes) (s : Nat) (e : Option Nat) : Nat :=
  match e with
  | none => s + strlen b s
  | some e => e

/-- C `strncasecmp (a + ai, b + bi, n)`. -/
def strncasecmp (a : Bytes) (ai : Nat) (b : Bytes) (bi : Nat) : Nat → Int
  | 0 => 0
  | n + 1 =>
    let c1 := tolower (byteAt a ai)
    let c2 := tolower (byteAt b bi)
    if c1 ≠ c2 then (c1 : Int) - (c2 : Int)
    else if c1 = 0 then 0
    else strncasecmp a (ai + 1) b (bi + 1) n

/-! ## sip_parsers.c -/

/-- Two's complement wrap of a C `int` (32 bits). -/
def wrapInt32 (x : Int) : Int := (x + 2147483648) % 4294967296 - 2147483648

/-- The loop of `read_unsigned`: `v = v * 10 + (*(*p)++ - '0')` while `*p < e && isdigit (**p)`. -/
def read_unsigned_loop (b : Bytes) (e : Nat) : Nat → Nat → Int → Int × Nat
  | 0, p, v => (v, p)
  | fuel + 1, p, v =>
    if p < e ∧ isdigit (byteAt b p) = true then
      read_unsigned_loop b e fuel (p + 1) (wrapInt32 (v * 10 + ((byteAt b p : Int) - 48)))
    else (v, p)

/-- `read_unsigned (&p, e)`: the value returned and the new `*p`. -/
def read_unsigned (b : Bytes) (p e : Nat) : Int × Nat := read_unsigned_loop b e (e - p) p 0

/-- The maximal run of ASCII digits that starts at `p` and lies before `e`. -/
def digitRun (b : Bytes) (p e : Nat) : Bytes := ((b.drop p).take (e - p)).takeWhile isdigit

/-- The decimal value of a run of digits, continuing from the value `v`. -/
def decimalFrom (v : Nat) (ds : Bytes) : Nat := ds.foldl (fun a d => a * 10 + (d - 48)) v

/-- The decimal value of a run of digits. -/
def decimalValue (ds : Bytes) : Nat := decimalFrom 0 ds

/-! ## siptools.c: white space and display names -/

/-- The octets `sip_skip_space` skips: SP, HT, LF, CR. -/
def isLWS (c : Nat) : Bool := c == 32 || c == 9 || c == 10 || c == 13

/-- The octets that are SP or HT. -/
def isSPHT (c : Nat) : Bool := c == 9 || c == 32

/-- The body of `sip_skip_space` for present `s` and `e`. -/
def skip_space (b : Bytes) (s e : Nat) : Nat := scanWhile b isLWS s e

/-- `sip_skip_space (s, e)`. -/
def sip_skip_space (b : Bytes) (s e : Option Nat) : Option Nat :=
  match s with
  | none => none
  | some s =>
    let e := rangeEnd b s e
    some (skip_space b s e)

/-- The octets of a display-name token in `sip_skip_display`:
alphanumeric and the marks - . ! % * _ + (backquote) ' ~ -/
def isTokenChar (c : Nat) : Bool :=
  isalpha c || isdigit c || c == 45 || c == 46 || c == 33 || c == 37 || c == 42 || c == 95
    || c == 43 || c == 96 || c == 39 || c == 126

/-- The loop of `sip_skip_display` over the inside of a quoted string:
`while (s < e && *s != '"') { if (*s == '\\' && s + 1 < e) s++; s++; }`. -/
def quotedLoop (b : Bytes) (e : Nat) : Nat → Nat → Nat
  | 0, s => s
  | fuel + 1, s =>
    if s < e ∧ byteAt b s ≠ 34 then
      let s1 := if byteAt b s = 92 ∧ s + 1 < e then s + 1 else s
      quotedLoop b e fuel (s1 + 1)
    else s

/-- The token-list loop of `sip_skip_display`: a token is skipped when a space follows it
and something is left after the white space. -/
def tokenLoop (b : Bytes) (e : Nat) : Nat → Nat → Nat
  | 0, s => s
  | fuel + 1, s =>
    if s < e then
      let p := scanWhile b isTokenChar s e
      if p < e ∧ byteAt b p ≠ 32 then s
      else
        let p := skip_space b p e
        if p < e then tokenLoop b e fuel p else s
    else s

/-- The body of `sip_skip_display` for present `s` and `e`. -/
def skip_display (b : Bytes) (s e : Nat) : Nat :=
  let s := skip_space b s e
  let s :=
    if s < e ∧ byteAt b s = 34 then
      let s := quotedLoop b e (e - (s + 1)) (s + 1)
      if s < e then s + 1 else s
    else tokenLoop b e (e - s) s
  skip_space b s e

/-- `sip_skip_display (s, e)`. -/
def sip_skip_display (b : Bytes) (s e : Option Nat) : Option Nat :=
  match s with
  | none => none
  | some s =>
    let e := rangeEnd b s e
    some (skip_display b s e)

/-! ## siptools.c: escaped comparison and de-escaping -/

/-- The value of a hex digit as the source computes it: `(*s & 15) + (isalpha (*s) ? 9 : 0)`. -/
def hexNibble (c : Nat) : Nat := c % 16 + (if isalpha c then 9 else 0)

/-- What `sip_esc_cmp` returns after its loop. -/
def esc_cmp_end (e : Nat) (c : Bytes) (s ci : Nat) : Int :=
  if s < e then -1 else if byteAt c ci ≠ 0 then 1 else 0

/-- The loop of `sip_esc_cmp`: `s` runs over the escaped range, `ci` over the C string `c`. -/
def esc_cmp_loop (b : Bytes) (e : Nat) (c : Bytes) : Nat → Nat → Nat → Int
  | 0, s, ci => esc_cmp_end e c s ci
  | fuel + 1, s, ci =>
    if s < e ∧ byteAt c ci ≠ 0 then
      let esc : Bool := decide (byteAt b s = 37) && decide (s + 3 < e)
        && isxdigit (byteAt b (s + 1)) && isxdigit (byteAt b (s + 2))
      let v := if esc then hexNibble (byteAt b (s + 1)) * 16 + hexNibble (byteAt b (s + 2))
        else byteAt b s
      let s1 := if esc then s + 2 else s
      if v < byteAt c ci then -1
      else if v > byteAt c ci then 1
      else esc_cmp_loop b e c fuel (s1 + 1) (ci + 1)
    else esc_cmp_end e c s ci

/-- `sip_esc_cmp (s, e, c)`: the escaped range `[s,e)` of `b` against the C string `c`
(`none` is a `NULL` pointer). -/
def sip_esc_cmp (b : Bytes) (s e : Option Nat) (c : Option Bytes) : Int :=
  match s, c with
  | none, none => 0
  | _, none => 1
  | none, some _ => -1
  | some s, some c =>
    let e := rangeEnd b s e
    esc_cmp_loop b e c (e - s) s 0

/-- The loop of `sip_deescape`: `out` is the memory of the output buffer, `t` the write
position, `f` the read position in `src`. Returns the memory and the final `t`. -/
def deescape_loop (src : Bytes) (ef et : Nat) : Nat → Bytes → Nat → Nat → Bytes × Nat
  | 0, out, t, _ => (out, t)
  | fuel + 1, out, t, f =>
    if f < ef ∧ t + 1 < et then
      if f + 2 < ef ∧ byteAt src f = 37 then
        let v := hexNibble (byteAt src (f + 1)) * 16 + hexNibble (byteAt src (f + 2))
        deescape_loop src ef et fuel (out.set t (v % 256)) (t + 1) (f + 3)
      else
        deescape_loop src ef et fuel (out.set t (byteAt src f)) (t + 1) (f + 1)
    else (out, t)

/-- `sip_deescape (t, et, f, ef)`: the memory of the output buffer afterwards and the
returned length. -/
def sip_deescape (out : Bytes) (t et : Nat) (src : Bytes) (f ef : Option Nat) : Bytes × Nat :=
  match f with
  | none => (if t < et then out.set t 0 else out, 0)
  | some f =>
    let ef := rangeEnd src f ef
    let r := deescape_loop src ef et (ef - f) out t f
    (r.1.set r.2 0, r.2 - t)

/-! ## siptools.c: URI, host and parameters -/

/-- The body of `sip_find_uri` for present `s` and `e`. -/
def find_uri (b : Bytes) (s e : Nat) : Option (Nat × Nat) :=
  let s := skip_display b s e
  let s := if s < e ∧ byteAt b s = 44 then skip_space b (s + 1) e else s
  let r : Nat × Nat :=
    if s < e ∧ byteAt b s = 60 then
      (s + 1, scanWhile b (fun c => c != 62) (s + 1) e)
    else
      (s, scanWhile b (fun c => c != 44) s e)
  if r.1 = r.2 then none else some r

/-- `sip_find_uri (s, e, &end)`. -/
def sip_find_uri (b : Bytes) (s e : Option Nat) : Option (Nat × Nat) :=
  match s with
  | none => none
  | some s =>
    let e := rangeEnd b s e
    find_uri b s e

/-- The octets of a host name or IPv4 literal in `sip_find_host`. -/
def isHostChar (c : Nat) : Bool := isalpha c || isdigit c || c == 46 || c == 45

/-- `sip_find_host (s, e, &end)`. -/
def sip_find_host (b : Bytes) (s e : Option Nat) : Option (Nat × Nat) :=
  match s with
  | none => none
  | some s =>
    let e := rangeEnd b s e
    match find_uri b s e with
    | none => none
    | some (s, e) =>
      let p := scanWhile b isalpha s e
      let s := if p < e ∧ byteAt b p = 58 then p + 1 else s
      let e := scanWhile b (fun c => c != 59) s e
      let s := scanBack b (fun c => c != 64) s e
      let p :=
        if s < e ∧ byteAt b s = 91 then
          let p := scanWhile b (fun c => c != 93) s e
          if p < e ∧ byteAt b p = 93 then p + 1 else p
        else scanWhile b isHostChar s e
      if s = p then none else some (s, p)

/-- The test `q + strlen (tag) == z && !strncasecmp (tag, q, z - q)` of a C string `tag`
against the range `[q,z)` of `b`. -/
def tagMatches (b : Bytes) (tag : Bytes) (q z : Nat) : Bool :=
  decide (q + strlen tag 0 = z) && decide (strncasecmp tag 0 b q (z - q) = 0)

/-- The loop of `sip_find_semi`. -/
def find_semi_loop (b : Bytes) (e : Nat) (tag : Bytes) : Nat → Nat → Option (Nat × Nat)
  | 0, _ => none
  | fuel + 1, s =>
    if s < e then
      if byteAt b s = 60 then
        let s := scanWhile b (fun c => c != 62) s e
        find_semi_loop b e tag fuel (if s < e then s + 1 else s)
      else if byteAt b s ≤ 32 then find_semi_loop b e tag fuel (s + 1)
      else
        let q := s
        let s := scanWhile b (fun c => decide (32 < c) && c != 61 && c != 59 && c != 44) s e
        let z := scanBack b isSPHT q s
        if q < s ∧ q < z ∧ tagMatches b tag q z = true then
          if s = e ∨ byteAt b s ≠ 61 then some (s, s)
          else
            let s := s + 1
            let q := scanWhile b (fun c => c != 59 && c != 44) s e
            let q := scanBack b isSPHT s q
            some (s, q)
        else
          let s := scanWhile b (fun c => c != 59 && c != 44) s e
          if s < e ∧ byteAt b s = 44 then none
          else find_semi_loop b e tag fuel (if s < e then s + 1 else s)
    else none

/-- `sip_find_semi (s, e, tag, &end)`. The source does not replace an absent `e` by the
end of the string: the scan loop `while (s < e)` then never runs. -/
def sip_find_semi (b : Bytes) (s e : Option Nat) (tag : Bytes) : Option (Nat × Nat) :=
  match s with
  | none => none
  | some s =>
    match sip_skip_display b (some s) e, e with
    | some s, some e => find_semi_loop b e tag (e - s + 1) s
    | _, _ => none

/-! ## siptools.c: headers -/

/-- One pass of the line skip of `sip_find_header`: the rest of the line, then an
optional CR and an optional LF. -/
def skipLine (b : Bytes) (e p : Nat) : Nat :=
  let p := scanWhile b (fun c => c == 9 || decide (32 ≤ c)) p e
  let p := if p < e ∧ byteAt b p = 13 then p + 1 else p
  if p < e ∧ byteAt b p = 10 then p + 1 else p

/-- The loop of `sip_find_header` that runs to the end of a header, continuation lines
included: `while (p < e) { skipLine; if (p == e || (*p != ' ' && *p != 9)) break; }`. -/
def skipHeaderFuel (b : Bytes) (e : Nat) : Nat → Nat → Nat
  | 0, p => p
  | fuel + 1, p =>
    if p < e then
      let p1 := skipLine b e p
      if p1 = e ∨ (byteAt b p1 ≠ 32 ∧ byteAt b p1 ≠ 9) then p1
      else skipHeaderFuel b e fuel p1
    else p

/-- The end of the header that `p` lies in. -/
def skipHeader (b : Bytes) (e p : Nat) : Nat := skipHeaderFuel b e (e - p) p

/-- The test of a header name (`head` or `alt`, possibly absent) against the field
name `[s,q)`. -/
def nameMatches (b : Bytes) (name : Option Bytes) (s q : Nat) : Bool :=
  match name with
  | none => false
  | some n => tagMatches b n s q

/-- The search loop of `sip_find_header`: `none` when the loop returns `NULL`, else the
position at which it is left (the colon of the matching line, or `e`). -/
def find_header_loop (b : Bytes) (e : Nat) (head alt : Option Bytes) : Nat → Nat → Option Nat
  | 0, _ => none
  | fuel + 1, p =>
    if p < e then
      let p := skipHeader b e p
      if p = e ∨ byteAt b p = 13 ∨ byteAt b p = 10 then none
      else
        let s := p
        let p := scanWhile b (fun c => decide (32 < c) && c != 58) p e
        if p = s then none
        else
          let q := p
          let p := scanWhile b isSPHT p e
          if s = q ∨ p = e ∨ byteAt b p ≠ 58 then find_header_loop b e head alt fuel p
          else if nameMatches b alt s q = true then some p
          else if nameMatches b head s q = true then some p
          else find_header_loop b e head alt fuel p
    else some p

/-- The part of `sip_find_header` after the search loop has stopped at `p`: not found
when `p == e`, else the value after the colon at `p`, without its final CR LF. -/
def find_header_value (b : Bytes) (e p : Nat) : Option (Nat × Nat) :=
  if p = e then none
  else
    let s := scanWhile b isSPHT (p + 1) e
    let p := skipHeader b e s
    let p := if s < p ∧ byteAt b (p - 1) = 10 then p - 1 else p
    let p := if s < p ∧ byteAt b (p - 1) = 13 then p - 1 else p
    some (s, p)

/-- The position at which `sip_find_header` starts: `p`, or `prev` when it is given;
`none` when the function returns `NULL` for a `prev` outside `[p,e)`. -/
def find_header_start (p e : Nat) (prev : Option Nat) : Option Nat :=
  match prev with
  | none => some p
  | some pv => if pv < p ∨ e ≤ pv then none else some pv

/-- `sip_find_header (p, e, head, alt, &end, prev)` for a present end `e`. -/
def sip_find_header (b : Bytes) (p : Option Nat) (e : Nat) (head alt : Option Bytes)
    (prev : Option Nat) : Option (Nat × Nat) :=
  match p with
  | none => none
  | some p =>
    match find_header_start p e prev with
    | none => none
    | some p =>
      match find_header_loop b e head alt (e - p + 1) p with
      | none => none
      | some p => find_header_value b e p

/-! ## siptools.c: display name, request URI, local part and lists -/

/-- `sip_find_display (s, e, &end)`. -/
def sip_find_display (b : Bytes) (s e : Option Nat) : Option (Nat × Nat) :=
  match s with
  | none => none
  | some s =>
    let e := rangeEnd b s e
    let s := skip_space b s e
    let q := skip_display b s e
    let q := scanBack b isLWS s q
    if q = s then none
    else if 2 ≤ q - s ∧ byteAt b s = 34 ∧ byteAt b (q - 1) = 34 then some (s + 1, q - 1)
    else some (s, q)

/-- `sip_find_request (p, e, &end)` for a present end `e`. -/
def sip_find_request (b : Bytes) (p : Option Nat) (e : Nat) : Option (Nat × Nat) :=
  match p with
  | none => none
  | some p =>
    let l := scanWhile b (fun c => decide (32 ≤ c)) p e
    let e := l
    let p := scanWhile b (fun c => c != 32) p e
    let p := scanWhile b (fun c => c == 32) p e
    let s := p
    let p := scanWhile b (fun c => decide (32 < c)) p e
    some (s, p)

/-- `sip_find_local (s, e, &end)`. -/
def sip_find_local (b : Bytes) (s e : Option Nat) : Option (Nat × Nat) :=
  match s with
  | none => none
  | some s =>
    let e := rangeEnd b s e
    let s := if s + 4 ≤ e ∧ strncasecmp b s [115, 105, 112, 58] 0 4 = 0 then s + 4 else s
    let a := scanWhile b (fun c => c != 64) s e
    if a = e then none else some (s, a)

/-- The loop of `sip_find_comma`. The loop need not end (the `continue` after a name
without '=' does not always advance): the outer `none` is a run that has not returned
within `fuel` iterations, `some none` is the return of `NULL`. The scan of a quoted value
is the loop of `quotedLoop`. -/
def find_comma_loop (b : Bytes) (e : Nat) (tag : Bytes) :
    Nat → Nat → Option (Option (Nat × Nat))
  | 0, _ => none
  | fuel + 1, s =>
    if s < e then
      let s := skip_space b s e
      let q := s
      let s := scanWhile b (fun c => decide (32 < c) && c != 61) s e
      if s = e ∨ byteAt b s ≠ 61 then find_comma_loop b e tag fuel s
      else
        let qe := s
        let s := s + 1
        let r : Nat × Nat × Nat :=
          if s < e ∧ byteAt b s = 34 then
            let v := s + 1
            let s := quotedLoop b e (e - v) v
            (v, s, if s < e then s + 1 else s)
          else
            let v := s
            let s := scanWhile b (fun c => c != 44) s e
            let s := scanBack b (fun c => c == 32) v s
            (v, s, s)
        if qe ≠ q ∧ tagMatches b tag q qe = true then some (some (r.1, r.2.1))
        else
          let s := skip_space b r.2.2 e
          find_comma_loop b e tag fuel (if s < e ∧ byteAt b s = 44 then s + 1 else s)
    else some none

/-- `sip_find_comma (s, e, tag, &end)`, run for at most `fuel` iterations of its loop. -/
def sip_find_comma (fuel : Nat) (b : Bytes) (s e : Option Nat) (tag : Bytes) :
    Option (Option (Nat × Nat)) :=
  match s with
  | none => some none
  | some s =>
    let e := rangeEnd b s e
    find_comma_loop b e tag fuel (skip_display b s e)

/-- The loop `while (p < e && *p == ',') p = sip_skip_space (p + 1, e);` of
`sip_find_list`. -/
def listCommaLoop (b : Bytes) (e : Nat) : Nat → Nat → Nat
  | 0, p => p
  | fuel + 1, p =>
    if p < e ∧ byteAt b p = 44 then listCommaLoop b e fuel (skip_space b (p + 1) e) else p

/-- The element loop of `sip_find_list`: `none` when `sip_find_uri` has stored `NULL`
into `p`, else the position at which the loop stops. -/
def listElemLoop (b : Bytes) (e : Nat) : Nat → Nat → Option Nat
  | 0, p => some p
  | fuel + 1, p =>
    if p < e ∧ byteAt b p ≠ 44 then
      if byteAt b p = 34 then listElemLoop b e fuel (skip_display b p e)
      else if byteAt b p = 60 then
        match find_uri b p e with
        | none => none
        | some r => listElemLoop b e fuel r.2
      else listElemLoop b e fuel (p + 1)
    else some p

/-- `sip_find_list (p, e, &end)`. -/
def sip_find_list (b : Bytes) (p e : Option Nat) : Option (Nat × Nat) :=
  match p with
  | none => none
  | some p =>
    let e := rangeEnd b p e
    let p := skip_space b p e
    let p := listCommaLoop b e (e - p) p
    if p = e then none
    else
      match listElemLoop b e (e - p) p with
      | none => none
      | some q => some (p, q)

/-- The elements that iterating `sip_find_list` yields, each call starting at the end
that the call before has returned; at most `fuel` calls. -/
def find_list_all (b : Bytes) (e : Nat) : Nat → Nat → List (Nat × Nat)
  | 0, _ => []
  | fuel + 1, p =>
    match sip_find_list b (some p) (some e) with
    | none => []
    | some r => r :: find_list_all b e fuel r.2

/-! ## Ranges of a buffer -/

/-- The octets of the range `[s,e)` of `b`. -/
def slice (b : Bytes) (s e : Nat) : Bytes := (b.drop s).take (e - s)

/-- The buffer `out` with the octets `data` stored from offset `t` on. -/
def writeAt (out : Bytes) (t : Nat) (data : Bytes) : Bytes :=
  out.take t ++ data ++ out.drop (t + data.length)

/-! ## siptools.c: composing headers -/

/-- The octets that `sprintf` prints for `%s`: the C string up to its NUL. -/
def cstring (s : Bytes) : Bytes := s.takeWhile (fun c => c != 0)

/-- The octets that `sprintf` prints for `%.*s` with precision `n` and the string at
`start`: at most `n` octets, none after a NUL; a negative precision counts as none given. -/
def printedValue (src : Bytes) (start : Nat) (n : Int) : Bytes :=
  if n < 0 then cstring (src.drop start) else cstring ((src.drop start).take n.toNat)

/-- The two composers `sip_add_header` and `sip_add_header_angle` differ in the octets
around the value and in the room they ask for: `extra` is 0 or 2, `left` and `right`
are empty or "<" and ">". The result is the returned pointer, the memory of the output
buffer (`sprintf` ends its output with a NUL) and the new `*pp`. -/
def add_header_with (extra : Nat) (left right : Bytes) (buf : Bytes) (pp e : Nat)
    (head : Bytes) (src : Bytes) (start stop : Option Nat) : Option Nat × Bytes × Nat :=
  match start with
  | none => (none, buf, pp)
  | some start =>
    let p := pp
    let stop := rangeEnd src start stop
    let n : Int := (stop : Int) - (start : Int)
    if (e : Int) < (p : Int) + (strlen head 0 : Int) + 2 + n + 2 + 2 + (extra : Int) then
      (none, buf, pp)
    else
      let line := cstring head ++ [58, 32] ++ left ++ printedValue src start n ++ right
        ++ [13, 10]
      (some pp, writeAt buf p (line ++ [0]), p + line.length)

/-- `sip_add_header (&pp, e, head, start, end)`: the value is the range `[start,stop)`
of `src`. -/
def sip_add_header (buf : Bytes) (pp e : Nat) (head : Bytes) (src : Bytes)
    (start stop : Option Nat) : Option Nat × Bytes × Nat :=
  add_header_with 0 [] [] buf pp e head src start stop

/-- `sip_add_header_angle (&pp, e, head, start, end)`. -/
def sip_add_header_angle (buf : Bytes) (pp e : Nat) (head : Bytes) (src : Bytes)
    (start stop : Option Nat) : Option Nat × Bytes × Nat :=
  add_header_with 2 [60] [62] buf pp e head src start stop

/-! ## The forms of header values that the claims speak of -/

/-- The inside of a quoted string as `sip_skip_display` reads it: octets other than '"'
and '\', and pairs of a '\' and any octet. -/
inductive QuotedBody : Bytes → Prop
  | nil : QuotedBody []
  | plain (c : Nat) (r : Bytes) : c ≠ 34 → c ≠ 92 → QuotedBody r → QuotedBody (c :: r)
  | escaped (x : Nat) (r : Bytes) : QuotedBody r → QuotedBody (92 :: x :: r)

/-- A run of display-name tokens, each given with the white space that follows its
space: token, SP, white space, token, SP, white space, ... -/
def renderTokens : List (Bytes × Bytes) → Bytes
  | [] => []
  | tw :: r => tw.1 ++ 32 :: (tw.2 ++ renderTokens r)

/-- A display name: a quoted string and the white space after it, or a run of tokens
each followed by a space (and possibly more white space). -/
inductive Display : Bytes → Prop
  | quoted (body ws : Bytes) : QuotedBody body → (∀ c ∈ ws, isLWS c = true) →
      Display (34 :: (body ++ 34 :: ws))
  | tokens (toks : List (Bytes × Bytes)) :
      (∀ tw ∈ toks, tw.1 ≠ [] ∧ (∀ c ∈ tw.1, isTokenChar c = true)
        ∧ ∀ c ∈ tw.2, isLWS c = true) →
      Display (renderTokens toks)

/-- The header values of C10 with the offsets of the URI in them: white space, an
optional display name, '<' U '>' and anything after; or white space and a value `w`
up to the next ',' that begins with neither a display name, nor '<'. -/
inductive UriValue : Bytes → Nat → Nat → Prop
  | angle (ws disp U rest : Bytes) : (∀ c ∈ ws, isLWS c = true) → Display disp → U ≠ [] →
      (∀ c ∈ U, c ≠ 62) →
      UriValue (ws ++ (disp ++ 60 :: (U ++ 62 :: rest))) (ws.length + disp.length + 1)
        (ws.length + disp.length + 1 + U.length)
  | plain (ws w tail : Bytes) : (∀ c ∈ ws, isLWS c = true) → w ≠ [] → (∀ c ∈ w, c ≠ 44) →
      (∀ c, w.head? = some c → isLWS c = false ∧ c ≠ 34 ∧ c ≠ 60) →
      (w.dropWhile isTokenChar).head? ≠ some 32 →
      (tail = [] ∨ ∃ t, tail = 44 :: t) →
      UriValue (ws ++ (w ++ tail)) ws.length (ws.length + w.length)

/-! ## Messages: a start line, header lines, the empty line, the body -/

/-- The octets of the text of a line as `sip_find_header` skips them: HT and everything
from SP up. -/
def isText (c : Nat) : Bool := c == 9 || decide (32 ≤ c)

/-- The octets of a field name as `sip_find_header` scans them: above SP and not ':'. -/
def isNameChar (c : Nat) : Bool := decide (32 < c) && c != 58

/-- A line and its continuation lines: the first line, then CR LF and a continuation
line, as often as there are continuation lines. -/
def foldedText : Bytes → List Bytes → Bytes
  | first, [] => first
  | first, l :: ls => first ++ 13 :: 10 :: foldedText l ls

/-- The lines of a folded text are text, and every continuation line begins with SP or HT. -/
def FoldedOk (first : Bytes) (conts : List Bytes) : Prop :=
  (∀ c ∈ first, isText c = true)
    ∧ ∀ l ∈ conts, isSPHT (l.headD 0) = true ∧ ∀ c ∈ l, isText c = true

/-- A header line of a message: the field name, the SP/HT before the colon, the SP/HT
after the colon, the first line of the value and its continuation lines. -/
structure HeaderLine where
  /-- The field name. -/
  name : Bytes
  /-- The SP/HT between the field name and the colon. -/
  pad : Bytes
  /-- The SP/HT after the colon. -/
  lws : Bytes
  /-- The value, on the line of the field name. -/
  first : Bytes
  /-- The continuation lines of the value. -/
  conts : List Bytes

/-- The value of a header line: from the first octet after the colon and its SP/HT up to
the final CR LF, continuation lines included. -/
def HeaderLine.value (h : HeaderLine) : Bytes := foldedText h.first h.conts

/-- The octets of a header line, its final CR LF included. -/
def HeaderLine.render (h : HeaderLine) : Bytes :=
  h.name ++ (h.pad ++ 58 :: (h.lws ++ (h.value ++ [13, 10])))

/-- A header line is well formed: a non-empty field name, SP/HT around the colon, and a
value of text lines that does not begin with SP or HT. -/
def HeaderLine.Ok (h : HeaderLine) : Prop :=
  h.name ≠ [] ∧ (∀ c ∈ h.name, isNameChar c = true) ∧ (∀ c ∈ h.pad, isSPHT c = true)
    ∧ (∀ c ∈ h.lws, isSPHT c = true) ∧ isSPHT (h.first.headD 0) = false
    ∧ FoldedOk h.first h.conts

instance (first : Bytes) (conts : List Bytes) : Decidable (FoldedOk first conts) := by
  unfold FoldedOk; infer_instance

instance (h : HeaderLine) : Decidable h.Ok := by
  unfold HeaderLine.Ok; infer_instance

/-- The octets of a list of header lines. -/
def renderHeaders : List HeaderLine → Bytes
  | [] => []
  | h :: hs => h.render ++ renderHeaders hs

/-- A message: the start line (with its continuation lines, if any), the header lines,
the empty line, the body. -/
def renderMessage (start : Bytes) (sconts : List Bytes) (hs : List HeaderLine)
    (body : Bytes) : Bytes :=
  foldedText start sconts ++ 13 :: 10 :: (renderHeaders hs ++ 13 :: 10 :: body)

/-- Equality of a header name (possibly absent) and a field name, ignoring ASCII case. -/
def nameIs (name : Option Bytes) (f : Bytes) : Bool :=
  match name with
  | none => false
  | some n => decide (n.map tolower = f.map tolower)

/-- The header line is one that `head` or `alt` asks for. -/
def wanted (head alt : Option Bytes) (h : HeaderLine) : Bool :=
  nameIs alt h.name || nameIs head h.name

/-- The range of the value of a header line that begins at offset `off`. -/
def valueRange (h : HeaderLine) (off : Nat) : Nat × Nat :=
  (off + (h.name.length + h.pad.length + 1 + h.lws.length),
    off + (h.name.length + h.pad.length + 1 + h.lws.length) + h.value.length)

/-- The value range of the first header line asked for, in a list of header lines that
begins at offset `off`. -/
def firstWanted (head alt : Option Bytes) : List HeaderLine → Nat → Option (Nat × Nat)
  | [], _ => none
  | h :: hs, off =>
    if wanted head alt h = true then some (valueRange h off)
    else firstWanted head alt hs (off + h.render.length)

/-- The value ranges of all header lines asked for, in document order. -/
def allWanted (head alt : Option Bytes) : List HeaderLine → Nat → List (Nat × Nat)
  | [], _ => []
  | h :: hs, off =>
    if wanted head alt h = true then valueRange h off :: allWanted head alt hs (off + h.render.length)
    else allWanted head alt hs (off + h.render.length)

/-- The caller's loop `while ((p = sip_find_header (rx, rxe, head, alt, &e, p))) ...`:
the ranges returned, each call taking the start returned by the call before as `prev`. -/
def find_header_all (b : Bytes) (p : Option Nat) (e : Nat) (head alt : Option Bytes) :
    Nat → Option Nat → List (Nat × Nat)
  | 0, _ => []
  | fuel + 1, prev =>
    match sip_find_header b p e head alt prev with
    | none => []
    | some r => r :: find_header_all b p e head alt fuel (some r.1)

/-- The colon of the first header line asked for, in a list of header lines that begins
at offset `off`. -/
def colonOfWanted (head alt : Option Bytes) : List HeaderLine → Nat → Option Nat
  | [], _ => none
  | h :: hs, off =>
    if wanted head alt h = true then some (off + (h.name.length + h.pad.length))
    else colonOfWanted head alt hs (off + h.render.length)

/-- The start line of the sample message: INVITE sip:a@b SIP/2.0 -/
def sampleStart : Bytes :=
  [73, 78, 86, 73, 84, 69, 32, 115, 105, 112, 58, 97, 64, 98, 32, 83, 73, 80, 47, 50, 46, 48]

/-- The header lines of the sample message: Via: one / From: <sip:x> / v: two, with the
continuation line " more" / VIA : three -/
def sampleHeaders : List HeaderLine :=
  [⟨[86, 105, 97], [], [32], [111, 110, 101], []⟩,
    ⟨[70, 114, 111, 109], [], [32], [60, 115, 105, 112, 58, 120, 62], []⟩,
    ⟨[118], [], [32], [116, 119, 111], [[32, 109, 111, 114, 101]]⟩,
    ⟨[86, 73, 65], [32], [32], [116, 104, 114, 101, 101], []⟩]

/-- The body of the sample message, a line that looks like a header: Via: body -/
def sampleBody : Bytes := [86, 105, 97, 58, 32, 98, 111, 100, 121, 13, 10]

/-- The sample message, 90 octets. -/
def sampleMessage : Bytes := renderMessage sampleStart [] sampleHeaders sampleBody

/-! ## Empty lines and the `prev` argument of `sip_find_header` -/

/-- An empty line after the first line of the message that begins at `p`: `i` follows a
LF, and the line at `i` is CR LF or LF alone. -/
def EmptyLineAt (b : Bytes) (p i : Nat) : Prop :=
  p < i ∧ byteAt b (i - 1) = 10 ∧ (byteAt b i = 10 ∨ (byteAt b i = 13 ∧ byteAt b (i + 1) = 10))

/-- The values of `prev` that the callers of `sip_find_header` pass for the message
`[p,e)`: absent, or the start of a value that an earlier call returned. -/
inductive PrevOk (b : Bytes) (p e : Nat) : Option Nat → Prop
  | absent : PrevOk b p e none
  | returned (head alt : Option Bytes) (prev : Option Nat) (s en : Nat) :
      PrevOk b p e prev → sip_find_header b (some p) e head alt prev = some (s, en) →
      PrevOk b p e (some s)

/-! ## The local part, percent-encodings -/

/-- The range `[s,e)` starts with "sip:", in any letter case. -/
def startsWithSip (b : Bytes) (s e : Nat) : Bool :=
  decide (s + 4 ≤ e) &&
    decide ([byteAt b s, byteAt b (s + 1), byteAt b (s + 2), byteAt b (s + 3)].map tolower
      = [115, 105, 112, 58])

/-- The octets that the loop of `sip_deescape` produces from the range `[f,ef)` of `src`
in at most `fuel` iterations when the output limit does not stop it. -/
def decodeFrom (src : Bytes) (ef : Nat) : Nat → Nat → Bytes
  | 0, _ => []
  | fuel + 1, f =>
    if f < ef then
      if f + 2 < ef ∧ byteAt src f = 37 then
        ((hexNibble (byteAt src (f + 1)) * 16 + hexNibble (byteAt src (f + 2))) % 256)
          :: decodeFrom src ef fuel (f + 3)
      else byteAt src f :: decodeFrom src ef fuel (f + 1)
    else []

/-- The value of a hexadecimal digit: '0'..'9' are 0..9, 'A'..'F' and 'a'..'f' are
10..15. -/
def hexValue (c : Nat) : Nat :=
  if isdigit c then c - 48 else if 65 ≤ c ∧ c ≤ 70 then c - 55 else c - 87

/-- The string `x` is an encoding of the octets `c`: every octet is written as itself
(an octet other than '%') or as '%' and two hexadecimal digits of either case. -/
inductive Encodes : Bytes → Bytes → Prop
  | nil : Encodes [] []
  | literal (o : Nat) (x c : Bytes) : o ≠ 37 → Encodes x c → Encodes (o :: x) (o :: c)
  | escaped (h l : Nat) (x c : Bytes) : isxdigit h = true → isxdigit l = true →
      Encodes x c → Encodes (37 :: h :: l :: x) ((hexValue h * 16 + hexValue l) :: c)

/-! ## Sequences of composer calls and complete lines -/

/-- A call of one of the two composers: `angle` tells `sip_add_header_angle` from
`sip_add_header`; the value is the range `[start,stop)` of `src`. -/
structure AddCall where
  /-- The call is one of `sip_add_header_angle`. -/
  angle : Bool
  /-- The header name, a C string. -/
  head : Bytes
  /-- The memory that holds the value. -/
  src : Bytes
  /-- The pointer `start`. -/
  start : Option Nat
  /-- The pointer `end`. -/
  stop : Option Nat

/-- The memory of the output buffer and the write position after one call. -/
def AddCall.apply (e : Nat) (st : Bytes × Nat) (c : AddCall) : Bytes × Nat :=
  let r := if c.angle then sip_add_header_angle st.1 st.2 e c.head c.src c.start c.stop
    else sip_add_header st.1 st.2 e c.head c.src c.start c.stop
  (r.2.1, r.2.2)

/-- The memory of the output buffer and the write position after a sequence of calls. -/
def runCalls (e : Nat) (calls : List AddCall) (st : Bytes × Nat) : Bytes × Nat :=
  calls.foldl (AddCall.apply e) st

/-- An octet other than CR, LF and NUL. -/
def isLineOctet (c : Nat) : Bool := c != 13 && c != 10 && c != 0

/-- The name and the value of a call are free of CR, LF and NUL; the value, when it is
present, is a range of `src` or the C string at `start`. -/
def AddCall.Clean (c : AddCall) : Prop :=
  (∀ x ∈ c.head, isLineOctet x = true) ∧
  ∀ s, c.start = some s → ∃ value rest, c.src.drop s = value ++ rest ∧
    (∀ x ∈ value, isLineOctet x = true) ∧
    ((c.stop = none ∧ rest.headD 0 = 0) ∨ c.stop = some (s + value.length))

/-- A complete header line: a name, ": ", a value, CR LF, with no CR, LF or NUL in the
name and in the value. -/
def IsLine (l : Bytes) : Prop :=
  ∃ name value, l = name ++ [58, 32] ++ value ++ [13, 10] ∧
    (∀ x ∈ name, isLineOctet x = true) ∧ (∀ x ∈ value, isLineOctet x = true)

/-! ## Display names and list elements -/

/-- The header values of C11 with the result of `sip_find_display` on them: a quoted
string after white space, whatever follows it; a run of tokens followed by '<'; a value
that begins with '<'; a single atom (octets other than white space, the first not '"')
between white space. -/
inductive DisplayValue : Bytes → Option (Nat × Nat) → Prop
  | quoted (ws body tail : Bytes) : (∀ c ∈ ws, isLWS c = true) → QuotedBody body →
      DisplayValue (ws ++ 34 :: (body ++ 34 :: tail))
        (some (ws.length + 1, ws.length + 1 + body.length))
  | tokens (ws : Bytes) (toks : List (Bytes × Bytes)) (tok w rest : Bytes) :
      (∀ c ∈ ws, isLWS c = true) →
      (∀ tw ∈ toks ++ [(tok, w)], tw.1 ≠ [] ∧ (∀ c ∈ tw.1, isTokenChar c = true)
        ∧ ∀ c ∈ tw.2, isLWS c = true) →
      DisplayValue (ws ++ (renderTokens (toks ++ [(tok, w)]) ++ 60 :: rest))
        (some (ws.length, ws.length + (renderTokens toks).length + tok.length))
  | angle (ws rest : Bytes) : (∀ c ∈ ws, isLWS c = true) →
      DisplayValue (ws ++ 60 :: rest) none
  | atom (ws a ws2 : Bytes) : (∀ c ∈ ws, isLWS c = true) → a ≠ [] →
      (∀ c ∈ a, isLWS c = false) → a.head? ≠ some 34 → (∀ c ∈ ws2, isLWS c = true) →
      DisplayValue (ws ++ (a ++ ws2)) none

/-- The octets of a list element as `sip_find_list` reads them: octets other than ',',
'"' and '<'; quoted strings; sections in angle brackets that are closed and not empty. -/
inductive ListElem : Bytes → Prop
  | nil : ListElem []
  | plain (c : Nat) (r : Bytes) : c ≠ 44 → c ≠ 34 → c ≠ 60 → ListElem r → ListElem (c :: r)
  | quoted (body r : Bytes) : QuotedBody body → ListElem r →
      ListElem (34 :: (body ++ 34 :: r))
  | angle (u r : Bytes) : u ≠ [] → (∀ c ∈ u, c ≠ 62) → ListElem r →
      ListElem (60 :: (u ++ 62 :: r))

/-- The end of the last of the ranges `l`, or `p` when there is none: the position from
which the call after these results starts. -/
def lastEnd : Nat → List (Nat × Nat) → Nat
  | p, [] => p
  | _, r :: rest => lastEnd r.2 rest

/-- The pieces of a list joined by ','. -/
def joinComma : List Bytes → Bytes
  | [] => []
  | [x] => x
  | x :: y :: r => x ++ 44 :: joinComma (y :: r)

/-- The ranges of the non-empty pieces in `joinComma pieces` stored from offset `off`. -/
def pieceRanges : Nat → List Bytes → List (Nat × Nat)
  | _, [] => []
  | off, x :: r =>
    (if x = [] then [] else [(off, off + x.length)]) ++ pieceRanges (off + x.length + 1) r

/-! ## siptools.c: adding a parameter to the last header line -/

/-- The octet `q[-1]`. Outside the list, also before its start, the memory reads as NUL. -/
def byteBefore (b : Bytes) (q : Nat) : Nat := if q = 0 then 0 else byteAt b (q - 1)

/-- The count loop of the line break test of `sip_add_extra`:
`while (q[-1] >= ' ' && n < 120) { q--; n++; }`; the value of `n` after it. -/
def wrapCount (mem : Bytes) : Nat → Nat → Int → Int
  | 0, _, n => n
  | fuel + 1, q, n =>
    if 32 ≤ byteBefore mem q ∧ n < 120 then wrapCount mem fuel (q - 1) (n + 1) else n

/-- The octets that `memcpy (p, start, n)` copies from `src`. -/
def copied (src : Bytes) (start : Nat) (n : Int) : Bytes :=
  (List.range n.toNat).map (fun i => byteAt src (start + i))

/-- The separator that `sip_add_extra` stores at `p`: nothing when `comma` is 0 or the
octet before `p` is a space or ':', else `comma`, followed by CR LF HT when `comma` is
',', `wrap` is set and the count of the line break test reaches 120 (`n0` is the value
that the count starts from). -/
def extra_sep (buf : Bytes) (p : Nat) (n0 : Int) (comma wrap : Nat) : Bytes :=
  if comma ≠ 0 ∧ byteBefore buf p ≠ 32 ∧ byteBefore buf p ≠ 58 then
    comma :: (if comma = 44 ∧ wrap ≠ 0 ∧
        120 ≤ wrapCount (writeAt buf p [comma]) (120 - n0).toNat (p + 1) n0
      then [13, 10, 9] else [])
  else []

/-- The length `end - start` of the value of `sip_add_extra`, after
`if (start && !end) end = start + strlen (start);`. With `start` absent the callers pass
no `end`: the length is then 0. -/
def valueLen (src : Bytes) (start stop : Option Nat) : Int :=
  match start with
  | none => 0
  | some s => (rangeEnd src s stop : Int) - (s : Int)

/-- The length `strlen (tag ? : "")` of the tag of `sip_add_extra`. -/
def tagLen (tag : Option Bytes) : Nat :=
  match tag with
  | none => 0
  | some t => strlen t 0

/-- The position from which `sip_add_extra` writes:
`if (p[-1] == '\n') p--; if (p[-1] == '\r') p--;`. -/
def rewind (buf : Bytes) (pp : Nat) : Nat :=
  let p := if byteBefore buf pp = 10 then pp - 1 else pp
  if byteBefore buf p = 13 then p - 1 else p

/-- The octets of `if (tag) p += sprintf (p, "%s", tag);`. -/
def tagOctets (tag : Option Bytes) : Bytes :=
  match tag with
  | none => []
  | some t => cstring t

/-- The octets of `if (end > start) memcpy (p, start, end - start);`. -/
def valueOctets (src : Bytes) (start stop : Option Nat) : Bytes :=
  match start with
  | none => []
  | some s => copied src s (valueLen src start stop)

/-- The octets that `sip_add_extra` stores from `p` on, before the final NUL: the
separator, the tag, '=', the value in its quotes, CR LF. With `tag` absent the line
break test of the source calls `strlen (NULL)`; the model counts 0 for it. -/
def extra_body (buf : Bytes) (p : Nat) (tag : Option Bytes) (src : Bytes)
    (start stop : Option Nat) (comma quote wrap : Nat) : Bytes :=
  let sep : Bytes :=
    extra_sep buf p (valueLen src start stop + (tagLen tag : Int) + 1) comma wrap
  let eqPart : Bytes := if tag.isSome ∧ start.isSome then [61] else []
  let quotePart : Bytes := if quote ≠ 0 then [quote] else []
  sep ++ tagOctets tag ++ eqPart ++ quotePart ++ valueOctets src start stop ++ quotePart
    ++ [13, 10]

/-- `sip_add_extra (&pp, e, tag, start, end, comma, quote, wrap)`: the returned pointer, the
memory of the output buffer and the new `*pp`. The value is the range `[start,stop)` of
`src`; `comma`, `quote` and `wrap` are C characters, 0 for none. -/
def sip_add_extra (buf : Bytes) (pp e : Nat) (tag : Option Bytes) (src : Bytes)
    (start stop : Option Nat) (comma quote wrap : Nat) : Option Nat × Bytes × Nat :=
  let p := rewind buf pp
  if (e : Int) < (p : Int) + (tagLen tag : Int) + 2 + valueLen src start stop + 2 + 2
      + (if quote ≠ 0 then 2 else 0) then
    (none, buf, pp)
  else
    let body := extra_body buf p tag src start stop comma quote wrap
    (some (pp - 1), writeAt buf p (body ++ [0]), p + body.length)

/-! ## voip-answer.c: the header of the recording -/

/-- The octets written by `writen (c, n)` of `audio_in`: the `c` low octets of the int `n`,
low octet first (`l[0] = n; l[1] = (n >> 8); l[2] = (n >> 16); l[3] = (n >> 24);` and
`write (temp_fd, l, c)`). The shift of a negative int is the arithmetic one. -/
def writen (c : Nat) (n : Int) : Bytes :=
  (List.range c).map (fun i => ((n / 256 ^ i) % 256).toNat)

/-- The header `audio_in` writes at offset 0 of the recording when the call ends, for
`datalen` recorded octets and `channels` channels. -/
def wav_header (datalen : Int) (channels : Nat) : Bytes :=
  [82, 73, 70, 70] ++ writen 4 (wrapInt32 (datalen - 36)) ++ [87, 65, 86, 69]
    ++ [102, 109, 116, 32] ++ writen 4 16 ++ writen 2 6 ++ writen 2 (channels : Int)
    ++ writen 4 8000 ++ writen 4 (wrapInt32 (8000 * (channels : Int)))
    ++ writen 2 (channels : Int) ++ writen 2 8 ++ [100, 97, 116, 97] ++ writen 4 datalen

/-- The little-endian octets of a number: `c` octets, low octet first. -/
def littleEndian (c : Nat) (n : Nat) : Bytes := (List.range c).map (fun i => n / 256 ^ i % 256)

/-- The canonical WAV header in the words of the specification: "RIFF", the chunk size
36 + n, "WAVE", "fmt ", 16, format 6, the channels, 8000, 8000 times the channels, block
align, 8 bits, "data", n; all integers little-endian. -/
def canonical_wav_header (n c : Nat) : Bytes :=
  [82, 73, 70, 70] ++ littleEndian 4 (36 + n) ++ [87, 65, 86, 69] ++ [102, 109, 116, 32]
    ++ littleEndian 4 16 ++ littleEndian 2 6 ++ littleEndian 2 c ++ littleEndian 4 8000
    ++ littleEndian 4 (8000 * c) ++ littleEndian 2 c ++ littleEndian 2 8
    ++ [100, 97, 116, 97] ++ littleEndian 4 n

/-! ## voip-answer.c: the playback cursor and the received packets -/

/-- C `isalnum` in the C locale. -/
def isalnum (c : Nat) : Bool := isalpha c || isdigit c

/-- A value of the pointer `rp` of `audio_in`: `NULL`, a position in one of the string
literals "aai" and "sit" (the literal and the offset in it), or a position in the
received message. -/
inductive Cursor where
  | null : Cursor
  | lit : Bytes → Nat → Cursor
  | msg : Nat → Cursor
deriving DecidableEq

/-- The octet `*rp`. A literal ends with its NUL; `NULL` is never read by the model. -/
def Cursor.deref (mem : Bytes) : Cursor → Nat
  | .null => 0
  | .lit s off => byteAt s off
  | .msg p => byteAt mem p

/-- The pointer `rp + 1`. -/
def Cursor.next : Cursor → Cursor
  | .null => .null
  | .lit s off => .lit s (off + 1)
  | .msg p => .msg (p + 1)

/-- The files of the working directory as `nextfile` sees them: whether `open` for
reading succeeds on a name, whether `open` with `O_CREAT` succeeds on a name, and the name
that `mkstemp` makes (absent when it fails). -/
structure Files where
  readable : Bytes → Bool
  creatable : Bytes → Bool
  mkstemp : Option Bytes

/-- The variables of `audio_in` that `nextfile` reads and writes. `ring` and `sit` only
count up from 0 and down while they are not 0. `temp_fd` says whether the recording file
is open. -/
structure Playback where
  request : Option Nat
  rp : Cursor
  ring : Nat
  sit : Nat
  count : Int
  minute : Int
  done : Option Bytes
  temp_fd : Bool
  saved : Bool
  outfilename : Option Bytes
deriving DecidableEq

/-- What `playback_program` finds: the values of `request`, `erequest`, `ring`, `sit` and
`count` when the set up of the playback is over. -/
structure Program where
  request : Option Nat
  erequest : Option Nat
  ring : Nat
  sit : Nat
  count : Int
deriving DecidableEq

/-- The prefixes of the playback program in `[p,e)`, lines 88 to 113 of `audio_in`: a
number and '=' are skipped, the '-' and the '!' are counted, and a number before '*' is
the repeat count. -/
def playback_program (mem : Bytes) (p e : Nat) : Program :=
  let r := read_unsigned mem p e
  let p1 := if r.2 < e ∧ byteAt mem r.2 = 61 then r.2 + 1 else p
  let p2 := scanWhile mem (fun c => c == 45) p1 e
  let p3 := scanWhile mem (fun c => c == 33) p2 e
  let v := read_unsigned mem p3 e
  if v.2 < e ∧ byteAt mem v.2 = 42 then
    { request := some (v.2 + 1), erequest := some e, ring := p2 - p1, sit := p3 - p2,
      count := v.1 }
  else
    { request := some p3, erequest := some e, ring := p2 - p1, sit := p3 - p2, count := 1 }

/-- The set up of the playback by `audio_in` for a message `[0,rxe)` without `X-Record`
header: the program is the local part of the request URI, after one more "sip:". Without
local part all pointers are `NULL`, and every test `p < e` fails. -/
def playback_setup (rx : Bytes) (rxe : Nat) : Program :=
  match sip_find_request rx (some 0) rxe with
  | none => { request := none, erequest := none, ring := 0, sit := 0, count := 1 }
  | some u =>
    match sip_find_local rx (some u.1) (some u.2) with
    | none => { request := none, erequest := none, ring := 0, sit := 0, count := 1 }
    | some l =>
      playback_program rx
        (if l.1 + 4 < l.2 ∧ strncasecmp rx l.1 [115, 105, 112, 58] 0 4 = 0 then l.1 + 4 else l.1)
        l.2

/-- The variables of `audio_in` when the playback starts. -/
def Program.start (g : Program) : Playback :=
  { request := g.request, rp := .null, ring := g.ring, sit := g.sit, count := g.count,
    minute := 600, done := none, temp_fd := false, saved := false, outfilename := none }

/-- The octets that `getfile` takes into a file name: letters, digits, '+', '-', and '/'
when it is not the first octet of the name. -/
def isFileChar (c : Nat) (first : Bool) : Bool :=
  isalnum c || c == 43 || (c == 47 && !first) || c == 45

/-- The copy loop of `getfile`; `o` is the name so far, of at most 95 octets
(`o < infilename + sizeof (infilename) - 5`). -/
def getfile_loop (mem : Bytes) (e : Nat) : Nat → Cursor → Bytes → Cursor × Bytes
  | 0, rp, o => (rp, o)
  | fuel + 1, rp, o =>
    if rp ≠ .msg e ∧ isFileChar (rp.deref mem) (decide (o = [])) = true ∧ o.length < 95 then
      getfile_loop mem e fuel rp.next (o ++ [rp.deref mem])
    else (rp, o)

/-- The nested function `getfile` of `nextfile`: the new `rp` and the name left in
`infilename`, "100ms.wav" when no octet was taken. The loop takes at most 95 octets. -/
def getfile (mem : Bytes) (e : Nat) (rp : Cursor) : Cursor × Bytes :=
  let r := getfile_loop mem e 96 rp []
  (r.1, (if r.2 = [] then [49, 48, 48, 109, 115] else r.2) ++ [46, 119, 97, 118])

/-- The loop over the alternates: `while (rp != erequest && *rp == '?')`. The state is
`rp`, the names given to `open` so far, and the file that is open (`fn >= 0`). -/
def alternates (fs : Files) (mem : Bytes) (e : Nat) :
    Nat → Cursor → List Bytes → Option Bytes → Cursor × List Bytes × Option Bytes
  | 0, rp, tried, fn => (rp, tried, fn)
  | fuel + 1, rp, tried, fn =>
    if rp ≠ .msg e ∧ rp.deref mem = 63 then
      let g := getfile mem e rp.next
      if fn = none then
        alternates fs mem e fuel g.1 (tried ++ [g.2])
          (if fs.readable g.2 = true then some g.2 else none)
      else alternates fs mem e fuel g.1 tried fn
    else (rp, tried, fn)

/-- The fuel of the loop over the alternates: every iteration moves `rp` forward over an
octet that is not NUL. -/
def Cursor.room (mem : Bytes) (e : Nat) : Cursor → Nat
  | .null => 0
  | .lit s off => s.length + 1 - off
  | .msg p => max e mem.length + 1 - p

/-- The recording branch of `nextfile`, `rp` being at the '=' at `p`: the name after the
'=' with ".wav" is created, or a temporary file when no name follows; when the file is
open `request` becomes `NULL`. -/
def startRecording (fs : Files) (mem : Bytes) (e : Nat) (st : Playback) (p : Nat) : Playback :=
  let st1 : Playback :=
    if p + 1 ≠ e then
      { st with rp := .msg (p + 1), saved := true,
                outfilename := some (slice mem (p + 1) e ++ [46, 119, 97, 118]),
                temp_fd := fs.creatable (cstring (slice mem (p + 1) e ++ [46, 119, 97, 118])) }
    else
      { st with rp := .msg (p + 1), outfilename := fs.mkstemp, temp_fd := fs.mkstemp.isSome }
  if st1.temp_fd = true then { st1 with request := none } else st1

/-- How the first part of `nextfile` ends: with a read through `NULL`, with `return -1`,
or at the test `if (!rp || rp == erequest || !*rp)`. -/
inductive Selected where
  | fault : Selected
  | ret : Playback → Selected
  | go : Playback → Selected
deriving DecidableEq

/-- The first part of `nextfile`: a ring, a SIT, or, at the end of the program, the next
repeat or the end of the playback. With `count` 0 the source reads `*rp` unless `rp` is
`erequest`; `rp` is `NULL` there when no file was played before. -/
def nextfile_select (fs : Files) (mem : Bytes) (e : Nat) (st : Playback) : Selected :=
  if st.ring ≠ 0 then .go { st with ring := st.ring - 1, rp := .lit [97, 97, 105] 0 }
  else if st.sit ≠ 0 then .go { st with sit := st.sit - 1, rp := .lit [115, 105, 116] 0 }
  else if st.rp = .null ∨ st.rp = .msg e ∨ st.rp.deref mem = 0 ∨ st.rp.deref mem = 61 then
    if st.count = 0 then
      match st.rp with
      | .null => .fault
      | .msg p =>
        if p ≠ e ∧ byteAt mem p = 61 then .ret (startRecording fs mem e st p)
        else .ret { st with done := some [] }
      | .lit s off =>
        if byteAt s off = 61 then .fault else .ret { st with done := some [] }
    else
      .go { st with rp := (match st.request with
                          | none => .null
                          | some q => .msg q),
                    count := wrapInt32 (st.count - 1) }
  else .go st

/-- The branch of `nextfile` for '#': the digits after it, at most 49, are the outcome,
or "#" when no digit follows. -/
def refer (mem : Bytes) (e : Nat) (st : Playback) : Playback :=
  match st.rp with
  | .msg p =>
    if p + 1 < e ∧ byteAt mem (p + 1) ≠ 0 ∧ isdigit (byteAt mem (p + 1)) = true then
      { st with rp := .msg (scanWhile mem isdigit (p + 1) (min e (p + 50))),
                done := some (slice mem (p + 1) (scanWhile mem isdigit (p + 1) (min e (p + 50)))) }
    else { st with done := some [35] }
  | _ => { st with done := some [35] }

/-- The test `if (*rp == '*' && !minute--)`: at a '*' the count of `minute` goes down, and
from 0 it is set to 600 again and the '*' is passed. -/
def star_minute (mem : Bytes) (st : Playback) : Playback :=
  if st.rp.deref mem = 42 then
    if st.minute = 0 then { st with minute := 600, rp := st.rp.next }
    else { st with minute := wrapInt32 (st.minute - 1) }
  else st

/-- The second part of `nextfile`, from the test `if (!rp || rp == erequest || !*rp)` on:
the variables after it, the names given to `open` for reading, in order, and the file that
is opened, if any. The scan of the chunks of the opened file, after which the source
returns -1 for a file without "data" chunk, reads that file only and is left out. -/
def nextfile_play (fs : Files) (mem : Bytes) (e : Nat) (st1 : Playback) :
    Playback × List Bytes × Option Bytes :=
  if st1.rp = .null ∨ st1.rp = .msg e ∨ st1.rp.deref mem = 0 then (st1, [], none)
  else if st1.rp.deref mem = 35 then (refer mem e st1, [], none)
  else
    let st2 := star_minute mem st1
    let g := getfile mem e st2.rp
    let a := alternates fs mem e (g.1.room mem e) g.1 [g.2]
      (if fs.readable g.2 = true then some g.2 else none)
    ({ st2 with rp := if a.1 ≠ .msg e ∧ a.1.deref mem = 46 then a.1.next else a.1 },
      a.2.1, a.2.2)

/-- One call of `nextfile` with `erequest` at `e`: `none` when it reads through `NULL`,
else the variables after the call, the names it gave to `open` for reading, in order, and
the file it has opened, if any. -/
def nextfile (fs : Files) (mem : Bytes) (e : Nat) (st : Playback) :
    Option (Playback × List Bytes × Option Bytes) :=
  match nextfile_select fs mem e st with
  | .fault => none
  | .ret st1 => some (st1, [], none)
  | .go st1 => some (nextfile_play fs mem e st1)

/-- At most `n` calls of `nextfile`, as the loops of `audio_in` make them: no call when
the outcome is set or `request` is `NULL`. The result is the variables at the end and the
files opened, in order; `none` when a call reads through `NULL`. -/
def nextfiles (fs : Files) (mem : Bytes) (e : Nat) : Nat → Playback → Option (Playback × List Bytes)
  | 0, st => some (st, [])
  | n + 1, st =>
    if st.done ≠ none ∨ st.request = none then some (st, [])
    else
      match nextfile fs mem e st with
      | none => none
      | some r =>
        match nextfiles fs mem e n r.1 with
        | none => none
        | some r2 => some (r2.1, r.2.2.toList ++ r2.2)


/-- The variables of `audio_in` that a received RTP packet changes. -/
structure Media where
  channels : Nat
  datalen : Int
  written : Bytes
  done : Option Bytes
deriving DecidableEq

/-- The array `keys` of `audio_in`: the strings "0" to "9", "*" and "#". -/
def keys : List Bytes := [[48], [49], [50], [51], [52], [53], [54], [55], [56], [57], [42], [35]]

/-- The comparison `a > b` of two pointers that may be `NULL`; `NULL` is below every
position of the message. -/
def ptrGt (a b : Option Nat) : Bool :=
  match a, b with
  | none, _ => false
  | some _, none => true
  | some x, some y => decide (y < x)

/-- The octet `erequest[-1]`; not read when `erequest` is `NULL`. -/
def lastOctet (mem : Bytes) (erequest : Option Nat) : Nat :=
  match erequest with
  | none => 0
  | some e => byteBefore mem e

/-- What `audio_in` does with a received packet `buf` of `len` octets (lines 156 to 177):
the first packet starts the audio, payload type 9 makes it stereo, a payload of type 8 or
9 is written to the recording when one is open, and otherwise a packet of type 101 sets
the outcome to the string of its key when the program ends with '*' or '#'. -/
def rtp_in (mem : Bytes) (request erequest : Option Nat) (temp_fd : Bool) (buf : Bytes)
    (len : Int) (m : Media) : Media :=
  if 12 < len then
    let ch1 := if m.channels = 0 then 1 else m.channels
    let ch2 := if ch1 = 1 ∧ byteAt buf 1 % 128 = 9 then 2 else ch1
    if temp_fd = true ∧ (byteAt buf 1 % 128 = 8 ∨ byteAt buf 1 % 128 = 9) then
      { m with channels := ch2, written := m.written ++ slice buf 12 len.toNat,
               datalen := wrapInt32 (m.datalen + (len - 12)) }
    else if byteAt buf 1 % 128 = 101 then
      if ptrGt erequest request = true
          ∧ (lastOctet mem erequest = 42 ∨ lastOctet mem erequest = 35)
          ∧ byteAt buf 12 ≤ 11 then
        { m with channels := ch2, done := some (keys.getD (byteAt buf 12) []) }
      else { m with channels := ch2 }
    else { m with channels := ch2 }
  else m

/-! ## The playback programs that the claims speak of -/

/-- A file stem: one to 95 octets that `getfile` takes, the first not '/'. -/
def StemOk (s : Bytes) : Prop :=
  s ≠ [] ∧ s.length ≤ 95 ∧ (∀ c ∈ s, isFileChar c false = true) ∧ s.head? ≠ some 47

instance (s : Bytes) : Decidable (StemOk s) := by
  unfold StemOk; infer_instance

/-- The name of the file of a stem: the stem and ".wav". -/
def wavName (s : Bytes) : Bytes := s ++ [46, 119, 97, 118]

/-- The stems `f`, `l` written with one dot between two of them. -/
def dotted (f : Bytes) : List Bytes → Bytes
  | [] => f
  | g :: l => f ++ 46 :: dotted g l

/-- The alternates `l`, each written after a '?'. -/
def altTail : List Bytes → Bytes
  | [] => []
  | g :: l => 63 :: g ++ altTail l

/-- The names given to `open` when the names `names` are tried in order until one can be
opened. -/
def openCalls (fs : Files) : List Bytes → List Bytes
  | [] => []
  | n :: l => if fs.readable n = true then [n] else n :: openCalls fs l

/-- The repeat prefix: nothing, or the digits and '*'. -/
def repeatPrefix (digits : Option Bytes) : Bytes :=
  match digits with
  | none => []
  | some d => d ++ [42]

/-- The playback program of `r` times '-', `t` times '!', the repeat prefix of the digits
`digits` when given, and the stems `f`, `l` with single dots. -/
def programOf (r t : Nat) (digits : Option Bytes) (f : Bytes) (l : List Bytes) : Bytes :=
  List.replicate r 45 ++ (List.replicate t 33 ++ (repeatPrefix digits ++ dotted f l))

/-- The number of times the body is played: the value of the repeat prefix, or 1. -/
def repeatCount (digits : Option Bytes) : Nat :=
  match digits with
  | none => 1
  | some d => decimalValue d

/-- The pointer `rp` is at the end of what it plays: it is `NULL`, or `erequest`, or at a
NUL. -/
def AtEnd (mem : Bytes) (e : Nat) (rp : Cursor) : Prop :=
  rp = .null ∨ rp = .msg e ∨ rp.deref mem = 0

/-- The files opened by a run, with the names `names` put before them. -/
def opened_after (names : List Bytes) (r : Option (Playback × List Bytes)) :
    Option (Playback × List Bytes) :=
  r.map (fun x => (x.1, names ++ x.2))

/-- A directory in which every file can be opened for reading and none can be made. -/
def everyFile : Files := { readable := fun _ => true, creatable := fun _ => false, mkstemp := none }

/-! ## voip-answer.c: the replies of the dispatcher and of the worker -/

/-- The text `Via`. -/
def hdrVia : Bytes := [86, 105, 97]

/-- The text `From`. -/
def hdrFrom : Bytes := [70, 114, 111, 109]

/-- The text `To`. -/
def hdrTo : Bytes := [84, 111]

/-- The text `Call-ID`. -/
def hdrCallID : Bytes := [67, 97, 108, 108, 45, 73, 68]

/-- The text `CSeq`. -/
def hdrCSeq : Bytes := [67, 83, 101, 113]

/-- The text `Contact`. -/
def hdrContact : Bytes := [67, 111, 110, 116, 97, 99, 116]

/-- The text `Refer-To`. -/
def hdrReferTo : Bytes := [82, 101, 102, 101, 114, 45, 84, 111]

/-- The text `Authorization`. -/
def hdrAuthorization : Bytes := [65, 117, 116, 104, 111, 114, 105, 122, 97, 116, 105, 111, 110]

/-- The text `tag`. -/
def tagName : Bytes := [116, 97, 103]

/-- The text `SIP/2.0/UDP 0.0.0.0:5060`. -/
def dummyVia : Bytes :=
  [83, 73, 80, 47, 50, 46, 48, 47, 85, 68, 80, 32, 48, 46, 48, 46, 48, 46, 48, 58, 53, 48, 54,
   48]

/-- The text `sip:`. -/
def schemeSip : Bytes := [115, 105, 112, 58]

/-- The text `SIP`. -/
def methodSIP : Bytes := [83, 73, 80]

/-- The text `ACK`. -/
def methodACK : Bytes := [65, 67, 75]

/-- The text `INVITE`. -/
def methodINVITE : Bytes := [73, 78, 86, 73, 84, 69]

/-- The text `BYE`. -/
def methodBYE : Bytes := [66, 89, 69]

/-- The text `REFER`. -/
def methodREFER : Bytes := [82, 69, 70, 69, 82]

/-- The text `SIP/2.0 183 Call progress` and CR LF. -/
def statusProgress : Bytes :=
  [83, 73, 80, 47, 50, 46, 48, 32, 49, 56, 51, 32, 67, 97, 108, 108, 32, 112, 114, 111, 103,
   114, 101, 115, 115, 13, 10]

/-- The text `SIP/2.0 200 OK` and CR LF. -/
def statusOK : Bytes := [83, 73, 80, 47, 50, 46, 48, 32, 50, 48, 48, 32, 79, 75, 13, 10]

/-- The text ` SIP/2.0` and CR LF. -/
def versionLine : Bytes := [32, 83, 73, 80, 47, 50, 46, 48, 13, 10]

/-- The text `SIP/2.0 `. -/
def versionStatus : Bytes := [83, 73, 80, 47, 50, 46, 48, 32]

/-- The text ` Done` and CR LF. -/
def textDone : Bytes := [32, 68, 111, 110, 101, 13, 10]

/-- The text `1 BYE`. -/
def cseqBYE : Bytes := [49, 32, 66, 89, 69]

/-- The text `1 REFER`. -/
def cseqREFER : Bytes := [49, 32, 82, 69, 70, 69, 82]

/-- The text `Digest username='Voicemail'`. -/
def digestVoicemail : Bytes :=
  [68, 105, 103, 101, 115, 116, 32, 117, 115, 101, 114, 110, 97, 109, 101, 61, 34, 86, 111,
   105, 99, 101, 109, 97, 105, 108, 34]
/-- The digits that `sprintf` prints for `%u`, with fuel: one digit for every step. -/
def decimalFuel : Nat → Nat → Bytes → Bytes
  | 0, _, acc => acc
  | fuel + 1, n, acc =>
    if n < 10 then (48 + n) :: acc else decimalFuel fuel (n / 10) ((48 + n % 10) :: acc)

/-- The octets that `sprintf` prints for `%u` and an int: the decimal digits of its value
as a 32-bit unsigned, at most ten. -/
def printedUnsigned (n : Int) : Bytes := decimalFuel 10 (n % 4294967296).toNat []

/-- The state of the output is the memory of `tx` and the offset of `txp` in it. `sprintf`
stores a text and its final NUL at `txp`, without a test of the room, and `txp` moves over
the text. -/
def sprintf_at (st : Bytes × Nat) (text : Bytes) : Bytes × Nat :=
  (writeAt st.1 st.2 (text ++ [0]), st.2 + text.length)

/-- A call `sip_add_header (&txp, txe, name, value, NULL)` with a string `value`. -/
def add_string (txe : Nat) (st : Bytes × Nat) (name value : Bytes) : Bytes × Nat :=
  ((sip_add_header st.1 st.2 txe name value (some 0) none).2.1,
    (sip_add_header st.1 st.2 txe name value (some 0) none).2.2)

/-- A call `sip_add_header (&txp, txe, name, p, e)` with a range `[p,e)` of the received
message. -/
def add_range (rx : Bytes) (txe : Nat) (st : Bytes × Nat) (name : Bytes) (r : Nat × Nat) :
    Bytes × Nat :=
  ((sip_add_header st.1 st.2 txe name rx (some r.1) (some r.2)).2.1,
    (sip_add_header st.1 st.2 txe name rx (some r.1) (some r.2)).2.2)

/-- The loop of `make_reply` over the Via headers, given their ranges. -/
def reply_via (rx : Bytes) (txe : Nat) : List (Nat × Nat) → Bytes × Nat → Bytes × Nat
  | [], st => st
  | r :: rs, st => reply_via rx txe rs (add_range rx txe st [118] r)

/-- The tag that `make_reply` adds after the To header when a port is allocated:
`sip_add_extra (&txp, txe, "tag", temp, NULL, ';', 0, 0)` with the port printed by `%u`. -/
def add_tag (txe : Nat) (rport : Int) (st : Bytes × Nat) : Bytes × Nat :=
  if 0 ≤ rport then
    ((sip_add_extra st.1 st.2 txe (some tagName) (printedUnsigned rport) (some 0) none 59 0 0).2.1,
      (sip_add_extra st.1 st.2 txe (some tagName) (printedUnsigned rport) (some 0) none 59 0 0).2.2)
  else st

/-- The nested function `make_reply (rev)` of `main` for the received message `[0,rxe)`:
the Via headers (one dummy Via when `rev` is set), From and To (exchanged when `rev` is
set), the tag of the port after To, Call-ID, and CSeq when `rev` is not set. A header that
is not found is left out, and so is one for which `sip_add_header` has no room. The loop
over the Via headers makes at most `rxe + 1` calls of `sip_find_header`. -/
def make_reply (rx : Bytes) (rxe txe : Nat) (rport : Int) (rev : Bool) (st : Bytes × Nat) :
    Bytes × Nat :=
  let s1 : Bytes × Nat :=
    if rev = true then add_string txe st [118] dummyVia
    else reply_via rx txe
      (find_header_all rx (some 0) rxe (some hdrVia) (some [118]) (rxe + 1) none) st
  let s2 : Bytes × Nat :=
    match sip_find_header rx (some 0) rxe (some hdrFrom) (some [102]) none with
    | none => s1
    | some r => add_range rx txe s1 (if rev = true then [116] else [102]) r
  let s3 : Bytes × Nat :=
    match sip_find_header rx (some 0) rxe (some hdrTo) (some [116]) none with
    | none => s2
    | some r => add_tag txe rport (add_range rx txe s2 (if rev = true then [102] else [116]) r)
  let s4 : Bytes × Nat :=
    match sip_find_header rx (some 0) rxe (some hdrCallID) (some [105]) none with
    | none => s3
    | some r => add_range rx txe s3 [105] r
  if rev = true then s4
  else
    match sip_find_header rx (some 0) rxe (some hdrCSeq) none none with
    | none => s4
    | some r => add_range rx txe s4 hdrCSeq r

/-- The nested function `send_reply` of `main`: the datagram sent, none when `txp` is
still at `tx`. -/
def send_reply (st : Bytes × Nat) : Option Bytes :=
  if st.2 = 0 then none else some (st.1.take st.2)

/-- The place in the request URI `[s,e)` where `main` reads the number of a call that is
not to be answered: after a "sip:" that is followed by more than one octet. -/
def after_scheme (rx : Bytes) (s e : Nat) : Nat :=
  if s + 4 < e ∧ strncasecmp rx s schemeSip 0 4 = 0 then s + 4 else s

/-- The test of `main` for a call that is not to be answered: the number before a '=' at
the start of the request URI, after "sip:"; 0 when there is no '='. -/
def invite_nonanswer (rx : Bytes) (rxe : Nat) : Int :=
  match sip_find_request rx (some 0) rxe with
  | none => 0
  | some u =>
    if (read_unsigned rx (after_scheme rx u.1 u.2) u.2).2 < u.2
        ∧ byteAt rx (read_unsigned rx (after_scheme rx u.1 u.2) u.2).2 = 61 then
      (read_unsigned rx (after_scheme rx u.1 u.2) u.2).1
    else 0

/-- The To header of the received message has a tag: the test of `main` for an INVITE
that belongs to a call. -/
def has_to_tag (rx : Bytes) (len : Nat) : Bool :=
  (sip_find_semi rx
    ((sip_find_header rx (some 0) len (some hdrTo) (some [116]) none).map Prod.fst)
    ((sip_find_header rx (some 0) len (some hdrTo) (some [116]) none).map Prod.snd)
    tagName).isSome

/-- What the loop of `main` decides for a received datagram of `len` octets: `none` when
it goes on without a reply of its own, else the values of `nonanswer` and `rport` with
which it builds the reply. `port` is the port of the new socket (absent when `socket`,
`bind` or `getsockname` fails) and `forked` says whether `fork` succeeds. -/
def dispatch (rx : Bytes) (len : Nat) (port : Option Nat) (forked : Bool) : Option (Int × Int) :=
  if len ≤ 4 then none
  else if isalpha (byteAt rx 0) = false then none
  else if scanWhile rx isalpha 0 len = 3 ∧ strncasecmp rx 0 methodSIP 0 3 = 0 then none
  else if scanWhile rx isalpha 0 len = 3 ∧ strncasecmp rx 0 methodACK 0 3 = 0 then none
  else if scanWhile rx isalpha 0 len = 6 ∧ strncasecmp rx 0 methodINVITE 0 6 = 0
      ∧ has_to_tag rx len = false then
    match port with
    | none => none
    | some a => if forked = true then some (invite_nonanswer rx len, (a : Int)) else none
  else some (0, -1)

/-- The status line of the reply of `main`. -/
def status_line (nonanswer : Int) : Bytes :=
  if nonanswer ≠ 0 then statusProgress else statusOK

/-- The reply of `main` to a datagram, up to the headers that `make_reply` copies: the
status line and these headers. The lines after them (the SDP or the length 0) are not
part of this. -/
def reply_head (rx : Bytes) (len : Nat) (tx : Bytes) (txe : Nat) (port : Option Nat)
    (forked : Bool) : Option (Bytes × Nat) :=
  match dispatch rx len port forked with
  | none => none
  | some d => some (make_reply rx len txe d.2 false (sprintf_at (tx, 0) (status_line d.1)))

/-- The URI of the Contact header, as the worker finds it:
`sip_find_uri (sip_find_header (rx, rxe, "Contact", "m", &e, NULL), e, &e)`. -/
def contact_uri (rx : Bytes) (rxe : Nat) : Option (Nat × Nat) :=
  sip_find_uri rx
    ((sip_find_header rx (some 0) rxe (some hdrContact) (some [109]) none).map Prod.fst)
    ((sip_find_header rx (some 0) rxe (some hdrContact) (some [109]) none).map Prod.snd)

/-- The octets that `%.*s` prints for a range that may be absent; for an absent range the
precision is 0 and nothing is printed. -/
def printedRange (rx : Bytes) (r : Option (Nat × Nat)) : Bytes :=
  match r with
  | none => []
  | some c => printedValue rx c.1 ((c.2 : Int) - (c.1 : Int))

/-- The request line that the worker prints, without its CR LF: the method, the Contact
URI, "SIP/2.0". -/
def request_text (method : Bytes) (rx : Bytes) (contact : Option (Nat × Nat)) : Bytes :=
  method ++ [32] ++ printedRange rx contact ++ [32, 83, 73, 80, 47, 50, 46, 48]

/-- The Contact URI from its '@' on: the loop `while (p < e && *p != '@') p++;`. -/
def from_at (rx : Bytes) (contact : Option (Nat × Nat)) : Option (Nat × Nat) :=
  match contact with
  | none => none
  | some c => some (scanWhile rx (fun x => x != 64) c.1 c.2, c.2)

/-- The text that the worker prints into `temp` for the Refer-To header:
`snprintf (temp, sizeof (temp), "sip:%s%.*s", done, (int) (e - p), p)` after `p` has moved
to the '@' of the Contact URI; at most 199 octets. -/
def refer_to (rx : Bytes) (contact : Option (Nat × Nat)) (done : Bytes) : Bytes :=
  (schemeSip ++ cstring done ++ printedRange rx (from_at rx contact)).take 199

/-- The BYE or REFER of the worker up to the length header: the request line, the headers
of `make_reply (1)`, the CSeq `cseq` and the length 0. -/
def request_head (method cseq : Bytes) (rx : Bytes) (rxe : Nat) (tx : Bytes) (txe : Nat)
    (rport : Int) : Bytes × Nat :=
  add_string txe (add_string txe (make_reply rx rxe txe rport true
    (sprintf_at (tx, 0) (request_text method rx (contact_uri rx rxe) ++ [13, 10])))
    hdrCSeq cseq) [108] [48]

/-- What the worker composes when `audio_in` has returned `done` (absent, or the octets
of the string): the final status of a call that is not answered, a BYE for the empty
outcome, a REFER for an outcome that begins with a printable character, else nothing.
The type `char` is signed, as on the platforms of the program. -/
def worker_reply (rx : Bytes) (rxe : Nat) (tx : Bytes) (txe : Nat) (rport : Int)
    (done : Option Bytes) : Bytes × Nat :=
  if invite_nonanswer rx rxe ≠ 0 then
    make_reply rx rxe txe rport false
      (sprintf_at (tx, 0) (versionStatus ++ printedUnsigned (invite_nonanswer rx rxe) ++ textDone))
  else
    match done with
    | none => (tx, 0)
    | some d =>
      if d = [] then request_head methodBYE cseqBYE rx rxe tx txe rport
      else if 32 ≤ d.headD 0 ∧ d.headD 0 < 128 then
        add_string txe
          (add_string txe (request_head methodREFER cseqREFER rx rxe tx txe rport) hdrReferTo
            (refer_to rx (contact_uri rx rxe) d))
          hdrAuthorization digestVoicemail
      else (tx, 0)

/-- The output keeps a text: its first `k` octets are `pre`, `txp` is at least two octets
after them, and the memory has at least `n` octets. -/
def Keeps (k n : Nat) (pre : Bytes) (st : Bytes × Nat) : Prop :=
  st.1.take k = pre ∧ k + 2 ≤ st.2 ∧ k ≤ st.1.length ∧ n ≤ st.1.length

/-- A sample INVITE with the local part "=" alone, and no tag in its To header. -/
def inviteEqual : Bytes :=
  [73, 78, 86, 73, 84, 69, 32, 115, 105, 112, 58, 61, 64, 104, 111, 115, 116, 32, 83, 73, 80,
   47, 50, 46, 48, 13, 10, 84, 111, 58, 32, 60, 115, 105, 112, 58, 120, 64, 121, 62, 13, 10,
   13, 10]

/-- A sample INVITE with the local part "9999=", and no tag in its To header. -/
def invite9999 : Bytes :=
  [73, 78, 86, 73, 84, 69, 32, 115, 105, 112, 58, 57, 57, 57, 57, 61, 64, 104, 111, 115, 116,
   32, 83, 73, 80, 47, 50, 46, 48, 13, 10, 84, 111, 58, 32, 60, 115, 105, 112, 58, 120, 64,
   121, 62, 13, 10, 13, 10]

/-- A sample INVITE with the local part "a" and the Contact URI "sip:c@d". -/
def inviteContact : Bytes :=
  [73, 78, 86, 73, 84, 69, 32, 115, 105, 112, 58, 97, 64, 104, 32, 83, 73, 80, 47, 50, 46, 48,
   13, 10, 109, 58, 32, 60, 115, 105, 112, 58, 99, 64, 100, 62, 13, 10, 13, 10]

/-- A sample INVITE with the local part "486=x" and no other header. -/
def invite486 : Bytes :=
  [73, 78, 86, 73, 84, 69, 32, 115, 105, 112, 58, 52, 56, 54, 61, 120, 64, 104, 32, 83, 73, 80,
   47, 50, 46, 48, 13, 10, 13, 10]

/-! ## siptools.c: comparison of two escaped ranges -/

/-- One step of the reading of an escaped range `[s,e)` in `sip_esc_esc_cmp`: the value
`v` and the position of the last octet read; `'%'` and two hex digits within the range
are one value, `s + 3 <= e`. -/
def esc_value (b : Bytes) (e s : Nat) : Nat × Nat :=
  if byteAt b s = 37 ∧ s + 3 ≤ e ∧ isxdigit (byteAt b (s + 1)) = true
      ∧ isxdigit (byteAt b (s + 2)) = true then
    (hexNibble (byteAt b (s + 1)) * 16 + hexNibble (byteAt b (s + 2)), s + 2)
  else (byteAt b s, s)

/-- What `sip_esc_esc_cmp` returns after its loop. -/
def esc_esc_end (e e2 s s2 : Nat) : Int :=
  if s < e then -1 else if s2 < e2 then 1 else 0

/-- The loop of `sip_esc_esc_cmp`: `s` runs over the range `[s,e)` of `b`, `s2` over the
range `[s2,e2)` of `b2`. -/
def esc_esc_cmp_loop (b : Bytes) (e : Nat) (b2 : Bytes) (e2 : Nat) : Nat → Nat → Nat → Int
  | 0, s, s2 => esc_esc_end e e2 s s2
  | fuel + 1, s, s2 =>
    if s < e ∧ s2 < e2 then
      if (esc_value b e s).1 < (esc_value b2 e2 s2).1 then -1
      else if (esc_value b2 e2 s2).1 < (esc_value b e s).1 then 1
      else esc_esc_cmp_loop b e b2 e2 fuel ((esc_value b e s).2 + 1) ((esc_value b2 e2 s2).2 + 1)
    else esc_esc_end e e2 s s2

/-- `sip_esc_esc_cmp (s, e, s2, e2)`: the escaped range `[s,e)` of `b` against the escaped
range `[s2,e2)` of `b2` (`none` is a `NULL` pointer). Only `e` is replaced by the end of
the string when it is absent; against an absent `e2` every test `s2 < e2` fails. -/
def sip_esc_esc_cmp (b : Bytes) (s e : Option Nat) (b2 : Bytes) (s2 e2 : Option Nat) : Int :=
  match s, s2 with
  | none, none => 0
  | _, none => 1
  | none, some _ => -1
  | some s, some s2 =>
    esc_esc_cmp_loop b (rangeEnd b s e) b2 (e2.getD 0) (rangeEnd b s e - s) s s2

/-- The decoding of an escaped string in the words of the specification, with fuel: from
left to right, every '%' that is followed by two hex digits is replaced, with them, by the
octet of their value. -/
def percentDecodeFuel : Nat → Bytes → Bytes
  | 0, _ => []
  | _ + 1, [] => []
  | n + 1, c :: t =>
    match t with
    | h :: l :: rest =>
      if c = 37 ∧ isxdigit h = true ∧ isxdigit l = true then
        (hexValue h * 16 + hexValue l) :: percentDecodeFuel n rest
      else c :: percentDecodeFuel n t
    | _ => c :: percentDecodeFuel n t

/-- The decoding of an escaped string in the words of the specification; one step for
every octet is enough. -/
def percentDecode (x : Bytes) : Bytes := percentDecodeFuel x.length x

/-- The values that the loop of `sip_esc_esc_cmp` reads from the range `[s,e)`, one for
every iteration. -/
def esc_values (b : Bytes) (e : Nat) : Nat → Nat → Bytes
  | 0, _ => []
  | fuel + 1, s =>
    if s < e then (esc_value b e s).1 :: esc_values b e fuel ((esc_value b e s).2 + 1) else []

/-- The comparison of two sequences of values as the loop of `sip_esc_esc_cmp` and the
tests after it make it: the first difference decides, and a sequence that goes on after
the end of the other is the smaller one. -/
def cmpValues : Bytes → Bytes → Int
  | [], [] => 0
  | _ :: _, [] => -1
  | [], _ :: _ => 1
  | x :: xs, y :: ys => if x < y then -1 else if y < x then 1 else cmpValues xs ys

/-! ## voip-answer.c: the lines that `make_reply` stores -/

/-- The values of the header lines asked for, in document order. -/
def wantedValues (head alt : Option Bytes) (hs : List HeaderLine) : List Bytes :=
  (hs.filter (wanted head alt)).map HeaderLine.value

/-- The value of the first header line asked for, if there is one. -/
def firstValue (head alt : Option Bytes) (hs : List HeaderLine) : Option Bytes :=
  (wantedValues head alt hs).head?

/-- A line of a reply: the name, ": ", the value, CR LF. -/
def replyLine (name value : Bytes) : Bytes := name ++ [58, 32] ++ value ++ [13, 10]

/-- The lines "v: value" of a reply, one for every value. -/
def replyVias : List Bytes → Bytes
  | [] => []
  | v :: vs => replyLine [118] v ++ replyVias vs

/-- The separator that `sip_add_extra (.., ';', 0, 0)` stores after the line "name: value":
';', and nothing when the octet before is SP or ':'; before an empty value there is the
SP after the colon. -/
def tagSeparator (value : Bytes) : Bytes :=
  if value.getLastD 32 = 32 ∨ value.getLastD 32 = 58 then [] else [59]

/-- The value of the To header with the tag of the port, when a port is allocated. -/
def tagged (rport : Int) (value : Bytes) : Bytes :=
  if 0 ≤ rport then value ++ tagSeparator value ++ tagName ++ [61] ++ printedUnsigned rport
  else value

/-- The lines that `make_reply (rev)` is to store for the values `vias` of the Via
headers and the values `f`, `t`, `i`, `c` of From, To, Call-ID and CSeq. -/
def replyLines (rev : Bool) (rport : Int) (vias : List Bytes) (f t i c : Bytes) : Bytes :=
  if rev = true then
    replyLine [118] dummyVia ++ replyLine [116] f ++ replyLine [102] (tagged rport t)
      ++ replyLine [105] i
  else
    replyVias vias ++ replyLine [102] f ++ replyLine [116] (tagged rport t)
      ++ replyLine [105] i ++ replyLine hdrCSeq c

/-- The output holds `content` after the first `txp` octets of `tx`, `txp` is at the end
of it, and the memory has the length of `tx`. -/
def Written (tx : Bytes) (txp : Nat) (content : Bytes) (st : Bytes × Nat) : Prop :=
  st.2 = txp + content.length ∧ st.1.take st.2 = tx.take txp ++ content
    ∧ st.1.length = tx.length

/-- The range `r` of `b` holds the octets `v`, none of which is a NUL. -/
def InRange (b : Bytes) (r : Nat × Nat) (v : Bytes) : Prop :=
  (∀ c ∈ v, c ≠ 0) ∧ r.2 = r.1 + v.length ∧ ∃ tail, b.drop r.1 = v ++ tail

/-- A sample INVITE whose To value ends with a SP: INVITE sip:a@h SIP/2.0 / Via: a /
From: b / To: <sip:x@y> and a SP / Call-ID: d / CSeq: 1 INVITE / and the empty line. -/
def inviteToSpace : Bytes :=
  [73, 78, 86, 73, 84, 69, 32, 115, 105, 112, 58, 97, 64, 104, 32, 83, 73, 80, 47, 50, 46, 48,
   13, 10, 86, 105, 97, 58, 32, 97, 13, 10, 70, 114, 111, 109, 58, 32, 98, 13, 10, 84, 111, 58,
   32, 60, 115, 105, 112, 58, 120, 64, 121, 62, 32, 13, 10, 67, 97, 108, 108, 45, 73, 68, 58,
   32, 100, 13, 10, 67, 83, 101, 113, 58, 32, 49, 32, 73, 78, 86, 73, 84, 69, 13, 10, 13, 10]

/-- The header lines of a sample INVITE: Via: one / From: <sip:b@h> / v: two /
To : <sip:x@y> / Call-ID: d / CSeq: 1 INVITE -/
def inviteHeaders : List HeaderLine :=
  [⟨[86, 105, 97], [], [32], [111, 110, 101], []⟩,
    ⟨[70, 114, 111, 109], [], [32], [60, 115, 105, 112, 58, 98, 64, 104, 62], []⟩,
    ⟨[118], [], [32], [116, 119, 111], []⟩,
    ⟨[84, 111], [32], [32], [60, 115, 105, 112, 58, 120, 64, 121, 62], []⟩,
    ⟨[67, 97, 108, 108, 45, 73, 68], [], [32], [100], []⟩,
    ⟨[67, 83, 101, 113], [], [32], [49, 32, 73, 78, 86, 73, 84, 69], []⟩]

/-! ## siptools.c: the octets that the line break test counts -/

theorem byteAt_of_drop {b : Bytes} {p c : Nat} {t : Bytes} (h : b.drop p = c :: t) :
    byteAt b p = c := by
  have h1 : (b.drop p)[0]? = some c := by rw [h]; simp
  rw [List.getElem?_drop] at h1
  simp only [Nat.add_zero] at h1
  simp [byteAt, List.getD_eq_getElem?_getD, h1]

theorem drop_succ_of_drop {b : Bytes} {p c : Nat} {t : Bytes} (h : b.drop p = c :: t) :
    b.drop (p + 1) = t := by
  have : b.drop (p + 1) = (b.drop p).drop 1 := by rw [List.drop_drop]
  rw [this, h]; rfl

theorem drop_add_of_drop {b : Bytes} {p : Nat} (m t : Bytes) (h : b.drop p = m ++ t) :
    b.drop (p + m.length) = t := by
  have : b.drop (p + m.length) = (b.drop p).drop m.length := by
    rw [List.drop_drop]
  rw [this, h]; simp

theorem scanWhile_step (b : Bytes) (P : Nat → Bool) (p e : Nat) :
    scanWhile b P p e
      = if p < e ∧ P (byteAt b p) = true then scanWhile b P (p + 1) e else p := by
  unfold scanWhile
  by_cases h : p < e
  · have : e - p = (e - (p + 1)) + 1 := by omega
    rw [this, scanFuel]
  · have : e - p = 0 := by omega
    rw [this, scanFuel]; simp [h]

theorem byteAt_eq_headD (b : Bytes) (p : Nat) : byteAt b p = (b.drop p).headD 0 := by
  cases h : b.drop p with
  | nil =>
    have hlen : b.length ≤ p := List.drop_eq_nil_iff.mp h
    simp [byteAt, List.getD_eq_getElem?_getD, List.getElem?_eq_none hlen]
  | cons c t => simpa using byteAt_of_drop h

/-- A forward scan over a run `m` of accepted octets that ends at `e` or at a rejected octet. -/
theorem scanWhile_run (b : Bytes) (P : Nat → Bool) (e : Nat) (t : Bytes) :
    ∀ (m : Bytes) (p : Nat), b.drop p = m ++ t → (∀ x ∈ m, P x = true) →
      p + m.length ≤ e → (p + m.length = e ∨ P (t.headD 0) = false) →
      scanWhile b P p e = p + m.length := by
  intro m
  induction m with
  | nil =>
    intro p hd _ _ hstop
    rw [scanWhile_step]
    have hb : byteAt b p = t.headD 0 := by rw [byteAt_eq_headD, hd]; rfl
    rcases hstop with h | h
    · simp only [List.length_nil, Nat.add_zero] at h
      rw [if_neg (fun hc => by omega)]; simp
    · rw [hb, if_neg (fun hc => by rw [h] at hc; exact Bool.noConfusion hc.2)]; simp
  | cons c m ih =>
    intro p hd hall hle hstop
    simp only [List.length_cons] at hle hstop
    have hb : byteAt b p = c := byteAt_of_drop (t := m ++ t) (by simpa using hd)
    have ht : b.drop (p + 1) = m ++ t := drop_succ_of_drop (c := c) (by simpa using hd)
    have hc : P c = true := hall c (List.mem_cons_self _ _)
    rw [scanWhile_step, hb, if_pos ⟨by omega, hc⟩,
      ih (p + 1) ht (fun x hx => hall x (List.mem_cons_of_mem _ hx)) (by omega)
        (by rcases hstop with h | h
            · left; omega
            · right; exact h)]
    simp only [List.length_cons]; omega

/-- A forward scan that stops at once. -/
theorem scanWhile_stop (b : Bytes) (P : Nat → Bool) (p e : Nat)
    (h : e ≤ p ∨ P (byteAt b p) = false) : scanWhile b P p e = p := by
  rw [scanWhile_step]
  rcases h with h | h
  · rw [if_neg (fun hc => by omega)]
  · rw [if_neg (fun hc => by simp [h] at hc)]

theorem scanWhile_ge (b : Bytes) (P : Nat → Bool) (e : Nat) :
    ∀ (n p : Nat), n = e - p → p ≤ scanWhile b P p e := by
  intro n
  induction n with
  | zero => intro p hn; rw [scanWhile_stop b P p e (Or.inl (by omega))]
  | succ n ih =>
    intro p hn
    rw [scanWhile_step]
    split
    · exact Nat.le_trans (Nat.le_succ p) (ih (p + 1) (by omega))
    · exact Nat.le_refl _

theorem scanWhile_le (b : Bytes) (P : Nat → Bool) (e : Nat) :
    ∀ (n p : Nat), n = e - p → p ≤ e → scanWhile b P p e ≤ e := by
  intro n
  induction n with
  | zero => intro p hn hp; rw [scanWhile_stop b P p e (Or.inl (by omega))]; exact hp
  | succ n ih =>
    intro p hn hp
    rw [scanWhile_step]
    split
    · exact ih (p + 1) (by omega) (by omega)
    · exact hp

theorem scanBack_step (b : Bytes) (P : Nat → Bool) (s q : Nat) :
    scanBack b P s q
      = if s < q ∧ P (byteAt b (q - 1)) = true then scanBack b P s (q - 1) else q := by
  unfold scanBack
  by_cases h : s < q
  · have : q - s = (q - 1 - s) + 1 := by omega
    rw [this, scanBackFuel]
  · have : q - s = 0 := by omega
    rw [this, scanBackFuel]; simp [h]

/-- A backward scan over a run `m` of accepted octets that begins at `s` or after a
rejected octet. -/
theorem scanBack_run (b : Bytes) (P : Nat → Bool) (s : Nat) (a t : Bytes)
    (ha : a = [] ∨ ∃ a1 c, a = a1 ++ [c] ∧ P c = false) :
    ∀ (m : Bytes), b.drop s = a ++ m ++ t → (∀ x ∈ m, P x = true) →
      scanBack b P s (s + a.length + m.length) = s + a.length := by
  intro m
  induction m using List.reverseRecOn generalizing t with
  | nil =>
    intro hd _
    simp only [List.length_nil, Nat.add_zero]
    rw [scanBack_step]
    rcases ha with h | ⟨a1, c, h, hc⟩
    · subst h; simp
    · have hd1 : b.drop (s + a1.length) = c :: t := by
        apply drop_add_of_drop a1 (c :: t)
        rw [hd, h]; simp
      have hb : byteAt b (s + a.length - 1) = c := by
        have : s + a.length - 1 = s + a1.length := by rw [h]; simp
        rw [this]; exact byteAt_of_drop hd1
      rw [hb, if_neg (fun hh => by simp [hc] at hh)]
  | append_singleton m c ih =>
    intro hd hall
    have hd1 : b.drop (s + (a ++ m).length) = c :: t := by
      apply drop_add_of_drop (a ++ m) (c :: t)
      rw [hd]; simp
    have hq : s + a.length + (m ++ [c]).length - 1 = s + (a ++ m).length := by
      simp; omega
    have hb : byteAt b (s + a.length + (m ++ [c]).length - 1) = c := by
      rw [hq]; exact byteAt_of_drop hd1
    have hc : P c = true := hall c (by simp)
    rw [scanBack_step, hb, if_pos ⟨by simp; omega, hc⟩, hq]
    have := ih (c :: t) (by rw [hd]; simp) (fun x hx => hall x (by simp [hx]))
    simpa [Nat.add_assoc] using this

/-- Decimal digits: the loop of `read_unsigned` on a run of digits. -/
theorem decimalFrom_cons (v d : Nat) (ds : Bytes) :
    decimalFrom v (d :: ds) = decimalFrom (v * 10 + (d - 48)) ds := rfl

theorem decimalFrom_mono (v : Nat) (ds : Bytes) : v ≤ decimalFrom v ds := by
  induction ds generalizing v with
  | nil => exact Nat.le_refl _
  | cons d ds ih =>
    rw [decimalFrom_cons]
    exact Nat.le_trans (by omega) (ih _)

theorem wrapInt32_of_lt (n : Nat) (h : n < 2147483648) : wrapInt32 (n : Int) = n := by
  unfold wrapInt32; omega

theorem read_unsigned_loop_run (b : Bytes) (e : Nat) :
    ∀ (fuel p v : Nat), fuel = e - p →
      decimalFrom v (digitRun b p e) < 2147483648 →
      read_unsigned_loop b e fuel p (v : Int)
        = (((decimalFrom v (digitRun b p e) : Nat) : Int), p + (digitRun b p e).length) := by
  intro fuel
  induction fuel with
  | zero =>
    intro p v hf _
    have hr : digitRun b p e = [] := by
      have : e - p = 0 := by omega
      simp [digitRun, this]
    simp [read_unsigned_loop, hr, decimalFrom]
  | succ n ih =>
    intro p v hf hv
    have hpe : p < e := by omega
    cases hd : b.drop p with
    | nil =>
      have hlen : b.length ≤ p := List.drop_eq_nil_iff.mp hd
      have hb : byteAt b p = 0 := by
        simp [byteAt, List.getD_eq_getElem?_getD, List.getElem?_eq_none hlen]
      have hr : digitRun b p e = [] := by simp [digitRun, hd]
      simp [read_unsigned_loop, hb, isdigit, hr, decimalFrom]
    | cons c t =>
      have hb : byteAt b p = c := byteAt_of_drop hd
      have ht : b.drop (p + 1) = t := drop_succ_of_drop hd
      have he : e - p = (e - (p + 1)) + 1 := by omega
      by_cases hc : isdigit c = true
      · have hr : digitRun b p e = c :: digitRun b (p + 1) e := by
          unfold digitRun
          rw [hd, ht, he, List.take_succ_cons, List.takeWhile_cons]
          simp [hc]
        rw [hr, decimalFrom_cons] at hv
        have hstep : v * 10 + (c - 48) < 2147483648 :=
          Nat.lt_of_le_of_lt (decimalFrom_mono _ _) hv
        have hc48 : 48 ≤ c := by
          simp only [isdigit, Bool.and_eq_true, decide_eq_true_eq] at hc; exact hc.1
        have hcast : ((v : Int) * 10 + ((c : Int) - 48)) = ((v * 10 + (c - 48) : Nat) : Int) := by
          omega
        rw [read_unsigned_loop.eq_2, hb, if_pos ⟨hpe, hc⟩, hcast, wrapInt32_of_lt _ hstep,
          ih (p + 1) _ (by omega) hv, hr, decimalFrom_cons]
        simp only [List.length_cons]
        congr 1; omega
      · have hr : digitRun b p e = [] := by
          unfold digitRun
          rw [hd, he, List.take_succ_cons, List.takeWhile_cons]
          simp [hc]
        rw [read_unsigned_loop.eq_2, hb, if_neg (fun h => hc h.2), hr]
        simp [decimalFrom]

theorem digitRun_length_le (b : Bytes) (p e : Nat) : (digitRun b p e).length ≤ e - p := by
  unfold digitRun
  refine Nat.le_trans (List.takeWhile_sublist _).length_le ?_
  simp only [List.length_take]
  exact Nat.min_le_left _ _

/-! ## Facts about `sip_deescape` -/

theorem strlen_of_drop (src : Bytes) (f : Nat) (x rest : Bytes) (hd : src.drop f = x ++ rest)
    (hx : ∀ c ∈ x, c ≠ 0) (hr : rest.headD 0 = 0) : strlen src f = x.length := by
  unfold strlen
  by_cases hf : f ≤ src.length
  · have hlen : f + x.length ≤ src.length := by
      have := congrArg List.length hd
      simp only [List.length_drop, List.length_append] at this
      omega
    rw [scanWhile_run src _ src.length rest x f hd (fun c hc => by simpa using hx c hc) hlen
      (Or.inr (by rw [hr]; rfl))]
    omega
  · have hnil : src.drop f = [] := List.drop_eq_nil_iff.mpr (by omega)
    rw [hnil] at hd
    have hx0 : x = [] := by
      cases x with
      | nil => rfl
      | cons c x => simp at hd
    rw [scanWhile_stop _ _ _ _ (Or.inl (by omega)), hx0]; simp

theorem writeAt_nil (out : Bytes) (t : Nat) : writeAt out t [] = out := by
  simp [writeAt]

theorem writeAt_set_cons (out : Bytes) (t c : Nat) (d : Bytes) (ht : t < out.length) :
    writeAt (out.set t c) (t + 1) d = writeAt out t (c :: d) := by
  unfold writeAt
  rw [List.set_eq_take_append_cons_drop, if_pos ht]
  have hl : (List.take t out).length = t := by simp; omega
  have h1 : (List.take t out ++ c :: List.drop (t + 1) out).take (t + 1) = List.take t out ++ [c] := by
    rw [List.take_append_eq_append_take, hl]
    simp [List.take_of_length_le, hl]
  have h2 : (List.take t out ++ c :: List.drop (t + 1) out).drop (t + 1 + d.length)
      = List.drop (t + (c :: d).length) out := by
    rw [List.drop_append_eq_append_drop, hl]
    have : List.drop (t + 1 + d.length) (List.take t out) = [] := by
      apply List.drop_eq_nil_iff.mpr; simp; omega
    rw [this]
    have e1 : t + 1 + d.length - t = d.length + 1 := by omega
    rw [e1]
    simp only [List.nil_append, List.drop_succ_cons, List.drop_drop, List.length_cons]
    congr 1; omega
  rw [h1, h2]; simp

theorem deescape_loop_plain (src : Bytes) (et : Nat) (rest : Bytes) :
    ∀ (x out : Bytes) (t f : Nat), (∀ c ∈ x, c ≠ 37) → src.drop f = x ++ rest →
      et ≤ out.length →
      deescape_loop src (f + x.length) et x.length out t f
        = (writeAt out t (x.take (et - (t + 1))), t + min x.length (et - (t + 1))) := by
  intro x
  induction x with
  | nil => intro out t f _ _ _; simp [deescape_loop, writeAt_nil]
  | cons c x ih =>
    intro out t f hp hd hlen
    have hb : byteAt src f = c := byteAt_of_drop (t := x ++ rest) (by simpa using hd)
    have ht : src.drop (f + 1) = x ++ rest := drop_succ_of_drop (c := c) (by simpa using hd)
    have hc : c ≠ 37 := hp c (List.mem_cons_self _ _)
    rw [List.length_cons, deescape_loop.eq_2]
    by_cases hlim : t + 1 < et
    · rw [if_pos ⟨by omega, hlim⟩, if_neg (fun h => hc (hb ▸ h.2)), hb]
      have hef : f + (x.length + 1) = f + 1 + x.length := by omega
      rw [hef, ih (out.set t c) (t + 1) (f + 1) (fun y hy => hp y (List.mem_cons_of_mem _ hy)) ht
        (by simpa using hlen)]
      have hk : et - (t + 1) = (et - (t + 1 + 1)) + 1 := by omega
      rw [writeAt_set_cons out t c _ (by omega)]
      rw [hk, List.take_succ_cons]
      congr 1
      omega
    · rw [if_neg (fun h => hlim h.2)]
      have hk : et - (t + 1) = 0 := by omega
      rw [hk]; simp [writeAt_nil]


theorem sip_deescape_plain (src out : Bytes) (t et f : Nat) (ef : Option Nat) (x rest : Bytes)
    (hp : ∀ c ∈ x, c ≠ 37) (hd : src.drop f = x ++ rest) (hlen : et ≤ out.length)
    (hef : (ef = none ∧ (∀ c ∈ x, c ≠ 0) ∧ rest.headD 0 = 0) ∨ ef = some (f + x.length)) :
    sip_deescape out t et src (some f) ef
      = ((writeAt out t (x.take (et - (t + 1)))).set (t + min x.length (et - (t + 1))) 0,
          min x.length (et - (t + 1))) := by
  have hE : rangeEnd src f ef = f + x.length := by
    rcases hef with ⟨h, hx, hr⟩ | h
    · subst h; simp only [rangeEnd]; rw [strlen_of_drop src f x rest hd hx hr]
    · subst h; rfl
  unfold sip_deescape
  simp only
  rw [hE]
  have hfu : f + x.length - f = x.length := by omega
  rw [hfu, deescape_loop_plain src et rest x out t f hp hd hlen]
  simp

theorem set_writeAt_end (out : Bytes) (t : Nat) (y : Bytes) (h : t + y.length < out.length) :
    (writeAt out t y).set (t + y.length) 0 = writeAt out t (y ++ [0]) := by
  unfold writeAt
  have hl : (List.take t out ++ y).length = t + y.length := by simp; omega
  rw [List.set_append_right _ _ (by rw [hl]), hl, Nat.sub_self]
  have hdrop : List.drop (t + y.length) out
      = out.getD (t + y.length) 0 :: List.drop (t + y.length + 1) out := by
    rw [List.drop_eq_getElem_cons h]
    simp [List.getD_eq_getElem?_getD, List.getElem?_eq_getElem h]
  rw [hdrop]
  simp [Nat.add_assoc]

theorem drop_writeAt (out : Bytes) (t : Nat) (y : Bytes) (h : t ≤ out.length) :
    (writeAt out t y).drop t = y ++ out.drop (t + y.length) := by
  unfold writeAt
  have hl : (List.take t out).length = t := by simp; omega
  rw [List.append_assoc, List.drop_append_eq_append_drop, hl, Nat.sub_self]
  have : List.drop t (List.take t out) = [] := List.drop_eq_nil_iff.mpr (by omega)
  rw [this]; simp

theorem byteAt_set_self (l : Bytes) (i : Nat) : byteAt (l.set i 0) i = 0 := by
  unfold byteAt
  by_cases h : i < l.length
  · simp [List.getD_eq_getElem?_getD, List.getElem?_set, h]
  · have hl : (l.set i 0).length ≤ i := by rw [List.length_set]; omega
    simp [List.getD_eq_getElem?_getD, List.getElem?_eq_none hl]

/-- The output of `sip_deescape` read back from `t`: the octets produced, then a NUL. -/
theorem deescape_output_drop (out : Bytes) (t et : Nat) (y : Bytes) (hlen : et ≤ out.length)
    (hy : y.length ≤ et - (t + 1)) :
    ∃ rest1, ((writeAt out t y).set (t + y.length) 0).drop t = y ++ rest1
      ∧ rest1.headD 0 = 0 := by
  by_cases ht : t + 1 ≤ et
  · rw [set_writeAt_end out t y (by omega), drop_writeAt out t _ (by omega)]
    exact ⟨0 :: out.drop (t + (y ++ [0]).length), by simp, rfl⟩
  · have hy0 : y = [] := List.length_eq_zero.mp (by omega)
    subst hy0
    refine ⟨((writeAt out t []).set (t + 0) 0).drop t, by simp, ?_⟩
    rw [← byteAt_eq_headD]
    exact byteAt_set_self _ _

theorem deescape_output_slice (out : Bytes) (t et : Nat) (y : Bytes) (hlen : et ≤ out.length)
    (hy : y.length ≤ et - (t + 1)) :
    slice ((writeAt out t y).set (t + y.length) 0) t (t + y.length) = y := by
  obtain ⟨rest1, h, _⟩ := deescape_output_drop out t et y hlen hy
  unfold slice
  rw [h]
  simp


/-! ## Facts about `sip_skip_display` and `sip_find_semi` -/

theorem skip_space_stop (b : Bytes) (s e : Nat) (h : e ≤ s ∨ isLWS (byteAt b s) = false) :
    skip_space b s e = s := scanWhile_stop b isLWS s e h

theorem tokenLoop_stop (b : Bytes) (e fuel s : Nat) (hs : s < e)
    (ht : isTokenChar (byteAt b s) = false) (h32 : byteAt b s ≠ 32) :
    tokenLoop b e fuel s = s := by
  cases fuel with
  | zero => rfl
  | succ n =>
    rw [tokenLoop.eq_2]
    simp only
    rw [if_pos hs, scanWhile_stop b isTokenChar s e (Or.inr ht), if_pos ⟨hs, h32⟩]

/-- `sip_skip_display` stays where it is at an octet that is neither white space, nor a
quote, nor part of a token. -/
theorem skip_display_stop (b : Bytes) (s e : Nat) (hs : s < e)
    (hl : isLWS (byteAt b s) = false) (hq : byteAt b s ≠ 34)
    (ht : isTokenChar (byteAt b s) = false) :
    skip_display b s e = s := by
  have h32 : byteAt b s ≠ 32 := by
    intro h; rw [h] at hl; exact absurd hl (by decide)
  unfold skip_display
  simp only
  rw [skip_space_stop b s e (Or.inr hl), if_neg (fun h => hq h.2),
    tokenLoop_stop b e _ s hs ht h32, skip_space_stop b s e (Or.inr hl)]

theorem tolower_eq_cases (x y : Nat) (h : tolower x = y) : x = y ∨ (x + 32 = y ∧ 65 ≤ x ∧ x ≤ 90) := by
  unfold tolower at h
  split at h
  · rename_i hu
    simp only [isupper, Bool.and_eq_true, decide_eq_true_eq] at hu
    right; exact ⟨h, hu.1, hu.2⟩
  · left; exact h

/-- A field name that reads "tag" in some letter case. -/
theorem tag_case_variant (l : Bytes) (h : l.map tolower = [116, 97, 103]) :
    ∃ a b c, l = [a, b, c] ∧ tolower a = 116 ∧ tolower b = 97 ∧ tolower c = 103
      ∧ (a = 116 ∨ a = 84) ∧ (b = 97 ∨ b = 65) ∧ (c = 103 ∨ c = 71) := by
  have hl : l.length = 3 := by
    have := congrArg List.length h
    simpa using this
  obtain ⟨a, b, c, rfl⟩ := List.length_eq_three.mp hl
  simp only [List.map_cons, List.map_nil, List.cons.injEq, and_true] at h
  obtain ⟨ha, hb, hc⟩ := h
  refine ⟨a, b, c, rfl, ha, hb, hc, ?_, ?_, ?_⟩
  · rcases tolower_eq_cases _ _ ha with h | h
    · left; exact h
    · right; omega
  · rcases tolower_eq_cases _ _ hb with h | h
    · left; exact h
    · right; omega
  · rcases tolower_eq_cases _ _ hc with h | h
    · left; exact h
    · right; omega



/-! ## Facts about the bounds of scans -/

theorem scanWhile_ge' (b : Bytes) (P : Nat → Bool) (p e : Nat) : p ≤ scanWhile b P p e :=
  scanWhile_ge b P e (e - p) p rfl

theorem scanWhile_le' (b : Bytes) (P : Nat → Bool) (p e : Nat) (h : p ≤ e) :
    scanWhile b P p e ≤ e :=
  scanWhile_le b P e (e - p) p rfl h

/-- A forward scan does not cross an octet that it rejects. -/
theorem scanWhile_le_stop (b : Bytes) (P : Nat → Bool) (e c : Nat)
    (hc : c = e ∨ P (byteAt b c) = false) :
    ∀ (n p : Nat), n = c - p → p ≤ c → scanWhile b P p e ≤ c := by
  intro n
  induction n with
  | zero =>
    intro p hn hp
    have hpc : p = c := by omega
    subst hpc
    rw [scanWhile_stop b P p e (hc.imp (fun h => by omega) id)]
  | succ n ih =>
    intro p hn hp
    rw [scanWhile_step]
    split
    · exact ih (p + 1) (by omega) (by omega)
    · exact hp

theorem scanBack_bounds (b : Bytes) (P : Nat → Bool) (s : Nat) :
    ∀ (n q : Nat), n = q - s → s ≤ q → s ≤ scanBack b P s q ∧ scanBack b P s q ≤ q := by
  intro n
  induction n with
  | zero =>
    intro q hn hq
    rw [scanBack_step, if_neg (fun h => by omega)]
    exact ⟨hq, Nat.le_refl _⟩
  | succ n ih =>
    intro q hn hq
    rw [scanBack_step]
    split
    · have := ih (q - 1) (by omega) (by omega)
      exact ⟨this.1, by omega⟩
    · exact ⟨hq, Nat.le_refl _⟩

/-- From a position `p` before `c` (the end of the range or a ','), with no '<' between
`p` and `c`, whatever `sip_find_semi` finds lies between `p` and `c`. -/
theorem find_semi_loop_bounds (b : Bytes) (e : Nat) (tag : Bytes) (c : Nat) (hce : c ≤ e)
    (hc : c = e ∨ byteAt b c = 44) :
    ∀ (fuel p : Nat), p ≤ c → (∀ i, p ≤ i → i < c → byteAt b i ≠ 60) →
      ∀ st en, find_semi_loop b e tag fuel p = some (st, en) → p ≤ st ∧ st ≤ en ∧ en ≤ c := by
  intro fuel
  induction fuel with
  | zero => intro p _ _ st en h; simp [find_semi_loop] at h
  | succ n ih =>
    intro p hpc hno st en h
    rw [find_semi_loop.eq_2] at h
    simp only at h
    by_cases hpe : p < e
    · rw [if_pos hpe] at h
      have hc44 : ∀ x, x ≤ c → x < e → byteAt b x ≠ 44 → x < c := by
        intro x hx hxe h44
        rcases hc with h1 | h1
        · omega
        · rcases Nat.lt_or_ge x c with h2 | h2
          · exact h2
          · have : x = c := by omega
            subst this; exact absurd h1 h44
      have h60 : byteAt b p ≠ 60 := by
        intro h6
        have : p < c := hc44 p hpc hpe (by rw [h6]; decide)
        exact hno p (Nat.le_refl _) this h6
      rw [if_neg h60] at h
      by_cases h32 : byteAt b p ≤ 32
      · rw [if_pos h32] at h
        have hplt : p < c := hc44 p hpc hpe (by omega)
        have := ih (p + 1) hplt (fun i hi hic => hno i (by omega) hic) st en h
        exact ⟨by omega, this.2⟩
      · rw [if_neg h32] at h
        generalize hs1 : scanWhile b (fun c => decide (32 < c) && c != 61 && c != 59 && c != 44)
          p e = s1 at h
        have hs1ge : p ≤ s1 := by rw [← hs1]; exact scanWhile_ge' _ _ _ _
        have hs1le : s1 ≤ c := by
          rw [← hs1]
          exact scanWhile_le_stop b _ e c (hc.imp id (fun h => by rw [h]; rfl)) (c - p) p rfl hpc
        split at h
        · split at h
          · simp only [Option.some.injEq, Prod.mk.injEq] at h
            omega
          · rename_i hv
            have hv1 : s1 ≠ e ∧ byteAt b s1 = 61 := by
              constructor
              · intro h1; exact hv (Or.inl h1)
              · by_contra h1; exact hv (Or.inr h1)
            have hs1lt : s1 < c :=
              hc44 s1 hs1le (by have := Nat.le_trans hs1le hce; omega) (by rw [hv1.2]; decide)
            have hq1ge := scanWhile_ge' b (fun c => c != 59 && c != 44) (s1 + 1) e
            have hq1le : scanWhile b (fun c => c != 59 && c != 44) (s1 + 1) e ≤ c :=
              scanWhile_le_stop b _ e c (hc.imp id (fun h => by rw [h]; rfl)) (c - (s1 + 1))
                (s1 + 1) rfl hs1lt
            have hq2 := scanBack_bounds b isSPHT (s1 + 1) _ _ rfl hq1ge
            simp only [Option.some.injEq, Prod.mk.injEq] at h
            omega
        · generalize hs2 : scanWhile b (fun c => c != 59 && c != 44) s1 e = s2 at h
          have hs2ge : s1 ≤ s2 := by rw [← hs2]; exact scanWhile_ge' _ _ _ _
          have hs2le : s2 ≤ c := by
            rw [← hs2]
            exact scanWhile_le_stop b _ e c (hc.imp id (fun h => by rw [h]; rfl)) (c - s1) s1
              rfl hs1le
          split at h
          · exact absurd h (by simp)
          · rename_i hcomma
            have hp' : (if s2 < e then s2 + 1 else s2) ≤ c := by
              split
              · rename_i h2e
                have : byteAt b s2 ≠ 44 := fun h44 => hcomma ⟨h2e, h44⟩
                exact hc44 s2 hs2le h2e this
              · exact hs2le
            have hp'ge : p ≤ (if s2 < e then s2 + 1 else s2) := by
              split <;> omega
            have := ih _ hp' (fun i hi hic => hno i (by omega) hic) st en h
            exact ⟨by omega, this.2⟩
    · rw [if_neg hpe] at h; exact absurd h (by simp)


theorem byteAt_mem_of_drop {b : Bytes} {p : Nat} (m t : Bytes) (h : b.drop p = m ++ t)
    (i : Nat) (hpi : p ≤ i) (him : i < p + m.length) : byteAt b i ∈ m := by
  have h1 : (b.drop p)[i - p]? = m[i - p]? := by
    rw [h, List.getElem?_append_left (by omega)]
  rw [List.getElem?_drop] at h1
  have h2 : p + (i - p) = i := by omega
  rw [h2] at h1
  have hlt : i - p < m.length := by omega
  have h3 : m[i - p]? = some m[i - p] := List.getElem?_eq_getElem hlt
  unfold byteAt
  rw [List.getD_eq_getElem?_getD, h1, h3]
  exact List.getElem_mem _

/-! ## Facts about character classes -/

theorem isalpha_range {c : Nat} (h : isalpha c = true) :
    (65 ≤ c ∧ c ≤ 90) ∨ (97 ≤ c ∧ c ≤ 122) := by
  simpa [isalpha, isupper, islower] using h

theorem isdigit_range {c : Nat} (h : isdigit c = true) : 48 ≤ c ∧ c ≤ 57 := by
  simpa [isdigit] using h

theorem isHostChar_range {c : Nat} (h : isHostChar c = true) :
    (65 ≤ c ∧ c ≤ 90) ∨ (97 ≤ c ∧ c ≤ 122) ∨ (48 ≤ c ∧ c ≤ 57) ∨ c = 46 ∨ c = 45 := by
  simp only [isHostChar, Bool.or_eq_true, beq_iff_eq] at h
  rcases h with ((h | h) | h) | h
  · rcases isalpha_range h with h | h
    · exact Or.inl h
    · exact Or.inr (Or.inl h)
  · exact Or.inr (Or.inr (Or.inl (isdigit_range h)))
  · exact Or.inr (Or.inr (Or.inr (Or.inl h)))
  · exact Or.inr (Or.inr (Or.inr (Or.inr h)))

theorem isTokenChar_of_isalpha {c : Nat} (h : isalpha c = true) : isTokenChar c = true := by
  simp [isTokenChar, h]

theorem ne_of_bne {c k : Nat} (h : c ≠ k) : (c != k) = true := by simpa using h

/-- The token loop of `sip_skip_display` leaves a token that is not followed by a space. -/
theorem tokenLoop_break (b : Bytes) (e fuel s p : Nat) (hs : s < e)
    (hscan : scanWhile b isTokenChar s e = p) (hp : p < e) (h32 : byteAt b p ≠ 32) :
    tokenLoop b e fuel s = s := by
  cases fuel with
  | zero => rfl
  | succ n =>
    rw [tokenLoop.eq_2]
    simp only
    rw [if_pos hs, hscan, if_pos ⟨hp, h32⟩]

/-! ## Facts about display names -/

theorem isTokenChar_not_LWS {c : Nat} (h : isTokenChar c = true) :
    isLWS c = false ∧ c ≠ 34 ∧ c ≠ 60 ∧ c ≠ 44 ∧ c ≠ 32 := by
  have hr : (65 ≤ c ∧ c ≤ 90) ∨ (97 ≤ c ∧ c ≤ 122) ∨ (48 ≤ c ∧ c ≤ 57) ∨ c = 45 ∨ c = 46
      ∨ c = 33 ∨ c = 37 ∨ c = 42 ∨ c = 95 ∨ c = 43 ∨ c = 96 ∨ c = 39 ∨ c = 126 := by
    simp only [isTokenChar, isalpha, isupper, islower, isdigit, Bool.or_eq_true,
      Bool.and_eq_true, decide_eq_true_eq, beq_iff_eq] at h
    omega
  refine ⟨?_, by omega, by omega, by omega, by omega⟩
  simp only [isLWS, Bool.or_eq_false_iff, beq_eq_false_iff_ne]
  omega

/-- The quoted-string loop of `sip_skip_display` runs to the closing quote. -/
theorem quotedLoop_body (b : Bytes) (e : Nat) (t : Bytes) (body : Bytes) (hq : QuotedBody body) :
    ∀ (p fuel : Nat), b.drop p = body ++ 34 :: t → p + body.length < e →
      body.length ≤ fuel → quotedLoop b e fuel p = p + body.length := by
  induction hq with
  | nil =>
    intro p fuel hd _ _
    have hb : byteAt b p = 34 := byteAt_of_drop (by simpa using hd)
    cases fuel with
    | zero => rfl
    | succ n =>
      have hn : ¬ (p < e ∧ byteAt b p ≠ 34) := fun h => h.2 hb
      rw [quotedLoop.eq_2, if_neg hn]; rfl
  | plain c r hc34 hc92 _ ih =>
    intro p fuel hd hlt hfuel
    simp only [List.length_cons] at hlt hfuel
    have hb : byteAt b p = c := byteAt_of_drop (t := r ++ 34 :: t) (by simpa using hd)
    have hd1 : b.drop (p + 1) = r ++ 34 :: t := drop_succ_of_drop (c := c) (by simpa using hd)
    obtain ⟨n, rfl⟩ : ∃ n, fuel = n + 1 := ⟨fuel - 1, by omega⟩
    have hy : p < e ∧ byteAt b p ≠ 34 := ⟨by omega, by rw [hb]; exact hc34⟩
    have hn : ¬ (byteAt b p = 92 ∧ p + 1 < e) := fun h => hc92 (hb ▸ h.1)
    rw [quotedLoop.eq_2, if_pos hy]
    simp only
    rw [if_neg hn, ih (p + 1) n hd1 (by omega) (by omega)]
    simp only [List.length_cons]; omega
  | escaped x r _ ih =>
    intro p fuel hd hlt hfuel
    simp only [List.length_cons] at hlt hfuel
    have hb : byteAt b p = 92 := byteAt_of_drop (t := x :: (r ++ 34 :: t)) (by simpa using hd)
    have hd1 : b.drop (p + 1 + 1) = r ++ 34 :: t :=
      drop_succ_of_drop (c := x) (drop_succ_of_drop (c := 92) (by simpa using hd))
    obtain ⟨n, rfl⟩ : ∃ n, fuel = n + 1 := ⟨fuel - 1, by omega⟩
    have hy : p < e ∧ byteAt b p ≠ 34 := ⟨by omega, by rw [hb]; decide⟩
    have hn : byteAt b p = 92 ∧ p + 1 < e := ⟨hb, by omega⟩
    rw [quotedLoop.eq_2, if_pos hy]
    simp only
    rw [if_pos hn, ih (p + 1 + 1) n hd1 (by omega) (by omega)]
    simp only [List.length_cons]; omega


theorem renderTokens_head_not_LWS (toks : List (Bytes × Bytes)) (c : Nat) (t : Bytes)
    (htoks : ∀ tw ∈ toks, tw.1 ≠ [] ∧ (∀ c ∈ tw.1, isTokenChar c = true)
      ∧ ∀ c ∈ tw.2, isLWS c = true)
    (hc : isLWS c = false) : isLWS ((renderTokens toks ++ c :: t).headD 0) = false := by
  cases toks with
  | nil => simpa [renderTokens] using hc
  | cons tw r =>
    obtain ⟨hne, htok, _⟩ := htoks tw (List.mem_cons_self _ _)
    cases htw : tw.1 with
    | nil => exact absurd htw hne
    | cons x xs =>
      have : isTokenChar x = true := htok x (by rw [htw]; exact List.mem_cons_self _ _)
      simpa [renderTokens, htw] using (isTokenChar_not_LWS this).1

/-- The token loop of `sip_skip_display` skips a run of tokens that are each followed by
a space, up to an octet that is neither white space nor part of a token. -/
theorem tokenLoop_run (b : Bytes) (e : Nat) (c : Nat) (t : Bytes)
    (hcl : isLWS c = false) (hct : isTokenChar c = false) :
    ∀ (toks : List (Bytes × Bytes)) (p fuel : Nat),
      (∀ tw ∈ toks, tw.1 ≠ [] ∧ (∀ c ∈ tw.1, isTokenChar c = true)
        ∧ ∀ c ∈ tw.2, isLWS c = true) →
      b.drop p = renderTokens toks ++ c :: t → p + (renderTokens toks).length < e →
      toks.length < fuel → tokenLoop b e fuel p = p + (renderTokens toks).length := by
  have hc32 : c ≠ 32 := by
    intro h; rw [h] at hcl; exact absurd hcl (by decide)
  intro toks
  induction toks with
  | nil =>
    intro p fuel _ hd hlt _
    simp only [renderTokens, List.nil_append, List.length_nil, Nat.add_zero] at hd hlt ⊢
    have hb : byteAt b p = c := byteAt_of_drop hd
    exact tokenLoop_break b e fuel p p hlt
      (scanWhile_stop b isTokenChar p e (Or.inr (by rw [hb]; exact hct))) hlt
      (by rw [hb]; exact hc32)
  | cons tw r ih =>
    intro p fuel htoks hd hlt hfuel
    obtain ⟨hne, htok, hws⟩ := htoks tw (List.mem_cons_self _ _)
    have hr := fun x hx => htoks x (List.mem_cons_of_mem _ hx)
    simp only [renderTokens, List.length_append, List.length_cons] at hd hlt ⊢
    simp only [List.length_cons] at hfuel
    obtain ⟨n, rfl⟩ : ∃ n, fuel = n + 1 := ⟨fuel - 1, by omega⟩
    have hd0 : b.drop p = tw.1 ++ 32 :: (tw.2 ++ (renderTokens r ++ c :: t)) := by
      rw [hd]; simp
    have hd1 : b.drop (p + tw.1.length) = (32 :: tw.2) ++ (renderTokens r ++ c :: t) := by
      have := drop_add_of_drop _ _ hd0
      simpa using this
    have hscan : scanWhile b isTokenChar p e = p + tw.1.length :=
      scanWhile_run b isTokenChar e _ tw.1 p hd0 htok (by omega) (Or.inr rfl)
    have hb1 : byteAt b (p + tw.1.length) = 32 := byteAt_of_drop (by simpa using hd1)
    have hskip : skip_space b (p + tw.1.length) e = p + tw.1.length + (tw.2.length + 1) := by
      have := scanWhile_run b isLWS e (renderTokens r ++ c :: t) (32 :: tw.2)
        (p + tw.1.length) hd1
        (fun x hx => by
          rcases List.mem_cons.mp hx with h | h
          · subst h; decide
          · exact hws x h)
        (by simp only [List.length_cons]; omega)
        (Or.inr (renderTokens_head_not_LWS r c t hr hcl))
      simpa [skip_space] using this
    have hd2 : b.drop (p + tw.1.length + (tw.2.length + 1)) = renderTokens r ++ c :: t := by
      have := drop_add_of_drop _ _ hd1
      simpa using this
    have hn : ¬ (p + tw.1.length < e ∧ byteAt b (p + tw.1.length) ≠ 32) := fun h => h.2 hb1
    have hp : p < e := by omega
    have hp2 : p + tw.1.length + (tw.2.length + 1) < e := by omega
    rw [tokenLoop.eq_2]
    simp only
    rw [if_pos hp, hscan, if_neg hn, hskip, if_pos hp2, ih _ n hr hd2 (by omega) (by omega)]
    omega

/-- `sip_skip_display` skips white space and a display name that is followed by an octet
that is neither white space, nor a quote, nor part of a token. -/
theorem skip_display_display (b : Bytes) (e s : Nat) (ws disp : Bytes) (c : Nat) (t : Bytes)
    (hws : ∀ x ∈ ws, isLWS x = true) (hdisp : Display disp)
    (hcl : isLWS c = false) (hct : isTokenChar c = false) (hcq : c ≠ 34)
    (hd : b.drop s = ws ++ (disp ++ c :: t)) (hlt : s + ws.length + disp.length < e) :
    skip_display b s e = s + ws.length + disp.length := by
  have hstopc : ∀ p, b.drop p = c :: t → skip_space b p e = p := fun p hp =>
    skip_space_stop b p e (Or.inr (by rw [byteAt_of_drop hp]; exact hcl))
  have hd1 : b.drop (s + ws.length) = disp ++ c :: t := drop_add_of_drop _ _ hd
  have hd2 : b.drop (s + ws.length + disp.length) = c :: t := drop_add_of_drop _ _ hd1
  cases hdisp with
  | quoted body w2 hq hw2 =>
    simp only [List.length_cons, List.length_append] at hlt hd2 ⊢
    have hskip0 : skip_space b s e = s + ws.length :=
      scanWhile_run b isLWS e _ ws s hd hws (by omega) (Or.inr rfl)
    have hb1 : byteAt b (s + ws.length) = 34 := byteAt_of_drop (by simpa using hd1)
    have hd3 : b.drop (s + ws.length + 1) = body ++ 34 :: (w2 ++ c :: t) := by
      have := drop_succ_of_drop (c := 34) (t := body ++ 34 :: (w2 ++ c :: t))
        (by simpa using hd1)
      exact this
    have hloop : quotedLoop b e (e - (s + ws.length + 1)) (s + ws.length + 1)
        = s + ws.length + 1 + body.length :=
      quotedLoop_body b e _ body hq _ _ hd3 (by omega) (by omega)
    have hd4 : b.drop (s + ws.length + 1 + body.length + 1) = w2 ++ c :: t := by
      have := drop_add_of_drop _ _ hd3
      exact drop_succ_of_drop this
    have hskip1 : skip_space b (s + ws.length + 1 + body.length + 1) e
        = s + ws.length + 1 + body.length + 1 + w2.length :=
      scanWhile_run b isLWS e _ w2 _ hd4 hw2 (by omega)
        (Or.inr (by simpa using hcl))
    have hy : s + ws.length < e ∧ byteAt b (s + ws.length) = 34 := ⟨by omega, hb1⟩
    have hy2 : s + ws.length + 1 + body.length < e := by omega
    unfold skip_display
    simp only
    rw [hskip0, if_pos hy, hloop, if_pos hy2, hskip1]
    omega
  | tokens toks htoks =>
    have hskip0 : skip_space b s e = s + ws.length :=
      scanWhile_run b isLWS e _ ws s hd hws (by omega)
        (Or.inr (renderTokens_head_not_LWS toks c t htoks hcl))
    have hb1 : byteAt b (s + ws.length) ≠ 34 := by
      rw [byteAt_eq_headD, hd1]
      cases toks with
      | nil => simpa [renderTokens] using hcq
      | cons tw r =>
        obtain ⟨hne, htok, _⟩ := htoks tw (List.mem_cons_self _ _)
        cases htw : tw.1 with
        | nil => exact absurd htw hne
        | cons x xs =>
          have : isTokenChar x = true := htok x (by rw [htw]; exact List.mem_cons_self _ _)
          simpa [renderTokens, htw] using (isTokenChar_not_LWS this).2.1
    have hloop : tokenLoop b e (e - (s + ws.length)) (s + ws.length)
        = s + ws.length + (renderTokens toks).length :=
      tokenLoop_run b e c t hcl hct toks _ _ htoks hd1 hlt (by
        have : toks.length ≤ (renderTokens toks).length := by
          clear htoks hd hlt hd1 hd2 hskip0 hb1
          induction toks with
          | nil => simp
          | cons tw r ih => simp only [renderTokens, List.length_cons, List.length_append]; omega
        omega)
    have hn : ¬ (s + ws.length < e ∧ byteAt b (s + ws.length) = 34) := fun h => hb1 h.2
    unfold skip_display
    simp only
    rw [hskip0, if_neg hn, hloop, hstopc _ hd2]


/-- The token loop of `sip_skip_display` leaves a token that runs to the end of the range. -/
theorem tokenLoop_last (b : Bytes) (e fuel s p : Nat)
    (hscan : scanWhile b isTokenChar s e = p) (hp : e ≤ p) :
    tokenLoop b e fuel s = s := by
  cases fuel with
  | zero => rfl
  | succ n =>
    rw [tokenLoop.eq_2]
    simp only
    split
    · have hn : ¬ (p < e ∧ byteAt b p ≠ 32) := fun h => by omega
      have hn2 : ¬ p < e := by omega
      rw [hscan, if_neg hn, skip_space_stop b p e (Or.inl hp), if_neg hn2]
    · rfl

/-- `sip_skip_display` skips only the white space before a value that does not begin
with a display name. -/
theorem skip_display_plain (b : Bytes) (e s : Nat) (ws w tail post : Bytes)
    (hws : ∀ x ∈ ws, isLWS x = true) (hw : w ≠ [])
    (hhead : ∀ c, w.head? = some c → isLWS c = false ∧ c ≠ 34 ∧ c ≠ 60)
    (htok : (w.dropWhile isTokenChar).head? ≠ some 32)
    (htail : tail = [] ∨ ∃ t, tail = 44 :: t)
    (hd : b.drop s = ws ++ (w ++ (tail ++ post)))
    (he : e = s + ws.length + w.length + tail.length) :
    skip_display b s e = s + ws.length := by
  obtain ⟨w0, wr, hw0⟩ : ∃ w0 wr, w = w0 :: wr := by
    cases hc : w with
    | nil => exact absurd hc hw
    | cons w0 wr => exact ⟨w0, wr, rfl⟩
  have hh := hhead w0 (by rw [hw0]; rfl)
  have hwl : w.length = wr.length + 1 := by rw [hw0]; rfl
  have hd1 : b.drop (s + ws.length) = w ++ (tail ++ post) := drop_add_of_drop _ _ hd
  have hb1 : byteAt b (s + ws.length) = w0 := byteAt_of_drop (by rw [hd1, hw0]; rfl)
  have hskip0 : skip_space b s e = s + ws.length :=
    scanWhile_run b isLWS e _ ws s hd hws (by omega)
      (Or.inr (by rw [hw0]; exact hh.1))
  have hskip1 : skip_space b (s + ws.length) e = s + ws.length :=
    skip_space_stop b _ e (Or.inr (by rw [hb1]; exact hh.1))
  have hsplit : w = w.takeWhile isTokenChar ++ w.dropWhile isTokenChar :=
    (List.takeWhile_append_dropWhile isTokenChar w).symm
  have hlen : w.length = (w.takeWhile isTokenChar).length + (w.dropWhile isTokenChar).length := by
    conv_lhs => rw [hsplit]
    exact List.length_append _ _
  have hd2 : b.drop (s + ws.length)
      = w.takeWhile isTokenChar ++ (w.dropWhile isTokenChar ++ (tail ++ post)) := by
    rw [hd1, ← List.append_assoc (w.takeWhile isTokenChar), List.takeWhile_append_dropWhile]
  have hd3 : b.drop (s + ws.length + (w.takeWhile isTokenChar).length)
      = w.dropWhile isTokenChar ++ (tail ++ post) := drop_add_of_drop _ _ hd2
  have hloop : tokenLoop b e (e - (s + ws.length)) (s + ws.length) = s + ws.length := by
    cases hr : w.dropWhile isTokenChar with
    | nil =>
      rw [hr] at hd2 hd3 hlen
      simp only [List.length_nil, Nat.add_zero, List.nil_append] at hlen hd3
      rcases htail with ht | ⟨t, ht⟩
      · have hscan : scanWhile b isTokenChar (s + ws.length) e
            = s + ws.length + (w.takeWhile isTokenChar).length :=
          scanWhile_run b isTokenChar e _ _ _ hd2
            (fun x hx => (List.mem_takeWhile_imp hx)) (by omega)
            (Or.inl (by rw [ht] at he; simp only [List.length_nil] at he; omega))
        exact tokenLoop_last b e _ _ _ hscan
          (by rw [ht] at he; simp only [List.length_nil] at he; omega)
      · have hscan : scanWhile b isTokenChar (s + ws.length) e
            = s + ws.length + (w.takeWhile isTokenChar).length :=
          scanWhile_run b isTokenChar e _ _ _ hd2
            (fun x hx => (List.mem_takeWhile_imp hx)) (by omega)
            (Or.inr (by rw [ht]; rfl))
        have hlt : s + ws.length + (w.takeWhile isTokenChar).length < e := by
          rw [ht] at he; simp only [List.length_cons] at he; omega
        exact tokenLoop_break b e _ _ _ (by omega) hscan hlt
          (by rw [byteAt_of_drop (by rw [hd3, ht]; rfl)]; decide)
    | cons c r =>
      rw [hr] at hd2 hd3 hlen htok
      have hcn : isTokenChar c = false := by
        have := List.head_dropWhile_not isTokenChar w (by rw [hr]; simp)
        simpa [hr] using this
      have hscan : scanWhile b isTokenChar (s + ws.length) e
          = s + ws.length + (w.takeWhile isTokenChar).length :=
        scanWhile_run b isTokenChar e _ _ _ hd2
          (fun x hx => (List.mem_takeWhile_imp hx)) (by simp only [List.length_cons] at hlen; omega)
          (Or.inr (by simpa using hcn))
      have hlt : s + ws.length + (w.takeWhile isTokenChar).length < e := by
        simp only [List.length_cons] at hlen; omega
      have hc32 : c ≠ 32 := fun h => htok (by rw [h]; rfl)
      exact tokenLoop_break b e _ _ _ (by omega) hscan hlt
        (by rw [byteAt_of_drop (by rw [hd3]; rfl)]; exact hc32)
  have hn : ¬ (s + ws.length < e ∧ byteAt b (s + ws.length) = 34) :=
    fun h => hh.2.1 (hb1 ▸ h.2)
  unfold skip_display
  simp only
  rw [hskip0, if_neg hn, hloop, hskip1]

/-! ## Facts about `sip_find_header` on a message -/

theorem isText_not_crlf {c : Nat} (h : isText c = true) : c ≠ 13 ∧ c ≠ 10 := by
  simp only [isText, Bool.or_eq_true, beq_iff_eq, decide_eq_true_eq] at h
  omega

theorem isSPHT_isText {c : Nat} (h : isSPHT c = true) : isText c = true := by
  simp only [isSPHT, Bool.or_eq_true, beq_iff_eq] at h
  rcases h with h | h <;> subst h <;> decide

/-- One pass of the line skip over a line of text that ends in CR LF. -/
theorem skipLine_line (b : Bytes) (e p : Nat) (line rest : Bytes)
    (hline : ∀ c ∈ line, isText c = true)
    (hd : b.drop p = line ++ 13 :: 10 :: rest) (he : p + line.length + 2 ≤ e) :
    skipLine b e p = p + line.length + 2 := by
  have hscan : scanWhile b (fun c => c == 9 || decide (32 ≤ c)) p e = p + line.length :=
    scanWhile_run b _ e _ line p hd hline (by omega) (Or.inr rfl)
  have hd1 : b.drop (p + line.length) = 13 :: 10 :: rest := drop_add_of_drop _ _ hd
  have hb1 : byteAt b (p + line.length) = 13 := byteAt_of_drop hd1
  have hb2 : byteAt b (p + line.length + 1) = 10 := byteAt_of_drop (drop_succ_of_drop hd1)
  have h1 : p + line.length < e ∧ byteAt b (p + line.length) = 13 := ⟨by omega, hb1⟩
  have h2 : p + line.length + 1 < e ∧ byteAt b (p + line.length + 1) = 10 := ⟨by omega, hb2⟩
  unfold skipLine
  simp only
  rw [hscan, if_pos h1, if_pos h2]

theorem foldedText_length (first : Bytes) (conts : List Bytes) :
    conts.length ≤ (foldedText first conts).length := by
  induction conts generalizing first with
  | nil => simp
  | cons l ls ih =>
    have := ih l
    simp only [foldedText, List.length_append, List.length_cons]
    omega

/-- The header skip runs over a line and its continuation lines, to the octet after the
CR LF of the last of them. -/
theorem skipHeaderFuel_folded (b : Bytes) (e : Nat) (rest : Bytes)
    (hrest : isSPHT (rest.headD 0) = false) :
    ∀ (conts : List Bytes) (first : Bytes) (p fuel : Nat), FoldedOk first conts →
      b.drop p = foldedText first conts ++ 13 :: 10 :: rest →
      p + (foldedText first conts).length + 2 < e → conts.length < fuel →
      skipHeaderFuel b e fuel p = p + (foldedText first conts).length + 2 := by
  intro conts
  induction conts with
  | nil =>
    intro first p fuel hok hd he hfuel
    simp only [foldedText] at hd he ⊢
    obtain ⟨n, rfl⟩ : ∃ n, fuel = n + 1 := ⟨fuel - 1, by omega⟩
    have hl := skipLine_line b e p first rest hok.1 hd (by omega)
    have hdr : b.drop (p + first.length + 2) = rest := by
      have := drop_add_of_drop _ _ hd
      exact drop_succ_of_drop (drop_succ_of_drop this)
    have hbr : byteAt b (p + first.length + 2) = rest.headD 0 := by
      rw [byteAt_eq_headD, hdr]
    have hstop : p + first.length + 2 = e
        ∨ (byteAt b (p + first.length + 2) ≠ 32 ∧ byteAt b (p + first.length + 2) ≠ 9) := by
      right
      rw [hbr]
      simp only [isSPHT, Bool.or_eq_false_iff, beq_eq_false_iff_ne] at hrest
      exact ⟨hrest.2, hrest.1⟩
    have hp : p < e := by omega
    rw [skipHeaderFuel.eq_2, if_pos hp]
    simp only
    rw [hl, if_pos hstop]
  | cons l ls ih =>
    intro first p fuel hok hd he hfuel
    simp only [foldedText, List.length_append, List.length_cons] at hd he ⊢
    simp only [List.length_cons] at hfuel
    obtain ⟨n, rfl⟩ : ∃ n, fuel = n + 1 := ⟨fuel - 1, by omega⟩
    have hd0 : b.drop p = first ++ 13 :: 10 :: (foldedText l ls ++ 13 :: 10 :: rest) := by
      rw [hd]; simp
    have hl := skipLine_line b e p first _ hok.1 hd0 (by omega)
    have hdr : b.drop (p + first.length + 2) = foldedText l ls ++ 13 :: 10 :: rest := by
      have := drop_add_of_drop _ _ hd0
      exact drop_succ_of_drop (drop_succ_of_drop this)
    have hlok := hok.2 l (List.mem_cons_self _ _)
    have hbr : isSPHT (byteAt b (p + first.length + 2)) = true := by
      rw [byteAt_eq_headD, hdr]
      cases hl0 : l with
      | nil => rw [hl0] at hlok; exact absurd hlok.1 (by decide)
      | cons x xs =>
        rw [hl0] at hlok
        cases ls <;> simpa [foldedText] using hlok.1
    have hcont : ¬ (p + first.length + 2 = e
        ∨ (byteAt b (p + first.length + 2) ≠ 32 ∧ byteAt b (p + first.length + 2) ≠ 9)) := by
      simp only [isSPHT, Bool.or_eq_true, beq_iff_eq] at hbr
      intro h
      rcases h with h | h
      · omega
      · rcases hbr with h9 | h32
        · exact h.2 h9
        · exact h.1 h32
    have hok' : FoldedOk l ls :=
      ⟨hlok.2, fun x hx => hok.2 x (List.mem_cons_of_mem _ hx)⟩
    have hp : p < e := by omega
    rw [skipHeaderFuel.eq_2, if_pos hp]
    simp only
    rw [hl, if_neg hcont, ih l _ n hok' hdr (by omega) (by omega)]
    omega


theorem tolower_eq_zero {c : Nat} (h : tolower c = 0) : c = 0 := by
  unfold tolower at h
  split at h
  · omega
  · exact h

/-- `strncasecmp` over two runs of equal length, the first free of NUL: zero exactly when
the runs are equal ignoring ASCII case. -/
theorem strncasecmp_eq_zero_iff (a b : Bytes) :
    ∀ (n f : Bytes) (ai bi : Nat) (ra rb : Bytes), n.length = f.length → (∀ c ∈ n, c ≠ 0) →
      a.drop ai = n ++ ra → b.drop bi = f ++ rb →
      (strncasecmp a ai b bi f.length = 0 ↔ n.map tolower = f.map tolower) := by
  intro n
  induction n with
  | nil =>
    intro f ai bi ra rb hlen _ _ _
    have : f = [] := List.length_eq_zero.mp hlen.symm
    subst this
    simp [strncasecmp]
  | cons c n ih =>
    intro f ai bi ra rb hlen hnul hda hdb
    cases f with
    | nil => simp at hlen
    | cons d f =>
      have hba : byteAt a ai = c := byteAt_of_drop (t := n ++ ra) (by simpa using hda)
      have hbb : byteAt b bi = d := byteAt_of_drop (t := f ++ rb) (by simpa using hdb)
      have hda1 : a.drop (ai + 1) = n ++ ra := drop_succ_of_drop (c := c) (by simpa using hda)
      have hdb1 : b.drop (bi + 1) = f ++ rb := drop_succ_of_drop (c := d) (by simpa using hdb)
      have hc0 : tolower c ≠ 0 := fun h => hnul c (List.mem_cons_self _ _) (tolower_eq_zero h)
      have ih' := ih f (ai + 1) (bi + 1) ra rb (by simpa using hlen)
        (fun x hx => hnul x (List.mem_cons_of_mem _ hx)) hda1 hdb1
      simp only [List.length_cons, strncasecmp, hba, hbb, List.map_cons, List.cons.injEq]
      by_cases hcd : tolower c = tolower d
      · rw [if_neg (fun h => h hcd), if_neg hc0, ih']
        exact ⟨fun h => ⟨hcd, h⟩, fun h => h.2⟩
      · rw [if_pos hcd]
        constructor
        · intro h; exact absurd (by omega) hcd
        · intro h; exact absurd h.1 hcd

/-- The name test of `sip_find_header` and `sip_find_semi` on a field `f` of the buffer:
it holds exactly when the C string `n` equals `f` ignoring ASCII case. -/
theorem tagMatches_eq (b : Bytes) (n f rest : Bytes) (s : Nat) (hn : ∀ c ∈ n, c ≠ 0)
    (hd : b.drop s = f ++ rest) :
    tagMatches b n s (s + f.length) = decide (n.map tolower = f.map tolower) := by
  have hstr : strlen n 0 = n.length := strlen_of_drop n 0 n [] (by simp) hn rfl
  have hsub : s + f.length - s = f.length := by omega
  unfold tagMatches
  rw [hstr, hsub]
  by_cases hlen : n.length = f.length
  · have := strncasecmp_eq_zero_iff n b n f 0 s [] rest hlen hn (by simp) hd
    simp only [hlen, decide_True, Bool.true_and]
    exact decide_eq_decide.mpr this
  · have h1 : ¬ (s + n.length = s + f.length) := by omega
    have h2 : ¬ (n.map tolower = f.map tolower) := fun h => hlen (by
      have := congrArg List.length h
      simpa using this)
    simp [h1, h2]

theorem nameMatches_eq (b : Bytes) (name : Option Bytes) (f rest : Bytes) (s : Nat)
    (hn : ∀ n, name = some n → ∀ c ∈ n, c ≠ 0) (hd : b.drop s = f ++ rest) :
    nameMatches b name s (s + f.length) = nameIs name f := by
  cases name with
  | none => rfl
  | some n => exact tagMatches_eq b n f rest s (hn n rfl) hd

theorem foldedText_append (a first : Bytes) (conts : List Bytes) :
    foldedText (a ++ first) conts = a ++ foldedText first conts := by
  cases conts <;> simp [foldedText]

theorem render_length (h : HeaderLine) :
    h.render.length = h.name.length + h.pad.length + 1 + h.lws.length + h.value.length + 2 := by
  simp only [HeaderLine.render, List.length_append, List.length_cons, List.length_nil]
  omega


theorem skipHeader_folded (b : Bytes) (e : Nat) (rest : Bytes)
    (hrest : isSPHT (rest.headD 0) = false) (conts : List Bytes) (first : Bytes) (p : Nat)
    (hok : FoldedOk first conts)
    (hd : b.drop p = foldedText first conts ++ 13 :: 10 :: rest)
    (he : p + (foldedText first conts).length + 2 < e) :
    skipHeader b e p = p + (foldedText first conts).length + 2 :=
  skipHeaderFuel_folded b e rest hrest conts first p (e - p) hok hd he (by
    have := foldedText_length first conts
    omega)

theorem isNameChar_facts {c : Nat} (h : isNameChar c = true) :
    isSPHT c = false ∧ c ≠ 13 ∧ c ≠ 10 ∧ c ≠ 58 := by
  simp only [isNameChar, Bool.and_eq_true, decide_eq_true_eq, bne_iff_ne] at h
  refine ⟨?_, by omega, by omega, h.2⟩
  simp only [isSPHT, Bool.or_eq_false_iff, beq_eq_false_iff_ne]
  omega

theorem render_head_not_SPHT (h : HeaderLine) (hok : h.Ok) (rest : Bytes) :
    isSPHT ((h.render ++ rest).headD 0) = false := by
  obtain ⟨hne, hname, _⟩ := hok
  cases hn : h.name with
  | nil => exact absurd hn hne
  | cons x xs =>
    have := (isNameChar_facts (hname x (by rw [hn]; exact List.mem_cons_self _ _))).1
    simpa [HeaderLine.render, hn] using this

/-- The search loop of `sip_find_header`, started inside a line that is followed by the
header lines `hs` and the empty line: it stops at the colon of the first header line
asked for, and returns `NULL` at the empty line when there is none. -/
theorem find_header_loop_run (b : Bytes) (e : Nat) (head alt : Option Bytes) (tail : Bytes)
    (hhead : ∀ n, head = some n → ∀ c ∈ n, c ≠ 0)
    (halt : ∀ n, alt = some n → ∀ c ∈ n, c ≠ 0) :
    ∀ (hs : List HeaderLine) (first : Bytes) (conts : List Bytes) (p fuel : Nat),
      (∀ h ∈ hs, h.Ok) → FoldedOk first conts →
      b.drop p = foldedText first conts ++ 13 :: 10 :: (renderHeaders hs ++ 13 :: 10 :: tail) →
      p + (foldedText first conts).length + 2 + (renderHeaders hs).length + 2 ≤ e →
      hs.length < fuel →
      find_header_loop b e head alt fuel p
        = colonOfWanted head alt hs (p + (foldedText first conts).length + 2) := by
  intro hs
  induction hs with
  | nil =>
    intro first conts p fuel _ hfold hd he hfuel
    simp only [renderHeaders, List.nil_append, List.length_nil, Nat.add_zero] at hd he
    obtain ⟨n, rfl⟩ : ∃ n, fuel = n + 1 := ⟨fuel - 1, by omega⟩
    have hskip := skipHeader_folded b e (13 :: 10 :: tail) rfl conts first p hfold hd
      (by omega)
    have hb : byteAt b (p + (foldedText first conts).length + 2) = 13 := by
      have := drop_add_of_drop _ _ hd
      exact byteAt_of_drop (drop_succ_of_drop (drop_succ_of_drop this))
    have hp : p < e := by omega
    have hend : p + (foldedText first conts).length + 2 = e
        ∨ byteAt b (p + (foldedText first conts).length + 2) = 13
        ∨ byteAt b (p + (foldedText first conts).length + 2) = 10 := Or.inr (Or.inl hb)
    rw [find_header_loop.eq_2, if_pos hp]
    simp only
    rw [hskip, if_pos hend]
    rfl
  | cons h hs ih =>
    intro first conts p fuel hok hfold hd he hfuel
    have hhok := hok h (List.mem_cons_self _ _)
    obtain ⟨hne, hname, hpad, hlws, hfirst, hvok⟩ := hhok
    simp only [List.length_cons] at hfuel
    simp only [renderHeaders, List.length_append] at hd he
    have hrl := render_length h
    obtain ⟨n, rfl⟩ : ∃ n, fuel = n + 1 := ⟨fuel - 1, by omega⟩
    obtain ⟨q0, hq0⟩ : ∃ q0, q0 = p + (foldedText first conts).length + 2 := ⟨_, rfl⟩
    have hd' : b.drop p = foldedText first conts
        ++ 13 :: 10 :: (h.render ++ (renderHeaders hs ++ 13 :: 10 :: tail)) := by
      rw [hd]; simp
    have hskip : skipHeader b e p = q0 := by
      rw [hq0]
      exact skipHeader_folded b e _ (render_head_not_SPHT h (hok h (List.mem_cons_self _ _)) _)
        conts first p hfold hd' (by omega)
    have hdq0 : b.drop q0 = h.name ++ (h.pad ++ 58 :: (h.lws ++ (h.value
        ++ 13 :: 10 :: (renderHeaders hs ++ 13 :: 10 :: tail)))) := by
      have := drop_add_of_drop _ _ hd'
      have := drop_succ_of_drop (drop_succ_of_drop this)
      rw [hq0, this]
      simp [HeaderLine.render]
    have hdq1 : b.drop (q0 + h.name.length) = h.pad ++ 58 :: (h.lws ++ (h.value
        ++ 13 :: 10 :: (renderHeaders hs ++ 13 :: 10 :: tail))) := drop_add_of_drop _ _ hdq0
    have hdq2 : b.drop (q0 + h.name.length + h.pad.length) = 58 :: (h.lws ++ (h.value
        ++ 13 :: 10 :: (renderHeaders hs ++ 13 :: 10 :: tail))) := drop_add_of_drop _ _ hdq1
    have hnl : 0 < h.name.length := List.length_pos.mpr hne
    have hb0 : byteAt b q0 ≠ 13 ∧ byteAt b q0 ≠ 10 := by
      cases hn : h.name with
      | nil => exact absurd hn hne
      | cons x xs =>
        rw [hn] at hdq0
        rw [byteAt_of_drop hdq0]
        have := isNameChar_facts (hname x (by rw [hn]; exact List.mem_cons_self _ _))
        exact ⟨this.2.1, this.2.2.1⟩
    have hscanName : scanWhile b (fun c => decide (32 < c) && c != 58) q0 e
        = q0 + h.name.length :=
      scanWhile_run b _ e _ h.name q0 hdq0 hname (by omega)
        (Or.inr (by
          cases hp : h.pad with
          | nil => rfl
          | cons x xs =>
            have := hpad x (by rw [hp]; exact List.mem_cons_self _ _)
            simp only [isSPHT, Bool.or_eq_true, beq_iff_eq] at this
            rcases this with h9 | h32 <;> subst_vars <;> rfl))
    have hscanPad : scanWhile b isSPHT (q0 + h.name.length) e
        = q0 + h.name.length + h.pad.length :=
      scanWhile_run b isSPHT e _ h.pad _ hdq1 hpad (by omega) (Or.inr rfl)
    have hbc : byteAt b (q0 + h.name.length + h.pad.length) = 58 := byteAt_of_drop hdq2
    have hmatchA := nameMatches_eq b alt h.name _ q0 halt hdq0
    have hmatchH := nameMatches_eq b head h.name _ q0 hhead hdq0
    have hp : p < e := by omega
    have hnend : ¬ (q0 = e ∨ byteAt b q0 = 13 ∨ byteAt b q0 = 10) := by
      intro hh
      rcases hh with hh | hh | hh
      · omega
      · exact hb0.1 hh
      · exact hb0.2 hh
    have hne1 : ¬ q0 + h.name.length = q0 := by omega
    have hne2 : ¬ (q0 = q0 + h.name.length ∨ q0 + h.name.length + h.pad.length = e
        ∨ byteAt b (q0 + h.name.length + h.pad.length) ≠ 58) := by
      intro hh
      rcases hh with hh | hh | hh
      · omega
      · omega
      · exact hh hbc
    rw [find_header_loop.eq_2, if_pos hp]
    simp only
    rw [hskip, if_neg hnend, hscanName, if_neg hne1, hscanPad, if_neg hne2, hmatchA, hmatchH]
    simp only [colonOfWanted, wanted, Bool.or_eq_true]
    by_cases hA : nameIs alt h.name = true
    · rw [if_pos hA, if_pos (Or.inl hA)]
      congr 1; omega
    · rw [if_neg hA]
      by_cases hH : nameIs head h.name = true
      · rw [if_pos hH, if_pos (Or.inr hH)]
        congr 1; omega
      · rw [if_neg hH, if_neg (fun hh => hh.elim hA hH)]
        have hfold' : FoldedOk (58 :: (h.lws ++ h.first)) h.conts := by
          refine ⟨?_, hvok.2⟩
          intro c hc
          rcases List.mem_cons.mp hc with hc | hc
          · subst hc; decide
          · rcases List.mem_append.mp hc with hc | hc
            · exact isSPHT_isText (hlws c hc)
            · exact hvok.1 c hc
        have hft : foldedText (58 :: (h.lws ++ h.first)) h.conts = 58 :: (h.lws ++ h.value) := by
          have := foldedText_append (58 :: h.lws) h.first h.conts
          simpa [HeaderLine.value] using this
        have hd2 : b.drop (q0 + h.name.length + h.pad.length)
            = foldedText (58 :: (h.lws ++ h.first)) h.conts
              ++ 13 :: 10 :: (renderHeaders hs ++ 13 :: 10 :: tail) := by
          rw [hdq2, hft]; simp
        rw [ih _ _ _ n (fun x hx => hok x (List.mem_cons_of_mem _ hx)) hfold' hd2
          (by rw [hft]; simp only [List.length_cons, List.length_append]; omega) (by omega)]
        congr 1
        rw [hft]; simp only [List.length_cons, List.length_append]; omega


theorem value_head_not_SPHT (h : HeaderLine) (hok : h.Ok) (rest : Bytes) :
    isSPHT ((h.value ++ 13 :: 10 :: rest).headD 0) = false := by
  obtain ⟨_, _, _, _, hfirst, _⟩ := hok
  unfold HeaderLine.value
  cases hf : h.first with
  | nil => cases h.conts <;> simp [foldedText, isSPHT]
  | cons x xs =>
    rw [hf] at hfirst
    cases h.conts <;> simpa [foldedText] using hfirst

/-- The value of a header line lies at its value range. -/
theorem valueRange_slice (b : Bytes) (h : HeaderLine) (off : Nat) (rest : Bytes)
    (hd : b.drop off = h.render ++ rest) :
    slice b (valueRange h off).1 (valueRange h off).2 = h.value := by
  have hd1 : b.drop off = (h.name ++ (h.pad ++ 58 :: h.lws)) ++ (h.value ++ (13 :: 10 :: rest)) := by
    rw [hd]; simp [HeaderLine.render]
  have hd2 := drop_add_of_drop _ _ hd1
  have hl : (h.name ++ (h.pad ++ 58 :: h.lws)).length
      = h.name.length + h.pad.length + 1 + h.lws.length := by
    simp only [List.length_append, List.length_cons]; omega
  rw [hl] at hd2
  unfold slice valueRange
  simp only
  rw [hd2]
  simp

/-- The part of `sip_find_header` after the search loop, at the colon of a header line:
the value range of the line. -/
theorem find_header_value_line (b : Bytes) (e : Nat) (h : HeaderLine) (hok : h.Ok)
    (off : Nat) (rest : Bytes) (hrest : isSPHT (rest.headD 0) = false)
    (hd : b.drop off = h.render ++ rest) (he : off + h.render.length < e) :
    find_header_value b e (off + (h.name.length + h.pad.length)) = some (valueRange h off) := by
  have hrl := render_length h
  obtain ⟨pc, hpc⟩ : ∃ pc, pc = off + (h.name.length + h.pad.length) := ⟨_, rfl⟩
  obtain ⟨vs, hvs⟩ : ∃ vs, vs = pc + 1 + h.lws.length := ⟨_, rfl⟩
  have hd0 : b.drop off = (h.name ++ h.pad) ++ 58 :: (h.lws ++ (h.value ++ 13 :: 10 :: rest)) := by
    rw [hd]; simp [HeaderLine.render]
  have hd1 : b.drop pc = 58 :: (h.lws ++ (h.value ++ 13 :: 10 :: rest)) := by
    have := drop_add_of_drop _ _ hd0
    rw [hpc]; simpa using this
  have hd2 : b.drop (pc + 1) = h.lws ++ (h.value ++ 13 :: 10 :: rest) := drop_succ_of_drop hd1
  have hd3 : b.drop vs = h.value ++ 13 :: 10 :: rest := by
    rw [hvs]; exact drop_add_of_drop _ _ hd2
  have hscan : scanWhile b isSPHT (pc + 1) e = vs := by
    rw [hvs]
    exact scanWhile_run b isSPHT e _ h.lws _ hd2 hok.2.2.2.1 (by omega)
      (Or.inr (value_head_not_SPHT h hok rest))
  have hskip : skipHeader b e vs = vs + h.value.length + 2 :=
    skipHeader_folded b e rest hrest h.conts h.first vs hok.2.2.2.2.2 hd3
      (by unfold HeaderLine.value at hrl; omega)
  have hd4 : b.drop (vs + h.value.length) = 13 :: 10 :: rest := drop_add_of_drop _ _ hd3
  have hb13 : byteAt b (vs + h.value.length) = 13 := byteAt_of_drop hd4
  have hb10 : byteAt b (vs + h.value.length + 1) = 10 := byteAt_of_drop (drop_succ_of_drop hd4)
  have hne : ¬ pc = e := by omega
  have e1 : vs + h.value.length + 2 - 1 = vs + h.value.length + 1 := by omega
  have e2 : vs + h.value.length + 1 - 1 = vs + h.value.length := by omega
  have c1 : vs < vs + h.value.length + 2 ∧ byteAt b (vs + h.value.length + 1) = 10 :=
    ⟨by omega, hb10⟩
  have c2 : vs < vs + h.value.length + 1 ∧ byteAt b (vs + h.value.length) = 13 :=
    ⟨by omega, hb13⟩
  rw [← hpc]
  unfold find_header_value
  rw [if_neg hne]
  simp only
  rw [hscan, hskip, e1, if_pos c1, e2, if_pos c2]
  unfold valueRange
  congr 2 <;> omega

theorem renderHeaders_head_not_SPHT (hs : List HeaderLine) (hok : ∀ h ∈ hs, h.Ok)
    (tail : Bytes) : isSPHT ((renderHeaders hs ++ 13 :: 10 :: tail).headD 0) = false := by
  cases hs with
  | nil => rfl
  | cons h hs =>
    have := render_head_not_SPHT h (hok h (List.mem_cons_self _ _))
      (renderHeaders hs ++ 13 :: 10 :: tail)
    simpa [renderHeaders] using this

/-- From the colon found by the search loop to the value range of the first header line
asked for. -/
theorem find_header_value_wanted (b : Bytes) (e : Nat) (head alt : Option Bytes)
    (tail : Bytes) :
    ∀ (hs : List HeaderLine) (off : Nat), (∀ h ∈ hs, h.Ok) →
      b.drop off = renderHeaders hs ++ 13 :: 10 :: tail →
      off + (renderHeaders hs).length + 2 ≤ e →
      (match colonOfWanted head alt hs off with
        | none => none
        | some p => find_header_value b e p) = firstWanted head alt hs off := by
  intro hs
  induction hs with
  | nil => intro off _ _ _; rfl
  | cons h hs ih =>
    intro off hok hd he
    simp only [renderHeaders, List.length_append] at hd he
    have hd' : b.drop off = h.render ++ (renderHeaders hs ++ 13 :: 10 :: tail) := by
      rw [hd]; simp
    simp only [colonOfWanted, firstWanted]
    by_cases hw : wanted head alt h = true
    · rw [if_pos hw, if_pos hw]
      simp only
      exact find_header_value_line b e h (hok h (List.mem_cons_self _ _)) off _
        (renderHeaders_head_not_SPHT hs (fun x hx => hok x (List.mem_cons_of_mem _ hx)) tail)
        hd' (by omega)
    · rw [if_neg hw, if_neg hw]
      exact ih (off + h.render.length) (fun x hx => hok x (List.mem_cons_of_mem _ hx))
        (drop_add_of_drop _ _ hd') (by omega)

/-- A call of `sip_find_header` that starts (from `p` or from `prev`) inside a line that
is followed by the header lines `hs` and the empty line returns the value range of the
first header line of `hs` asked for, and `NULL` when there is none. -/
theorem sip_find_header_from (b : Bytes) (p e : Nat) (head alt : Option Bytes) (tail : Bytes)
    (hhead : ∀ n, head = some n → ∀ c ∈ n, c ≠ 0)
    (halt : ∀ n, alt = some n → ∀ c ∈ n, c ≠ 0)
    (hs : List HeaderLine) (first : Bytes) (conts : List Bytes) (p0 : Nat) (prev : Option Nat)
    (hstart : find_header_start p e prev = some p0)
    (hok : ∀ h ∈ hs, h.Ok) (hfold : FoldedOk first conts)
    (hd : b.drop p0
      = foldedText first conts ++ 13 :: 10 :: (renderHeaders hs ++ 13 :: 10 :: tail))
    (he : p0 + (foldedText first conts).length + 2 + (renderHeaders hs).length + 2 ≤ e) :
    sip_find_header b (some p) e head alt prev
      = firstWanted head alt hs (p0 + (foldedText first conts).length + 2) := by
  have hlen : hs.length ≤ (renderHeaders hs).length := by
    clear hok hd he
    induction hs with
    | nil => simp
    | cons h hs ih =>
      have := render_length h
      simp only [renderHeaders, List.length_append, List.length_cons]; omega
  unfold sip_find_header
  simp only [hstart]
  rw [find_header_loop_run b e head alt tail hhead halt hs first conts p0 _ hok hfold hd he
    (by omega)]
  have hd2 : b.drop (p0 + (foldedText first conts).length + 2)
      = renderHeaders hs ++ 13 :: 10 :: tail := by
    have := drop_add_of_drop _ _ hd
    exact drop_succ_of_drop (drop_succ_of_drop this)
  exact find_header_value_wanted b e head alt tail hs _ hok hd2 (by omega)


/-- The caller's loop over `sip_find_header`, once a call is known to return the first
header line of `hs` asked for: it returns the value ranges of all of them, in order. -/
theorem find_header_all_run (b : Bytes) (p e : Nat) (head alt : Option Bytes) (tail : Bytes)
    (hhead : ∀ n, head = some n → ∀ c ∈ n, c ≠ 0)
    (halt : ∀ n, alt = some n → ∀ c ∈ n, c ≠ 0) :
    ∀ (hs : List HeaderLine) (off : Nat) (prev : Option Nat) (fuel : Nat),
      (∀ h ∈ hs, h.Ok) → p ≤ off →
      b.drop off = renderHeaders hs ++ 13 :: 10 :: tail →
      off + (renderHeaders hs).length + 2 ≤ e →
      sip_find_header b (some p) e head alt prev = firstWanted head alt hs off →
      hs.length < fuel →
      find_header_all b (some p) e head alt fuel prev = allWanted head alt hs off := by
  intro hs
  induction hs with
  | nil =>
    intro off prev fuel _ _ _ _ hcall hfuel
    obtain ⟨n, rfl⟩ : ∃ n, fuel = n + 1 := ⟨fuel - 1, by omega⟩
    simp only [find_header_all, hcall, firstWanted, allWanted]
  | cons h hs ih =>
    intro off prev fuel hok hpo hd he hcall hfuel
    simp only [List.length_cons] at hfuel
    simp only [renderHeaders, List.length_append] at hd he
    obtain ⟨n, rfl⟩ : ∃ n, fuel = n + 1 := ⟨fuel - 1, by omega⟩
    have hrl := render_length h
    have hhok := hok h (List.mem_cons_self _ _)
    have hok' : ∀ x ∈ hs, x.Ok := fun x hx => hok x (List.mem_cons_of_mem _ hx)
    have hd' : b.drop off = h.render ++ (renderHeaders hs ++ 13 :: 10 :: tail) := by
      rw [hd]; simp
    have hdn : b.drop (off + h.render.length) = renderHeaders hs ++ 13 :: 10 :: tail :=
      drop_add_of_drop _ _ hd'
    simp only [firstWanted] at hcall
    simp only [allWanted]
    by_cases hw : wanted head alt h = true
    · rw [if_pos hw] at hcall
      rw [if_pos hw]
      -- the next call starts at the value just returned
      have hdv : b.drop (valueRange h off).1
          = foldedText h.first h.conts ++ 13 :: 10 :: (renderHeaders hs ++ 13 :: 10 :: tail) := by
        have h0 : b.drop off = (h.name ++ (h.pad ++ 58 :: h.lws))
            ++ (h.value ++ (13 :: 10 :: (renderHeaders hs ++ 13 :: 10 :: tail))) := by
          rw [hd']; simp [HeaderLine.render]
        have h1 := drop_add_of_drop _ _ h0
        have hl : (h.name ++ (h.pad ++ 58 :: h.lws)).length
            = h.name.length + h.pad.length + 1 + h.lws.length := by
          simp only [List.length_append, List.length_cons]; omega
        rw [hl] at h1
        exact h1
      have hvl : (foldedText h.first h.conts).length = h.value.length := rfl
      have hstart : find_header_start p e (some (valueRange h off).1)
          = some (valueRange h off).1 := by
        have hn : ¬ ((valueRange h off).1 < p ∨ e ≤ (valueRange h off).1) := by
          simp only [valueRange]; omega
        simp only [find_header_start]
        rw [if_neg hn]
      have hnext := sip_find_header_from b p e head alt tail hhead halt hs h.first h.conts
        (valueRange h off).1 (some (valueRange h off).1) hstart hok' hhok.2.2.2.2.2 hdv
        (by simp only [valueRange]; omega)
      have hoff : (valueRange h off).1 + (foldedText h.first h.conts).length + 2
          = off + h.render.length := by
        simp only [valueRange]; omega
      rw [hoff] at hnext
      simp only [find_header_all, hcall]
      rw [ih (off + h.render.length) _ n hok' (by omega) hdn (by omega) hnext (by omega)]
    · rw [if_neg hw] at hcall
      rw [if_neg hw]
      exact ih (off + h.render.length) prev (n + 1) hok' (by omega) hdn (by omega) hcall
        (by omega)

/-- What `firstWanted` gives is the value range of a header line asked for, all header
lines before it are not asked for, and the range holds the value of the line. -/
theorem firstWanted_spec (b : Bytes) (head alt : Option Bytes) (rest : Bytes) :
    ∀ (hs : List HeaderLine) (off : Nat), b.drop off = renderHeaders hs ++ rest →
      (firstWanted head alt hs off = none ∧ ∀ h ∈ hs, wanted head alt h = false)
      ∨ ∃ hs1 h hs2, hs = hs1 ++ h :: hs2 ∧ (∀ x ∈ hs1, wanted head alt x = false)
          ∧ wanted head alt h = true
          ∧ firstWanted head alt hs off = some (valueRange h (off + (renderHeaders hs1).length))
          ∧ slice b (valueRange h (off + (renderHeaders hs1).length)).1
              (valueRange h (off + (renderHeaders hs1).length)).2 = h.value := by
  intro hs
  induction hs with
  | nil => intro off _; exact Or.inl ⟨rfl, fun h hh => absurd hh (List.not_mem_nil _)⟩
  | cons h hs ih =>
    intro off hd
    have hd' : b.drop off = h.render ++ (renderHeaders hs ++ rest) := by
      rw [hd]; simp [renderHeaders]
    by_cases hw : wanted head alt h = true
    · right
      refine ⟨[], h, hs, rfl, fun x hx => absurd hx (List.not_mem_nil _), hw, ?_, ?_⟩
      · simp [firstWanted, hw, renderHeaders]
      · simpa [renderHeaders] using valueRange_slice b h off _ hd'
    · have hwf : wanted head alt h = false := by simpa using hw
      rcases ih (off + h.render.length) (drop_add_of_drop _ _ hd') with ⟨hn, hall⟩ | ⟨hs1, h1, hs2, heq, hall, hw1, hf, hsl⟩
      · left
        refine ⟨by simp [firstWanted, hwf, hn], ?_⟩
        intro x hx
        rcases List.mem_cons.mp hx with hx | hx
        · rw [hx]; exact hwf
        · exact hall x hx
      · right
        have hoff : off + h.render.length + (renderHeaders hs1).length
            = off + (renderHeaders (h :: hs1)).length := by
          simp only [renderHeaders, List.length_append]; omega
        rw [hoff] at hf hsl
        refine ⟨h :: hs1, h1, hs2, by rw [heq]; rfl, ?_, hw1, ?_, hsl⟩
        · intro x hx
          rcases List.mem_cons.mp hx with hx | hx
          · rw [hx]; exact hwf
          · exact hall x hx
        · simp only [firstWanted, hwf, Bool.false_eq_true, if_false]
          exact hf

/-- A first call of `sip_find_header` on a message made of a start line, header lines
and the empty line. -/
theorem sip_find_header_message (pre post start : Bytes) (sconts : List Bytes)
    (hs : List HeaderLine) (body : Bytes) (head alt : Option Bytes)
    (hstart : FoldedOk start sconts) (hok : ∀ h ∈ hs, h.Ok)
    (hhead : ∀ n, head = some n → ∀ c ∈ n, c ≠ 0)
    (halt : ∀ n, alt = some n → ∀ c ∈ n, c ≠ 0) :
    sip_find_header (pre ++ (renderMessage start sconts hs body ++ post)) (some pre.length)
        (pre.length + (renderMessage start sconts hs body).length) head alt none
      = firstWanted head alt hs (pre.length + (foldedText start sconts).length + 2) := by
  have hd : (pre ++ (renderMessage start sconts hs body ++ post)).drop pre.length
      = foldedText start sconts ++ 13 :: 10 :: (renderHeaders hs ++ 13 :: 10 :: (body ++ post)) := by
    simp [renderMessage]
  exact sip_find_header_from _ pre.length _ head alt (body ++ post) hhead halt hs start sconts
    pre.length none rfl hok hstart hd (by
      simp only [renderMessage, List.length_append, List.length_cons]; omega)

/-! ## Facts about `sip_find_header` and empty lines -/

/-- The last octet that a forward scan passes is one that it accepts. -/
theorem scanWhile_last (b : Bytes) (P : Nat → Bool) (e : Nat) :
    ∀ (n p : Nat), n = e - p → p < scanWhile b P p e →
      P (byteAt b (scanWhile b P p e - 1)) = true := by
  intro n
  induction n with
  | zero =>
    intro p hn h
    rw [scanWhile_stop b P p e (Or.inl (by omega))] at h
    exact absurd h (Nat.lt_irrefl _)
  | succ n ih =>
    intro p hn h
    rw [scanWhile_step] at h ⊢
    split at h
    · rename_i hc
      rw [if_pos hc]
      by_cases hlt : p + 1 < scanWhile b P (p + 1) e
      · exact ih (p + 1) (by omega) hlt
      · have hge := scanWhile_ge' b P (p + 1) e
        have : scanWhile b P (p + 1) e = p + 1 := by omega
        rw [this]
        simpa using hc.2
    · exact absurd h (Nat.lt_irrefl _)

/-- One pass of the line skip does not go beyond the octet after a LF. -/
theorem skipLine_barrier (b : Bytes) (e p i : Nat) (hpi : p < i)
    (hlf : byteAt b (i - 1) = 10) : skipLine b e p ≤ i := by
  have h1 : scanWhile b (fun c => c == 9 || decide (32 ≤ c)) p e ≤ i - 1 :=
    scanWhile_le_stop b _ e (i - 1) (Or.inr (by rw [hlf]; rfl)) (i - 1 - p) p rfl (by omega)
  unfold skipLine
  simp only
  generalize scanWhile b (fun c => c == 9 || decide (32 ≤ c)) p e = q at h1
  have h2 : (if q < e ∧ byteAt b q = 13 then q + 1 else q) ≤ i - 1 := by
    split
    · rename_i hc
      have : q ≠ i - 1 := fun h => by rw [h, hlf] at hc; exact absurd hc.2 (by decide)
      omega
    · exact h1
  generalize (if q < e ∧ byteAt b q = 13 then q + 1 else q) = q2 at h2
  split <;> omega

/-- The header skip, started before an empty line, does not go beyond it. -/
theorem skipHeaderFuel_barrier (b : Bytes) (e i : Nat) (hlf : byteAt b (i - 1) = 10)
    (hi : byteAt b i = 10 ∨ byteAt b i = 13) :
    ∀ (fuel p : Nat), p < i → skipHeaderFuel b e fuel p ≤ i := by
  intro fuel
  induction fuel with
  | zero => intro p hp; simp only [skipHeaderFuel]; omega
  | succ n ih =>
    intro p hp
    rw [skipHeaderFuel.eq_2]
    split
    · simp only
      have h1 := skipLine_barrier b e p i hp hlf
      split
      · exact h1
      · rename_i hc
        have hne : skipLine b e p ≠ i := by
          intro h
          rw [h] at hc
          apply hc
          right
          rcases hi with h10 | h13
          · rw [h10]; decide
          · rw [h13]; decide
        exact ih _ (by omega)
    · omega


/-- The search loop of `sip_find_header`, started before an empty line, stops before it:
at a colon, or where it started when that is not inside the range. -/
theorem find_header_loop_barrier (b : Bytes) (e : Nat) (head alt : Option Bytes) (i : Nat)
    (hlf : byteAt b (i - 1) = 10) (hi : byteAt b i = 10 ∨ byteAt b i = 13) :
    ∀ (fuel p pc : Nat), p < i → find_header_loop b e head alt fuel p = some pc →
      pc < i ∧ (pc < e → byteAt b pc = 58) := by
  intro fuel
  induction fuel with
  | zero => intro p pc _ h; simp [find_header_loop] at h
  | succ n ih =>
    intro p pc hp h
    rw [find_header_loop.eq_2] at h
    by_cases hpe : p < e
    · rw [if_pos hpe] at h
      simp only at h
      have hq0 : skipHeader b e p ≤ i := skipHeaderFuel_barrier b e i hlf hi _ p hp
      generalize skipHeader b e p = q0 at h hq0
      split at h
      · exact absurd h (by simp)
      · rename_i hc
        have hq0lt : q0 < i := by
          rcases Nat.lt_or_ge q0 i with h1 | h1
          · exact h1
          · have : q0 = i := by omega
            subst this
            exact absurd (hi.elim (fun h10 => Or.inr (Or.inr h10)) (fun h13 => Or.inr (Or.inl h13))) hc
        have hq1 : scanWhile b (fun c => decide (32 < c) && c != 58) q0 e ≤ i - 1 :=
          scanWhile_le_stop b _ e (i - 1) (Or.inr (by rw [hlf]; rfl)) (i - 1 - q0) q0 rfl
            (by omega)
        generalize scanWhile b (fun c => decide (32 < c) && c != 58) q0 e = q1 at h hq1
        split at h
        · exact absurd h (by simp)
        · have hq2 : scanWhile b isSPHT q1 e ≤ i - 1 :=
            scanWhile_le_stop b _ e (i - 1) (Or.inr (by rw [hlf]; rfl)) (i - 1 - q1) q1 rfl hq1
          generalize scanWhile b isSPHT q1 e = q2 at h hq2
          split at h
          · exact ih q2 pc (by omega) h
          · rename_i hcolon
            have hb58 : byteAt b q2 = 58 := by
              by_contra hne
              exact hcolon (Or.inr (Or.inr hne))
            split at h
            · simp only [Option.some.injEq] at h
              subst h
              exact ⟨by omega, fun _ => hb58⟩
            · split at h
              · simp only [Option.some.injEq] at h
                subst h
                exact ⟨by omega, fun _ => hb58⟩
              · exact ih q2 pc (by omega) h
    · rw [if_neg hpe] at h
      simp only [Option.some.injEq] at h
      subst h
      exact ⟨hp, fun h => absurd h hpe⟩

/-- A value that `sip_find_header` returns, when it started before an empty line, begins
at or before the empty line, and before it when it begins inside the range. -/
theorem sip_find_header_barrier (b : Bytes) (p e : Nat) (head alt : Option Bytes)
    (prev : Option Nat) (i : Nat) (hpi : p < i)
    (hlf : byteAt b (i - 1) = 10) (hi : byteAt b i = 10 ∨ byteAt b i = 13)
    (hprev : ∀ pv, prev = some pv → pv < e → pv < i) :
    ∀ s en, sip_find_header b (some p) e head alt prev = some (s, en) →
      s ≤ i ∧ (s < e → s < i) := by
  intro s en h
  unfold sip_find_header at h
  simp only at h
  -- the position at which the call starts lies before the empty line
  cases hst : find_header_start p e prev with
  | none => rw [hst] at h; exact absurd h (by simp)
  | some p0 =>
    rw [hst] at h
    simp only at h
    have hp0 : p0 < i := by
      cases prev with
      | none =>
        simp only [find_header_start, Option.some.injEq] at hst
        omega
      | some pv =>
        simp only [find_header_start] at hst
        split at hst
        · exact absurd hst (by simp)
        · rename_i hc
          simp only [Option.some.injEq] at hst
          subst hst
          exact hprev pv rfl (by omega)
    cases hl : find_header_loop b e head alt (e - p0 + 1) p0 with
    | none => rw [hl] at h; exact absurd h (by simp)
    | some pc =>
      rw [hl] at h
      simp only at h
      obtain ⟨hpc, hcolon⟩ := find_header_loop_barrier b e head alt i hlf hi _ p0 pc hp0 hl
      unfold find_header_value at h
      split at h
      · exact absurd h (by simp)
      · simp only [Option.some.injEq, Prod.mk.injEq] at h
        obtain ⟨hs, _⟩ := h
        have hle : scanWhile b isSPHT (pc + 1) e ≤ i :=
          scanWhile_le_stop b isSPHT e i
            (Or.inr (by rcases hi with h10 | h13
                        · rw [h10]; rfl
                        · rw [h13]; rfl))
            (i - (pc + 1)) (pc + 1) rfl (by omega)
        have hge := scanWhile_ge' b isSPHT (pc + 1) e
        rw [hs] at hle hge
        refine ⟨hle, fun hse => ?_⟩
        rcases Nat.lt_or_ge s i with h1 | h1
        · exact h1
        · exfalso
          have hsi : s = i := by omega
          by_cases hadv : pc + 1 < s
          · have hlast := scanWhile_last b isSPHT e _ (pc + 1) rfl (by rw [hs]; exact hadv)
            rw [hs, hsi, hlf] at hlast
            exact absurd hlast (by decide)
          · have hpcs : pc + 1 = s := by omega
            have : byteAt b pc = 58 := hcolon (by omega)
            have hpc1 : pc = i - 1 := by omega
            rw [hpc1, hlf] at this
            exact absurd this (by decide)

/-! ## The fuel of the loops is enough

Every loop of the embedding advances its cursor in each iteration, so the fuel it is
given (the length of the range, or one more) is never used up: more fuel gives the same
result. -/

theorem scanWhile_gt (b : Bytes) (P : Nat → Bool) (p e : Nat) (hp : p < e)
    (hP : P (byteAt b p) = true) : p < scanWhile b P p e := by
  rw [scanWhile_step, if_pos ⟨hp, hP⟩]
  exact Nat.lt_of_lt_of_le (Nat.lt_succ_self p) (scanWhile_ge' b P (p + 1) e)

/-- The fuel of `read_unsigned`: any fuel from `e - p` on gives the same result. -/
theorem read_unsigned_loop_fuel (b : Bytes) (e : Nat) :
    ∀ (n m p : Nat) (v : Int), e - p ≤ n → e - p ≤ m →
      read_unsigned_loop b e n p v = read_unsigned_loop b e m p v := by
  intro n
  induction n with
  | zero =>
    intro m p v hn _
    cases m with
    | zero => rfl
    | succ m =>
      rw [read_unsigned_loop.eq_2, if_neg (fun h => by omega)]
      rfl
  | succ n ih =>
    intro m p v hn hm
    cases m with
    | zero =>
      rw [read_unsigned_loop.eq_2, if_neg (fun h => by omega)]
      rfl
    | succ m =>
      rw [read_unsigned_loop.eq_2, read_unsigned_loop.eq_2]
      split
      · exact ih m (p + 1) _ (by omega) (by omega)
      · rfl

/-- The fuel of the quoted-string loop: any fuel from `e - s` on gives the same result. -/
theorem quotedLoop_fuel (b : Bytes) (e : Nat) :
    ∀ (n m s : Nat), e - s ≤ n → e - s ≤ m → quotedLoop b e n s = quotedLoop b e m s := by
  intro n
  induction n with
  | zero =>
    intro m s hn _
    cases m with
    | zero => rfl
    | succ m =>
      rw [quotedLoop.eq_2, if_neg (fun h => by omega)]
      rfl
  | succ n ih =>
    intro m s hn hm
    cases m with
    | zero =>
      rw [quotedLoop.eq_2, if_neg (fun h => by omega)]
      rfl
    | succ m =>
      rw [quotedLoop.eq_2, quotedLoop.eq_2]
      split
      · simp only
        split
        · exact ih m _ (by omega) (by omega)
        · exact ih m _ (by omega) (by omega)
      · rfl

/-- The fuel of the token loop: any fuel from `e - s` on gives the same result. -/
theorem tokenLoop_fuel (b : Bytes) (e : Nat) :
    ∀ (n m s : Nat), e - s ≤ n → e - s ≤ m → tokenLoop b e n s = tokenLoop b e m s := by
  intro n
  induction n with
  | zero =>
    intro m s hn _
    cases m with
    | zero => rfl
    | succ m =>
      rw [tokenLoop.eq_2, if_neg (fun h => by omega)]
      rfl
  | succ n ih =>
    intro m s hn hm
    cases m with
    | zero =>
      rw [tokenLoop.eq_2, if_neg (fun h => by omega)]
      rfl
    | succ m =>
      rw [tokenLoop.eq_2, tokenLoop.eq_2]
      split
      · rename_i hs
        simp only
        have hge := scanWhile_ge' b isTokenChar s e
        generalize scanWhile b isTokenChar s e = p at hge
        split
        · rfl
        · rename_i hc
          split
          · rename_i hlt
            have hadv : s < skip_space b p e := by
              rcases Nat.lt_or_ge s p with h | h
              · exact Nat.lt_of_lt_of_le h (scanWhile_ge' b isLWS p e)
              · have hps : p = s := by omega
                subst hps
                have h32 : byteAt b p = 32 := by
                  by_contra hne
                  exact hc ⟨hs, hne⟩
                exact scanWhile_gt b isLWS p e hs (by rw [h32]; rfl)
            exact ih m _ (by omega) (by omega)
          · rfl
      · rfl

/-- The fuel of `sip_esc_cmp`: any fuel from `e - s` on gives the same result. -/
theorem esc_cmp_loop_fuel (b : Bytes) (e : Nat) (c : Bytes) :
    ∀ (n m s ci : Nat), e - s ≤ n → e - s ≤ m →
      esc_cmp_loop b e c n s ci = esc_cmp_loop b e c m s ci := by
  intro n
  induction n with
  | zero =>
    intro m s ci hn _
    cases m with
    | zero => rfl
    | succ m =>
      rw [esc_cmp_loop.eq_2, if_neg (fun h => by omega)]
      rfl
  | succ n ih =>
    intro m s ci hn hm
    cases m with
    | zero =>
      rw [esc_cmp_loop.eq_2, if_neg (fun h => by omega)]
      rfl
    | succ m =>
      rw [esc_cmp_loop.eq_2, esc_cmp_loop.eq_2]
      by_cases hc : s < e ∧ byteAt c ci ≠ 0
      · rw [if_pos hc, if_pos hc]
        simp only
        have key : ∀ s1, s ≤ s1 →
            esc_cmp_loop b e c n (s1 + 1) (ci + 1) = esc_cmp_loop b e c m (s1 + 1) (ci + 1) :=
          fun s1 h1 => ih m _ _ (by omega) (by omega)
        split
        · rw [key (s + 2) (by omega)]
        · rw [key s (Nat.le_refl _)]
      · rw [if_neg hc, if_neg hc]

/-- The fuel of `sip_deescape`: any fuel from `ef - f` on gives the same result. -/
theorem deescape_loop_fuel (src : Bytes) (ef et : Nat) :
    ∀ (n m : Nat) (out : Bytes) (t f : Nat), ef - f ≤ n → ef - f ≤ m →
      deescape_loop src ef et n out t f = deescape_loop src ef et m out t f := by
  intro n
  induction n with
  | zero =>
    intro m out t f hn _
    cases m with
    | zero => rfl
    | succ m =>
      rw [deescape_loop.eq_2, if_neg (fun h => by omega)]
      rfl
  | succ n ih =>
    intro m out t f hn hm
    cases m with
    | zero =>
      rw [deescape_loop.eq_2, if_neg (fun h => by omega)]
      rfl
    | succ m =>
      rw [deescape_loop.eq_2, deescape_loop.eq_2]
      split
      · split
        · exact ih m _ _ _ (by omega) (by omega)
        · exact ih m _ _ _ (by omega) (by omega)
      · rfl


/-- The fuel of `sip_find_semi`: any fuel from `e - s` on gives the same result, so the
loop does not end for lack of fuel. -/
theorem find_semi_loop_fuel (b : Bytes) (e : Nat) (tag : Bytes) :
    ∀ (n m s : Nat), e - s ≤ n → e - s ≤ m →
      find_semi_loop b e tag n s = find_semi_loop b e tag m s := by
  intro n
  induction n with
  | zero =>
    intro m s hn _
    cases m with
    | zero => rfl
    | succ m =>
      rw [find_semi_loop.eq_2, if_neg (fun h => by omega)]
      rfl
  | succ n ih =>
    intro m s hn hm
    cases m with
    | zero =>
      rw [find_semi_loop.eq_2, if_neg (fun h => by omega)]
      rfl
    | succ m =>
      rw [find_semi_loop.eq_2, find_semi_loop.eq_2]
      by_cases hs : s < e
      · rw [if_pos hs, if_pos hs]
        have key : ∀ s1, s < s1 ∨ e ≤ s1 →
            find_semi_loop b e tag n s1 = find_semi_loop b e tag m s1 :=
          fun s1 h1 => ih m _ (by omega) (by omega)
        have next : ∀ t, s ≤ t → (s < (if t < e then t + 1 else t) ∨ e ≤ (if t < e then t + 1 else t)) := by
          intro t ht
          split
          · left; omega
          · right; omega
        by_cases h60 : byteAt b s = 60
        · rw [if_pos h60, if_pos h60]
          simp only
          exact key _ (next _ (scanWhile_ge' _ _ _ _))
        · rw [if_neg h60, if_neg h60]
          by_cases h32 : byteAt b s ≤ 32
          · rw [if_pos h32, if_pos h32]
            exact key _ (Or.inl (Nat.lt_succ_self s))
          · rw [if_neg h32, if_neg h32]
            simp only
            have hge := scanWhile_ge' b
              (fun c => decide (32 < c) && c != 61 && c != 59 && c != 44) s e
            generalize scanWhile b
              (fun c => decide (32 < c) && c != 61 && c != 59 && c != 44) s e = s1 at hge
            split
            · rfl
            · split
              · rfl
              · exact key _ (next _ (Nat.le_trans hge (scanWhile_ge' _ _ _ _)))
      · rw [if_neg hs, if_neg hs]

theorem skipLine_ge (b : Bytes) (e p : Nat) : p ≤ skipLine b e p := by
  unfold skipLine
  simp only
  have h := scanWhile_ge' b (fun c => c == 9 || decide (32 ≤ c)) p e
  generalize scanWhile b (fun c => c == 9 || decide (32 ≤ c)) p e = q at h
  split <;> split <;> omega

theorem skipLine_gt (b : Bytes) (e p : Nat) (hp : p < e)
    (ht : byteAt b p = 32 ∨ byteAt b p = 9) : p < skipLine b e p := by
  unfold skipLine
  simp only
  have h := scanWhile_gt b (fun c => c == 9 || decide (32 ≤ c)) p e hp
    (by rcases ht with h | h <;> rw [h] <;> rfl)
  generalize scanWhile b (fun c => c == 9 || decide (32 ≤ c)) p e = q at h
  split <;> split <;> omega

/-- The fuel of the header skip: any fuel from `e - p` on gives the same result. -/
theorem skipHeaderFuel_fuel (b : Bytes) (e : Nat) :
    ∀ (n m p : Nat), e - p ≤ n → e - p ≤ m →
      skipHeaderFuel b e n p = skipHeaderFuel b e m p := by
  intro n
  induction n with
  | zero =>
    intro m p hn _
    cases m with
    | zero => rfl
    | succ m =>
      rw [skipHeaderFuel.eq_2, if_neg (fun h => by omega)]
      rfl
  | succ n ih =>
    intro m p hn hm
    cases m with
    | zero =>
      rw [skipHeaderFuel.eq_2, if_neg (fun h => by omega)]
      rfl
    | succ m =>
      rw [skipHeaderFuel.eq_2, skipHeaderFuel.eq_2]
      by_cases hp : p < e
      · rw [if_pos hp, if_pos hp]
        simp only
        have hge := skipLine_ge b e p
        split
        · rfl
        · rename_i hc
          -- the line skip has passed at least the SP or HT that continues the header
          have hadv : p < skipLine b e p ∨ e ≤ skipLine b e p := by
            rcases Nat.lt_or_ge p (skipLine b e p) with h | h
            · exact Or.inl h
            · have hq : skipLine b e p = p := by omega
              rw [hq] at hc
              have ht : byteAt b p = 32 ∨ byteAt b p = 9 := by
                by_contra hne
                apply hc
                right
                exact ⟨fun h32 => hne (Or.inl h32), fun h9 => hne (Or.inr h9)⟩
              exact Or.inl (skipLine_gt b e p hp ht)
          exact ih m _ (by omega) (by omega)
      · rw [if_neg hp, if_neg hp]

theorem skipHeader_ge (b : Bytes) (e : Nat) : ∀ (n p : Nat), p ≤ skipHeaderFuel b e n p := by
  intro n
  induction n with
  | zero => intro p; exact Nat.le_refl _
  | succ n ih =>
    intro p
    rw [skipHeaderFuel.eq_2]
    split
    · simp only
      split
      · exact skipLine_ge b e p
      · exact Nat.le_trans (skipLine_ge b e p) (ih _)
    · exact Nat.le_refl _

/-- The fuel of the search loop of `sip_find_header`: any fuel from `e - p` on gives the
same result, so the loop does not return `NULL` for lack of fuel. -/
theorem find_header_loop_fuel (b : Bytes) (e : Nat) (head alt : Option Bytes) :
    ∀ (n m p : Nat), e - p < n → e - p < m →
      find_header_loop b e head alt n p = find_header_loop b e head alt m p := by
  intro n
  induction n with
  | zero => intro m p hn _; omega
  | succ n ih =>
    intro m p hn hm
    cases m with
    | zero => omega
    | succ m =>
      rw [find_header_loop.eq_2, find_header_loop.eq_2]
      by_cases hp : p < e
      · rw [if_pos hp, if_pos hp]
        simp only
        have hq0 : p ≤ skipHeader b e p := skipHeader_ge b e _ p
        generalize skipHeader b e p = q0 at hq0
        split
        · rfl
        · have hq1 := scanWhile_ge' b (fun c => decide (32 < c) && c != 58) q0 e
          generalize scanWhile b (fun c => decide (32 < c) && c != 58) q0 e = q1 at hq1
          split
          · rfl
          · rename_i hne
            have hq2 := scanWhile_ge' b isSPHT q1 e
            generalize scanWhile b isSPHT q1 e = q2 at hq2
            have key : find_header_loop b e head alt n q2 = find_header_loop b e head alt m q2 :=
              ih m q2 (by omega) (by omega)
            rw [key]
      · rw [if_neg hp, if_neg hp]

/-! ## Facts about `sip_find_local` -/

/-- Every octet that a forward scan has passed satisfies the condition of the scan. -/
theorem scanWhile_passed (b : Bytes) (P : Nat → Bool) (e : Nat) :
    ∀ (n p : Nat), n = e - p → ∀ i, p ≤ i → i < scanWhile b P p e →
      P (byteAt b i) = true := by
  intro n
  induction n with
  | zero =>
    intro p hn i hpi h
    rw [scanWhile_stop b P p e (Or.inl (by omega))] at h
    omega
  | succ n ih =>
    intro p hn i hpi h
    rw [scanWhile_step] at h
    split at h
    · rename_i hc
      by_cases hip : i = p
      · rw [hip]; exact hc.2
      · exact ih (p + 1) (by omega) i (by omega) h
    · omega

/-- A forward scan that stops before the end stops at an octet that fails its condition. -/
theorem scanWhile_at_stop (b : Bytes) (P : Nat → Bool) (e : Nat) :
    ∀ (n p : Nat), n = e - p → scanWhile b P p e < e →
      P (byteAt b (scanWhile b P p e)) = false := by
  intro n
  induction n with
  | zero =>
    intro p hn h
    rw [scanWhile_stop b P p e (Or.inl (by omega))] at h
    omega
  | succ n ih =>
    intro p hn h
    rw [scanWhile_step] at h ⊢
    split at h
    · rename_i hc
      rw [if_pos hc]
      exact ih (p + 1) (by omega) h
    · rename_i hc
      rw [if_neg hc]
      by_cases hP : P (byteAt b p) = true
      · exact absurd ⟨h, hP⟩ hc
      · simpa using hP

/-- The test `s + 4 <= e && !strncasecmp (s, "sip:", 4)` of `sip_find_local`. -/
theorem sip_prefix_test (b : Bytes) (s e : Nat) :
    (s + 4 ≤ e ∧ strncasecmp b s [115, 105, 112, 58] 0 4 = 0) ↔ startsWithSip b s e = true := by
  have l0 : tolower (byteAt [115, 105, 112, 58] 0) = 115 := by decide
  have l1 : tolower (byteAt [115, 105, 112, 58] (0 + 1)) = 105 := by decide
  have l2 : tolower (byteAt [115, 105, 112, 58] (0 + 1 + 1)) = 112 := by decide
  have l3 : tolower (byteAt [115, 105, 112, 58] (0 + 1 + 1 + 1)) = 58 := by decide
  have key : strncasecmp b s [115, 105, 112, 58] 0 4 = 0 ↔
      (tolower (byteAt b s) = 115 ∧ tolower (byteAt b (s + 1)) = 105 ∧
        tolower (byteAt b (s + 2)) = 112 ∧ tolower (byteAt b (s + 3)) = 58) := by
    simp only [strncasecmp, l0, l1, l2, l3]
    have a1 : s + 1 + 1 = s + 2 := rfl
    have a2 : s + 2 + 1 = s + 3 := rfl
    rw [a1, a2]
    by_cases h0 : tolower (byteAt b s) = 115
    · by_cases h1 : tolower (byteAt b (s + 1)) = 105
      · by_cases h2 : tolower (byteAt b (s + 2)) = 112
        · by_cases h3 : tolower (byteAt b (s + 3)) = 58
          · simp [h0, h1, h2, h3]
          · simp only [h0, h1, h2, h3, ne_eq, not_true_eq_false, if_false, and_false,
              iff_false]
            simp only [not_false_eq_true, if_true]
            omega
        · simp only [h0, h1, h2, ne_eq, not_true_eq_false, if_false, false_and, and_false,
            iff_false]
          simp only [not_false_eq_true, if_true]
          omega
      · simp only [h0, h1, ne_eq, not_true_eq_false, if_false, false_and, and_false,
          iff_false]
        simp only [not_false_eq_true, if_true]
        omega
    · simp only [h0, ne_eq, false_and, iff_false]
      simp only [not_false_eq_true, if_true]
      omega
  unfold startsWithSip
  rw [key]
  simp

/-! ## Facts about the output of `sip_deescape` -/

theorem decodeFrom_length (src : Bytes) (ef : Nat) :
    ∀ (n f : Nat), (decodeFrom src ef n f).length ≤ ef - f := by
  intro n
  induction n with
  | zero => intro f; simp [decodeFrom]
  | succ n ih =>
    intro f
    rw [decodeFrom.eq_2]
    by_cases hf : f < ef
    · rw [if_pos hf]
      by_cases hesc : f + 2 < ef ∧ byteAt src f = 37
      · rw [if_pos hesc, List.length_cons]
        have := ih (f + 3)
        omega
      · rw [if_neg hesc, List.length_cons]
        have := ih (f + 1)
        omega
    · rw [if_neg hf]; simp

/-- The loop of `sip_deescape` stores the octets of `decodeFrom`, as many as the limit
leaves room for. -/
theorem deescape_loop_decode (src : Bytes) (ef et : Nat) :
    ∀ (n : Nat) (out : Bytes) (t f : Nat), et ≤ out.length →
      deescape_loop src ef et n out t f
        = (writeAt out t ((decodeFrom src ef n f).take (et - (t + 1))),
            t + min (decodeFrom src ef n f).length (et - (t + 1))) := by
  intro n
  induction n with
  | zero => intro out t f _; simp [deescape_loop, decodeFrom, writeAt_nil]
  | succ n ih =>
    intro out t f hlen
    rw [deescape_loop.eq_2, decodeFrom.eq_2]
    by_cases hf : f < ef
    · by_cases hlim : t + 1 < et
      · rw [if_pos ⟨hf, hlim⟩, if_pos hf]
        have hk : et - (t + 1) = (et - (t + 1 + 1)) + 1 := by omega
        by_cases hesc : f + 2 < ef ∧ byteAt src f = 37
        · rw [if_pos hesc, if_pos hesc, ih _ (t + 1) (f + 3) (by simpa using hlen),
            writeAt_set_cons out t _ _ (by omega), hk, List.take_succ_cons, List.length_cons]
          congr 1
          omega
        · rw [if_neg hesc, if_neg hesc, ih _ (t + 1) (f + 1) (by simpa using hlen),
            writeAt_set_cons out t _ _ (by omega), hk, List.take_succ_cons, List.length_cons]
          congr 1
          omega
      · rw [if_neg (fun h => hlim h.2)]
        have hk : et - (t + 1) = 0 := by omega
        rw [hk]; simp [writeAt_nil]
    · rw [if_neg (fun h => hf h.1), if_neg hf]; simp [writeAt_nil]

/-- The result of `sip_deescape` in terms of `decodeFrom`. -/
theorem sip_deescape_decode (src out : Bytes) (t et f : Nat) (ef : Option Nat)
    (hlen : et ≤ out.length) :
    sip_deescape out t et src (some f) ef
      = ((writeAt out t ((decodeFrom src (rangeEnd src f ef) (rangeEnd src f ef - f) f).take
            (et - (t + 1)))).set
          (t + ((decodeFrom src (rangeEnd src f ef) (rangeEnd src f ef - f) f).take
            (et - (t + 1))).length) 0,
        ((decodeFrom src (rangeEnd src f ef) (rangeEnd src f ef - f) f).take
            (et - (t + 1))).length) := by
  unfold sip_deescape
  simp only
  rw [deescape_loop_decode src _ et _ out t f hlen]
  simp [List.length_take, Nat.min_comm]

/-! ## Facts about percent-encodings -/

theorem isxdigit_range {c : Nat} (h : isxdigit c = true) :
    (48 ≤ c ∧ c ≤ 57) ∨ (65 ≤ c ∧ c ≤ 70) ∨ (97 ≤ c ∧ c ≤ 102) := by
  simp only [isxdigit, isdigit, Bool.or_eq_true, Bool.and_eq_true, decide_eq_true_eq] at h
  omega

/-- The value that the source computes for a hexadecimal digit is its value. -/
theorem hexNibble_eq_hexValue {c : Nat} (h : isxdigit c = true) : hexNibble c = hexValue c := by
  rcases isxdigit_range h with h1 | h1 | h1
  · obtain ⟨h1, h2⟩ := h1
    interval_cases c <;> rfl
  · obtain ⟨h1, h2⟩ := h1
    interval_cases c <;> rfl
  · obtain ⟨h1, h2⟩ := h1
    interval_cases c <;> rfl

theorem hexValue_lt {c : Nat} (h : isxdigit c = true) : hexValue c < 16 := by
  rcases isxdigit_range h with h1 | h1 | h1
  · obtain ⟨h1, h2⟩ := h1
    interval_cases c <;> decide
  · obtain ⟨h1, h2⟩ := h1
    interval_cases c <;> decide
  · obtain ⟨h1, h2⟩ := h1
    interval_cases c <;> decide

theorem Encodes.length_le {x c : Bytes} (h : Encodes x c) : c.length ≤ x.length := by
  induction h with
  | nil => simp
  | literal o x c _ _ ih => simp only [List.length_cons]; omega
  | escaped h l x c _ _ _ ih => simp only [List.length_cons]; omega

/-- The loop of `sip_deescape` without a limit decodes an encoding to what it encodes. -/
theorem decodeFrom_encodes (src rest : Bytes) {x c : Bytes} (h : Encodes x c) :
    ∀ (n f : Nat), x.length ≤ n → src.drop f = x ++ rest →
      decodeFrom src (f + x.length) n f = c := by
  induction h with
  | nil =>
    intro n f _ _
    cases n with
    | zero => rfl
    | succ n => rw [decodeFrom.eq_2, if_neg (by simp)]
  | literal o x c ho _ ih =>
    intro n f hn hd
    obtain ⟨n, rfl⟩ : ∃ k, n = k + 1 := ⟨n - 1, by simp only [List.length_cons] at hn; omega⟩
    have hb : byteAt src f = o := byteAt_of_drop (t := x ++ rest) (by simpa using hd)
    have hd1 : src.drop (f + 1) = x ++ rest := drop_succ_of_drop (c := o) (by simpa using hd)
    have hesc : ¬ (f + 2 < f + (o :: x).length ∧ byteAt src f = 37) := fun h => ho (hb ▸ h.2)
    have hlt : f < f + (o :: x).length := by simp
    rw [decodeFrom.eq_2, if_pos hlt, if_neg hesc, hb]
    have he : f + (o :: x).length = f + 1 + x.length := by simp only [List.length_cons]; omega
    rw [he, ih n (f + 1) (by simp only [List.length_cons] at hn; omega) hd1]
  | escaped h l x c hh hl _ ih =>
    intro n f hn hd
    obtain ⟨n, rfl⟩ : ∃ k, n = k + 1 := ⟨n - 1, by simp only [List.length_cons] at hn; omega⟩
    have hb : byteAt src f = 37 := byteAt_of_drop (t := h :: l :: x ++ rest) (by simpa using hd)
    have hd1 : src.drop (f + 1) = h :: l :: x ++ rest :=
      drop_succ_of_drop (c := 37) (by simpa using hd)
    have hb1 : byteAt src (f + 1) = h := byteAt_of_drop hd1
    have hd2 : src.drop (f + 1 + 1) = l :: x ++ rest := drop_succ_of_drop hd1
    have hb2 : byteAt src (f + 2) = l := byteAt_of_drop (p := f + 2) hd2
    have hd3 : src.drop (f + 3) = x ++ rest := drop_succ_of_drop (p := f + 2) hd2
    have hesc : f + 2 < f + (37 :: h :: l :: x).length ∧ byteAt src f = 37 :=
      ⟨by simp only [List.length_cons]; omega, hb⟩
    have hlt : f < f + (37 :: h :: l :: x).length := by simp
    rw [decodeFrom.eq_2, if_pos hlt, if_pos hesc, hb1, hb2, hexNibble_eq_hexValue hh,
      hexNibble_eq_hexValue hl]
    have he : f + (37 :: h :: l :: x).length = f + 3 + x.length := by
      simp only [List.length_cons]; omega
    have hv : (hexValue h * 16 + hexValue l) % 256 = hexValue h * 16 + hexValue l := by
      have := hexValue_lt hh
      have := hexValue_lt hl
      omega
    rw [he, ih n (f + 3) (by simp only [List.length_cons] at hn; omega) hd3, hv]

/-! ## Facts about the composers -/

theorem cstring_of_nulfree (x : Bytes) (h : ∀ c ∈ x, c ≠ 0) : cstring x = x := by
  unfold cstring
  rw [List.takeWhile_eq_self_iff]
  intro c hc
  simpa using h c hc

theorem printedValue_range (src : Bytes) (start : Nat) (value rest : Bytes)
    (hd : src.drop start = value ++ rest) (hv : ∀ c ∈ value, c ≠ 0) :
    printedValue src start (value.length : Int) = value := by
  unfold printedValue
  rw [if_neg (by omega), hd, Int.toNat_ofNat, List.take_left']
  · exact cstring_of_nulfree value hv
  · rfl

theorem length_writeAt (out : Bytes) (t : Nat) (data : Bytes) (h : t + data.length ≤ out.length) :
    (writeAt out t data).length = out.length := by
  unfold writeAt
  simp only [List.length_append, List.length_take, List.length_drop]
  omega

theorem take_writeAt (out : Bytes) (t : Nat) (line z : Bytes) (h : t ≤ out.length) :
    (writeAt out t (line ++ z)).take (t + line.length) = out.take t ++ line := by
  unfold writeAt
  have hl : (List.take t out).length = t := by simp; omega
  rw [List.append_assoc, List.append_assoc, ← List.append_assoc (List.take t out) line]
  rw [List.take_left']
  simp [hl]

/-- What the two composers do for a name and a value without NUL: the line is stored,
followed by a NUL, when the room `e - pp` is at least the length of the line plus 2 (the
final empty line), and nothing is changed otherwise. -/
theorem add_header_with_spec (extra : Nat) (left right buf name src value rest : Bytes)
    (pp e start : Nat) (stop : Option Nat) (hname : ∀ c ∈ name, c ≠ 0)
    (hvalue : ∀ c ∈ value, c ≠ 0) (hd : src.drop start = value ++ rest)
    (hstop : (stop = none ∧ rest.headD 0 = 0) ∨ stop = some (start + value.length)) :
    add_header_with extra left right buf pp e name src (some start) stop
      = if name.length + value.length + 6 + extra ≤ e - pp then
          (some pp,
            writeAt buf pp (name ++ [58, 32] ++ left ++ value ++ right ++ [13, 10] ++ [0]),
            pp + (name ++ [58, 32] ++ left ++ value ++ right ++ [13, 10]).length)
        else (none, buf, pp) := by
  have hE : rangeEnd src start stop = start + value.length := by
    rcases hstop with ⟨h, hr⟩ | h
    · subst h; simp only [rangeEnd]; rw [strlen_of_drop src start value rest hd hvalue hr]
    · subst h; rfl
  have hstr : strlen name 0 = name.length := strlen_of_drop name 0 name [] (by simp) hname rfl
  have hn : ((start + value.length : Nat) : Int) - (start : Int) = (value.length : Int) := by
    push_cast; ring
  unfold add_header_with
  simp only
  rw [hE, hn, hstr, printedValue_range src start value rest hd hvalue,
    cstring_of_nulfree name hname]
  by_cases hroom : name.length + value.length + 6 + extra ≤ e - pp
  · have hc : ¬ ((e : Int) < (pp : Int) + (name.length : Int) + 2 + (value.length : Int) + 2 + 2
        + (extra : Int)) := by omega
    rw [if_neg hc, if_pos hroom]
  · have hc : (e : Int) < (pp : Int) + (name.length : Int) + 2 + (value.length : Int) + 2 + 2
        + (extra : Int) := by omega
    rw [if_pos hc, if_neg hroom]

theorem drop_writeAt_after (out : Bytes) (t : Nat) (data : Bytes) (h : t ≤ out.length) :
    (writeAt out t data).drop (t + data.length) = out.drop (t + data.length) := by
  have h1 := drop_writeAt out t data h
  have h2 := drop_add_of_drop data _ h1
  exact h2

theorem byteAt_writeAt_end (out : Bytes) (t : Nat) (line : Bytes) (h : t ≤ out.length) :
    byteAt (writeAt out t (line ++ [0])) (t + line.length) = 0 := by
  have h1 := drop_writeAt out t (line ++ [0]) h
  rw [List.append_assoc] at h1
  have h2 := drop_add_of_drop line _ h1
  exact byteAt_of_drop h2

/-- The memory and the write position after a composer has stored a line. -/
theorem writeAt_line_facts (buf line : Bytes) (pp e k : Nat) (he : e ≤ buf.length)
    (hroom : pp + line.length + k ≤ e) (hk : 1 ≤ k) :
    (writeAt buf pp (line ++ [0])).take (pp + line.length) = buf.take pp ++ line ∧
    (writeAt buf pp (line ++ [0])).length = buf.length ∧
    byteAt (writeAt buf pp (line ++ [0])) (pp + line.length) = 0 ∧
    (writeAt buf pp (line ++ [0])).drop (pp + line.length + 1)
      = buf.drop (pp + line.length + 1) := by
  refine ⟨take_writeAt buf pp line [0] (by omega), length_writeAt buf pp _ ?_,
    byteAt_writeAt_end buf pp line (by omega), ?_⟩
  · simp only [List.length_append, List.length_singleton]; omega
  · have := drop_writeAt_after buf pp (line ++ [0]) (by omega)
    simpa [Nat.add_assoc] using this

theorem isLineOctet_ne_zero {x : Nat} (h : isLineOctet x = true) : x ≠ 0 := by
  simp only [isLineOctet, Bool.and_eq_true, bne_iff_ne, ne_eq] at h
  exact h.2

/-- One composer call on a clean name and value: the write position stays within the
buffer, the memory keeps its length, and the content before the write position gains
nothing or one complete line. -/
theorem add_header_with_step (extra : Nat) (left right buf name src : Bytes) (pp e : Nat)
    (start stop : Option Nat) (hpp : pp ≤ e) (he : e ≤ buf.length)
    (hlr : left.length + right.length ≤ extra) (hname : ∀ x ∈ name, isLineOctet x = true)
    (hleft : ∀ x ∈ left, isLineOctet x = true) (hright : ∀ x ∈ right, isLineOctet x = true)
    (hval : ∀ s, start = some s → ∃ value rest, src.drop s = value ++ rest ∧
      (∀ x ∈ value, isLineOctet x = true) ∧
      ((stop = none ∧ rest.headD 0 = 0) ∨ stop = some (s + value.length))) :
    pp ≤ (add_header_with extra left right buf pp e name src start stop).2.2 ∧
    (add_header_with extra left right buf pp e name src start stop).2.2 ≤ e ∧
    (add_header_with extra left right buf pp e name src start stop).2.1.length = buf.length ∧
    ∃ ls : List Bytes, (∀ l ∈ ls, IsLine l) ∧
      (add_header_with extra left right buf pp e name src start stop).2.1.take
          (add_header_with extra left right buf pp e name src start stop).2.2
        = buf.take pp ++ ls.flatten := by
  cases start with
  | none => exact ⟨le_refl _, hpp, rfl, [], by simp, by simp [add_header_with]⟩
  | some s =>
    obtain ⟨value, rest, hd, hvalue, hstop⟩ := hval s rfl
    rw [add_header_with_spec extra left right buf name src value rest pp e s stop
      (fun x hx => isLineOctet_ne_zero (hname x hx))
      (fun x hx => isLineOctet_ne_zero (hvalue x hx)) hd hstop]
    by_cases hroom : name.length + value.length + 6 + extra ≤ e - pp
    · rw [if_pos hroom]
      obtain ⟨line, hline⟩ : ∃ line, line = name ++ [58, 32] ++ left ++ value ++ right
        ++ [13, 10] := ⟨_, rfl⟩
      rw [← hline]
      have hll : line.length = name.length + 2 + left.length + value.length + right.length
          + 2 := by
        rw [hline]; simp only [List.length_append, List.length_cons, List.length_nil]
      have hf := writeAt_line_facts buf line pp e 2 he (by omega) (by omega)
      dsimp only
      refine ⟨by omega, by omega, hf.2.1, [line], ?_, ?_⟩
      · intro l hl
        rw [List.mem_singleton] at hl
        refine ⟨name, left ++ value ++ right, ?_, hname, ?_⟩
        · rw [hl, hline]; simp only [List.append_assoc]
        · intro x hx
          rcases List.mem_append.mp hx with h | h
          · rcases List.mem_append.mp h with h | h
            · exact hleft x h
            · exact hvalue x h
          · exact hright x h
      · simp only [List.flatten_cons, List.flatten_nil, List.append_nil]
        exact hf.1
    · rw [if_neg hroom]
      exact ⟨le_refl _, hpp, rfl, [], by simp, by simp⟩

/-- One call of either composer, as `AddCall.apply` runs it. -/
theorem AddCall.apply_step (c : AddCall) (buf : Bytes) (pp e : Nat) (hpp : pp ≤ e)
    (he : e ≤ buf.length) (hc : c.Clean) :
    pp ≤ (AddCall.apply e (buf, pp) c).2 ∧ (AddCall.apply e (buf, pp) c).2 ≤ e ∧
    (AddCall.apply e (buf, pp) c).1.length = buf.length ∧
    ∃ ls : List Bytes, (∀ l ∈ ls, IsLine l) ∧
      (AddCall.apply e (buf, pp) c).1.take (AddCall.apply e (buf, pp) c).2
        = buf.take pp ++ ls.flatten := by
  unfold AddCall.apply
  by_cases ha : c.angle = true
  · simp only [ha, if_true]
    exact add_header_with_step 2 [60] [62] buf c.head c.src pp e c.start c.stop hpp he
      (by decide) hc.1 (by decide) (by decide) hc.2
  · simp only [ha, if_false]
    exact add_header_with_step 0 [] [] buf c.head c.src pp e c.start c.stop hpp he
      (by decide) hc.1 (by simp) (by simp) hc.2

/-! ## Facts about the range of the results -/

theorem quotedLoop_bounds (b : Bytes) (e : Nat) :
    ∀ (n s : Nat), s ≤ e → s ≤ quotedLoop b e n s ∧ quotedLoop b e n s ≤ e := by
  intro n
  induction n with
  | zero => intro s hs; exact ⟨le_refl _, hs⟩
  | succ n ih =>
    intro s hs
    rw [quotedLoop.eq_2]
    by_cases hc : s < e ∧ byteAt b s ≠ 34
    · rw [if_pos hc]
      by_cases hesc : byteAt b s = 92 ∧ s + 1 < e
      · simp only [if_pos hesc]
        have := ih (s + 1 + 1) (by omega)
        omega
      · simp only [if_neg hesc]
        have := ih (s + 1) (by omega)
        omega
    · rw [if_neg hc]; exact ⟨le_refl _, hs⟩

theorem tokenLoop_bounds (b : Bytes) (e : Nat) :
    ∀ (n s : Nat), s ≤ e → s ≤ tokenLoop b e n s ∧ tokenLoop b e n s ≤ e := by
  intro n
  induction n with
  | zero => intro s hs; exact ⟨le_refl _, hs⟩
  | succ n ih =>
    intro s hs
    rw [tokenLoop.eq_2]
    by_cases hse : s < e
    · rw [if_pos hse]
      simp only
      by_cases hbr : scanWhile b isTokenChar s e < e ∧ byteAt b (scanWhile b isTokenChar s e) ≠ 32
      · rw [if_pos hbr]; exact ⟨le_refl _, hs⟩
      · rw [if_neg hbr]
        by_cases hp : skip_space b (scanWhile b isTokenChar s e) e < e
        · rw [if_pos hp]
          have h1 := scanWhile_ge' b isTokenChar s e
          have h2 : scanWhile b isTokenChar s e ≤ skip_space b (scanWhile b isTokenChar s e) e :=
            scanWhile_ge' b isLWS _ e
          have := ih _ (Nat.le_of_lt hp)
          omega
        · rw [if_neg hp]; exact ⟨le_refl _, hs⟩
    · rw [if_neg hse]; exact ⟨le_refl _, hs⟩

theorem skip_space_bounds (b : Bytes) (s e : Nat) (hs : s ≤ e) :
    s ≤ skip_space b s e ∧ skip_space b s e ≤ e :=
  ⟨scanWhile_ge' b isLWS s e, scanWhile_le' b isLWS s e hs⟩

theorem skip_display_bounds (b : Bytes) (s e : Nat) (hs : s ≤ e) :
    s ≤ skip_display b s e ∧ skip_display b s e ≤ e := by
  unfold skip_display
  simp only
  obtain ⟨s1, hs1⟩ : ∃ s1, s1 = skip_space b s e := ⟨_, rfl⟩
  rw [← hs1]
  have h1 : s ≤ s1 ∧ s1 ≤ e := hs1 ▸ skip_space_bounds b s e hs
  by_cases hq : s1 < e ∧ byteAt b s1 = 34
  · rw [if_pos hq]
    have h2 := quotedLoop_bounds b e (e - (s1 + 1)) (s1 + 1) (by omega)
    by_cases hlt : quotedLoop b e (e - (s1 + 1)) (s1 + 1) < e
    · rw [if_pos hlt]
      have := skip_space_bounds b (quotedLoop b e (e - (s1 + 1)) (s1 + 1) + 1) e (by omega)
      omega
    · rw [if_neg hlt]
      have := skip_space_bounds b (quotedLoop b e (e - (s1 + 1)) (s1 + 1)) e (by omega)
      omega
  · rw [if_neg hq]
    have h2 := tokenLoop_bounds b e (e - s1) s1 h1.2
    have := skip_space_bounds b (tokenLoop b e (e - s1) s1) e h2.2
    omega

theorem find_uri_bounds (b : Bytes) (s e : Nat) (hs : s ≤ e) (st en : Nat)
    (h : find_uri b s e = some (st, en)) : s ≤ st ∧ st ≤ en ∧ en ≤ e := by
  unfold find_uri at h
  simp only at h
  obtain ⟨s1, hs1⟩ : ∃ s1, s1 = skip_display b s e := ⟨_, rfl⟩
  rw [← hs1] at h
  have h1 : s ≤ s1 ∧ s1 ≤ e := hs1 ▸ skip_display_bounds b s e hs
  obtain ⟨s2, hs2⟩ : ∃ s2, s2 = if s1 < e ∧ byteAt b s1 = 44 then skip_space b (s1 + 1) e
    else s1 := ⟨_, rfl⟩
  rw [← hs2] at h
  have h2 : s1 ≤ s2 ∧ s2 ≤ e := by
    rw [hs2]
    by_cases hc : s1 < e ∧ byteAt b s1 = 44
    · rw [if_pos hc]
      have := skip_space_bounds b (s1 + 1) e (by omega)
      omega
    · rw [if_neg hc]; exact ⟨le_refl _, h1.2⟩
  by_cases ha : s2 < e ∧ byteAt b s2 = 60
  · rw [if_pos ha] at h
    have g1 := scanWhile_ge' b (fun c => c != 62) (s2 + 1) e
    have g2 := scanWhile_le' b (fun c => c != 62) (s2 + 1) e (by omega)
    split at h
    · exact absurd h (by simp)
    · simp only [Option.some.injEq, Prod.mk.injEq] at h
      omega
  · rw [if_neg ha] at h
    have g1 := scanWhile_ge' b (fun c => c != 44) s2 e
    have g2 := scanWhile_le' b (fun c => c != 44) s2 e h2.2
    split at h
    · exact absurd h (by simp)
    · simp only [Option.some.injEq, Prod.mk.injEq] at h
      omega

theorem sip_find_request_bounds (b : Bytes) (p e : Nat) (hp : p ≤ e) (st en : Nat)
    (h : sip_find_request b (some p) e = some (st, en)) : p ≤ st ∧ st ≤ en ∧ en ≤ e := by
  unfold sip_find_request at h
  simp only [Option.some.injEq, Prod.mk.injEq] at h
  obtain ⟨l, hl⟩ : ∃ l, l = scanWhile b (fun c => decide (32 ≤ c)) p e := ⟨_, rfl⟩
  rw [← hl] at h
  have h0 : p ≤ l ∧ l ≤ e := hl ▸ ⟨scanWhile_ge' _ _ _ _, scanWhile_le' _ _ _ _ hp⟩
  have h1 := scanWhile_ge' b (fun c => c != 32) p l
  have h1' := scanWhile_le' b (fun c => c != 32) p l h0.1
  have h2 := scanWhile_ge' b (fun c => c == 32) (scanWhile b (fun c => c != 32) p l) l
  have h2' := scanWhile_le' b (fun c => c == 32) (scanWhile b (fun c => c != 32) p l) l h1'
  have h3 := scanWhile_ge' b (fun c => decide (32 < c))
    (scanWhile b (fun c => c == 32) (scanWhile b (fun c => c != 32) p l) l) l
  have h3' := scanWhile_le' b (fun c => decide (32 < c))
    (scanWhile b (fun c => c == 32) (scanWhile b (fun c => c != 32) p l) l) l h2'
  omega

theorem sip_find_display_bounds (b : Bytes) (s : Nat) (e : Option Nat)
    (hs : s ≤ rangeEnd b s e) (st en : Nat)
    (h : sip_find_display b (some s) e = some (st, en)) :
    s ≤ st ∧ st ≤ en ∧ en ≤ rangeEnd b s e := by
  unfold sip_find_display at h
  simp only at h
  obtain ⟨e1, he1⟩ : ∃ e1, e1 = rangeEnd b s e := ⟨_, rfl⟩
  rw [← he1] at h hs ⊢
  obtain ⟨s1, hs1⟩ : ∃ s1, s1 = skip_space b s e1 := ⟨_, rfl⟩
  rw [← hs1] at h
  have h1 : s ≤ s1 ∧ s1 ≤ e1 := hs1 ▸ skip_space_bounds b s e1 hs
  have h2 := skip_display_bounds b s1 e1 h1.2
  have h3 := scanBack_bounds b isLWS s1 _ (skip_display b s1 e1) rfl h2.1
  split at h
  · exact absurd h (by simp)
  · split at h
    · simp only [Option.some.injEq, Prod.mk.injEq] at h
      omega
    · simp only [Option.some.injEq, Prod.mk.injEq] at h
      omega

theorem sip_find_local_bounds (b : Bytes) (s : Nat) (e : Option Nat)
    (hs : s ≤ rangeEnd b s e) (st en : Nat)
    (h : sip_find_local b (some s) e = some (st, en)) :
    s ≤ st ∧ st ≤ en ∧ en ≤ rangeEnd b s e := by
  unfold sip_find_local at h
  simp only at h
  obtain ⟨e1, he1⟩ : ∃ e1, e1 = rangeEnd b s e := ⟨_, rfl⟩
  rw [← he1] at h hs ⊢
  obtain ⟨s1, hs1⟩ : ∃ s1, s1 = if s + 4 ≤ e1 ∧ strncasecmp b s [115, 105, 112, 58] 0 4 = 0
    then s + 4 else s := ⟨_, rfl⟩
  rw [← hs1] at h
  have h1 : s ≤ s1 ∧ s1 ≤ e1 := by
    rw [hs1]
    split
    · rename_i hc; omega
    · omega
  have h2 := scanWhile_ge' b (fun c => c != 64) s1 e1
  have h3 := scanWhile_le' b (fun c => c != 64) s1 e1 h1.2
  split at h
  · exact absurd h (by simp)
  · simp only [Option.some.injEq, Prod.mk.injEq] at h
    omega

theorem sip_find_host_bounds (b : Bytes) (s : Nat) (e : Option Nat)
    (hs : s ≤ rangeEnd b s e) (st en : Nat)
    (h : sip_find_host b (some s) e = some (st, en)) :
    s ≤ st ∧ st ≤ en ∧ en ≤ rangeEnd b s e := by
  unfold sip_find_host at h
  simp only at h
  obtain ⟨e1, he1⟩ : ∃ e1, e1 = rangeEnd b s e := ⟨_, rfl⟩
  rw [← he1] at h hs ⊢
  cases hfu : find_uri b s e1 with
  | none => rw [hfu] at h; exact absurd h (by simp)
  | some r =>
    obtain ⟨us, ue⟩ := r
    rw [hfu] at h
    simp only at h
    have hu := find_uri_bounds b s e1 hs us ue hfu
    obtain ⟨s1, hs1⟩ : ∃ s1, s1 = if scanWhile b isalpha us ue < ue ∧
      byteAt b (scanWhile b isalpha us ue) = 58 then scanWhile b isalpha us ue + 1 else us :=
      ⟨_, rfl⟩
    rw [← hs1] at h
    have h1 : us ≤ s1 ∧ s1 ≤ ue := by
      rw [hs1]
      have := scanWhile_ge' b isalpha us ue
      split
      · rename_i hc; omega
      · omega
    obtain ⟨e2, he2⟩ : ∃ e2, e2 = scanWhile b (fun c => c != 59) s1 ue := ⟨_, rfl⟩
    rw [← he2] at h
    have h2 : s1 ≤ e2 ∧ e2 ≤ ue :=
      he2 ▸ ⟨scanWhile_ge' _ _ _ _, scanWhile_le' _ _ _ _ h1.2⟩
    obtain ⟨s2, hs2⟩ : ∃ s2, s2 = scanBack b (fun c => c != 64) s1 e2 := ⟨_, rfl⟩
    rw [← hs2] at h
    have h3 : s1 ≤ s2 ∧ s2 ≤ e2 := hs2 ▸ scanBack_bounds b _ s1 _ e2 rfl h2.1
    obtain ⟨p, hp⟩ : ∃ p, p = if s2 < e2 ∧ byteAt b s2 = 91 then
        (if scanWhile b (fun c => c != 93) s2 e2 < e2 ∧
          byteAt b (scanWhile b (fun c => c != 93) s2 e2) = 93
        then scanWhile b (fun c => c != 93) s2 e2 + 1 else scanWhile b (fun c => c != 93) s2 e2)
      else scanWhile b isHostChar s2 e2 := ⟨_, rfl⟩
    rw [← hp] at h
    have h4 : s2 ≤ p ∧ p ≤ e2 := by
      rw [hp]
      have g1 := scanWhile_ge' b (fun c => c != 93) s2 e2
      have g2 := scanWhile_le' b (fun c => c != 93) s2 e2 h3.2
      have g3 := scanWhile_ge' b isHostChar s2 e2
      have g4 := scanWhile_le' b isHostChar s2 e2 h3.2
      split
      · split
        · rename_i hc; omega
        · omega
      · omega
    split at h
    · exact absurd h (by simp)
    · simp only [Option.some.injEq, Prod.mk.injEq] at h
      omega

theorem find_semi_loop_range (b : Bytes) (e : Nat) (tag : Bytes) :
    ∀ (fuel p : Nat), p ≤ e →
      ∀ st en, find_semi_loop b e tag fuel p = some (st, en) → p ≤ st ∧ st ≤ en ∧ en ≤ e := by
  intro fuel
  induction fuel with
  | zero => intro p _ st en h; simp [find_semi_loop] at h
  | succ n ih =>
    intro p hp st en h
    rw [find_semi_loop.eq_2] at h
    simp only at h
    by_cases hpe : p < e
    · rw [if_pos hpe] at h
      by_cases h60 : byteAt b p = 60
      · rw [if_pos h60] at h
        have g1 := scanWhile_ge' b (fun c => c != 62) p e
        have g2 := scanWhile_le' b (fun c => c != 62) p e hp
        have hnext : (if scanWhile b (fun c => c != 62) p e < e
            then scanWhile b (fun c => c != 62) p e + 1
            else scanWhile b (fun c => c != 62) p e) ≤ e := by split <;> omega
        have hge : p ≤ (if scanWhile b (fun c => c != 62) p e < e
            then scanWhile b (fun c => c != 62) p e + 1
            else scanWhile b (fun c => c != 62) p e) := by split <;> omega
        have := ih _ hnext st en h
        omega
      · rw [if_neg h60] at h
        by_cases h32 : byteAt b p ≤ 32
        · rw [if_pos h32] at h
          have := ih (p + 1) hpe st en h
          omega
        · rw [if_neg h32] at h
          generalize hs1 : scanWhile b
            (fun c => decide (32 < c) && c != 61 && c != 59 && c != 44) p e = s1 at h
          have hs1ge : p ≤ s1 := by rw [← hs1]; exact scanWhile_ge' _ _ _ _
          have hs1le : s1 ≤ e := by rw [← hs1]; exact scanWhile_le' _ _ _ _ hp
          split at h
          · split at h
            · simp only [Option.some.injEq, Prod.mk.injEq] at h
              omega
            · rename_i hv
              have hv1 : s1 ≠ e := fun h1 => hv (Or.inl h1)
              have hq1ge := scanWhile_ge' b (fun c => c != 59 && c != 44) (s1 + 1) e
              have hq1le := scanWhile_le' b (fun c => c != 59 && c != 44) (s1 + 1) e (by omega)
              have hq2 := scanBack_bounds b isSPHT (s1 + 1) _ _ rfl hq1ge
              simp only [Option.some.injEq, Prod.mk.injEq] at h
              omega
          · generalize hs2 : scanWhile b (fun c => c != 59 && c != 44) s1 e = s2 at h
            have hs2ge : s1 ≤ s2 := by rw [← hs2]; exact scanWhile_ge' _ _ _ _
            have hs2le : s2 ≤ e := by rw [← hs2]; exact scanWhile_le' _ _ _ _ hs1le
            split at h
            · exact absurd h (by simp)
            · have hp' : (if s2 < e then s2 + 1 else s2) ≤ e := by split <;> omega
              have hp'ge : p ≤ (if s2 < e then s2 + 1 else s2) := by split <;> omega
              have := ih _ hp' st en h
              omega
    · rw [if_neg hpe] at h; exact absurd h (by simp)

theorem sip_find_semi_bounds (b : Bytes) (s e : Nat) (tag : Bytes) (hs : s ≤ e) (st en : Nat)
    (h : sip_find_semi b (some s) (some e) tag = some (st, en)) :
    s ≤ st ∧ st ≤ en ∧ en ≤ e := by
  have h1 := skip_display_bounds b s e hs
  have h2 : sip_find_semi b (some s) (some e) tag
      = find_semi_loop b e tag (e - skip_display b s e + 1) (skip_display b s e) := rfl
  rw [h2] at h
  have := find_semi_loop_range b e tag _ _ h1.2 st en h
  omega

theorem find_comma_loop_range (b : Bytes) (e : Nat) (tag : Bytes) :
    ∀ (fuel s : Nat), s ≤ e →
      ∀ st en, find_comma_loop b e tag fuel s = some (some (st, en)) →
        s ≤ st ∧ st ≤ en ∧ en ≤ e := by
  intro fuel
  induction fuel with
  | zero => intro s _ st en h; simp [find_comma_loop] at h
  | succ n ih =>
    intro s hs st en h
    rw [find_comma_loop.eq_2] at h
    simp only at h
    by_cases hse : s < e
    · rw [if_pos hse] at h
      obtain ⟨s1, hs1⟩ : ∃ s1, s1 = skip_space b s e := ⟨_, rfl⟩
      rw [← hs1] at h
      have h1 : s ≤ s1 ∧ s1 ≤ e := hs1 ▸ skip_space_bounds b s e hs
      obtain ⟨s2, hs2⟩ : ∃ s2, s2 = scanWhile b (fun c => decide (32 < c) && c != 61) s1 e :=
        ⟨_, rfl⟩
      rw [← hs2] at h
      have h2 : s1 ≤ s2 ∧ s2 ≤ e := hs2 ▸ ⟨scanWhile_ge' _ _ _ _, scanWhile_le' _ _ _ _ h1.2⟩
      by_cases hc : s2 = e ∨ byteAt b s2 ≠ 61
      · rw [if_pos hc] at h
        have := ih s2 h2.2 st en h
        omega
      · rw [if_neg hc] at h
        have hlt : s2 < e := by
          have : s2 ≠ e := fun h1 => hc (Or.inl h1)
          omega
        obtain ⟨r, hr⟩ : ∃ r : Nat × Nat × Nat, r =
            if s2 + 1 < e ∧ byteAt b (s2 + 1) = 34 then
              (s2 + 1 + 1, quotedLoop b e (e - (s2 + 1 + 1)) (s2 + 1 + 1),
                if quotedLoop b e (e - (s2 + 1 + 1)) (s2 + 1 + 1) < e
                then quotedLoop b e (e - (s2 + 1 + 1)) (s2 + 1 + 1) + 1
                else quotedLoop b e (e - (s2 + 1 + 1)) (s2 + 1 + 1))
            else
              (s2 + 1, scanBack b (fun c => c == 32) (s2 + 1)
                  (scanWhile b (fun c => c != 44) (s2 + 1) e),
                scanBack b (fun c => c == 32) (s2 + 1)
                  (scanWhile b (fun c => c != 44) (s2 + 1) e)) := ⟨_, rfl⟩
        rw [← hr] at h
        have hrb : s2 + 1 ≤ r.1 ∧ r.1 ≤ r.2.1 ∧ r.2.1 ≤ r.2.2 ∧ r.2.2 ≤ e := by
          rw [hr]
          split
          · rename_i hq
            have g := quotedLoop_bounds b e (e - (s2 + 1 + 1)) (s2 + 1 + 1) (by omega)
            dsimp only
            split <;> omega
          · have g1 := scanWhile_ge' b (fun c => c != 44) (s2 + 1) e
            have g2 := scanWhile_le' b (fun c => c != 44) (s2 + 1) e (by omega)
            have g3 := scanBack_bounds b (fun c => c == 32) (s2 + 1) _ _ rfl g1
            dsimp only
            omega
        split at h
        · simp only [Option.some.injEq, Prod.mk.injEq] at h
          omega
        · obtain ⟨s4, hs4⟩ : ∃ s4, s4 = skip_space b r.2.2 e := ⟨_, rfl⟩
          rw [← hs4] at h
          have h4 : r.2.2 ≤ s4 ∧ s4 ≤ e := hs4 ▸ skip_space_bounds b r.2.2 e hrb.2.2.2
          have hnext : (if s4 < e ∧ byteAt b s4 = 44 then s4 + 1 else s4) ≤ e := by
            split
            · rename_i hc4; omega
            · omega
          have hge : s4 ≤ (if s4 < e ∧ byteAt b s4 = 44 then s4 + 1 else s4) := by
            split <;> omega
          have := ih _ hnext st en h
          omega
    · rw [if_neg hse] at h; exact absurd h (by simp)

theorem sip_find_comma_bounds (fuel : Nat) (b : Bytes) (s : Nat) (e : Option Nat) (tag : Bytes)
    (hs : s ≤ rangeEnd b s e) (st en : Nat)
    (h : sip_find_comma fuel b (some s) e tag = some (some (st, en))) :
    s ≤ st ∧ st ≤ en ∧ en ≤ rangeEnd b s e := by
  have h1 := skip_display_bounds b s _ hs
  have h2 : sip_find_comma fuel b (some s) e tag
      = find_comma_loop b (rangeEnd b s e) tag fuel (skip_display b s (rangeEnd b s e)) := rfl
  rw [h2] at h
  have := find_comma_loop_range b _ tag _ _ h1.2 st en h
  omega

theorem listCommaLoop_bounds (b : Bytes) (e : Nat) :
    ∀ (n p : Nat), p ≤ e → p ≤ listCommaLoop b e n p ∧ listCommaLoop b e n p ≤ e := by
  intro n
  induction n with
  | zero => intro p hp; exact ⟨le_refl _, hp⟩
  | succ n ih =>
    intro p hp
    rw [listCommaLoop.eq_2]
    by_cases hc : p < e ∧ byteAt b p = 44
    · rw [if_pos hc]
      have h1 := skip_space_bounds b (p + 1) e (by omega)
      have := ih _ h1.2
      omega
    · rw [if_neg hc]; exact ⟨le_refl _, hp⟩

theorem listElemLoop_bounds (b : Bytes) (e : Nat) :
    ∀ (n p : Nat), p ≤ e → ∀ q, listElemLoop b e n p = some q → p ≤ q ∧ q ≤ e := by
  intro n
  induction n with
  | zero =>
    intro p hp q h
    simp only [listElemLoop, Option.some.injEq] at h
    omega
  | succ n ih =>
    intro p hp q h
    rw [listElemLoop.eq_2] at h
    by_cases hc : p < e ∧ byteAt b p ≠ 44
    · rw [if_pos hc] at h
      by_cases hq : byteAt b p = 34
      · rw [if_pos hq] at h
        have h1 := skip_display_bounds b p e hp
        have := ih _ h1.2 q h
        omega
      · rw [if_neg hq] at h
        by_cases ha : byteAt b p = 60
        · rw [if_pos ha] at h
          cases hfu : find_uri b p e with
          | none => rw [hfu] at h; exact absurd h (by simp)
          | some r =>
            rw [hfu] at h
            simp only at h
            have h1 := find_uri_bounds b p e hp r.1 r.2 hfu
            have := ih _ h1.2.2 q h
            omega
        · rw [if_neg ha] at h
          have := ih (p + 1) hc.1 q h
          omega
    · rw [if_neg hc] at h
      simp only [Option.some.injEq] at h
      omega

theorem sip_find_list_bounds (b : Bytes) (p : Nat) (e : Option Nat)
    (hp : p ≤ rangeEnd b p e) (st en : Nat)
    (h : sip_find_list b (some p) e = some (st, en)) :
    p ≤ st ∧ st ≤ en ∧ en ≤ rangeEnd b p e := by
  unfold sip_find_list at h
  simp only at h
  obtain ⟨e1, he1⟩ : ∃ e1, e1 = rangeEnd b p e := ⟨_, rfl⟩
  rw [← he1] at h hp ⊢
  have h1 := skip_space_bounds b p e1 hp
  have h2 := listCommaLoop_bounds b e1 (e1 - skip_space b p e1) _ h1.2
  split at h
  · exact absurd h (by simp)
  · cases hl : listElemLoop b e1 (e1 - listCommaLoop b e1 (e1 - skip_space b p e1)
        (skip_space b p e1)) (listCommaLoop b e1 (e1 - skip_space b p e1) (skip_space b p e1)) with
    | none => rw [hl] at h; exact absurd h (by simp)
    | some q =>
      rw [hl] at h
      simp only [Option.some.injEq, Prod.mk.injEq] at h
      have := listElemLoop_bounds b e1 _ _ h2.2 q hl
      omega

theorem skipLine_le (b : Bytes) (e p : Nat) (hp : p ≤ e) : skipLine b e p ≤ e := by
  unfold skipLine
  simp only
  have h1 := scanWhile_le' b (fun c => c == 9 || decide (32 ≤ c)) p e hp
  obtain ⟨p1, hp1⟩ : ∃ p1, p1 = scanWhile b (fun c => c == 9 || decide (32 ≤ c)) p e := ⟨_, rfl⟩
  rw [← hp1] at h1 ⊢
  obtain ⟨p2, hp2⟩ : ∃ p2, p2 = if p1 < e ∧ byteAt b p1 = 13 then p1 + 1 else p1 := ⟨_, rfl⟩
  rw [← hp2]
  have h2 : p2 ≤ e := by
    rw [hp2]
    split
    · rename_i hc; omega
    · omega
  split
  · rename_i hc; omega
  · exact h2

theorem skipHeaderFuel_le (b : Bytes) (e : Nat) :
    ∀ (n p : Nat), p ≤ e → skipHeaderFuel b e n p ≤ e := by
  intro n
  induction n with
  | zero => intro p hp; exact hp
  | succ n ih =>
    intro p hp
    rw [skipHeaderFuel.eq_2]
    by_cases hpe : p < e
    · rw [if_pos hpe]
      simp only
      have h1 := skipLine_le b e p hp
      split
      · exact h1
      · exact ih _ h1
    · rw [if_neg hpe]; exact hp

theorem find_header_loop_bounds (b : Bytes) (e : Nat) (head alt : Option Bytes) :
    ∀ (fuel p : Nat), p ≤ e → ∀ q, find_header_loop b e head alt fuel p = some q →
      p ≤ q ∧ q ≤ e := by
  intro fuel
  induction fuel with
  | zero => intro p _ q h; simp [find_header_loop] at h
  | succ n ih =>
    intro p hp q h
    rw [find_header_loop.eq_2] at h
    simp only at h
    by_cases hpe : p < e
    · rw [if_pos hpe] at h
      obtain ⟨p1, hp1⟩ : ∃ p1, p1 = skipHeader b e p := ⟨_, rfl⟩
      rw [← hp1] at h
      have h1 : p ≤ p1 ∧ p1 ≤ e :=
        hp1 ▸ ⟨skipHeader_ge b e _ p, skipHeaderFuel_le b e _ p hp⟩
      split at h
      · exact absurd h (by simp)
      · obtain ⟨p2, hp2⟩ : ∃ p2, p2 = scanWhile b (fun c => decide (32 < c) && c != 58) p1 e :=
          ⟨_, rfl⟩
        rw [← hp2] at h
        have h2 : p1 ≤ p2 ∧ p2 ≤ e :=
          hp2 ▸ ⟨scanWhile_ge' _ _ _ _, scanWhile_le' _ _ _ _ h1.2⟩
        split at h
        · exact absurd h (by simp)
        · obtain ⟨p3, hp3⟩ : ∃ p3, p3 = scanWhile b isSPHT p2 e := ⟨_, rfl⟩
          rw [← hp3] at h
          have h3 : p2 ≤ p3 ∧ p3 ≤ e :=
            hp3 ▸ ⟨scanWhile_ge' _ _ _ _, scanWhile_le' _ _ _ _ h2.2⟩
          split at h
          · have := ih p3 h3.2 q h
            omega
          · split at h
            · simp only [Option.some.injEq] at h
              omega
            · split at h
              · simp only [Option.some.injEq] at h
                omega
              · have := ih p3 h3.2 q h
                omega
    · rw [if_neg hpe] at h
      simp only [Option.some.injEq] at h
      omega

theorem find_header_value_bounds (b : Bytes) (e q : Nat) (hq : q ≤ e) (st en : Nat)
    (h : find_header_value b e q = some (st, en)) : q ≤ st ∧ st ≤ en ∧ en ≤ e := by
  unfold find_header_value at h
  simp only at h
  split at h
  · exact absurd h (by simp)
  · rename_i hne
    obtain ⟨s1, hs1⟩ : ∃ s1, s1 = scanWhile b isSPHT (q + 1) e := ⟨_, rfl⟩
    rw [← hs1] at h
    have h1 : q + 1 ≤ s1 ∧ s1 ≤ e :=
      hs1 ▸ ⟨scanWhile_ge' _ _ _ _, scanWhile_le' _ _ _ _ (by omega)⟩
    obtain ⟨p1, hp1⟩ : ∃ p1, p1 = skipHeader b e s1 := ⟨_, rfl⟩
    rw [← hp1] at h
    have h2 : s1 ≤ p1 ∧ p1 ≤ e :=
      hp1 ▸ ⟨skipHeader_ge b e _ s1, skipHeaderFuel_le b e _ s1 h1.2⟩
    obtain ⟨p2, hp2⟩ : ∃ p2, p2 = if s1 < p1 ∧ byteAt b (p1 - 1) = 10 then p1 - 1 else p1 :=
      ⟨_, rfl⟩
    rw [← hp2] at h
    have h3 : s1 ≤ p2 ∧ p2 ≤ p1 := by
      rw [hp2]
      split
      · rename_i hc; omega
      · omega
    simp only [Option.some.injEq, Prod.mk.injEq] at h
    obtain ⟨h4, h5⟩ := h
    rw [← h4, ← h5]
    split
    · rename_i hc; omega
    · omega

theorem sip_find_header_bounds (b : Bytes) (p e : Nat) (head alt : Option Bytes)
    (prev : Option Nat) (hp : p ≤ e) (st en : Nat)
    (h : sip_find_header b (some p) e head alt prev = some (st, en)) :
    p ≤ st ∧ st ≤ en ∧ en ≤ e := by
  unfold sip_find_header at h
  simp only at h
  cases hst : find_header_start p e prev with
  | none => rw [hst] at h; exact absurd h (by simp)
  | some p0 =>
    rw [hst] at h
    simp only at h
    have h0 : p ≤ p0 ∧ p0 ≤ e := by
      unfold find_header_start at hst
      cases prev with
      | none =>
        simp only [Option.some.injEq] at hst
        omega
      | some pv =>
        simp only at hst
        split at hst
        · exact absurd hst (by simp)
        · simp only [Option.some.injEq] at hst
          omega
    cases hl : find_header_loop b e head alt (e - p0 + 1) p0 with
    | none => rw [hl] at h; exact absurd h (by simp)
    | some q =>
      rw [hl] at h
      simp only at h
      have h1 := find_header_loop_bounds b e head alt _ p0 h0.2 q hl
      have := find_header_value_bounds b e q h1.2 st en h
      omega

theorem sip_find_uri_bounds (b : Bytes) (s : Nat) (e : Option Nat)
    (hs : s ≤ rangeEnd b s e) (st en : Nat)
    (h : sip_find_uri b (some s) e = some (st, en)) :
    s ≤ st ∧ st ≤ en ∧ en ≤ rangeEnd b s e :=
  find_uri_bounds b s _ hs st en h

/-! ## Facts about `sip_find_display` -/

theorem renderTokens_append (toks : List (Bytes × Bytes)) (tok w : Bytes) :
    renderTokens (toks ++ [(tok, w)]) = renderTokens toks ++ (tok ++ 32 :: w) := by
  induction toks with
  | nil => simp [renderTokens]
  | cons tw r ih => simp [renderTokens, ih]

theorem scanBack_self (b : Bytes) (P : Nat → Bool) (s : Nat) : scanBack b P s s = s := by
  unfold scanBack
  rw [Nat.sub_self]
  rfl

theorem tokenLoop_trail (b : Bytes) (e fuel s p : Nat)
    (hscan : scanWhile b isTokenChar s e = p) (hsk : ¬ skip_space b p e < e) :
    tokenLoop b e fuel s = s := by
  cases fuel with
  | zero => rfl
  | succ n =>
    rw [tokenLoop.eq_2]
    simp only
    split
    · rw [hscan]
      by_cases hc : p < e ∧ byteAt b p ≠ 32
      · rw [if_pos hc]
      · rw [if_neg hc, if_neg hsk]
    · rfl

theorem isLWS_not_token {c : Nat} (h : isLWS c = true) : isTokenChar c = false := by
  by_contra hc
  have h1 : isTokenChar c = true := by simpa using hc
  have := (isTokenChar_not_LWS h1).1
  rw [h] at this
  exact Bool.noConfusion this

/-- `sip_skip_display` skips only the white space before a single atom that ends the
range, white space after it included. -/
theorem skip_display_atom (b : Bytes) (e s : Nat) (ws a ws2 post : Bytes)
    (hws : ∀ x ∈ ws, isLWS x = true) (ha : a ≠ []) (hal : ∀ c ∈ a, isLWS c = false)
    (hq : a.head? ≠ some 34) (hws2 : ∀ c ∈ ws2, isLWS c = true)
    (hd : b.drop s = ws ++ (a ++ (ws2 ++ post)))
    (he : e = s + ws.length + a.length + ws2.length) :
    skip_display b s e = s + ws.length := by
  obtain ⟨a0, ar, ha0⟩ : ∃ a0 ar, a = a0 :: ar := by
    cases hc : a with
    | nil => exact absurd hc ha
    | cons a0 ar => exact ⟨a0, ar, rfl⟩
  have h0l : isLWS a0 = false := hal a0 (by rw [ha0]; exact List.mem_cons_self _ _)
  have h0q : a0 ≠ 34 := fun h => hq (by rw [ha0, h]; rfl)
  have hal1 : a.length = ar.length + 1 := by rw [ha0]; rfl
  have hd1 : b.drop (s + ws.length) = a ++ (ws2 ++ post) := drop_add_of_drop _ _ hd
  have hb1 : byteAt b (s + ws.length) = a0 := byteAt_of_drop (by rw [hd1, ha0]; rfl)
  have hskip0 : skip_space b s e = s + ws.length :=
    scanWhile_run b isLWS e _ ws s hd hws (by omega) (Or.inr (by rw [ha0]; exact h0l))
  have hskip1 : skip_space b (s + ws.length) e = s + ws.length :=
    skip_space_stop b _ e (Or.inr (by rw [hb1]; exact h0l))
  have hlen : a.length = (a.takeWhile isTokenChar).length + (a.dropWhile isTokenChar).length := by
    conv_lhs => rw [← List.takeWhile_append_dropWhile isTokenChar a]
    exact List.length_append _ _
  have hd2 : b.drop (s + ws.length)
      = a.takeWhile isTokenChar ++ (a.dropWhile isTokenChar ++ (ws2 ++ post)) := by
    rw [hd1, ← List.append_assoc (a.takeWhile isTokenChar), List.takeWhile_append_dropWhile]
  have hd3 : b.drop (s + ws.length + (a.takeWhile isTokenChar).length)
      = a.dropWhile isTokenChar ++ (ws2 ++ post) := drop_add_of_drop _ _ hd2
  have hloop : tokenLoop b e (e - (s + ws.length)) (s + ws.length) = s + ws.length := by
    cases hr : a.dropWhile isTokenChar with
    | nil =>
      rw [hr] at hd2 hd3 hlen
      simp only [List.length_nil, Nat.add_zero, List.nil_append] at hlen hd3
      cases hw2 : ws2 with
      | nil =>
        rw [hw2] at he
        simp only [List.length_nil] at he
        have hscan : scanWhile b isTokenChar (s + ws.length) e
            = s + ws.length + (a.takeWhile isTokenChar).length :=
          scanWhile_run b isTokenChar e _ _ _ hd2
            (fun x hx => (List.mem_takeWhile_imp hx)) (by omega) (Or.inl (by omega))
        exact tokenLoop_last b e _ _ _ hscan (by omega)
      | cons c r =>
        have hcl : isLWS c = true := hws2 c (by rw [hw2]; exact List.mem_cons_self _ _)
        have hscan : scanWhile b isTokenChar (s + ws.length) e
            = s + ws.length + (a.takeWhile isTokenChar).length :=
          scanWhile_run b isTokenChar e _ _ _ hd2
            (fun x hx => (List.mem_takeWhile_imp hx))
            (by rw [hw2] at he; simp only [List.length_cons] at he; omega)
            (Or.inr (by rw [hw2]; exact isLWS_not_token hcl))
        have hsk : skip_space b (s + ws.length + (a.takeWhile isTokenChar).length) e = e := by
          have := scanWhile_run b isLWS e post ws2
            (s + ws.length + (a.takeWhile isTokenChar).length) hd3 hws2 (by omega)
            (Or.inl (by omega))
          unfold skip_space
          rw [this]; omega
        exact tokenLoop_trail b e _ _ _ hscan (by rw [hsk]; exact Nat.lt_irrefl _)
    | cons c r =>
      rw [hr] at hd2 hd3 hlen
      have hcn : isTokenChar c = false := by
        have := List.head_dropWhile_not isTokenChar a (by rw [hr]; simp)
        simpa [hr] using this
      have hca : c ∈ a := by
        have : c ∈ a.dropWhile isTokenChar := by rw [hr]; exact List.mem_cons_self _ _
        exact (List.dropWhile_sublist _).subset this
      have hscan : scanWhile b isTokenChar (s + ws.length) e
          = s + ws.length + (a.takeWhile isTokenChar).length :=
        scanWhile_run b isTokenChar e _ _ _ hd2
          (fun x hx => (List.mem_takeWhile_imp hx)) (by simp only [List.length_cons] at hlen; omega)
          (Or.inr (by simpa using hcn))
      have hlt : s + ws.length + (a.takeWhile isTokenChar).length < e := by
        simp only [List.length_cons] at hlen; omega
      have hc32 : c ≠ 32 := fun h => by
        have := hal c hca
        rw [h] at this
        exact Bool.noConfusion this
      exact tokenLoop_break b e _ _ _ (by omega) hscan hlt
        (by rw [byteAt_of_drop (by rw [hd3]; rfl)]; exact hc32)
  have hn : ¬ (s + ws.length < e ∧ byteAt b (s + ws.length) = 34) :=
    fun h => h0q (hb1 ▸ h.2)
  unfold skip_display
  simp only
  rw [hskip0, if_neg hn, hloop, hskip1]

/-- `sip_find_display` on a quoted string: the range between the quotes. -/
theorem sip_find_display_quoted (b : Bytes) (s e : Nat) (ws body tail post : Bytes)
    (hws : ∀ x ∈ ws, isLWS x = true) (hbody : QuotedBody body)
    (hd : b.drop s = ws ++ (34 :: (body ++ 34 :: (tail ++ post))))
    (he : e = s + ws.length + 1 + body.length + 1 + tail.length) :
    sip_find_display b (some s) (some e)
      = some (s + ws.length + 1, s + ws.length + 1 + body.length) := by
  obtain ⟨s1, hs1⟩ : ∃ s1, s1 = s + ws.length := ⟨_, rfl⟩
  have hd1 : b.drop s1 = 34 :: (body ++ 34 :: (tail ++ post)) := by
    rw [hs1]; exact drop_add_of_drop _ _ hd
  have hb1 : byteAt b s1 = 34 := byteAt_of_drop hd1
  have hskip0 : skip_space b s e = s1 := by
    rw [hs1]
    exact scanWhile_run b isLWS e _ ws s hd hws (by omega) (Or.inr rfl)
  have hskip1 : skip_space b s1 e = s1 := skip_space_stop b _ e (Or.inr (by rw [hb1]; rfl))
  have hd2 : b.drop (s1 + 1) = body ++ 34 :: (tail ++ post) := drop_succ_of_drop hd1
  have hloop : quotedLoop b e (e - (s1 + 1)) (s1 + 1) = s1 + 1 + body.length :=
    quotedLoop_body b e _ body hbody (s1 + 1) _ hd2 (by omega) (by omega)
  have hd3 : b.drop (s1 + 1 + body.length) = 34 :: (tail ++ post) := drop_add_of_drop _ _ hd2
  have hb3 : byteAt b (s1 + 1 + body.length) = 34 := byteAt_of_drop hd3
  have hd4 : b.drop (s1 + 1 + body.length + 1)
      = tail.takeWhile isLWS ++ (tail.dropWhile isLWS ++ post) := by
    rw [drop_succ_of_drop hd3, ← List.append_assoc, List.takeWhile_append_dropWhile]
  have hlen : tail.length = (tail.takeWhile isLWS).length + (tail.dropWhile isLWS).length := by
    conv_lhs => rw [← List.takeWhile_append_dropWhile isLWS tail]
    exact List.length_append _ _
  have hskip2 : skip_space b (s1 + 1 + body.length + 1) e
      = s1 + 1 + body.length + 1 + (tail.takeWhile isLWS).length := by
    refine scanWhile_run b isLWS e _ _ _ hd4 (fun x hx => List.mem_takeWhile_imp hx)
      (by omega) ?_
    cases hr : tail.dropWhile isLWS with
    | nil =>
      rw [hr] at hlen
      simp only [List.length_nil] at hlen
      exact Or.inl (by omega)
    | cons c r =>
      have hcn : isLWS c = false := by
        have := List.head_dropWhile_not isLWS tail (by rw [hr]; simp)
        simpa [hr] using this
      exact Or.inr hcn
  have hsd : skip_display b s1 e
      = s1 + 1 + body.length + 1 + (tail.takeWhile isLWS).length := by
    unfold skip_display
    simp only
    have hc1 : s1 < e ∧ byteAt b s1 = 34 := ⟨by omega, hb1⟩
    have hc2 : s1 + 1 + body.length < e := by omega
    rw [hskip1, if_pos hc1, hloop, if_pos hc2, hskip2]
  have hback : scanBack b isLWS s1 (s1 + 1 + body.length + 1 + (tail.takeWhile isLWS).length)
      = s1 + 1 + body.length + 1 := by
    have hd5 : b.drop s1 = (34 :: body ++ [34]) ++ tail.takeWhile isLWS
        ++ (tail.dropWhile isLWS ++ post) := by
      have ht : tail ++ post = tail.takeWhile isLWS ++ (tail.dropWhile isLWS ++ post) := by
        rw [← List.append_assoc, List.takeWhile_append_dropWhile]
      rw [hd1, ht]
      simp
    have := scanBack_run b isLWS s1 (34 :: body ++ [34]) _
      (Or.inr ⟨34 :: body, 34, rfl, rfl⟩) (tail.takeWhile isLWS) hd5
      (fun x hx => List.mem_takeWhile_imp hx)
    simp only [List.length_append, List.length_cons, List.length_nil] at this
    have e1 : s1 + (body.length + 1 + (0 + 1)) + (tail.takeWhile isLWS).length
        = s1 + 1 + body.length + 1 + (tail.takeWhile isLWS).length := by omega
    have e2 : s1 + (body.length + 1 + (0 + 1)) = s1 + 1 + body.length + 1 := by omega
    rw [e1, e2] at this
    exact this
  unfold sip_find_display
  simp only [rangeEnd]
  rw [hskip0, hsd, hback]
  have hne : ¬ (s1 + 1 + body.length + 1 = s1) := by omega
  have hsub : s1 + 1 + body.length + 1 - 1 = s1 + 1 + body.length := by omega
  have hc : 2 ≤ s1 + 1 + body.length + 1 - s1 ∧ byteAt b s1 = 34 ∧
      byteAt b (s1 + 1 + body.length + 1 - 1) = 34 := ⟨by omega, hb1, by rw [hsub]; exact hb3⟩
  rw [if_neg hne, if_pos hc, hsub, hs1]

theorem renderTokens_head_token (toks : List (Bytes × Bytes)) (hne : toks ≠ [])
    (htoks : ∀ tw ∈ toks, tw.1 ≠ [] ∧ (∀ c ∈ tw.1, isTokenChar c = true)
      ∧ ∀ c ∈ tw.2, isLWS c = true) :
    ∃ c t, renderTokens toks = c :: t ∧ isTokenChar c = true := by
  cases toks with
  | nil => exact absurd rfl hne
  | cons tw r =>
    have h := htoks tw (List.mem_cons_self _ _)
    cases h1 : tw.1 with
    | nil => exact absurd h1 h.1
    | cons c t1 =>
      refine ⟨c, t1 ++ 32 :: (tw.2 ++ renderTokens r), ?_, h.2.1 c (by rw [h1]; simp)⟩
      simp [renderTokens, h1]

/-- `sip_find_display` on a run of tokens followed by '<': the run without the white
space at its end. -/
theorem sip_find_display_tokens (b : Bytes) (s e : Nat) (ws : Bytes)
    (toks : List (Bytes × Bytes)) (tok w rest post : Bytes)
    (hws : ∀ x ∈ ws, isLWS x = true)
    (htoks : ∀ tw ∈ toks ++ [(tok, w)], tw.1 ≠ [] ∧ (∀ c ∈ tw.1, isTokenChar c = true)
      ∧ ∀ c ∈ tw.2, isLWS c = true)
    (hd : b.drop s = ws ++ (renderTokens (toks ++ [(tok, w)]) ++ 60 :: (rest ++ post)))
    (he : e = s + ws.length + (renderTokens (toks ++ [(tok, w)])).length + 1 + rest.length) :
    sip_find_display b (some s) (some e)
      = some (s + ws.length, s + ws.length + (renderTokens toks).length + tok.length) := by
  obtain ⟨s1, hs1⟩ : ∃ s1, s1 = s + ws.length := ⟨_, rfl⟩
  obtain ⟨R, hR⟩ : ∃ R, R = renderTokens (toks ++ [(tok, w)]) := ⟨_, rfl⟩
  rw [← hR] at hd he
  have hlast := htoks (tok, w) (by simp)
  have hRl : R.length = (renderTokens toks).length + tok.length + 1 + w.length := by
    rw [hR, renderTokens_append]
    simp only [List.length_append, List.length_cons]
    omega
  have hd1 : b.drop s1 = R ++ 60 :: (rest ++ post) := by
    rw [hs1]; exact drop_add_of_drop _ _ hd
  obtain ⟨c0, t0, hc0, hc0t⟩ := renderTokens_head_token (toks ++ [(tok, w)]) (by simp) htoks
  rw [← hR] at hc0
  have hb1 : byteAt b s1 = c0 := byteAt_of_drop (by rw [hd1, hc0]; rfl)
  have hc0f := isTokenChar_not_LWS hc0t
  have hskip0 : skip_space b s e = s1 := by
    rw [hs1]
    exact scanWhile_run b isLWS e _ ws s hd hws (by omega)
      (Or.inr (by rw [hc0]; exact hc0f.1))
  have hsd : skip_display b s1 e = s1 + R.length := by
    have := skip_display_display b e s1 [] R 60 (rest ++ post) (by simp)
      (hR ▸ Display.tokens _ htoks) (by decide) (by decide) (by decide)
      (by rw [hd1]; rfl) (by simp only [List.length_nil]; omega)
    simpa using this
  obtain ⟨tl, hl, htl⟩ : ∃ tl l, tok = tl ++ [l] ∧ isLWS l = false := by
    refine ⟨tok.dropLast, tok.getLast hlast.1, (List.dropLast_append_getLast hlast.1).symm, ?_⟩
    exact (isTokenChar_not_LWS (hlast.2.1 _ (List.getLast_mem hlast.1))).1
  have hback : scanBack b isLWS s1 (s1 + R.length)
      = s1 + (renderTokens toks).length + tok.length := by
    have hd5 : b.drop s1 = (renderTokens toks ++ tok) ++ (32 :: w) ++ (60 :: (rest ++ post)) := by
      rw [hd1, hR, renderTokens_append]
      simp
    have := scanBack_run b isLWS s1 (renderTokens toks ++ tok) _
      (Or.inr ⟨renderTokens toks ++ tl, hl, by rw [htl.1]; simp, htl.2⟩) (32 :: w) hd5
      (fun x hx => by
        rcases List.mem_cons.mp hx with h | h
        · rw [h]; rfl
        · exact hlast.2.2 x h)
    simp only [List.length_append, List.length_cons] at this
    have e1 : s1 + R.length
        = s1 + ((renderTokens toks).length + tok.length) + (w.length + 1) := by omega
    rw [e1, this]
    omega
  unfold sip_find_display
  simp only [rangeEnd]
  rw [hskip0, hsd, hback]
  have htokl : 0 < tok.length := List.length_pos.mpr hlast.1
  have hne : ¬ (s1 + (renderTokens toks).length + tok.length = s1) := by omega
  have hc : ¬ (2 ≤ s1 + (renderTokens toks).length + tok.length - s1 ∧ byteAt b s1 = 34 ∧
      byteAt b (s1 + (renderTokens toks).length + tok.length - 1) = 34) :=
    fun h => hc0f.2.1 (hb1 ▸ h.2.1)
  rw [if_neg hne, if_neg hc, hs1]

/-- `sip_find_display` finds no display name where `sip_skip_display` skips nothing after
the leading white space. -/
theorem sip_find_display_none (b : Bytes) (s e s1 : Nat) (hskip0 : skip_space b s e = s1)
    (hsd : skip_display b s1 e = s1) : sip_find_display b (some s) (some e) = none := by
  unfold sip_find_display
  simp only [rangeEnd]
  rw [hskip0, hsd, scanBack_self, if_pos rfl]

/-! ## Facts about `sip_find_list` -/

theorem ListElem.dropLWS {r : Bytes} (h : ListElem r) : ListElem (r.dropWhile isLWS) := by
  induction h with
  | nil => exact ListElem.nil
  | plain c r h1 h2 h3 hr ih =>
    by_cases hc : isLWS c = true
    · rw [List.dropWhile_cons_of_pos hc]; exact ih
    · rw [List.dropWhile_cons_of_neg hc]; exact ListElem.plain c r h1 h2 h3 hr
  | quoted body r hb hr _ =>
    rw [List.dropWhile_cons_of_neg (by decide)]; exact ListElem.quoted body r hb hr
  | angle u r hu hu2 hr _ =>
    rw [List.dropWhile_cons_of_neg (by decide)]; exact ListElem.angle u r hu hu2 hr

/-- `sip_skip_display` at a quoted string: the string and the white space after it. -/
theorem skip_display_quoted (b : Bytes) (e p : Nat) (body rw X : Bytes)
    (hbody : QuotedBody body) (hrw : ∀ c ∈ rw, isLWS c = true)
    (hd : b.drop p = 34 :: (body ++ 34 :: (rw ++ X)))
    (hle : p + body.length + 2 + rw.length ≤ e)
    (hstop : p + body.length + 2 + rw.length = e ∨ isLWS (X.headD 0) = false) :
    skip_display b p e = p + body.length + 2 + rw.length := by
  have hb1 : byteAt b p = 34 := byteAt_of_drop hd
  have hskip1 : skip_space b p e = p := skip_space_stop b _ e (Or.inr (by rw [hb1]; rfl))
  have hd2 : b.drop (p + 1) = body ++ 34 :: (rw ++ X) := drop_succ_of_drop hd
  have hloop : quotedLoop b e (e - (p + 1)) (p + 1) = p + 1 + body.length :=
    quotedLoop_body b e _ body hbody (p + 1) _ hd2 (by omega) (by omega)
  have hd3 : b.drop (p + 1 + body.length) = 34 :: (rw ++ X) := drop_add_of_drop _ _ hd2
  have hd4 : b.drop (p + 1 + body.length + 1) = rw ++ X := drop_succ_of_drop hd3
  have hskip2 : skip_space b (p + 1 + body.length + 1) e
      = p + 1 + body.length + 1 + rw.length :=
    scanWhile_run b isLWS e _ _ _ hd4 hrw (by omega) (hstop.imp (fun h => by omega) id)
  unfold skip_display
  simp only
  have hc1 : p < e ∧ byteAt b p = 34 := ⟨by omega, hb1⟩
  have hc2 : p + 1 + body.length < e := by omega
  rw [hskip1, if_pos hc1, hloop, if_pos hc2, hskip2]
  omega

/-- `sip_find_uri` at a closed, non-empty section in angle brackets: the range of its
inside. -/
theorem find_uri_angle (b : Bytes) (e p : Nat) (u X : Bytes) (hu : u ≠ [])
    (hu62 : ∀ c ∈ u, c ≠ 62) (hd : b.drop p = 60 :: (u ++ 62 :: X))
    (hle : p + 1 + u.length < e) :
    find_uri b p e = some (p + 1, p + 1 + u.length) := by
  have hb1 : byteAt b p = 60 := byteAt_of_drop hd
  have hsd : skip_display b p e = p :=
    skip_display_stop b p e (by omega) (by rw [hb1]; rfl) (by rw [hb1]; decide)
      (by rw [hb1]; rfl)
  have hscan : scanWhile b (fun c => c != 62) (p + 1) e = p + 1 + u.length :=
    scanWhile_run b (fun c => c != 62) e _ u _ (drop_succ_of_drop hd)
      (fun x hx => ne_of_bne (hu62 x hx)) (by omega) (Or.inr rfl)
  have hul : 0 < u.length := List.length_pos.mpr hu
  have hn44 : ¬ (p < e ∧ byteAt b p = 44) := fun h => by rw [hb1] at h; exact absurd h.2 (by decide)
  have h60 : p < e ∧ byteAt b p = 60 := ⟨by omega, hb1⟩
  have hne : ¬ (p + 1 = p + 1 + u.length) := by omega
  unfold find_uri
  simp only
  rw [hsd, if_neg hn44, if_pos h60, hscan]
  simp only
  rw [if_neg hne]

/-- The element loop of `sip_find_list` runs over an element up to the ',' after it or
to the end of the range. -/
theorem listElemLoop_run (b : Bytes) (e : Nat) (T : Bytes) :
    ∀ (n : Nat) (el : Bytes) (p fuel : Nat), el.length ≤ n → ListElem el →
      b.drop p = el ++ T → p + el.length ≤ e → (p + el.length = e ∨ T.headD 0 = 44) →
      el.length ≤ fuel → listElemLoop b e fuel p = some (p + el.length) := by
  intro n
  induction n with
  | zero =>
    intro el p fuel hn _ hd hle hstop _
    have hel : el = [] := List.length_eq_zero.mp (by omega)
    subst hel
    cases fuel with
    | zero => rfl
    | succ k =>
      have hc : ¬ (p < e ∧ byteAt b p ≠ 44) := by
        rintro ⟨h1, h2⟩
        rcases hstop with h | h
        · simp only [List.length_nil] at h; omega
        · exact h2 (by rw [byteAt_eq_headD, hd]; exact h)
      rw [listElemLoop.eq_2, if_neg hc]
      rfl
  | succ n ih =>
    intro el p fuel hn hel hd hle hstop hfuel
    cases hel with
    | nil =>
      cases fuel with
      | zero => rfl
      | succ k =>
        have hc : ¬ (p < e ∧ byteAt b p ≠ 44) := by
          rintro ⟨h1, h2⟩
          rcases hstop with h | h
          · simp only [List.length_nil] at h; omega
          · exact h2 (by rw [byteAt_eq_headD, hd]; exact h)
        rw [listElemLoop.eq_2, if_neg hc]
        rfl
    | plain c r h1 h2 h3 hr =>
      simp only [List.length_cons] at hn hle hstop hfuel ⊢
      obtain ⟨k, rfl⟩ : ∃ k, fuel = k + 1 := ⟨fuel - 1, by omega⟩
      have hb : byteAt b p = c := byteAt_of_drop (t := r ++ T) (by simpa using hd)
      have hd1 : b.drop (p + 1) = r ++ T := drop_succ_of_drop (c := c) (by simpa using hd)
      have hc : p < e ∧ byteAt b p ≠ 44 := ⟨by omega, by rw [hb]; exact h1⟩
      have hq : ¬ byteAt b p = 34 := by rw [hb]; exact h2
      have ha : ¬ byteAt b p = 60 := by rw [hb]; exact h3
      rw [listElemLoop.eq_2, if_pos hc, if_neg hq, if_neg ha,
        ih r (p + 1) k (by omega) hr hd1 (by omega) (hstop.imp (fun h => by omega) id)
          (by omega)]
      congr 1
      omega
    | quoted body r hbody hr =>
      simp only [List.length_cons, List.length_append] at hn hle hstop hfuel ⊢
      obtain ⟨k, rfl⟩ : ∃ k, fuel = k + 1 := ⟨fuel - 1, by omega⟩
      have hd0 : b.drop p = 34 :: (body ++ 34 :: (r ++ T)) := by rw [hd]; simp
      have hb : byteAt b p = 34 := byteAt_of_drop hd0
      have hc : p < e ∧ byteAt b p ≠ 44 := ⟨by omega, by rw [hb]; decide⟩
      have hlen : r.length = (r.takeWhile isLWS).length + (r.dropWhile isLWS).length := by
        conv_lhs => rw [← List.takeWhile_append_dropWhile isLWS r]
        exact List.length_append _ _
      have hd1 : b.drop p
          = 34 :: (body ++ 34 :: (r.takeWhile isLWS ++ (r.dropWhile isLWS ++ T))) := by
        rw [hd0, ← List.append_assoc (r.takeWhile isLWS), List.takeWhile_append_dropWhile]
      have hstop2 : p + body.length + 2 + (r.takeWhile isLWS).length = e ∨
          isLWS ((r.dropWhile isLWS ++ T).headD 0) = false := by
        cases hrd : r.dropWhile isLWS with
        | nil =>
          rw [hrd] at hlen
          simp only [List.length_nil] at hlen
          rcases hstop with h | h
          · exact Or.inl (by omega)
          · exact Or.inr (by rw [List.nil_append, h]; rfl)
        | cons c r2 =>
          have hcn : isLWS c = false := by
            have := List.head_dropWhile_not isLWS r (by rw [hrd]; simp)
            simpa [hrd] using this
          exact Or.inr hcn
      have hsd := skip_display_quoted b e p body (r.takeWhile isLWS) _ hbody
        (fun x hx => List.mem_takeWhile_imp hx) hd1 (by omega) hstop2
      have hd2 : b.drop (p + body.length + 2 + (r.takeWhile isLWS).length)
          = r.dropWhile isLWS ++ T := by
        have h1 : b.drop p = (34 :: (body ++ [34])) ++ (r.takeWhile isLWS
            ++ (r.dropWhile isLWS ++ T)) := by rw [hd1]; simp
        have h2 := drop_add_of_drop _ _ (drop_add_of_drop _ _ h1)
        simp only [List.length_cons, List.length_append, List.length_nil] at h2
        have e1 : p + (body.length + (0 + 1) + 1) + (r.takeWhile isLWS).length
            = p + body.length + 2 + (r.takeWhile isLWS).length := by omega
        rw [e1] at h2
        exact h2
      rw [listElemLoop.eq_2, if_pos hc, if_pos hb, hsd,
        ih (r.dropWhile isLWS) _ k (by omega) hr.dropLWS hd2 (by omega)
          (hstop.imp (fun h => by omega) id) (by omega)]
      congr 1
      omega
    | angle u r hu hu62 hr =>
      simp only [List.length_cons, List.length_append] at hn hle hstop hfuel ⊢
      obtain ⟨k, rfl⟩ : ∃ k, fuel = k + 1 := ⟨fuel - 1, by omega⟩
      have hul : 0 < u.length := List.length_pos.mpr hu
      have hd0 : b.drop p = 60 :: (u ++ 62 :: (r ++ T)) := by rw [hd]; simp
      have hb : byteAt b p = 60 := byteAt_of_drop hd0
      have hc : p < e ∧ byteAt b p ≠ 44 := ⟨by omega, by rw [hb]; decide⟩
      have hq : ¬ byteAt b p = 34 := by rw [hb]; decide
      have hfu := find_uri_angle b e p u (r ++ T) hu hu62 hd0 (by omega)
      have hd2 : b.drop (p + 1 + u.length) = (62 :: r) ++ T :=
        drop_add_of_drop _ _ (drop_succ_of_drop hd0)
      rw [listElemLoop.eq_2, if_pos hc, if_neg hq, if_pos hb, hfu]
      simp only
      rw [ih (62 :: r) _ k (by simp only [List.length_cons]; omega)
        (ListElem.plain 62 r (by decide) (by decide) (by decide) hr) hd2
        (by simp only [List.length_cons]; omega)
        (hstop.imp (fun h => by simp only [List.length_cons]; omega) id)
        (by simp only [List.length_cons]; omega)]
      congr 1
      simp only [List.length_cons]
      omega

theorem listCommaLoop_stop (b : Bytes) (e fuel p : Nat) (h : ¬ (p < e ∧ byteAt b p = 44)) :
    listCommaLoop b e fuel p = p := by
  cases fuel with
  | zero => rfl
  | succ k => rw [listCommaLoop.eq_2, if_neg h]

/-- The start of `sip_find_list` skips the white space and the commas before an element. -/
theorem listCommaLoop_lead (b : Bytes) (e : Nat) (X : Bytes) :
    ∀ (n : Nat) (lead : Bytes) (s fuel : Nat), lead.length ≤ n →
      (∀ c ∈ lead, isLWS c = true ∨ c = 44) → b.drop s = lead ++ X → s + lead.length ≤ e →
      (s + lead.length = e ∨ (isLWS (X.headD 0) = false ∧ X.headD 0 ≠ 44)) →
      e - skip_space b s e ≤ fuel →
      listCommaLoop b e fuel (skip_space b s e) = s + lead.length := by
  intro n
  induction n with
  | zero =>
    intro lead s fuel hn _ hd hle hstop _
    have hl : lead = [] := List.length_eq_zero.mp (by omega)
    subst hl
    simp only [List.length_nil, Nat.add_zero, List.nil_append] at hd hle hstop ⊢
    have hsk : skip_space b s e = s :=
      skip_space_stop b s e (hstop.imp (fun h => by omega)
        (fun h => by rw [byteAt_eq_headD, hd]; exact h.1))
    rw [hsk]
    refine listCommaLoop_stop b e fuel s ?_
    rintro ⟨h1, h2⟩
    rcases hstop with h | h
    · omega
    · exact h.2 (by rw [← hd, ← byteAt_eq_headD]; exact h2)
  | succ n ih =>
    intro lead s fuel hn hlead hd hle hstop hfuel
    have hlen : lead.length = (lead.takeWhile isLWS).length + (lead.dropWhile isLWS).length := by
      conv_lhs => rw [← List.takeWhile_append_dropWhile isLWS lead]
      exact List.length_append _ _
    have hd1 : b.drop s = lead.takeWhile isLWS ++ (lead.dropWhile isLWS ++ X) := by
      rw [hd, ← List.append_assoc, List.takeWhile_append_dropWhile]
    have hd2 : b.drop (s + (lead.takeWhile isLWS).length) = lead.dropWhile isLWS ++ X :=
      drop_add_of_drop _ _ hd1
    cases hld : lead.dropWhile isLWS with
    | nil =>
      rw [hld] at hlen hd1 hd2
      simp only [List.length_nil, Nat.add_zero, List.nil_append] at hlen hd1 hd2
      have hsk : skip_space b s e = s + (lead.takeWhile isLWS).length :=
        scanWhile_run b isLWS e _ _ _ hd1 (fun x hx => List.mem_takeWhile_imp hx) (by omega)
          (hstop.imp (fun h => by omega) (fun h => h.1))
      rw [hsk, hlen]
      refine listCommaLoop_stop b e fuel _ ?_
      rintro ⟨h1, h2⟩
      rcases hstop with h | h
      · omega
      · exact h.2 (by rw [← hd2, ← byteAt_eq_headD]; exact h2)
    | cons c ld =>
      rw [hld] at hlen hd1 hd2
      simp only [List.length_cons] at hlen
      have hcn : isLWS c = false := by
        have := List.head_dropWhile_not isLWS lead (by rw [hld]; simp)
        simpa [hld] using this
      have hsub : ∀ x ∈ c :: ld, x ∈ lead := fun x hx =>
        (List.dropWhile_sublist isLWS).subset (by rw [hld]; exact hx)
      have hc44 : c = 44 := by
        rcases hlead c (hsub c (List.mem_cons_self _ _)) with h | h
        · rw [h] at hcn; exact Bool.noConfusion hcn
        · exact h
      have hsk : skip_space b s e = s + (lead.takeWhile isLWS).length :=
        scanWhile_run b isLWS e _ _ _ hd1 (fun x hx => List.mem_takeWhile_imp hx) (by omega)
          (Or.inr hcn)
      rw [hsk] at hfuel ⊢
      obtain ⟨k, rfl⟩ : ∃ k, fuel = k + 1 := ⟨fuel - 1, by omega⟩
      have hb : byteAt b (s + (lead.takeWhile isLWS).length) = 44 := by
        rw [byteAt_of_drop hd2]; exact hc44
      have hd3 : b.drop (s + (lead.takeWhile isLWS).length + 1) = ld ++ X :=
        drop_succ_of_drop hd2
      have hge := scanWhile_ge' b isLWS (s + (lead.takeWhile isLWS).length + 1) e
      rw [listCommaLoop.eq_2, if_pos ⟨by omega, hb⟩,
        ih ld _ k (by omega) (fun x hx => hlead x (hsub x (List.mem_cons_of_mem _ hx))) hd3
          (by omega) (hstop.imp (fun h => by omega) id) (by unfold skip_space; omega)]
      omega

theorem ListElem.head_facts {el : Bytes} (h : ListElem el) (c : Nat) (hc : el.head? = some c) :
    c ≠ 44 := by
  cases h with
  | nil => simp at hc
  | plain c1 r h1 _ _ _ =>
    simp only [List.head?_cons, Option.some.injEq] at hc
    rw [← hc]; exact h1
  | quoted body r _ _ =>
    simp only [List.head?_cons, Option.some.injEq] at hc
    rw [← hc]; decide
  | angle u r _ _ _ =>
    simp only [List.head?_cons, Option.some.injEq] at hc
    rw [← hc]; decide

/-- One call of `sip_find_list`: the element after the leading white space and commas. -/
theorem sip_find_list_element (b : Bytes) (s e : Nat) (lead el T : Bytes)
    (hlead : ∀ c ∈ lead, isLWS c = true ∨ c = 44) (hel : ListElem el) (hne : el ≠ [])
    (hhead : ∀ c, el.head? = some c → isLWS c = false)
    (hd : b.drop s = lead ++ (el ++ T)) (hle : s + lead.length + el.length ≤ e)
    (hstop : s + lead.length + el.length = e ∨ T.headD 0 = 44) :
    sip_find_list b (some s) (some e)
      = some (s + lead.length, s + lead.length + el.length) := by
  obtain ⟨c, r, hcr⟩ : ∃ c r, el = c :: r := by
    cases hc : el with
    | nil => exact absurd hc hne
    | cons c r => exact ⟨c, r, rfl⟩
  have hell : el.length = r.length + 1 := by rw [hcr]; rfl
  have h1 := listCommaLoop_lead b e (el ++ T) lead.length lead s
    (e - skip_space b s e) (le_refl _) hlead hd (by omega)
    (Or.inr (by
      rw [hcr]
      exact ⟨hhead c (by rw [hcr]; rfl), hel.head_facts c (by rw [hcr]; rfl)⟩))
    (le_refl _)
  have hd1 : b.drop (s + lead.length) = el ++ T := drop_add_of_drop _ _ hd
  have h2 := listElemLoop_run b e T el.length el (s + lead.length) (e - (s + lead.length))
    (le_refl _) hel hd1 hle hstop (by omega)
  unfold sip_find_list
  simp only [rangeEnd]
  have hne2 : ¬ (s + lead.length = e) := by omega
  rw [h1, if_neg hne2, h2]

/-- A call of `sip_find_list` on white space and commas only: absent. -/
theorem sip_find_list_exhausted (b : Bytes) (s e : Nat) (lead X : Bytes)
    (hlead : ∀ c ∈ lead, isLWS c = true ∨ c = 44) (hd : b.drop s = lead ++ X)
    (he : s + lead.length = e) : sip_find_list b (some s) (some e) = none := by
  have h1 := listCommaLoop_lead b e X lead.length lead s (e - skip_space b s e) (le_refl _)
    hlead hd (by omega) (Or.inl he) (le_refl _)
  unfold sip_find_list
  simp only [rangeEnd]
  rw [h1, if_pos he]

theorem ListElem.of_plain (x : Bytes) (h : ∀ c ∈ x, c ≠ 44 ∧ c ≠ 34 ∧ c ≠ 60) : ListElem x := by
  induction x with
  | nil => exact ListElem.nil
  | cons c r ih =>
    have hc := h c (List.mem_cons_self _ _)
    exact ListElem.plain c r hc.1 hc.2.1 hc.2.2 (ih (fun y hy => h y (List.mem_cons_of_mem _ hy)))

/-- Iterating `sip_find_list` over pieces without quotes, '<' and white space that are
joined by ',': the ranges of the non-empty pieces. -/
theorem find_list_all_pieces (b : Bytes) (e : Nat) (post : Bytes) :
    ∀ (pieces : List Bytes) (lead : Bytes) (p fuel : Nat), (∀ c ∈ lead, c = 44) →
      (∀ x ∈ pieces, ∀ c ∈ x, isLWS c = false ∧ c ≠ 44 ∧ c ≠ 34 ∧ c ≠ 60) →
      b.drop p = lead ++ (joinComma pieces ++ post) →
      e = p + lead.length + (joinComma pieces).length → pieces.length < fuel →
      find_list_all b e fuel p = pieceRanges (p + lead.length) pieces := by
  intro pieces
  induction pieces with
  | nil =>
    intro lead p fuel hlead _ hd he hfuel
    obtain ⟨k, rfl⟩ : ∃ k, fuel = k + 1 := ⟨fuel - 1, by simp only [List.length_nil] at hfuel; omega⟩
    simp only [joinComma, List.length_nil, Nat.add_zero, List.nil_append] at hd he
    rw [find_list_all.eq_2, sip_find_list_exhausted b p e lead post
      (fun c hc => Or.inr (hlead c hc)) hd he.symm]
    rfl
  | cons x r ih =>
    intro lead p fuel hlead hp hd he hfuel
    obtain ⟨k, rfl⟩ : ∃ k, fuel = k + 1 := ⟨fuel - 1, by simp only [List.length_cons] at hfuel; omega⟩
    have hx := hp x (List.mem_cons_self _ _)
    have hr : ∀ y ∈ r, ∀ c ∈ y, isLWS c = false ∧ c ≠ 44 ∧ c ≠ 34 ∧ c ≠ 60 :=
      fun y hy => hp y (List.mem_cons_of_mem _ hy)
    have hlead2 : ∀ c ∈ lead, isLWS c = true ∨ c = 44 := fun c hc => Or.inr (hlead c hc)
    have hxel : ListElem x := ListElem.of_plain x (fun c hc => (hx c hc).2)
    have hxhead : ∀ c, x.head? = some c → isLWS c = false := fun c hc =>
      (hx c (List.mem_of_mem_head? hc)).1
    cases r with
    | nil =>
      simp only [joinComma] at hd he
      by_cases hxe : x = []
      · subst hxe
        simp only [List.length_nil, Nat.add_zero, List.nil_append] at hd he
        rw [find_list_all.eq_2, sip_find_list_exhausted b p e lead post hlead2 hd he.symm]
        simp [pieceRanges]
      · have hcall := sip_find_list_element b p e lead x post hlead2 hxel hxe hxhead hd
          (by omega) (Or.inl he.symm)
        have hd1 : b.drop (p + lead.length + x.length) = [] ++ post :=
          drop_add_of_drop _ _ (drop_add_of_drop _ _ hd)
        have hnext : find_list_all b e k (p + lead.length + x.length) = [] := by
          cases k with
          | zero => rfl
          | succ k2 =>
            rw [find_list_all.eq_2, sip_find_list_exhausted b _ e [] post (by simp) hd1
              (by simp only [List.length_nil]; omega)]
        rw [find_list_all.eq_2, hcall]
        simp only
        rw [hnext]
        simp [pieceRanges, hxe]
    | cons y r2 =>
      simp only [joinComma] at hd he
      simp only [List.length_append, List.length_cons] at he
      by_cases hxe : x = []
      · subst hxe
        simp only [List.length_nil, Nat.zero_add, List.nil_append] at hd he
        have hd1 : b.drop p = (lead ++ [44]) ++ (joinComma (y :: r2) ++ post) := by
          rw [hd]; simp
        have := ih (lead ++ [44]) p (k + 1)
          (fun c hc => by
            rcases List.mem_append.mp hc with h | h
            · exact hlead c h
            · simpa using h)
          hr hd1 (by simp only [List.length_append, List.length_singleton]; omega)
          (by simp only [List.length_cons] at hfuel ⊢; omega)
        rw [this]
        simp [pieceRanges, Nat.add_assoc]
      · have hd0 : b.drop p = lead ++ (x ++ (44 :: (joinComma (y :: r2) ++ post))) := by
          rw [hd]; simp
        have hcall := sip_find_list_element b p e lead x _ hlead2 hxel hxe hxhead hd0
          (by omega) (Or.inr rfl)
        have hd1 : b.drop (p + lead.length + x.length)
            = [44] ++ (joinComma (y :: r2) ++ post) :=
          drop_add_of_drop _ _ (drop_add_of_drop _ _ hd0)
        have := ih [44] (p + lead.length + x.length) k (by simp) hr hd1
          (by simp only [List.length_singleton]; omega)
          (by simp only [List.length_cons] at hfuel ⊢; omega)
        rw [find_list_all.eq_2, hcall]
        simp only
        rw [this]
        simp [pieceRanges, hxe]

/-- When the iteration of `sip_find_list` has stopped before its fuel is used up, the
call after the last result has returned absent. -/
theorem find_list_all_ends (b : Bytes) (e : Nat) :
    ∀ (fuel p : Nat), (find_list_all b e fuel p).length < fuel →
      sip_find_list b (some (lastEnd p (find_list_all b e fuel p))) (some e) = none := by
  intro fuel
  induction fuel with
  | zero => intro p h; exact absurd h (Nat.not_lt_zero _)
  | succ k ih =>
    intro p h
    rw [find_list_all.eq_2] at h ⊢
    cases hc : sip_find_list b (some p) (some e) with
    | none => exact hc
    | some r =>
      rw [hc] at h
      have h2 : (find_list_all b e k r.2).length + 1 < k + 1 := h
      exact ih r.2 (by omega)

theorem pieceRanges_length (pieces : List Bytes) :
    ∀ off, (pieceRanges off pieces).length ≤ pieces.length := by
  induction pieces with
  | nil => intro off; simp [pieceRanges]
  | cons x r ih =>
    intro off
    have := ih (off + x.length + 1)
    by_cases hx : x = []
    · simp only [pieceRanges, hx, if_true, List.nil_append, List.length_cons, List.length_nil,
        Nat.add_zero] at this ⊢
      omega
    · simp only [pieceRanges, hx, if_false, List.singleton_append, List.length_cons] at this ⊢
      omega

/-! ## The fuel of the loops of `sip_find_list` is enough -/

theorem find_uri_ne (b : Bytes) (s e : Nat) (r : Nat × Nat) (h : find_uri b s e = some r) :
    r.1 ≠ r.2 := by
  obtain ⟨r0, hr0⟩ : ∃ r0 : Nat × Nat,
      find_uri b s e = if r0.1 = r0.2 then none else some r0 := ⟨_, rfl⟩
  rw [hr0] at h
  by_cases hc : r0.1 = r0.2
  · rw [if_pos hc] at h; exact absurd h (by simp)
  · rw [if_neg hc] at h
    simp only [Option.some.injEq] at h
    rw [← h]
    exact hc

theorem skip_display_gt_quote (b : Bytes) (p e : Nat) (hp : p < e) (hq : byteAt b p = 34) :
    p < skip_display b p e := by
  have hskip : skip_space b p e = p := skip_space_stop b p e (Or.inr (by rw [hq]; rfl))
  unfold skip_display
  simp only
  rw [hskip, if_pos ⟨hp, hq⟩]
  have h1 := quotedLoop_bounds b e (e - (p + 1)) (p + 1) (by omega)
  split
  · have := scanWhile_ge' b isLWS (quotedLoop b e (e - (p + 1)) (p + 1) + 1) e
    unfold skip_space
    omega
  · have := scanWhile_ge' b isLWS (quotedLoop b e (e - (p + 1)) (p + 1)) e
    unfold skip_space
    omega

/-- The fuel of the comma loop of `sip_find_list`: any fuel from `e - p` on gives the
same result. -/
theorem listCommaLoop_fuel (b : Bytes) (e : Nat) :
    ∀ (n m p : Nat), e - p ≤ n → e - p ≤ m → listCommaLoop b e n p = listCommaLoop b e m p := by
  intro n
  induction n with
  | zero =>
    intro m p hn _
    have hc : ¬ (p < e ∧ byteAt b p = 44) := fun h => by omega
    rw [listCommaLoop_stop b e 0 p hc, listCommaLoop_stop b e m p hc]
  | succ n ih =>
    intro m p hn hm
    by_cases hc : p < e ∧ byteAt b p = 44
    · obtain ⟨k, rfl⟩ : ∃ k, m = k + 1 := ⟨m - 1, by omega⟩
      have hge := scanWhile_ge' b isLWS (p + 1) e
      rw [listCommaLoop.eq_2, listCommaLoop.eq_2, if_pos hc, if_pos hc]
      exact ih k _ (by unfold skip_space; omega) (by unfold skip_space; omega)
    · rw [listCommaLoop_stop b e _ p hc, listCommaLoop_stop b e m p hc]

/-- The fuel of the element loop of `sip_find_list`: any fuel from `e - p` on gives the
same result. -/
theorem listElemLoop_fuel (b : Bytes) (e : Nat) :
    ∀ (n m p : Nat), p ≤ e → e - p ≤ n → e - p ≤ m →
      listElemLoop b e n p = listElemLoop b e m p := by
  intro n
  induction n with
  | zero =>
    intro m p _ hn _
    have hc : ¬ (p < e ∧ byteAt b p ≠ 44) := fun h => by omega
    cases m with
    | zero => rfl
    | succ k => rw [listElemLoop.eq_2, if_neg hc]; rfl
  | succ n ih =>
    intro m p hpe hn hm
    by_cases hc : p < e ∧ byteAt b p ≠ 44
    · obtain ⟨k, rfl⟩ : ∃ k, m = k + 1 := ⟨m - 1, by omega⟩
      rw [listElemLoop.eq_2, listElemLoop.eq_2, if_pos hc, if_pos hc]
      by_cases hq : byteAt b p = 34
      · rw [if_pos hq, if_pos hq]
        have := skip_display_gt_quote b p e hc.1 hq
        have := skip_display_bounds b p e hpe
        exact ih k _ (by omega) (by omega) (by omega)
      · rw [if_neg hq, if_neg hq]
        by_cases ha : byteAt b p = 60
        · rw [if_pos ha, if_pos ha]
          cases hfu : find_uri b p e with
          | none => rfl
          | some r =>
            have h1 := find_uri_bounds b p e hpe r.1 r.2 hfu
            have h2 := find_uri_ne b p e r hfu
            exact ih k _ (by omega) (by omega) (by omega)
        · rw [if_neg ha, if_neg ha]
          exact ih k _ (by omega) (by omega) (by omega)
    · cases m with
      | zero => rw [listElemLoop.eq_2, if_neg hc]; rfl
      | succ k => rw [listElemLoop.eq_2, listElemLoop.eq_2, if_neg hc, if_neg hc]

/-! ## Facts about `sip_add_extra` -/

theorem byteAt_append_at (C l : Bytes) (i : Nat) : byteAt (C ++ l) (C.length + i) = byteAt l i := by
  unfold byteAt
  simp [List.getD_eq_getElem?_getD, List.getElem?_append_right]

theorem byteBefore_append_cons (C : Bytes) (c : Nat) (l : Bytes) :
    byteBefore (C ++ c :: l) (C.length + 1) = c := by
  unfold byteBefore
  rw [if_neg (by omega), Nat.add_sub_cancel]
  have := byteAt_append_at C (c :: l) 0
  rw [Nat.add_zero] at this
  rw [this]
  rfl

theorem copied_eq (src : Bytes) (s : Nat) (value rest : Bytes) (hd : src.drop s = value ++ rest) :
    copied src s (value.length : Int) = value := by
  unfold copied
  rw [Int.toNat_ofNat]
  apply List.ext_getElem
  · simp
  · intro i h1 h2
    simp only [List.getElem_map, List.getElem_range]
    have hd2 : src.drop (s + i) = (value.drop i) ++ rest := by
      rw [← List.drop_drop, hd, List.drop_append_of_le_length (by omega)]
    have : value.drop i = value[i] :: value.drop (i + 1) := List.drop_eq_getElem_cons h2
    rw [this] at hd2
    exact byteAt_of_drop hd2

theorem copied_length (src : Bytes) (s : Nat) (n : Int) : (copied src s n).length = n.toNat := by
  simp [copied]

/-- What `sip_add_extra` does on a buffer whose content ends with an octet `c0` and CR LF,
for a present NUL-free tag and a present value: when the room is too small nothing
changes, else the separator, the tag, '=', the value in its quotes and CR LF are stored
over the old CR LF, followed by a NUL. -/
theorem sip_add_extra_spec (C0 M t src value rest : Bytes) (c0 s e : Nat) (stop : Option Nat)
    (comma quote wrap : Nat) (ht : ∀ c ∈ t, c ≠ 0) (hd : src.drop s = value ++ rest)
    (hstop : (stop = none ∧ (∀ c ∈ value, c ≠ 0) ∧ rest.headD 0 = 0)
      ∨ stop = some (s + value.length)) :
    sip_add_extra (C0 ++ c0 :: 13 :: 10 :: M) (C0.length + 3) e (some t) src (some s) stop
        comma quote wrap
      = if (e : Int) < ((C0.length + 1 : Nat) : Int) + (t.length : Int) + 2 + (value.length : Int)
            + 2 + 2 + (if quote ≠ 0 then 2 else 0) then
          (none, C0 ++ c0 :: 13 :: 10 :: M, C0.length + 3)
        else
          (some (C0.length + 2),
            writeAt (C0 ++ c0 :: 13 :: 10 :: M) (C0.length + 1)
              (extra_sep (C0 ++ c0 :: 13 :: 10 :: M) (C0.length + 1)
                  ((value.length : Int) + (t.length : Int) + 1) comma wrap
                ++ t ++ [61] ++ (if quote ≠ 0 then [quote] else []) ++ value
                ++ (if quote ≠ 0 then [quote] else []) ++ [13, 10] ++ [0]),
            C0.length + 1 + (extra_sep (C0 ++ c0 :: 13 :: 10 :: M) (C0.length + 1)
                  ((value.length : Int) + (t.length : Int) + 1) comma wrap
                ++ t ++ [61] ++ (if quote ≠ 0 then [quote] else []) ++ value
                ++ (if quote ≠ 0 then [quote] else []) ++ [13, 10]).length) := by
  have hE : rangeEnd src s stop = s + value.length := by
    rcases hstop with ⟨h, hx, hr⟩ | h
    · subst h; simp only [rangeEnd]; rw [strlen_of_drop src s value rest hd hx hr]
    · subst h; rfl
  have hn : valueLen src (some s) stop = (value.length : Int) := by
    simp only [valueLen, hE]
    push_cast; ring
  have hstr : tagLen (some t) = t.length := strlen_of_drop t 0 t [] (by simp) ht rfl
  have hb1 : byteBefore (C0 ++ c0 :: 13 :: 10 :: M) (C0.length + 3) = 10 := by
    have := byteBefore_append_cons (C0 ++ [c0, 13]) 10 M
    simpa using this
  have hb2 : byteBefore (C0 ++ c0 :: 13 :: 10 :: M) (C0.length + 3 - 1) = 13 := by
    have := byteBefore_append_cons (C0 ++ [c0]) 13 (10 :: M)
    simpa using this
  have hrw : rewind (C0 ++ c0 :: 13 :: 10 :: M) (C0.length + 3) = C0.length + 1 := by
    unfold rewind
    simp only [hb1, hb2, if_true]
    omega
  unfold sip_add_extra extra_body tagOctets valueOctets
  simp only [hn, hstr, hrw, copied_eq src s value rest hd,
    cstring_of_nulfree t ht, Option.isSome_some, and_self, if_true]
  have e2 : C0.length + 3 - 1 = C0.length + 2 := by omega
  rw [e2]

theorem extra_sep_nowrap (buf : Bytes) (p : Nat) (n0 : Int) (comma : Nat) :
    extra_sep buf p n0 comma 0
      = if comma ≠ 0 ∧ byteBefore buf p ≠ 32 ∧ byteBefore buf p ≠ 58 then [comma] else [] := by
  unfold extra_sep
  simp

theorem take_append_cons_self (C0 : Bytes) (c0 : Nat) (l : Bytes) :
    (C0 ++ c0 :: l).take (C0.length + 1) = C0 ++ [c0] := by
  have : C0 ++ c0 :: l = (C0 ++ [c0]) ++ l := by simp
  rw [this, List.take_left']
  simp

theorem cstring_length (t : Bytes) : (cstring t).length = strlen t 0 := by
  have hsplit : t.drop 0 = t.takeWhile (fun c => c != 0) ++ t.dropWhile (fun c => c != 0) := by
    rw [List.drop_zero, List.takeWhile_append_dropWhile]
  have hr : (t.dropWhile (fun c => c != 0)).headD 0 = 0 := by
    cases hc : t.dropWhile (fun c => c != 0) with
    | nil => rfl
    | cons c r =>
      have := List.head_dropWhile_not (fun c => c != 0) t (by rw [hc]; simp)
      simpa [hc] using this
  rw [strlen_of_drop t 0 _ _ hsplit (fun c hc => by simpa using List.mem_takeWhile_imp hc) hr]
  rfl

theorem extra_sep_length_nowrap (buf : Bytes) (p : Nat) (n0 : Int) (comma wrap : Nat)
    (h : wrap = 0 ∨ comma ≠ 44) : (extra_sep buf p n0 comma wrap).length ≤ 1 := by
  unfold extra_sep
  have hc : ¬ (comma = 44 ∧ wrap ≠ 0 ∧
      120 ≤ wrapCount (writeAt buf p [comma]) (120 - n0).toNat (p + 1) n0) := by
    rintro ⟨h1, h2, _⟩
    rcases h with h | h
    · exact h2 h
    · exact h h1
  rw [if_neg hc]
  split <;> simp

theorem valueLen_nonneg (src : Bytes) (start stop : Option Nat)
    (hn : ∀ s, start = some s → s ≤ rangeEnd src s stop) : 0 ≤ valueLen src start stop := by
  unfold valueLen
  cases start with
  | none => exact le_refl _
  | some s =>
    have := hn s rfl
    simp only
    omega

/-- The length of what `sip_add_extra` stores when it breaks no line. -/
theorem extra_body_length_le (buf : Bytes) (p : Nat) (tag : Option Bytes) (src : Bytes)
    (start stop : Option Nat) (comma quote wrap : Nat) (hw : wrap = 0 ∨ comma ≠ 44)
    (hn : ∀ s, start = some s → s ≤ rangeEnd src s stop) :
    ((extra_body buf p tag src start stop comma quote wrap).length : Int)
      ≤ (tagLen tag : Int) + valueLen src start stop + 4 + (if quote ≠ 0 then 2 else 0) := by
  have hnn := valueLen_nonneg src start stop hn
  have h1 := extra_sep_length_nowrap buf p (valueLen src start stop + (tagLen tag : Int) + 1)
    comma wrap hw
  have h2 : (tagOctets tag).length = tagLen tag := by
    cases tag with
    | none => rfl
    | some t => exact cstring_length t
  have h4 : ((valueOctets src start stop).length : Int) ≤ valueLen src start stop := by
    unfold valueOctets
    cases start with
    | none => simpa using hnn
    | some s =>
      simp only [copied_length]
      omega
  obtain ⟨sp, hsp⟩ : ∃ sp, sp = extra_sep buf p (valueLen src start stop + (tagLen tag : Int) + 1)
    comma wrap := ⟨_, rfl⟩
  obtain ⟨eqp, heqp⟩ : ∃ eqp : Bytes,
    eqp = if tag.isSome = true ∧ start.isSome = true then [61] else [] := ⟨_, rfl⟩
  have h3 : eqp.length ≤ 1 := by
    rw [heqp]; split <;> simp
  obtain ⟨qp, hqp⟩ : ∃ qp : Bytes, qp = if quote ≠ 0 then [quote] else [] := ⟨_, rfl⟩
  have h5 : (qp.length : Int) * 2 = (if quote ≠ 0 then 2 else 0) := by
    rw [hqp]; split <;> simp
  unfold extra_body
  simp only
  rw [← hsp, ← heqp, ← hqp]
  rw [← hsp] at h1
  simp only [List.length_append, List.length_cons, List.length_nil]
  rw [h2]
  push_cast
  omega

/-- Without a line break `sip_add_extra` stays within the buffer: a successful call leaves
the write position, and the NUL after it, before the buffer end, and changes nothing
from the buffer end on. -/
theorem sip_add_extra_within (buf : Bytes) (pp e : Nat) (tag : Option Bytes) (src : Bytes)
    (start stop : Option Nat) (comma quote wrap : Nat) (hw : wrap = 0 ∨ comma ≠ 44)
    (hn : ∀ s, start = some s → s ≤ rangeEnd src s stop) (he : e ≤ buf.length)
    (hok : (sip_add_extra buf pp e tag src start stop comma quote wrap).1 ≠ none) :
    (sip_add_extra buf pp e tag src start stop comma quote wrap).2.2 < e ∧
    (sip_add_extra buf pp e tag src start stop comma quote wrap).2.1.length = buf.length ∧
    (sip_add_extra buf pp e tag src start stop comma quote wrap).2.1.drop e = buf.drop e := by
  unfold sip_add_extra at hok ⊢
  simp only at hok ⊢
  by_cases hroom : (e : Int) < (rewind buf pp : Int) + (tagLen tag : Int) + 2
      + valueLen src start stop + 2 + 2 + (if quote ≠ 0 then 2 else 0)
  · rw [if_pos hroom] at hok; exact absurd rfl hok
  · rw [if_neg hroom]
    dsimp only
    have hbl := extra_body_length_le buf (rewind buf pp) tag src start stop comma quote wrap hw hn
    obtain ⟨body, hbody⟩ : ∃ body,
        body = extra_body buf (rewind buf pp) tag src start stop comma quote wrap := ⟨_, rfl⟩
    rw [← hbody] at hbl ⊢
    have hpe : rewind buf pp + (body ++ [0]).length ≤ e := by
      simp only [List.length_append, List.length_singleton]
      omega
    refine ⟨by omega, length_writeAt buf _ _ (by omega), ?_⟩
    have hda := drop_writeAt_after buf (rewind buf pp) (body ++ [0]) (by omega)
    have hsplit : e = (rewind buf pp + (body ++ [0]).length)
        + (e - (rewind buf pp + (body ++ [0]).length)) := by omega
    rw [hsplit, ← List.drop_drop, hda, List.drop_drop]

/-- The line break test of `sip_add_extra` counts the octets from `q` back to the last
octet below SP, starting from `n`: it reaches 120 exactly when `n` and the number of
these octets add up to 120 or more. -/
theorem wrapCount_fold (mem A : Bytes) (hA : byteBefore mem A.length < 32) :
    ∀ (fuel : Nat) (X R : Bytes) (q : Nat) (n : Int), mem = A ++ X ++ R →
      q = A.length + X.length → (∀ c ∈ X, 32 ≤ c) → (120 - n).toNat ≤ fuel →
      (120 ≤ wrapCount mem fuel q n ↔ 120 ≤ n + (X.length : Int)) := by
  intro fuel
  induction fuel with
  | zero =>
    intro X R q n _ _ _ hf
    have : 120 ≤ n := by omega
    simp only [wrapCount]
    constructor <;> intro _ <;> omega
  | succ k ih =>
    intro X R q n hmem hq hX hf
    rw [wrapCount.eq_2]
    by_cases hn : n < 120
    · rcases List.eq_nil_or_concat X with hx | ⟨X1, c, hx⟩
      · subst hx
        simp only [List.length_nil, Nat.add_zero] at hq
        have hc : ¬ (32 ≤ byteBefore mem q ∧ n < 120) := by
          rw [hq]; intro h; omega
        rw [if_neg hc]
        simp
      · rw [List.concat_eq_append] at hx
        subst hx
        have hb : byteBefore mem q = c := by
          have h1 : mem = (A ++ X1) ++ c :: R := by rw [hmem]; simp
          have h2 : q = (A ++ X1).length + 1 := by
            rw [hq]; simp only [List.length_append, List.length_singleton]; omega
          rw [h1, h2]
          exact byteBefore_append_cons _ _ _
        have hc32 : 32 ≤ c := hX c (by simp)
        rw [if_pos ⟨by rw [hb]; exact hc32, hn⟩]
        have := ih X1 (c :: R) (q - 1) (n + 1) (by rw [hmem]; simp)
          (by rw [hq]; simp only [List.length_append, List.length_singleton]; omega)
          (fun x hx => hX x (by simp [hx])) (by omega)
        rw [this]
        simp only [List.length_append, List.length_singleton]
        push_cast
        constructor <;> intro _ <;> omega
    · have hc : ¬ (32 ≤ byteBefore mem q ∧ n < 120) := fun h => hn h.2
      rw [if_neg hc]
      constructor <;> intro _ <;> omega

/-- The separator of `sip_add_extra` with ',' and wrap on a line `L0 ++ [c0]` of octets from
SP up that follows an octet below SP: the line is broken exactly when the line, the ',',
the tag, '=' and the value have 120 octets or more. -/
theorem extra_sep_wrap (pre0 L0 M : Bytes) (lf c0 wrap : Nat) (tl vl : Nat) (hlf : lf < 32)
    (hL : ∀ c ∈ L0 ++ [c0], 32 ≤ c) (hc0 : c0 ≠ 32 ∧ c0 ≠ 58) (hwrap : wrap ≠ 0) :
    extra_sep (pre0 ++ [lf] ++ L0 ++ c0 :: 13 :: 10 :: M) ((pre0 ++ [lf] ++ L0).length + 1)
        ((vl : Int) + (tl : Int) + 1) 44 wrap
      = if 120 ≤ (L0 ++ [c0]).length + tl + vl + 2 then [44, 13, 10, 9] else [44] := by
  have hbb : byteBefore (pre0 ++ [lf] ++ L0 ++ c0 :: 13 :: 10 :: M)
      ((pre0 ++ [lf] ++ L0).length + 1) = c0 := byteBefore_append_cons _ c0 _
  have hmem : writeAt (pre0 ++ [lf] ++ L0 ++ c0 :: 13 :: 10 :: M)
      ((pre0 ++ [lf] ++ L0).length + 1) [44]
      = (pre0 ++ [lf]) ++ (L0 ++ [c0, 44]) ++ (10 :: M) := by
    unfold writeAt
    rw [take_append_cons_self]
    have : (pre0 ++ [lf] ++ L0 ++ c0 :: 13 :: 10 :: M).drop
        ((pre0 ++ [lf] ++ L0).length + 1 + [44].length) = 10 :: M := by
      have h1 : pre0 ++ [lf] ++ L0 ++ c0 :: 13 :: 10 :: M
          = (pre0 ++ [lf] ++ L0 ++ [c0, 13]) ++ 10 :: M := by simp
      rw [h1]
      have h2 : (pre0 ++ [lf] ++ L0).length + 1 + [44].length
          = (pre0 ++ [lf] ++ L0 ++ [c0, 13]).length := by
        simp only [List.length_append, List.length_cons, List.length_nil]
      rw [h2, List.drop_left]
    rw [this]
    simp
  have hA : byteBefore ((pre0 ++ [lf]) ++ (L0 ++ [c0, 44]) ++ (10 :: M)) (pre0 ++ [lf]).length
      < 32 := by
    have h1 : (pre0 ++ [lf]) ++ (L0 ++ [c0, 44]) ++ (10 :: M)
        = pre0 ++ lf :: ((L0 ++ [c0, 44]) ++ (10 :: M)) := by simp
    have h2 : (pre0 ++ [lf]).length = pre0.length + 1 := by simp
    rw [h1, h2, byteBefore_append_cons]
    exact hlf
  have hfold := wrapCount_fold _ (pre0 ++ [lf]) hA
    (120 - ((vl : Int) + (tl : Int) + 1)).toNat (L0 ++ [c0, 44]) (10 :: M)
    ((pre0 ++ [lf] ++ L0).length + 1 + 1) ((vl : Int) + (tl : Int) + 1) rfl
    (by simp only [List.length_append, List.length_cons, List.length_nil]; omega)
    (fun c hc => by
      rcases List.mem_append.mp hc with h | h
      · exact hL c (List.mem_append_left _ h)
      · simp only [List.mem_cons, List.mem_singleton, List.not_mem_nil, or_false] at h
        rcases h with h | h
        · exact hL c (by simp [h])
        · rw [h]; decide)
    (le_refl _)
  unfold extra_sep
  rw [hbb, if_pos ⟨by decide, hc0.1, hc0.2⟩, hmem]
  by_cases hf : 120 ≤ (L0 ++ [c0]).length + tl + vl + 2
  · have h3 : 120 ≤ wrapCount ((pre0 ++ [lf]) ++ (L0 ++ [c0, 44]) ++ (10 :: M))
        (120 - ((vl : Int) + (tl : Int) + 1)).toNat ((pre0 ++ [lf] ++ L0).length + 1 + 1)
        ((vl : Int) + (tl : Int) + 1) := by
      rw [hfold]
      simp only [List.length_append, List.length_cons, List.length_nil] at hf ⊢
      push_cast
      omega
    rw [if_pos ⟨rfl, hwrap, h3⟩, if_pos hf]
  · have h3 : ¬ 120 ≤ wrapCount ((pre0 ++ [lf]) ++ (L0 ++ [c0, 44]) ++ (10 :: M))
        (120 - ((vl : Int) + (tl : Int) + 1)).toNat ((pre0 ++ [lf] ++ L0).length + 1 + 1)
        ((vl : Int) + (tl : Int) + 1) := by
      rw [hfold]
      simp only [List.length_append, List.length_cons, List.length_nil] at hf ⊢
      push_cast
      omega
    rw [if_neg (fun h => h3 h.2.2), if_neg hf]

/-! ## Facts about the header of the recording -/

theorem writen_natCast (c n : Nat) : writen c (n : Int) = littleEndian c n := by
  unfold writen littleEndian
  apply List.map_congr_left
  intro i _
  have h : ((n : Int) / 256 ^ i) % 256 = ((n / 256 ^ i % 256 : Nat) : Int) := by
    push_cast; rfl
  rw [h]; rfl

theorem writen_four (n : Int) :
    writen 4 n = [(n % 256).toNat, (n / 256 % 256).toNat, (n / 65536 % 256).toNat,
      (n / 16777216 % 256).toNat] := by
  simp [writen, List.range_succ]

/-! ## Facts about the playback cursor -/

theorem isFileChar_cases {c : Nat} {b : Bool} (h : isFileChar c b = true) :
    (48 ≤ c ∧ c ≤ 57) ∨ (65 ≤ c ∧ c ≤ 90) ∨ (97 ≤ c ∧ c ≤ 122) ∨ c = 43 ∨ c = 47 ∨ c = 45 := by
  simp only [isFileChar, isalnum, isalpha, isupper, islower, isdigit, Bool.or_eq_true,
    Bool.and_eq_true, decide_eq_true_eq, beq_iff_eq] at h
  omega

theorem isFileChar_first {c : Nat} (h : isFileChar c false = true) (h47 : c ≠ 47) :
    isFileChar c true = true := by
  simp only [isFileChar, isalnum, isalpha, isupper, islower, isdigit, Bool.or_eq_true,
    Bool.and_eq_true, decide_eq_true_eq, beq_iff_eq, Bool.not_false, Bool.not_true,
    Bool.and_false, Bool.and_true] at h ⊢
  omega

/-- The copy loop of `getfile` on a run `stem` of file octets that ends at `e` or before
an octet that is not taken. -/
theorem getfile_loop_run (mem : Bytes) (e : Nat) :
    ∀ (stem : Bytes) (fuel p : Nat) (o rest : Bytes),
      mem.drop p = stem ++ rest → p + stem.length ≤ e →
      (∀ c ∈ stem, isFileChar c false = true) → (o = [] → stem.head? ≠ some 47) →
      o.length + stem.length ≤ 95 →
      (p + stem.length = e ∨ isFileChar (rest.headD 0) (decide (o ++ stem = [])) = false) →
      stem.length < fuel →
      getfile_loop mem e fuel (.msg p) o = (.msg (p + stem.length), o ++ stem) := by
  intro stem
  induction stem with
  | nil =>
    intro fuel p o rest hd hle _ _ _ hstop hf
    obtain ⟨n, rfl⟩ : ∃ n, fuel = n + 1 := ⟨fuel - 1, by simp at hf; omega⟩
    have hb : byteAt mem p = rest.headD 0 := by rw [byteAt_eq_headD, hd]; rfl
    rw [getfile_loop.eq_2]
    simp only [List.length_nil, Nat.add_zero, List.append_nil] at hstop ⊢
    have hc : ¬ (Cursor.msg p ≠ Cursor.msg e
        ∧ isFileChar ((Cursor.msg p).deref mem) (decide (o = [])) = true ∧ o.length < 95) := by
      rintro ⟨h1, h2, _⟩
      rcases hstop with h | h
      · exact h1 (by rw [h])
      · simp only [Cursor.deref, hb] at h2
        rw [h] at h2; exact Bool.noConfusion h2
    rw [if_neg hc]
  | cons c t ih =>
    intro fuel p o rest hd hle hall hfirst hlen hstop hf
    obtain ⟨n, rfl⟩ : ∃ n, fuel = n + 1 := ⟨fuel - 1, by simp at hf; omega⟩
    simp only [List.length_cons] at hle hlen hstop hf
    have hb : byteAt mem p = c := byteAt_of_drop (t := t ++ rest) (by simpa using hd)
    have ht : mem.drop (p + 1) = t ++ rest := drop_succ_of_drop (c := c) (by simpa using hd)
    have hcf : isFileChar c false = true := hall c (List.mem_cons_self _ _)
    have hc : Cursor.msg p ≠ Cursor.msg e
        ∧ isFileChar ((Cursor.msg p).deref mem) (decide (o = [])) = true ∧ o.length < 95 := by
      refine ⟨fun h => by injection h with h; omega, ?_, by omega⟩
      simp only [Cursor.deref, hb]
      by_cases ho : o = []
      · have h47 : c ≠ 47 := fun h => hfirst ho (by rw [h]; rfl)
        simpa [ho] using isFileChar_first hcf h47
      · simpa [ho] using hcf
    rw [getfile_loop.eq_2, if_pos hc]
    simp only [Cursor.next, Cursor.deref, hb]
    rw [ih n (p + 1) (o ++ [c]) rest ht (by omega)
      (fun x hx => hall x (List.mem_cons_of_mem _ hx)) (fun h => absurd h (by simp))
      (by simp only [List.length_append, List.length_singleton]; omega)
      (by rcases hstop with h | h
          · left; omega
          · right; simpa using h)
      (by omega)]
    simp only [List.append_assoc, List.singleton_append, List.length_cons]
    congr 2; omega

/-- The nested function `getfile` at a file stem in the message. -/
theorem getfile_stem (mem : Bytes) (e p : Nat) (stem rest : Bytes)
    (hd : mem.drop p = stem ++ rest) (hle : p + stem.length ≤ e) (hs : StemOk stem)
    (hstop : p + stem.length = e ∨ isFileChar (rest.headD 0) false = false) :
    getfile mem e (.msg p) = (.msg (p + stem.length), wavName stem) := by
  obtain ⟨hne, hlen, hall, hfirst⟩ := hs
  unfold getfile
  rw [getfile_loop_run mem e stem 96 p [] rest hd hle hall (fun _ => hfirst)
    (by simpa using hlen)
    (by rcases hstop with h | h
        · left; exact h
        · right; simpa [hne] using h)
    (by omega)]
  simp [hne, wavName]

theorem altTail_length_ge (l : List Bytes) : l.length ≤ (altTail l).length := by
  induction l with
  | nil => simp [altTail]
  | cons g l ih => simp only [altTail, List.length_cons, List.length_append]; omega

theorem headD_altTail_append (l : List Bytes) (rest : Bytes)
    (h : l = [] → isFileChar (rest.headD 0) false = false) :
    isFileChar ((altTail l ++ rest).headD 0) false = false := by
  cases l with
  | nil => simpa [altTail] using h rfl
  | cons g l => simp only [altTail, List.cons_append, List.headD_cons]; decide

/-- The loop over the alternates on a run of alternates "?g" that ends at `e` or before an
octet that is neither '?' nor a file octet: with no file open yet the names are tried in
order until one opens; with a file open no name is tried. -/
theorem alternates_run (fs : Files) (mem : Bytes) (e : Nat) :
    ∀ (l : List Bytes) (fuel p : Nat) (tried : List Bytes) (fn : Option Bytes) (rest : Bytes),
      mem.drop p = altTail l ++ rest → p + (altTail l).length ≤ e →
      (∀ s ∈ l, StemOk s) →
      (p + (altTail l).length = e
        ∨ (rest.headD 0 ≠ 63 ∧ isFileChar (rest.headD 0) false = false)) →
      l.length < fuel →
      alternates fs mem e fuel (.msg p) tried fn
        = (.msg (p + (altTail l).length),
            tried ++ (match fn with
              | none => openCalls fs (l.map wavName)
              | some _ => []),
            match fn with
              | none => (l.map wavName).find? fs.readable
              | some x => some x) := by
  intro l
  induction l with
  | nil =>
    intro fuel p tried fn rest hd hle _ hstop hf
    obtain ⟨n, rfl⟩ : ∃ n, fuel = n + 1 := ⟨fuel - 1, by simp at hf; omega⟩
    have hb : byteAt mem p = rest.headD 0 := by rw [byteAt_eq_headD, hd]; rfl
    simp only [altTail, List.length_nil, Nat.add_zero] at hstop ⊢
    have hc : ¬ (Cursor.msg p ≠ Cursor.msg e ∧ (Cursor.msg p).deref mem = 63) := by
      rintro ⟨h1, h2⟩
      rcases hstop with h | h
      · exact h1 (by rw [h])
      · simp only [Cursor.deref, hb] at h2; exact h.1 h2
    rw [alternates.eq_2, if_neg hc]
    cases fn <;> simp [openCalls]
  | cons g l ih =>
    intro fuel p tried fn rest hd hle hall hstop hf
    obtain ⟨n, rfl⟩ : ∃ n, fuel = n + 1 := ⟨fuel - 1, by simp at hf; omega⟩
    simp only [altTail, List.length_cons, List.length_append] at hle hstop hf
    have hd0 : mem.drop p = 63 :: (g ++ (altTail l ++ rest)) := by
      rw [hd]; simp [altTail]
    have hb : byteAt mem p = 63 := byteAt_of_drop hd0
    have hd1 : mem.drop (p + 1) = g ++ (altTail l ++ rest) := drop_succ_of_drop hd0
    have hd2 : mem.drop (p + 1 + g.length) = altTail l ++ rest := drop_add_of_drop _ _ hd1
    have hc : Cursor.msg p ≠ Cursor.msg e ∧ (Cursor.msg p).deref mem = 63 :=
      ⟨fun h => by injection h with h; omega, by simpa [Cursor.deref] using hb⟩
    have hg : getfile mem e (.msg (p + 1)) = (.msg (p + 1 + g.length), wavName g) := by
      apply getfile_stem mem e (p + 1) g (altTail l ++ rest) hd1 (by omega)
        (hall g (List.mem_cons_self _ _))
      by_cases hl : l = []
      · subst hl
        simp only [altTail, List.length_nil, Nat.add_zero, List.nil_append] at hstop ⊢
        rcases hstop with h | h
        · left; omega
        · right; exact h.2
      · right
        exact headD_altTail_append l rest (fun h => absurd h hl)
    have hstop2 : p + 1 + g.length + (altTail l).length = e
        ∨ (rest.headD 0 ≠ 63 ∧ isFileChar (rest.headD 0) false = false) := by
      rcases hstop with h | h
      · left; omega
      · right; exact h
    have hend : p + 1 + g.length + (altTail l).length
        = p + (altTail (g :: l)).length := by
      simp only [altTail, List.length_cons, List.length_append]; omega
    rw [alternates.eq_2, if_pos hc]
    simp only [Cursor.next, hg]
    cases fn with
    | some x =>
      rw [if_neg (by simp)]
      rw [ih n (p + 1 + g.length) tried (some x) rest hd2 (by omega)
        (fun s hs => hall s (List.mem_cons_of_mem _ hs)) hstop2 (by omega), hend]
    | none =>
      rw [if_pos rfl]
      rw [ih n (p + 1 + g.length) _ _ rest hd2 (by omega)
        (fun s hs => hall s (List.mem_cons_of_mem _ hs)) hstop2 (by omega), hend]
      by_cases hr : fs.readable (wavName g) = true
      · simp [hr, openCalls]
      · simp [hr, openCalls]

theorem openCalls_cons (fs : Files) (n : Bytes) (l : List Bytes) :
    [n] ++ (match (if fs.readable n = true then some n else none) with
      | none => openCalls fs l
      | some _ => []) = openCalls fs (n :: l) := by
  by_cases hr : fs.readable n = true <;> simp [hr, openCalls]

theorem find_cons (fs : Files) (n : Bytes) (l : List Bytes) :
    (match (if fs.readable n = true then some n else none) with
      | none => l.find? fs.readable
      | some x => some x) = (n :: l).find? fs.readable := by
  by_cases hr : fs.readable n = true <;> simp [hr, List.find?]

/-- The second part of `nextfile` with `rp` at an atom: a stem `f` and alternates `l`,
each after a '?', that end at `e` or before an octet that is neither '?' nor a file octet.
The names are tried in order until one opens, and `rp` is left after the atom and after a
dot that follows it. -/
theorem nextfile_play_atom (fs : Files) (mem : Bytes) (e p : Nat) (st : Playback) (f : Bytes)
    (l : List Bytes) (rest : Bytes) (hrp : st.rp = .msg p)
    (hd : mem.drop p = (f ++ altTail l) ++ rest) (hle : p + (f ++ altTail l).length ≤ e)
    (hstems : ∀ s ∈ f :: l, StemOk s)
    (hstop : p + (f ++ altTail l).length = e
      ∨ (rest.headD 0 ≠ 63 ∧ isFileChar (rest.headD 0) false = false)) :
    nextfile_play fs mem e st
      = ({ st with rp := .msg (p + (f ++ altTail l).length
              + (if p + (f ++ altTail l).length ≠ e ∧ rest.headD 0 = 46 then 1 else 0)) },
          openCalls fs ((f :: l).map wavName), ((f :: l).map wavName).find? fs.readable) := by
  have hf : StemOk f := hstems f (List.mem_cons_self _ _)
  obtain ⟨c0, f1, hf1⟩ : ∃ c0 f1, f = c0 :: f1 := by
    cases f with
    | nil => exact absurd rfl hf.1
    | cons c0 f1 => exact ⟨c0, f1, rfl⟩
  have hc0 : isFileChar c0 false = true := hf.2.2.1 c0 (by rw [hf1]; exact List.mem_cons_self _ _)
  have hcases := isFileChar_cases hc0
  have hb : byteAt mem p = c0 :=
    byteAt_of_drop (t := f1 ++ altTail l ++ rest) (by rw [hd, hf1]; simp)
  simp only [List.length_append] at hle hstop ⊢
  have hflen : 1 ≤ f.length := by rw [hf1]; simp
  have hne : p ≠ e := by omega
  have hd1 : mem.drop p = f ++ (altTail l ++ rest) := by rw [hd]; simp
  have hd2 : mem.drop (p + f.length) = altTail l ++ rest := drop_add_of_drop _ _ hd1
  have hd3 : mem.drop (p + f.length + (altTail l).length) = rest := drop_add_of_drop _ _ hd2
  have hg : getfile mem e (.msg p) = (.msg (p + f.length), wavName f) := by
    apply getfile_stem mem e p f (altTail l ++ rest) hd1 (by omega) hf
    by_cases hl : l = []
    · subst hl
      simp only [altTail, List.length_nil, Nat.add_zero, List.nil_append] at hstop ⊢
      rcases hstop with h | h
      · left; exact h
      · right; exact h.2
    · right
      exact headD_altTail_append l rest (fun h => absurd h hl)
  have hfuel : l.length < (Cursor.msg (p + f.length)).room mem e := by
    have := altTail_length_ge l
    simp only [Cursor.room]
    omega
  have ha := alternates_run fs mem e l _ (p + f.length) [wavName f]
    (if fs.readable (wavName f) = true then some (wavName f) else none) rest hd2 (by omega)
    (fun s hs => hstems s (List.mem_cons_of_mem _ hs))
    (by rcases hstop with h | h
        · left; omega
        · right; exact h) hfuel
  have hb3 : byteAt mem (p + f.length + (altTail l).length) = rest.headD 0 := by
    rw [byteAt_eq_headD, hd3]
  have h1 : ¬ (st.rp = Cursor.null ∨ st.rp = Cursor.msg e ∨ st.rp.deref mem = 0) := by
    rw [hrp]
    rintro (h | h | h)
    · exact Cursor.noConfusion h
    · injection h with h; exact hne h
    · simp only [Cursor.deref, hb] at h; omega
  have h2 : ¬ st.rp.deref mem = 35 := by
    rw [hrp]; simp only [Cursor.deref, hb]; omega
  have h3 : star_minute mem st = st := by
    unfold star_minute
    rw [if_neg (by rw [hrp]; simp only [Cursor.deref, hb]; omega)]
  unfold nextfile_play
  rw [if_neg h1, if_neg h2]
  simp only [h3, hrp, hg, ha, List.map_cons, openCalls_cons, find_cons, Cursor.deref, hb3,
    Cursor.next]
  refine Prod.ext ?_ rfl
  simp only
  rw [← Nat.add_assoc p f.length (altTail l).length]
  by_cases hdot : p + f.length + (altTail l).length ≠ e ∧ rest.headD 0 = 46
  · have hdot2 : Cursor.msg (p + f.length + (altTail l).length) ≠ Cursor.msg e
        ∧ rest.headD 0 = 46 := ⟨fun h => by injection h with h; exact hdot.1 h, hdot.2⟩
    rw [if_pos hdot, if_pos hdot2]
  · have hdot2 : ¬ (Cursor.msg (p + f.length + (altTail l).length) ≠ Cursor.msg e
        ∧ rest.headD 0 = 46) := fun h => hdot ⟨fun h2 => h.1 (by rw [h2]), h.2⟩
    rw [if_neg hdot, if_neg hdot2]
    rfl

/-- The second part of `nextfile` after a ring: the file "aai.wav" is tried, and `rp`
is left at the NUL of the literal. -/
theorem nextfile_play_aai (fs : Files) (mem : Bytes) (e : Nat) (st : Playback) :
    nextfile_play fs mem e { st with rp := .lit [97, 97, 105] 0 }
      = ({ st with rp := .lit [97, 97, 105] 3 }, [wavName [97, 97, 105]],
          if fs.readable (wavName [97, 97, 105]) = true then some (wavName [97, 97, 105])
          else none) := by
  rfl

/-- The second part of `nextfile` after a SIT: the file "sit.wav" is tried, and `rp` is
left at the NUL of the literal. -/
theorem nextfile_play_sit (fs : Files) (mem : Bytes) (e : Nat) (st : Playback) :
    nextfile_play fs mem e { st with rp := .lit [115, 105, 116] 0 }
      = ({ st with rp := .lit [115, 105, 116] 3 }, [wavName [115, 105, 116]],
          if fs.readable (wavName [115, 105, 116]) = true then some (wavName [115, 105, 116])
          else none) := by
  rfl

/-- A call of `nextfile` with `rp` at an atom, no ring and no SIT left. -/
theorem nextfile_atom (fs : Files) (mem : Bytes) (e p : Nat) (st : Playback) (f : Bytes)
    (l : List Bytes) (rest : Bytes) (hring : st.ring = 0) (hsit : st.sit = 0)
    (hrp : st.rp = .msg p)
    (hd : mem.drop p = (f ++ altTail l) ++ rest) (hle : p + (f ++ altTail l).length ≤ e)
    (hstems : ∀ s ∈ f :: l, StemOk s)
    (hstop : p + (f ++ altTail l).length = e
      ∨ (rest.headD 0 ≠ 63 ∧ isFileChar (rest.headD 0) false = false)) :
    nextfile fs mem e st
      = some ({ st with rp := .msg (p + (f ++ altTail l).length
              + (if p + (f ++ altTail l).length ≠ e ∧ rest.headD 0 = 46 then 1 else 0)) },
          openCalls fs ((f :: l).map wavName), ((f :: l).map wavName).find? fs.readable) := by
  have hf : StemOk f := hstems f (List.mem_cons_self _ _)
  obtain ⟨c0, f1, hf1⟩ : ∃ c0 f1, f = c0 :: f1 := by
    cases f with
    | nil => exact absurd rfl hf.1
    | cons c0 f1 => exact ⟨c0, f1, rfl⟩
  have hc0 : isFileChar c0 false = true := hf.2.2.1 c0 (by rw [hf1]; exact List.mem_cons_self _ _)
  have hcases := isFileChar_cases hc0
  have hb : byteAt mem p = c0 :=
    byteAt_of_drop (t := f1 ++ altTail l ++ rest) (by rw [hd, hf1]; simp)
  have hne : p ≠ e := by
    have : 1 ≤ f.length := by rw [hf1]; simp
    simp only [List.length_append] at hle
    omega
  have hsel : nextfile_select fs mem e st = .go st := by
    unfold nextfile_select
    rw [if_neg (by simp [hring]), if_neg (by simp [hsit])]
    have h : ¬ (st.rp = Cursor.null ∨ st.rp = Cursor.msg e ∨ st.rp.deref mem = 0
        ∨ st.rp.deref mem = 61) := by
      rw [hrp]
      rintro (h | h | h | h)
      · exact Cursor.noConfusion h
      · injection h with h; exact hne h
      · simp only [Cursor.deref, hb] at h; omega
      · simp only [Cursor.deref, hb] at h; omega
    rw [if_neg h]
  unfold nextfile
  rw [hsel]
  simp only
  rw [nextfile_play_atom fs mem e p st f l rest hrp hd hle hstems hstop]

/-- A call of `nextfile` with a ring left. -/
theorem nextfile_ring (fs : Files) (mem : Bytes) (e : Nat) (st : Playback) (hring : st.ring ≠ 0) :
    nextfile fs mem e st
      = some ({ st with ring := st.ring - 1, rp := .lit [97, 97, 105] 3 },
          [wavName [97, 97, 105]],
          if fs.readable (wavName [97, 97, 105]) = true then some (wavName [97, 97, 105])
          else none) := by
  have hsel : nextfile_select fs mem e st
      = .go { st with ring := st.ring - 1, rp := .lit [97, 97, 105] 0 } := by
    unfold nextfile_select
    rw [if_pos hring]
  unfold nextfile
  rw [hsel]
  simp only
  exact congrArg some (nextfile_play_aai fs mem e { st with ring := st.ring - 1 })

/-- A call of `nextfile` with no ring and a SIT left. -/
theorem nextfile_sit (fs : Files) (mem : Bytes) (e : Nat) (st : Playback) (hring : st.ring = 0)
    (hsit : st.sit ≠ 0) :
    nextfile fs mem e st
      = some ({ st with sit := st.sit - 1, rp := .lit [115, 105, 116] 3 },
          [wavName [115, 105, 116]],
          if fs.readable (wavName [115, 105, 116]) = true then some (wavName [115, 105, 116])
          else none) := by
  have hsel : nextfile_select fs mem e st
      = .go { st with sit := st.sit - 1, rp := .lit [115, 105, 116] 0 } := by
    unfold nextfile_select
    rw [if_neg (by simp [hring]), if_pos hsit]
  unfold nextfile
  rw [hsel]
  simp only
  exact congrArg some (nextfile_play_sit fs mem e { st with sit := st.sit - 1 })

/-- The first part of `nextfile` at the end of what is played, with a repeat left: `rp`
goes to the start of the program. -/
theorem nextfile_select_again (fs : Files) (mem : Bytes) (e q : Nat) (st : Playback)
    (hring : st.ring = 0) (hsit : st.sit = 0) (hend : AtEnd mem e st.rp)
    (hcount : 1 ≤ st.count ∧ st.count < 2147483648) (hreq : st.request = some q) :
    nextfile_select fs mem e st = .go { st with rp := .msg q, count := st.count - 1 } := by
  unfold nextfile_select
  rw [if_neg (by simp [hring]), if_neg (by simp [hsit])]
  have h : st.rp = Cursor.null ∨ st.rp = Cursor.msg e ∨ st.rp.deref mem = 0
      ∨ st.rp.deref mem = 61 := by
    rcases hend with h | h | h
    · exact Or.inl h
    · exact Or.inr (Or.inl h)
    · exact Or.inr (Or.inr (Or.inl h))
  rw [if_pos h, if_neg (by omega), hreq]
  have hw : wrapInt32 (st.count - 1) = st.count - 1 := by unfold wrapInt32; omega
  simp only [hw]

/-- A call of `nextfile` with `rp` at `erequest`, no ring, no SIT and no repeat left: the
outcome becomes the empty string and no file is tried. -/
theorem nextfile_finish (fs : Files) (mem : Bytes) (e : Nat) (st : Playback)
    (hring : st.ring = 0) (hsit : st.sit = 0) (hrp : st.rp = .msg e) (hcount : st.count = 0) :
    nextfile fs mem e st = some ({ st with done := some [] }, [], none) := by
  have hsel : nextfile_select fs mem e st = .ret { st with done := some [] } := by
    unfold nextfile_select
    rw [if_neg (by simp [hring]), if_neg (by simp [hsit]), if_pos (Or.inr (Or.inl hrp)),
      if_pos hcount, hrp]
    simp
  unfold nextfile
  rw [hsel]

theorem opened_after_after (a b : List Bytes) (r : Option (Playback × List Bytes)) :
    opened_after a (opened_after b r) = opened_after (a ++ b) r := by
  cases r <;> simp [opened_after]

/-- One more call of `nextfile` in the loops of `audio_in`. -/
theorem nextfiles_step (fs : Files) (mem : Bytes) (e n : Nat) (st st1 : Playback)
    (tried : List Bytes) (fn : Option Bytes) (hdone : st.done = none)
    (hreq : st.request ≠ none) (h : nextfile fs mem e st = some (st1, tried, fn)) :
    nextfiles fs mem e (n + 1) st = opened_after fn.toList (nextfiles fs mem e n st1) := by
  rw [nextfiles.eq_2, if_neg (fun hc => hc.elim (fun h1 => h1 hdone) hreq), h]
  simp only
  cases hx : nextfiles fs mem e n st1 <;> simp [opened_after]

/-- The body of stems with single dots, from its start: every stem is opened, in order,
and `rp` is left at `erequest`. -/
theorem nextfiles_body (fs : Files) (mem : Bytes) (e : Nat) :
    ∀ (l : List Bytes) (f : Bytes) (m p : Nat) (st : Playback) (rest : Bytes),
      st.ring = 0 → st.sit = 0 → st.rp = .msg p → st.done = none → st.request ≠ none →
      mem.drop p = dotted f l ++ rest → p + (dotted f l).length = e →
      (∀ s ∈ f :: l, StemOk s) → (∀ s ∈ f :: l, fs.readable (wavName s) = true) →
      nextfiles fs mem e ((f :: l).length + m) st
        = opened_after ((f :: l).map wavName) (nextfiles fs mem e m { st with rp := .msg e }) := by
  intro l
  induction l with
  | nil =>
    intro f m p st rest hring hsit hrp hdone hreq hd hle hstems hread
    simp only [dotted] at hd hle
    have hr : fs.readable (wavName f) = true := hread f (List.mem_cons_self _ _)
    have h := nextfile_atom fs mem e p st f [] rest hring hsit hrp
      (by simpa [altTail] using hd) (by simp [altTail]; omega) hstems
      (Or.inl (by simp [altTail]; omega))
    have hpe : p + (f ++ altTail []).length = e := by simp [altTail]; omega
    rw [if_neg (fun hc => hc.1 hpe), hpe] at h
    simp only [List.map_cons, List.map_nil, openCalls, hr, if_true, List.find?, Nat.add_zero] at h
    have hn : [f].length + m = m + 1 := by simp; omega
    rw [hn, nextfiles_step fs mem e m st _ _ _ hdone hreq h]
    rfl
  | cons g l ih =>
    intro f m p st rest hring hsit hrp hdone hreq hd hle hstems hread
    simp only [dotted, List.length_append, List.length_cons] at hd hle
    have hr : fs.readable (wavName f) = true := hread f (List.mem_cons_self _ _)
    have hd1 : mem.drop p = (f ++ altTail []) ++ (46 :: (dotted g l ++ rest)) := by
      rw [hd]; simp [altTail]
    have hst : (46 :: (dotted g l ++ rest)).headD 0 ≠ 63
        ∧ isFileChar ((46 :: (dotted g l ++ rest)).headD 0) false = false :=
      ⟨by simp, by simp only [List.headD_cons]; decide⟩
    have h := nextfile_atom fs mem e p st f [] (46 :: (dotted g l ++ rest)) hring hsit hrp
      hd1 (by simp [altTail]; omega) (fun s hs => hstems s (by
        rcases List.mem_cons.mp hs with h | h
        · rw [h]; exact List.mem_cons_self _ _
        · exact absurd h (List.not_mem_nil _)))
      (Or.inr hst)
    have hlen : (f ++ altTail []).length = f.length := by simp [altTail]
    have hpe : p + f.length ≠ e := by omega
    rw [hlen, if_pos ⟨hpe, rfl⟩] at h
    simp only [List.map_cons, List.map_nil, openCalls, hr, if_true, List.find?] at h
    have hd2 : mem.drop (p + f.length + 1) = dotted g l ++ rest := by
      have h1 : mem.drop (p + f.length) = 46 :: (dotted g l ++ rest) :=
        drop_add_of_drop f _ (by rw [hd]; simp)
      exact drop_succ_of_drop h1
    have hn : (f :: g :: l).length + m = ((g :: l).length + m) + 1 := by
      simp only [List.length_cons]; omega
    rw [hn, nextfiles_step fs mem e _ st _ _ _ hdone hreq h]
    rw [ih g m (p + f.length + 1) { st with rp := .msg (p + f.length + 1) } rest hring hsit rfl
      hdone hreq hd2 (by omega)
      (fun s hs => hstems s (List.mem_cons_of_mem _ hs))
      (fun s hs => hread s (List.mem_cons_of_mem _ hs))]
    rw [opened_after_after]
    rfl

theorem nextfiles_first (fs : Files) (mem : Bytes) (e n : Nat) (st st1 : Playback)
    (hd : st.done = none) (hr : st.request ≠ none) (hd1 : st1.done = none)
    (hr1 : st1.request ≠ none) (h : nextfile fs mem e st = nextfile fs mem e st1) :
    nextfiles fs mem e (n + 1) st = nextfiles fs mem e (n + 1) st1 := by
  rw [nextfiles.eq_2, nextfiles.eq_2, if_neg (fun hc => hc.elim (fun h1 => h1 hd) hr),
    if_neg (fun hc => hc.elim (fun h1 => h1 hd1) hr1), h]

/-- One round of the body, from the end of what was played before, with a repeat left. -/
theorem nextfiles_round (fs : Files) (mem : Bytes) (e q : Nat) (f : Bytes) (l : List Bytes)
    (rest : Bytes) (hd : mem.drop q = dotted f l ++ rest) (hle : q + (dotted f l).length = e)
    (hstems : ∀ s ∈ f :: l, StemOk s) (hread : ∀ s ∈ f :: l, fs.readable (wavName s) = true)
    (m : Nat) (st : Playback) (hring : st.ring = 0) (hsit : st.sit = 0)
    (hend : AtEnd mem e st.rp) (hdone : st.done = none) (hreq : st.request = some q)
    (hcount : 1 ≤ st.count ∧ st.count < 2147483648) :
    nextfiles fs mem e ((f :: l).length + m) st
      = opened_after ((f :: l).map wavName)
          (nextfiles fs mem e m { st with rp := .msg e, count := st.count - 1 }) := by
  obtain ⟨st1, hst1⟩ : ∃ st1 : Playback, st1 = { st with rp := .msg q, count := st.count - 1 } :=
    ⟨_, rfl⟩
  have hsel := nextfile_select_again fs mem e q st hring hsit hend hcount hreq
  have h1 : nextfile fs mem e st = some (nextfile_play fs mem e st1) := by
    unfold nextfile
    rw [hsel, hst1]
  have hd1 : mem.drop q = (f ++ altTail []) ++ ((dotted f l).drop f.length ++ rest) := by
    rw [hd]
    cases l with
    | nil => simp [dotted, altTail]
    | cons g l => simp [dotted, altTail]
  have hlen : (dotted f l).length = f.length + ((dotted f l).drop f.length).length := by
    cases l with
    | nil => simp [dotted]
    | cons g l => simp [dotted]
  have hstop : q + (f ++ altTail []).length = e
      ∨ ((((dotted f l).drop f.length ++ rest).headD 0 ≠ 63)
        ∧ isFileChar (((dotted f l).drop f.length ++ rest).headD 0) false = false) := by
    cases l with
    | nil => left; simp [dotted, altTail] at hle ⊢; omega
    | cons g l =>
      right
      simp only [dotted, List.drop_left, List.cons_append, List.headD_cons]
      exact ⟨by decide, by decide⟩
  have hf1 : ∀ s ∈ [f], StemOk s := fun s hs => hstems s (by
    rcases List.mem_cons.mp hs with h | h
    · rw [h]; exact List.mem_cons_self _ _
    · exact absurd h (List.not_mem_nil _))
  have hrp1 : st1.rp = .msg q := by rw [hst1]
  have h2 : nextfile fs mem e st1 = some (nextfile_play fs mem e st1) := by
    rw [nextfile_play_atom fs mem e q st1 f [] _ hrp1 hd1
      (by simp only [List.length_append, altTail, List.length_nil]; omega) hf1 hstop]
    exact nextfile_atom fs mem e q st1 f [] _ (by rw [hst1]; exact hring)
      (by rw [hst1]; exact hsit) hrp1 hd1
      (by simp only [List.length_append, altTail, List.length_nil]; omega) hf1 hstop
  have hn : (f :: l).length + m = (l.length + m) + 1 := by simp only [List.length_cons]; omega
  rw [hn, nextfiles_first fs mem e _ st st1 hdone (by rw [hreq]; simp)
    (by rw [hst1]; exact hdone) (by rw [hst1, hreq]; simp) (by rw [h1, h2]), ← hn]
  rw [nextfiles_body fs mem e l f m q st1 rest (by rw [hst1]; exact hring)
    (by rw [hst1]; exact hsit) hrp1 (by rw [hst1]; exact hdone)
    (by rw [hst1, hreq]; simp) hd hle hstems hread, hst1]

/-- The rounds of the body: `N + 1` rounds when the repeat count is `N + 1`. -/
theorem nextfiles_rounds (fs : Files) (mem : Bytes) (e q : Nat) (f : Bytes) (l : List Bytes)
    (rest : Bytes) (hd : mem.drop q = dotted f l ++ rest) (hle : q + (dotted f l).length = e)
    (hstems : ∀ s ∈ f :: l, StemOk s) (hread : ∀ s ∈ f :: l, fs.readable (wavName s) = true)
    (m : Nat) :
    ∀ (N : Nat) (st : Playback), st.ring = 0 → st.sit = 0 → AtEnd mem e st.rp →
      st.done = none → st.request = some q → st.count = ((N + 1 : Nat) : Int) →
      N + 1 < 2147483648 →
      nextfiles fs mem e ((N + 1) * (f :: l).length + m) st
        = opened_after (List.replicate (N + 1) ((f :: l).map wavName)).flatten
            (nextfiles fs mem e m { st with rp := .msg e, count := 0 }) := by
  intro N
  induction N with
  | zero =>
    intro st hring hsit hend hdone hreq hcount _
    have h := nextfiles_round fs mem e q f l rest hd hle hstems hread m st hring hsit hend hdone
      hreq (by rw [hcount]; constructor <;> simp)
    have hc : st.count - 1 = 0 := by rw [hcount]; simp
    rw [hc] at h
    simpa using h
  | succ N ih =>
    intro st hring hsit hend hdone hreq hcount hN
    have hn : (N + 1 + 1) * (f :: l).length + m
        = (f :: l).length + ((N + 1) * (f :: l).length + m) := by
      rw [Nat.succ_mul]; omega
    have h := nextfiles_round fs mem e q f l rest hd hle hstems hread
      ((N + 1) * (f :: l).length + m) st hring hsit hend hdone hreq
      (by rw [hcount]; constructor <;> push_cast <;> omega)
    rw [hn, h]
    rw [ih { st with rp := .msg e, count := st.count - 1 } hring hsit (Or.inr (Or.inl rfl)) hdone
      hreq (by simp only [hcount]; push_cast; omega) (by omega)]
    rw [opened_after_after]
    simp [List.replicate_succ]

theorem opened_after_nil (r : Option (Playback × List Bytes)) : opened_after [] r = r := by
  cases r <;> simp [opened_after]

/-- The rings: "aai.wav" is opened once for every ring left. -/
theorem nextfiles_rings (fs : Files) (mem : Bytes) (e m : Nat) :
    ∀ (r : Nat) (st : Playback), st.ring = r → AtEnd mem e st.rp → st.done = none →
      st.request ≠ none → (0 < r → fs.readable (wavName [97, 97, 105]) = true) →
      ∃ rp, AtEnd mem e rp ∧ nextfiles fs mem e (r + m) st
        = opened_after (List.replicate r (wavName [97, 97, 105]))
            (nextfiles fs mem e m { st with ring := 0, rp := rp }) := by
  intro r
  induction r with
  | zero =>
    intro st hring hend _ _ _
    refine ⟨st.rp, hend, ?_⟩
    have hst : ({ st with ring := 0, rp := st.rp } : Playback) = st := by
      cases st; simp only at hring; subst hring; rfl
    rw [hst]
    simp [opened_after_nil]
  | succ r ih =>
    intro st hring hend hdone hreq hread
    have h := nextfile_ring fs mem e st (by omega)
    rw [hread (by omega)] at h
    simp only [if_true] at h
    obtain ⟨rp, hrp, hrun⟩ := ih { st with ring := st.ring - 1, rp := .lit [97, 97, 105] 3 }
      (by simp only; omega) (Or.inr (Or.inr rfl)) hdone hreq (fun hr => hread (by omega))
    refine ⟨rp, hrp, ?_⟩
    have hn : r + 1 + m = (r + m) + 1 := by omega
    rw [hn, nextfiles_step fs mem e _ st _ _ _ hdone hreq h, hrun, opened_after_after]
    rfl

/-- The SITs, when no ring is left: "sit.wav" is opened once for every SIT left. -/
theorem nextfiles_sits (fs : Files) (mem : Bytes) (e m : Nat) :
    ∀ (t : Nat) (st : Playback), st.ring = 0 → st.sit = t → AtEnd mem e st.rp →
      st.done = none → st.request ≠ none →
      (0 < t → fs.readable (wavName [115, 105, 116]) = true) →
      ∃ rp, AtEnd mem e rp ∧ nextfiles fs mem e (t + m) st
        = opened_after (List.replicate t (wavName [115, 105, 116]))
            (nextfiles fs mem e m { st with sit := 0, rp := rp }) := by
  intro t
  induction t with
  | zero =>
    intro st _ hsit hend _ _ _
    refine ⟨st.rp, hend, ?_⟩
    have hst : ({ st with sit := 0, rp := st.rp } : Playback) = st := by
      cases st; simp only at hsit; subst hsit; rfl
    rw [hst]
    simp [opened_after_nil]
  | succ t ih =>
    intro st hring hsit hend hdone hreq hread
    have h := nextfile_sit fs mem e st hring (by omega)
    rw [hread (by omega)] at h
    simp only [if_true] at h
    obtain ⟨rp, hrp, hrun⟩ := ih { st with sit := st.sit - 1, rp := .lit [115, 105, 116] 3 }
      hring (by simp only; omega) (Or.inr (Or.inr rfl)) hdone hreq (fun hr => hread (by omega))
    refine ⟨rp, hrp, ?_⟩
    have hn : t + 1 + m = (t + m) + 1 := by omega
    rw [hn, nextfiles_step fs mem e _ st _ _ _ hdone hreq h, hrun, opened_after_after]
    rfl

/-- The position at which `read_unsigned` stops is the end of the run of digits, whatever
the value. -/
theorem read_unsigned_loop_pos (b : Bytes) (e : Nat) :
    ∀ (fuel p : Nat) (v : Int), fuel = e - p →
      (read_unsigned_loop b e fuel p v).2 = scanWhile b isdigit p e := by
  intro fuel
  induction fuel with
  | zero =>
    intro p v hf
    rw [scanWhile_stop b isdigit p e (Or.inl (by omega))]
    rfl
  | succ n ih =>
    intro p v hf
    rw [read_unsigned_loop.eq_2, scanWhile_step]
    by_cases hc : p < e ∧ isdigit (byteAt b p) = true
    · rw [if_pos hc, if_pos hc]
      exact ih (p + 1) _ (by omega)
    · rw [if_neg hc, if_neg hc]

theorem read_unsigned_pos (b : Bytes) (p e : Nat) :
    (read_unsigned b p e).2 = scanWhile b isdigit p e :=
  read_unsigned_loop_pos b e (e - p) p 0 rfl

theorem dotted_octets (l : List Bytes) :
    ∀ (f : Bytes) (c : Nat), c ∈ dotted f l → c = 46 ∨ ∃ s ∈ f :: l, c ∈ s := by
  induction l with
  | nil =>
    intro f c hc
    exact Or.inr ⟨f, List.mem_cons_self _ _, hc⟩
  | cons g l ih =>
    intro f c hc
    simp only [dotted, List.mem_append, List.mem_cons] at hc
    rcases hc with h | h | h
    · exact Or.inr ⟨f, List.mem_cons_self _ _, h⟩
    · exact Or.inl h
    · rcases ih g c h with h1 | ⟨s, hs, hcs⟩
      · exact Or.inl h1
      · exact Or.inr ⟨s, List.mem_cons_of_mem _ hs, hcs⟩

theorem dotted_fileOctets (f : Bytes) (l : List Bytes) (hstems : ∀ s ∈ f :: l, StemOk s)
    (c : Nat) (hc : c ∈ dotted f l) : c = 46 ∨ isFileChar c false = true := by
  rcases dotted_octets l f c hc with h | ⟨s, hs, hcs⟩
  · exact Or.inl h
  · exact Or.inr ((hstems s hs).2.2.1 c hcs)

theorem headD_dotted (f : Bytes) (l : List Bytes) (rest : Bytes) (hf : f ≠ []) :
    (dotted f l ++ rest).headD 0 = f.headD 0 := by
  cases f with
  | nil => exact absurd rfl hf
  | cons c f1 => cases l <;> simp [dotted]

theorem dotted_ne_nil (f : Bytes) (l : List Bytes) (hf : f ≠ []) : dotted f l ≠ [] := by
  cases f with
  | nil => exact absurd rfl hf
  | cons c f1 => cases l <;> simp [dotted]

theorem digitRun_of_drop (b : Bytes) (p e : Nat) (d t : Bytes) (c : Nat)
    (hd : b.drop p = d ++ c :: t) (hall : ∀ x ∈ d, isdigit x = true)
    (hc : isdigit c = false) (hle : p + d.length < e) : digitRun b p e = d := by
  unfold digitRun
  rw [hd, List.take_append_eq_append_take, List.take_of_length_le (by omega)]
  obtain ⟨k, hk⟩ : ∃ k, e - p - d.length = k + 1 := ⟨e - p - d.length - 1, by omega⟩
  rw [hk, List.take_succ_cons, List.takeWhile_append_of_pos hall, List.takeWhile_cons]
  simp [hc]

theorem headD_append_mem (m t : Bytes) (hm : m ≠ []) : (m ++ t).headD 0 ∈ m := by
  cases m with
  | nil => exact absurd rfl hm
  | cons c m1 => simp

/-- The set up of the playback on a program of rings, SITs, an optional repeat prefix and
a body of stems with single dots. -/
theorem playback_program_spec (mem : Bytes) (p0 e r t : Nat) (digits : Option Bytes)
    (f : Bytes) (l : List Bytes) (rest : Bytes)
    (hd : mem.drop p0 = programOf r t digits f l ++ rest)
    (he : p0 + (programOf r t digits f l).length = e)
    (hstems : ∀ s ∈ f :: l, StemOk s)
    (hminus : t = 0 → digits = none → f.head? ≠ some 45)
    (hdig : ∀ d, digits = some d →
      (∀ c ∈ d, isdigit c = true) ∧ 1 ≤ decimalValue d ∧ decimalValue d < 2147483648) :
    playback_program mem p0 e
      = { request := some (e - (dotted f l).length), erequest := some e, ring := r, sit := t,
          count := (repeatCount digits : Int) } := by
  have hf : f ≠ [] := (hstems f (List.mem_cons_self _ _)).1
  have hdne : dotted f l ≠ [] := dotted_ne_nil f l hf
  obtain ⟨pre, hpre⟩ : ∃ pre : Bytes, pre = repeatPrefix digits := ⟨_, rfl⟩
  unfold programOf at hd he
  rw [← hpre] at hd he
  simp only [List.length_append, List.length_replicate] at he
  -- the octets of the program after the rings and the SITs
  have hU : ∀ c ∈ pre ++ dotted f l, c ≠ 33 ∧ c ≠ 61 ∧ (digits = none → c ≠ 42) := by
    intro c hc
    rcases List.mem_append.mp hc with h | h
    · cases hdg : digits with
      | none =>
        rw [hdg] at hpre; rw [hpre] at h; exact absurd h (List.not_mem_nil _)
      | some d =>
        rw [hdg] at hpre; rw [hpre] at h; simp only [repeatPrefix] at h
        rcases List.mem_append.mp h with h1 | h1
        · have := isdigit_range ((hdig d hdg).1 c h1)
          exact ⟨by omega, by omega, fun hn => Option.noConfusion hn⟩
        · simp only [List.mem_singleton] at h1
          exact ⟨by omega, by omega, fun hn => Option.noConfusion hn⟩
    · rcases dotted_fileOctets f l hstems c h with h1 | h1
      · exact ⟨by omega, by omega, fun _ => by omega⟩
      · have := isFileChar_cases h1
        exact ⟨by omega, by omega, fun _ => by omega⟩
  have hUne : pre ++ dotted f l ≠ [] := by simp [hdne]
  have hP : ∀ c ∈ List.replicate r 45 ++ (List.replicate t 33 ++ (pre ++ dotted f l)),
      c ≠ 61 := by
    intro c hc
    rcases List.mem_append.mp hc with h | h
    · have := (List.mem_replicate.mp h).2; omega
    · rcases List.mem_append.mp h with h1 | h1
      · have := (List.mem_replicate.mp h1).2; omega
      · exact (hU c h1).2.1
  -- the first number
  have hs1 : p0 ≤ scanWhile mem isdigit p0 e := scanWhile_ge mem isdigit e _ p0 rfl
  have hs1e : scanWhile mem isdigit p0 e ≤ e := scanWhile_le mem isdigit e _ p0 rfl (by omega)
  have c1 : ¬ ((read_unsigned mem p0 e).2 < e ∧ byteAt mem (read_unsigned mem p0 e).2 = 61) := by
    rw [read_unsigned_pos]
    rintro ⟨h1, h2⟩
    exact hP _ (byteAt_mem_of_drop _ rest hd _ hs1
      (by simp only [List.length_append, List.length_replicate]; omega)) h2
  -- the rings
  have hring : scanWhile mem (fun c => c == 45) p0 e = p0 + r := by
    have hstop : (fun c : Nat => c == 45)
        ((List.replicate t 33 ++ (pre ++ dotted f l) ++ rest).headD 0) = false := by
      cases t with
      | succ k => simp [List.replicate_succ]
      | zero =>
        simp only [List.replicate_zero, List.nil_append]
        cases hdg : digits with
        | none =>
          rw [hdg] at hpre
          rw [hpre]
          simp only [repeatPrefix, List.nil_append]
          rw [headD_dotted f l rest hf]
          have h45 := hminus rfl hdg
          cases f with
          | nil => exact absurd rfl hf
          | cons c f1 =>
            simp only [List.head?_cons, ne_eq, Option.some.injEq] at h45
            simpa using h45
        | some d =>
          rw [hdg] at hpre
          have hdv := hdig d hdg
          cases d with
          | nil => simp [decimalValue, decimalFrom] at hdv
          | cons c d1 =>
            have := isdigit_range (hdv.1 c (List.mem_cons_self _ _))
            rw [hpre]
            simp only [repeatPrefix, List.cons_append, List.headD_cons, beq_eq_false_iff_ne,
              ne_eq]
            omega
    have h := scanWhile_run mem (fun c => c == 45) e
      (List.replicate t 33 ++ (pre ++ dotted f l) ++ rest) (List.replicate r 45) p0
      (by rw [hd]; simp) (fun x hx => by simp [(List.mem_replicate.mp hx).2])
      (by simp only [List.length_replicate]; omega) (Or.inr hstop)
    simpa using h
  -- the SITs
  have hd2 : mem.drop (p0 + r) = List.replicate t 33 ++ ((pre ++ dotted f l) ++ rest) := by
    have h := drop_add_of_drop (List.replicate r 45)
      (List.replicate t 33 ++ ((pre ++ dotted f l) ++ rest)) (by rw [hd]; simp)
    simpa using h
  have hsit : scanWhile mem (fun c => c == 33) (p0 + r) e = p0 + r + t := by
    have hstop : (fun c : Nat => c == 33) (((pre ++ dotted f l) ++ rest).headD 0) = false := by
      have := (hU _ (headD_append_mem (pre ++ dotted f l) rest hUne)).1
      simpa using this
    have h := scanWhile_run mem (fun c => c == 33) e ((pre ++ dotted f l) ++ rest)
      (List.replicate t 33) (p0 + r) hd2 (fun x hx => by simp [(List.mem_replicate.mp hx).2])
      (by simp only [List.length_replicate]; omega) (Or.inr hstop)
    simpa using h
  have hd3 : mem.drop (p0 + r + t) = (pre ++ dotted f l) ++ rest := by
    have h := drop_add_of_drop (List.replicate t 33) ((pre ++ dotted f l) ++ rest) hd2
    simpa using h
  unfold playback_program
  dsimp only
  rw [if_neg c1, hring, hsit]
  have hr : p0 + r - p0 = r := by omega
  have ht : p0 + r + t - (p0 + r) = t := by omega
  rw [hr, ht]
  cases hdg : digits with
  | none =>
    rw [hdg] at hpre
    simp only [repeatPrefix] at hpre
    subst hpre
    simp only [List.nil_append, List.length_nil, Nat.zero_add] at hd3 he hU
    have hs4 : p0 + r + t ≤ scanWhile mem isdigit (p0 + r + t) e :=
      scanWhile_ge mem isdigit e _ _ rfl
    have c4 : ¬ ((read_unsigned mem (p0 + r + t) e).2 < e
        ∧ byteAt mem (read_unsigned mem (p0 + r + t) e).2 = 42) := by
      rw [read_unsigned_pos]
      rintro ⟨h1, h2⟩
      exact (hU _ (byteAt_mem_of_drop _ rest hd3 _ hs4 (by omega))).2.2 hdg h2
    rw [if_neg c4]
    have hq : p0 + r + t = e - (dotted f l).length := by omega
    rw [hq]
    rfl
  | some d =>
    rw [hdg] at hpre
    simp only [repeatPrefix] at hpre
    subst hpre
    have hdv := hdig d hdg
    simp only [List.length_append, List.length_singleton] at he
    have hd4 : mem.drop (p0 + r + t) = d ++ 42 :: (dotted f l ++ rest) := by
      rw [hd3]; simp
    have hrun : digitRun mem (p0 + r + t) e = d :=
      digitRun_of_drop mem _ e d _ 42 hd4 hdv.1 (by decide) (by omega)
    have hv : read_unsigned mem (p0 + r + t) e
        = (((decimalValue d : Nat) : Int), p0 + r + t + d.length) := by
      have h := read_unsigned_loop_run mem e (e - (p0 + r + t)) (p0 + r + t) 0 rfl
        (by rw [hrun]; exact hdv.2.2)
      rw [hrun] at h
      exact h
    have hb : byteAt mem (p0 + r + t + d.length) = 42 :=
      byteAt_of_drop (drop_add_of_drop d _ hd4)
    rw [hv]
    dsimp only
    rw [if_pos ⟨by omega, hb⟩]
    have hq : p0 + r + t + d.length + 1 = e - (dotted f l).length := by omega
    rw [hq]
    rfl

theorem byteAt_past (b : Bytes) (p : Nat) (h : b.length ≤ p) : byteAt b p = 0 := by
  simp [byteAt, List.getD_eq_getElem?_getD, List.getElem?_eq_none h]

/-- A step of `rp` over an octet that is not NUL uses up room. -/
theorem room_next (mem : Bytes) (e : Nat) (rp : Cursor) (h : rp.deref mem ≠ 0) :
    rp.next.room mem e + 1 ≤ rp.room mem e := by
  cases rp with
  | null => exact absurd rfl h
  | lit s off =>
    have hlt : off < s.length := by
      by_contra hc
      exact h (byteAt_past s off (by omega))
    simp only [Cursor.next, Cursor.room]
    omega
  | msg p =>
    have hlt : p < mem.length := by
      by_contra hc
      exact h (byteAt_past mem p (by omega))
    simp only [Cursor.next, Cursor.room]
    omega

/-- The copy loop of `getfile` ends within 96 tests: more fuel changes nothing. -/
theorem getfile_loop_fuel (mem : Bytes) (e : Nat) :
    ∀ (fuel n : Nat) (rp : Cursor) (o : Bytes), 95 - o.length < fuel →
      getfile_loop mem e (fuel + n) rp o = getfile_loop mem e fuel rp o := by
  intro fuel
  induction fuel with
  | zero => intro n rp o h; omega
  | succ k ih =>
    intro n rp o h
    have hk : k + 1 + n = (k + n) + 1 := by omega
    rw [hk, getfile_loop.eq_2, getfile_loop.eq_2]
    by_cases hc : rp ≠ .msg e ∧ isFileChar (rp.deref mem) (decide (o = [])) = true
        ∧ o.length < 95
    · rw [if_pos hc, if_pos hc]
      exact ih n _ _ (by simp only [List.length_append, List.length_singleton]; omega)
    · rw [if_neg hc, if_neg hc]

/-- The copy loop of `getfile` moves `rp` over octets that are not NUL only. -/
theorem getfile_loop_room (mem : Bytes) (e : Nat) :
    ∀ (fuel : Nat) (rp : Cursor) (o : Bytes),
      (getfile_loop mem e fuel rp o).1.room mem e ≤ rp.room mem e := by
  intro fuel
  induction fuel with
  | zero => intro rp o; exact Nat.le_refl _
  | succ k ih =>
    intro rp o
    rw [getfile_loop.eq_2]
    by_cases hc : rp ≠ .msg e ∧ isFileChar (rp.deref mem) (decide (o = [])) = true
        ∧ o.length < 95
    · rw [if_pos hc]
      have hne : rp.deref mem ≠ 0 := by
        have := isFileChar_cases hc.2.1
        omega
      have h1 := room_next mem e rp hne
      have h2 := ih rp.next (o ++ [rp.deref mem])
      omega
    · rw [if_neg hc]

/-- The loop over the alternates ends within the fuel that `nextfile_play` gives it: more
fuel changes nothing. -/
theorem alternates_fuel (fs : Files) (mem : Bytes) (e : Nat) :
    ∀ (fuel n : Nat) (rp : Cursor) (tried : List Bytes) (fn : Option Bytes),
      rp.room mem e ≤ fuel →
      alternates fs mem e (fuel + n) rp tried fn = alternates fs mem e fuel rp tried fn := by
  intro fuel
  induction fuel with
  | zero =>
    intro n rp tried fn h
    have hz : rp.deref mem = 0 := by
      by_contra hc
      have := room_next mem e rp hc
      omega
    cases n with
    | zero => rfl
    | succ n =>
      rw [Nat.zero_add, alternates.eq_2, if_neg (fun hc => by rw [hz] at hc; omega)]
      rfl
  | succ k ih =>
    intro n rp tried fn h
    have hk : k + 1 + n = (k + n) + 1 := by omega
    rw [hk, alternates.eq_2, alternates.eq_2]
    by_cases hc : rp ≠ .msg e ∧ rp.deref mem = 63
    · rw [if_pos hc, if_pos hc]
      have h1 := room_next mem e rp (by rw [hc.2]; decide)
      have h2 := getfile_loop_room mem e 96 rp.next []
      have h3 : (getfile mem e rp.next).1.room mem e ≤ k := by
        unfold getfile
        dsimp only
        omega
      dsimp only
      by_cases hfn : fn = none
      · rw [if_pos hfn, if_pos hfn]
        exact ih n _ _ _ h3
      · rw [if_neg hfn, if_neg hfn]
        exact ih n _ _ _ h3
    · rw [if_neg hc, if_neg hc]

theorem repeatCount_bounds (digits : Option Bytes)
    (hdig : ∀ d, digits = some d →
      (∀ c ∈ d, isdigit c = true) ∧ 1 ≤ decimalValue d ∧ decimalValue d < 2147483648) :
    1 ≤ repeatCount digits ∧ repeatCount digits < 2147483648 := by
  cases hdg : digits with
  | none => simp [repeatCount]
  | some d => exact ⟨(hdig d hdg).2.1, (hdig d hdg).2.2⟩

theorem openCalls_eq (fs : Files) (names : List Bytes) :
    openCalls fs names
      = names.takeWhile (fun n => !fs.readable n) ++ (names.find? fs.readable).toList := by
  induction names with
  | nil => rfl
  | cons n l ih =>
    by_cases hr : fs.readable n = true
    · simp [openCalls, hr, List.takeWhile_cons]
    · simp [openCalls, hr, List.takeWhile_cons, ih]

theorem keys_getD : ∀ k, k < 12 →
    keys.getD k [] = [byteAt [48, 49, 50, 51, 52, 53, 54, 55, 56, 57, 42, 35] k] := by
  decide

/-! ## Facts about the replies -/

theorem take_writeAt_le (out : Bytes) (t k : Nat) (data : Bytes) (hk : k ≤ t)
    (hl : k ≤ out.length) : (writeAt out t data).take k = out.take k := by
  unfold writeAt
  rw [List.append_assoc, List.take_append_of_le_length (by simp; omega), List.take_take]
  congr 1
  omega

theorem length_writeAt_ge (out : Bytes) (t : Nat) (data : Bytes) :
    out.length ≤ (writeAt out t data).length := by
  unfold writeAt
  simp only [List.length_append, List.length_take, List.length_drop]
  omega

/-- A store at or after the kept text, after which `txp` is two octets or more behind the
place of the store, keeps the text. -/
theorem keeps_store {k n : Nat} {pre : Bytes} {st : Bytes × Nat} (h : Keeps k n pre st)
    (q : Nat) (data : Bytes) (pp : Nat) (hq : k ≤ q) (hpp : q + 2 ≤ pp) :
    Keeps k n pre (writeAt st.1 q data, pp) := by
  obtain ⟨h1, h2, h3, h4⟩ := h
  have hl := length_writeAt_ge st.1 q data
  exact ⟨by rw [take_writeAt_le st.1 q k data hq h3]; exact h1, by omega,
    Nat.le_trans h3 hl, Nat.le_trans h4 hl⟩

theorem add_header_with_cases (extra : Nat) (left right buf : Bytes) (pp e : Nat)
    (head src : Bytes) (start stop : Option Nat) :
    add_header_with extra left right buf pp e head src start stop = (none, buf, pp)
      ∨ ∃ line, add_header_with extra left right buf pp e head src start stop
          = (some pp, writeAt buf pp (line ++ [13, 10] ++ [0]),
              pp + (line ++ [13, 10]).length) := by
  unfold add_header_with
  cases start with
  | none => exact Or.inl rfl
  | some s =>
    dsimp only
    split
    · exact Or.inl rfl
    · exact Or.inr ⟨_, rfl⟩

theorem rewind_bounds (buf : Bytes) (pp : Nat) : pp - 2 ≤ rewind buf pp ∧ rewind buf pp ≤ pp := by
  unfold rewind
  dsimp only
  split <;> split <;> omega

theorem sip_add_extra_cases (buf : Bytes) (pp e : Nat) (tag : Option Bytes) (src : Bytes)
    (start stop : Option Nat) (comma quote wrap : Nat) :
    sip_add_extra buf pp e tag src start stop comma quote wrap = (none, buf, pp)
      ∨ ∃ body, sip_add_extra buf pp e tag src start stop comma quote wrap
          = (some (pp - 1), writeAt buf (rewind buf pp) (body ++ [13, 10] ++ [0]),
              rewind buf pp + (body ++ [13, 10]).length) := by
  unfold sip_add_extra
  dsimp only
  by_cases h : (e : Int) < (rewind buf pp : Int) + (tagLen tag : Int) + 2
      + valueLen src start stop + 2 + 2 + (if quote ≠ 0 then 2 else 0)
  · rw [if_pos h]; exact Or.inl rfl
  · rw [if_neg h]
    refine Or.inr ⟨extra_sep buf (rewind buf pp)
        (valueLen src start stop + (tagLen tag : Int) + 1) comma wrap ++ tagOctets tag
      ++ (if tag.isSome ∧ start.isSome then [61] else [])
      ++ (if quote ≠ 0 then [quote] else []) ++ valueOctets src start stop
      ++ (if quote ≠ 0 then [quote] else []), ?_⟩
    unfold extra_body
    rfl

theorem keeps_add_header {k n : Nat} {pre : Bytes} {st : Bytes × Nat} (h : Keeps k n pre st)
    (e : Nat) (head src : Bytes) (start stop : Option Nat) :
    Keeps k n pre ((sip_add_header st.1 st.2 e head src start stop).2.1,
      (sip_add_header st.1 st.2 e head src start stop).2.2) := by
  unfold sip_add_header
  have h2 := h.2.1
  rcases add_header_with_cases 0 [] [] st.1 st.2 e head src start stop with hc | ⟨line, hc⟩
  · rw [hc]; exact h
  · rw [hc]
    dsimp only
    exact keeps_store h st.2 (line ++ [13, 10] ++ [0]) (st.2 + (line ++ [13, 10]).length)
      (by omega) (by simp only [List.length_append, List.length_cons, List.length_nil]; omega)

theorem keeps_add_string {k n : Nat} {pre : Bytes} {st : Bytes × Nat} (h : Keeps k n pre st)
    (txe : Nat) (name value : Bytes) : Keeps k n pre (add_string txe st name value) :=
  keeps_add_header h txe name value (some 0) none

theorem keeps_add_range {k n : Nat} {pre : Bytes} {st : Bytes × Nat} (h : Keeps k n pre st)
    (rx : Bytes) (txe : Nat) (name : Bytes) (r : Nat × Nat) :
    Keeps k n pre (add_range rx txe st name r) :=
  keeps_add_header h txe name rx (some r.1) (some r.2)

theorem keeps_add_tag {k n : Nat} {pre : Bytes} {st : Bytes × Nat} (h : Keeps k n pre st)
    (txe : Nat) (rport : Int) : Keeps k n pre (add_tag txe rport st) := by
  unfold add_tag
  have h2 := h.2.1
  have hb := rewind_bounds st.1 st.2
  split
  · rcases sip_add_extra_cases st.1 st.2 txe (some tagName) (printedUnsigned rport) (some 0) none
      59 0 0 with hc | ⟨body, hc⟩
    · rw [hc]; exact h
    · rw [hc]
      dsimp only
      exact keeps_store h (rewind st.1 st.2) (body ++ [13, 10] ++ [0])
        (rewind st.1 st.2 + (body ++ [13, 10]).length) (by omega)
        (by simp only [List.length_append, List.length_cons, List.length_nil]; omega)
  · exact h

theorem keeps_reply_via {k n : Nat} {pre : Bytes} (rx : Bytes) (txe : Nat) :
    ∀ (rs : List (Nat × Nat)) (st : Bytes × Nat), Keeps k n pre st →
      Keeps k n pre (reply_via rx txe rs st) := by
  intro rs
  induction rs with
  | nil => intro st h; exact h
  | cons r rs ih => intro st h; exact ih _ (keeps_add_range h rx txe [118] r)

theorem keeps_make_reply {k n : Nat} {pre : Bytes} {st : Bytes × Nat} (h : Keeps k n pre st)
    (rx : Bytes) (rxe txe : Nat) (rport : Int) (rev : Bool) :
    Keeps k n pre (make_reply rx rxe txe rport rev st) := by
  unfold make_reply
  obtain ⟨s1, hs1⟩ : ∃ s1, s1 = (if rev = true then add_string txe st [118] dummyVia
      else reply_via rx txe
        (find_header_all rx (some 0) rxe (some hdrVia) (some [118]) (rxe + 1) none) st) :=
    ⟨_, rfl⟩
  have h1 : Keeps k n pre s1 := by
    rw [hs1]
    split
    · exact keeps_add_string h txe _ _
    · exact keeps_reply_via rx txe _ st h
  simp only [← hs1]
  obtain ⟨s2, hs2⟩ : ∃ s2, s2 = (match sip_find_header rx (some 0) rxe (some hdrFrom)
      (some [102]) none with
    | none => s1
    | some r => add_range rx txe s1 (if rev = true then [116] else [102]) r) := ⟨_, rfl⟩
  have h2 : Keeps k n pre s2 := by
    rw [hs2]
    split
    · exact h1
    · exact keeps_add_range h1 rx txe _ _
  simp only [← hs2]
  obtain ⟨s3, hs3⟩ : ∃ s3, s3 = (match sip_find_header rx (some 0) rxe (some hdrTo)
      (some [116]) none with
    | none => s2
    | some r =>
      add_tag txe rport (add_range rx txe s2 (if rev = true then [102] else [116]) r)) :=
    ⟨_, rfl⟩
  have h3 : Keeps k n pre s3 := by
    rw [hs3]
    split
    · exact h2
    · exact keeps_add_tag (keeps_add_range h2 rx txe _ _) txe rport
  simp only [← hs3]
  obtain ⟨s4, hs4⟩ : ∃ s4, s4 = (match sip_find_header rx (some 0) rxe (some hdrCallID)
      (some [105]) none with
    | none => s3
    | some r => add_range rx txe s3 [105] r) := ⟨_, rfl⟩
  have h4 : Keeps k n pre s4 := by
    rw [hs4]
    split
    · exact h3
    · exact keeps_add_range h3 rx txe _ _
  simp only [← hs4]
  split
  · exact h4
  · split
    · exact h4
    · exact keeps_add_range h4 rx txe _ _

/-- The output after `sprintf` has stored a first line `text` CR LF at the start of
`tx` keeps `text`. -/
theorem keeps_first_line (tx : Bytes) (text : Bytes) :
    Keeps text.length tx.length text (sprintf_at (tx, 0) (text ++ [13, 10])) := by
  unfold sprintf_at writeAt
  refine ⟨?_, ?_, ?_, ?_⟩
  · simp
  · simp
  · simp only [List.take_zero, List.nil_append, List.length_append, List.length_cons,
      List.length_nil]
    omega
  · simp only [List.take_zero, List.nil_append, List.length_append, List.length_cons,
      List.length_nil, List.length_drop]
    omega

/-- The datagram sent from an output that keeps a text begins with the text. -/
theorem keeps_sent {k n : Nat} {pre : Bytes} {st : Bytes × Nat} (h : Keeps k n pre st) :
    ∃ rest, send_reply st = some (pre ++ rest) := by
  obtain ⟨h1, h2, h3, _⟩ := h
  unfold send_reply
  rw [if_neg (by omega)]
  refine ⟨(st.1.take st.2).drop k, ?_⟩
  have : (st.1.take st.2).take k = pre := by
    rw [List.take_take, Nat.min_eq_left (by omega)]; exact h1
  rw [← this, List.take_append_drop]

theorem refer_to_nulfree (rx : Bytes) (contact : Option (Nat × Nat)) (done : Bytes) :
    ∀ c ∈ refer_to rx contact done, c ≠ 0 := by
  have hcs : ∀ (l : Bytes), ∀ c ∈ cstring l, c ≠ 0 := by
    intro l c hc
    have := List.mem_takeWhile_imp hc
    simpa using this
  have hpv : ∀ (p : Nat) (n : Int), ∀ c ∈ printedValue rx p n, c ≠ 0 := by
    intro p n c hc
    unfold printedValue at hc
    split at hc <;> exact hcs _ c hc
  intro c hc
  unfold refer_to at hc
  have hc1 := List.mem_of_mem_take hc
  rcases List.mem_append.mp hc1 with h | h
  · rcases List.mem_append.mp h with h1 | h1
    · simp only [schemeSip, List.mem_cons, List.mem_singleton, List.not_mem_nil, or_false] at h1
      omega
    · exact hcs _ c h1
  · unfold printedRange at h
    split at h
    · exact absurd h (List.not_mem_nil _)
    · exact hpv _ _ c h

theorem contact_uri_bounds (rx : Bytes) (rxe : Nat) (c : Nat × Nat)
    (h : contact_uri rx rxe = some c) : c.1 ≤ c.2 ∧ c.2 ≤ rxe := by
  unfold contact_uri at h
  cases hh : sip_find_header rx (some 0) rxe (some hdrContact) (some [109]) none with
  | none =>
    rw [hh] at h
    exact absurd h (by simp [sip_find_uri])
  | some r =>
    rw [hh] at h
    simp only [Option.map_some'] at h
    have h1 := sip_find_header_bounds rx 0 rxe _ _ none (Nat.zero_le _) r.1 r.2 hh
    have h2 := sip_find_uri_bounds rx r.1 (some r.2) (by simpa [rangeEnd] using h1.2.1) c.1 c.2 h
    simp only [rangeEnd] at h2
    omega

/-! ## Facts about the comparison of escaped ranges -/

theorem esc_value_ge (b : Bytes) (e s : Nat) : s ≤ (esc_value b e s).2 := by
  unfold esc_value
  split <;> simp

/-- The loop of `sip_esc_esc_cmp` compares the two sequences of values; any fuel from
`e - s` on gives this result. -/
theorem esc_esc_cmp_loop_values (b : Bytes) (e : Nat) (b2 : Bytes) (e2 : Nat) :
    ∀ (fuel s s2 f1 f2 : Nat), e - s ≤ fuel → e - s ≤ f1 → e2 - s2 ≤ f2 →
      esc_esc_cmp_loop b e b2 e2 fuel s s2
        = cmpValues (esc_values b e f1 s) (esc_values b2 e2 f2 s2) := by
  have hend : ∀ (s s2 f1 f2 : Nat), e - s ≤ f1 → e2 - s2 ≤ f2 → ¬ (s < e ∧ s2 < e2) →
      esc_esc_end e e2 s s2 = cmpValues (esc_values b e f1 s) (esc_values b2 e2 f2 s2) := by
    intro s s2 f1 f2 h1 h2 hc
    unfold esc_esc_end
    by_cases hs : s < e
    · have hs2 : ¬ s2 < e2 := fun h => hc ⟨hs, h⟩
      obtain ⟨k, rfl⟩ : ∃ k, f1 = k + 1 := ⟨f1 - 1, by omega⟩
      rw [if_pos hs, esc_values.eq_2, if_pos hs]
      cases f2 with
      | zero => rfl
      | succ k2 => rw [esc_values.eq_2, if_neg hs2]; rfl
    · rw [if_neg hs]
      have hx : esc_values b e f1 s = [] := by
        cases f1 with
        | zero => rfl
        | succ k => rw [esc_values.eq_2, if_neg hs]
      rw [hx]
      by_cases hs2 : s2 < e2
      · obtain ⟨k, rfl⟩ : ∃ k, f2 = k + 1 := ⟨f2 - 1, by omega⟩
        rw [if_pos hs2, esc_values.eq_2, if_pos hs2]
        rfl
      · rw [if_neg hs2]
        have hy : esc_values b2 e2 f2 s2 = [] := by
          cases f2 with
          | zero => rfl
          | succ k => rw [esc_values.eq_2, if_neg hs2]
        rw [hy]; rfl
  intro fuel
  induction fuel with
  | zero =>
    intro s s2 f1 f2 h0 h1 h2
    exact hend s s2 f1 f2 h1 h2 (fun h => by omega)
  | succ n ih =>
    intro s s2 f1 f2 h0 h1 h2
    rw [esc_esc_cmp_loop.eq_2]
    by_cases hc : s < e ∧ s2 < e2
    · rw [if_pos hc]
      obtain ⟨k1, rfl⟩ : ∃ k, f1 = k + 1 := ⟨f1 - 1, by omega⟩
      obtain ⟨k2, rfl⟩ : ∃ k, f2 = k + 1 := ⟨f2 - 1, by omega⟩
      rw [esc_values.eq_2, esc_values.eq_2, if_pos hc.1, if_pos hc.2]
      have g1 := esc_value_ge b e s
      have g2 := esc_value_ge b2 e2 s2
      unfold cmpValues
      by_cases hlt : (esc_value b e s).1 < (esc_value b2 e2 s2).1
      · rw [if_pos hlt, if_pos hlt]
      · rw [if_neg hlt, if_neg hlt]
        by_cases hgt : (esc_value b2 e2 s2).1 < (esc_value b e s).1
        · rw [if_pos hgt, if_pos hgt]
        · rw [if_neg hgt, if_neg hgt]
          exact ih _ _ k1 k2 (by omega) (by omega) (by omega)
    · rw [if_neg hc]
      exact hend s s2 f1 f2 h1 h2 hc

theorem cmpValues_eq_zero : ∀ (x y : Bytes), cmpValues x y = 0 ↔ x = y := by
  intro x
  induction x with
  | nil =>
    intro y
    cases y with
    | nil => simp [cmpValues]
    | cons b ys => simp [cmpValues]
  | cons a xs ih =>
    intro y
    cases y with
    | nil => simp [cmpValues]
    | cons b ys =>
      unfold cmpValues
      by_cases h1 : a < b
      · rw [if_pos h1]
        constructor
        · intro h; exact absurd h (by decide)
        · intro h; injection h with h2 _; omega
      · rw [if_neg h1]
        by_cases h2 : b < a
        · rw [if_pos h2]
          constructor
          · intro h; exact absurd h (by decide)
          · intro h; injection h with h3 _; omega
        · rw [if_neg h2, ih ys]
          have hab : a = b := by omega
          constructor
          · intro h; rw [hab, h]
          · intro h; injection h

theorem cmpValues_swap : ∀ (x y : Bytes), cmpValues x y = - cmpValues y x := by
  intro x
  induction x with
  | nil =>
    intro y
    cases y with
    | nil => simp [cmpValues]
    | cons b ys => simp [cmpValues]
  | cons a xs ih =>
    intro y
    cases y with
    | nil => simp [cmpValues]
    | cons b ys =>
      rw [cmpValues.eq_4, cmpValues.eq_4]
      by_cases h1 : a < b
      · rw [if_pos h1, if_neg (by omega), if_pos h1]
      · rw [if_neg h1]
        by_cases h2 : b < a
        · rw [if_pos h2, if_pos h2]; rfl
        · rw [if_neg h2, if_neg h2, if_neg h1]
          exact ih ys

/-- The values that the loop reads from a range are the decoding of its octets. -/
theorem esc_values_decode (b rest : Bytes) :
    ∀ (n : Nat) (x : Bytes) (s : Nat), x.length ≤ n → b.drop s = x ++ rest →
      esc_values b (s + x.length) n s = percentDecodeFuel n x := by
  intro n
  induction n using Nat.strong_induction_on with
  | _ n ih =>
    intro x s hn hd
    cases n with
    | zero =>
      have : x = [] := List.length_eq_zero.mp (by omega)
      subst this
      rfl
    | succ n =>
      cases x with
      | nil =>
        rw [esc_values.eq_2, if_neg (by simp)]
        rfl
      | cons c t =>
        have hb : byteAt b s = c := byteAt_of_drop (t := t ++ rest) (by simpa using hd)
        have hd1 : b.drop (s + 1) = t ++ rest := drop_succ_of_drop (c := c) (by simpa using hd)
        simp only [List.length_cons] at hn
        have hlt : s < s + (c :: t).length := by simp
        rw [esc_values.eq_2, if_pos hlt]
        have hplain : ¬ (byteAt b s = 37 ∧ s + 3 ≤ s + (c :: t).length
              ∧ isxdigit (byteAt b (s + 1)) = true ∧ isxdigit (byteAt b (s + 2)) = true) →
            (esc_value b (s + (c :: t).length) s).1
                :: esc_values b (s + (c :: t).length) n
                  ((esc_value b (s + (c :: t).length) s).2 + 1)
              = c :: percentDecodeFuel n t := by
          intro hne
          unfold esc_value
          rw [if_neg hne]
          dsimp only
          rw [hb]
          have hlen : s + (c :: t).length = (s + 1) + t.length := by
            simp only [List.length_cons]; omega
          rw [hlen, ih n (by omega) t (s + 1) (by omega) hd1]
        cases t with
        | nil =>
          have hu : percentDecodeFuel (n + 1) [c] = c :: percentDecodeFuel n [] := rfl
          rw [hu]
          exact hplain (fun h => by simp at h)
        | cons h t1 =>
          cases t1 with
          | nil =>
            have hu : percentDecodeFuel (n + 1) [c, h] = c :: percentDecodeFuel n [h] := rfl
            rw [hu]
            exact hplain (fun hh => by have := hh.2.1; simp at this)
          | cons l r =>
            have hbh : byteAt b (s + 1) = h := byteAt_of_drop hd1
            have hd2 : b.drop (s + 1 + 1) = l :: (r ++ rest) := drop_succ_of_drop hd1
            have hbl : byteAt b (s + 2) = l := byteAt_of_drop hd2
            have hd3 : b.drop (s + 3) = r ++ rest := drop_succ_of_drop hd2
            rw [percentDecodeFuel.eq_3]
            by_cases hesc : c = 37 ∧ isxdigit h = true ∧ isxdigit l = true
            · rw [if_pos hesc]
              have hc : byteAt b s = 37 ∧ s + 3 ≤ s + (c :: h :: l :: r).length
                  ∧ isxdigit (byteAt b (s + 1)) = true ∧ isxdigit (byteAt b (s + 2)) = true := by
                rw [hb, hbh, hbl]
                exact ⟨hesc.1, by simp, hesc.2.1, hesc.2.2⟩
              unfold esc_value
              rw [if_pos hc]
              dsimp only
              rw [hbh, hbl, hexNibble_eq_hexValue hesc.2.1, hexNibble_eq_hexValue hesc.2.2]
              have hlen : s + (c :: h :: l :: r).length = (s + 3) + r.length := by
                simp only [List.length_cons]; omega
              simp only [List.length_cons] at hn
              rw [hlen, ih n (by omega) r (s + 3) (by omega) hd3]
            · rw [if_neg hesc]
              exact hplain (fun hh => hesc ⟨by rw [← hb]; exact hh.1,
                by rw [← hbh]; exact hh.2.2.1, by rw [← hbl]; exact hh.2.2.2⟩)

theorem slice_drop (b : Bytes) (s e : Nat) (hse : s ≤ e) (he : e ≤ b.length) :
    b.drop s = slice b s e ++ b.drop e ∧ (slice b s e).length = e - s := by
  unfold slice
  constructor
  · have h := (List.take_append_drop (e - s) (b.drop s)).symm
    rw [List.drop_drop] at h
    have : s + (e - s) = e := by omega
    rw [this] at h
    exact h
  · simp only [List.length_take, List.length_drop]
    omega

/-! ## Facts about the loops of `sip_find_list` -/

/-- The comma loop of `sip_find_list` passes white space and commas only. -/
theorem listCommaLoop_passed (b : Bytes) (e : Nat) :
    ∀ (n p : Nat), p ≤ e → ∀ i, p ≤ i → i < listCommaLoop b e n p →
      isLWS (byteAt b i) = true ∨ byteAt b i = 44 := by
  intro n
  induction n with
  | zero => intro p _ i hpi h; simp only [listCommaLoop] at h; omega
  | succ n ih =>
    intro p hp i hpi h
    rw [listCommaLoop.eq_2] at h
    by_cases hc : p < e ∧ byteAt b p = 44
    · rw [if_pos hc] at h
      by_cases hi : i = p
      · right; rw [hi]; exact hc.2
      · have hb := skip_space_bounds b (p + 1) e (by omega)
        by_cases hi2 : i < skip_space b (p + 1) e
        · left
          exact scanWhile_passed b isLWS e _ (p + 1) rfl i (by omega) hi2
        · exact ih _ hb.2 i (by omega) h
    · rw [if_neg hc] at h; omega

/-- Where the comma loop of `sip_find_list` stops before the end, there is neither white
space nor a comma. -/
theorem listCommaLoop_at_stop (b : Bytes) (e : Nat) :
    ∀ (n p : Nat), e - p ≤ n → p ≤ e → (p < e → isLWS (byteAt b p) = false) →
      listCommaLoop b e n p < e →
      isLWS (byteAt b (listCommaLoop b e n p)) = false ∧ byteAt b (listCommaLoop b e n p) ≠ 44 := by
  intro n
  induction n with
  | zero => intro p hn hp _ h; simp only [listCommaLoop] at h; omega
  | succ n ih =>
    intro p hn hp hl h
    rw [listCommaLoop.eq_2] at h ⊢
    by_cases hc : p < e ∧ byteAt b p = 44
    · rw [if_pos hc] at h ⊢
      have hb := skip_space_bounds b (p + 1) e (by omega)
      exact ih _ (by omega) hb.2
        (fun hlt => scanWhile_at_stop b isLWS e _ (p + 1) rfl hlt) h
    · rw [if_neg hc] at h ⊢
      exact ⟨hl h, fun h44 => hc ⟨h, h44⟩⟩

/-- At a '<' that is followed within the range by an octet other than '>', `sip_find_uri`
finds a URI, and it ends after the '<'. -/
theorem find_uri_at_angle (b : Bytes) (p e : Nat) (hb : byteAt b p = 60) (hlt : p + 1 < e)
    (hne : byteAt b (p + 1) ≠ 62) :
    ∃ r, find_uri b p e = some r ∧ p + 1 < r.2 ∧ r.2 ≤ e := by
  have hsd : skip_display b p e = p :=
    skip_display_stop b p e (by omega) (by rw [hb]; rfl) (by rw [hb]; decide)
      (by rw [hb]; rfl)
  have hgt : p + 1 < scanWhile b (fun c => c != 62) (p + 1) e :=
    scanWhile_gt b _ (p + 1) e hlt (by simpa using hne)
  have hle : scanWhile b (fun c => c != 62) (p + 1) e ≤ e := scanWhile_le' b _ (p + 1) e (by omega)
  refine ⟨(p + 1, scanWhile b (fun c => c != 62) (p + 1) e), ?_, hgt, hle⟩
  have h44 : ¬ (p < e ∧ byteAt b p = 44) := fun h => by
    have h2 := h.2
    rw [hb] at h2
    exact absurd h2 (by decide)
  have h60 : p < e ∧ byteAt b p = 60 := ⟨by omega, hb⟩
  unfold find_uri
  simp only [hsd, if_neg h44, if_pos h60]
  rw [if_neg (by omega)]

/-- The element loop of `sip_find_list` returns a position when every '<' of the range is
followed within the range by an octet other than '>'. -/
theorem listElemLoop_some (b : Bytes) (p0 e : Nat)
    (hangle : ∀ i, p0 ≤ i → i < e → byteAt b i = 60 → i + 1 < e ∧ byteAt b (i + 1) ≠ 62) :
    ∀ (n p : Nat), p0 ≤ p → p ≤ e → ∃ q, listElemLoop b e n p = some q ∧ p ≤ q ∧ q ≤ e ∧
      (0 < n → p < e → byteAt b p ≠ 44 → p < q) := by
  intro n
  induction n with
  | zero => intro p _ hp; exact ⟨p, rfl, le_refl _, hp, fun h => absurd h (Nat.lt_irrefl 0)⟩
  | succ n ih =>
    intro p hp0 hp
    rw [listElemLoop.eq_2]
    by_cases hc : p < e ∧ byteAt b p ≠ 44
    · rw [if_pos hc]
      by_cases hq : byteAt b p = 34
      · rw [if_pos hq]
        have h1 := skip_display_gt_quote b p e hc.1 hq
        have h2 := skip_display_bounds b p e hp
        obtain ⟨q, hq1, hq2, hq3, _⟩ := ih (skip_display b p e) (by omega) h2.2
        exact ⟨q, hq1, by omega, hq3, fun _ _ _ => by omega⟩
      · rw [if_neg hq]
        by_cases ha : byteAt b p = 60
        · rw [if_pos ha]
          obtain ⟨r, hr, hr1, hr2⟩ := find_uri_at_angle b p e ha (hangle p hp0 hc.1 ha).1
            (hangle p hp0 hc.1 ha).2
          rw [hr]
          obtain ⟨q, hq1, hq2, hq3, _⟩ := ih r.2 (by omega) hr2
          exact ⟨q, hq1, by omega, hq3, fun _ _ _ => by omega⟩
        · rw [if_neg ha]
          obtain ⟨q, hq1, hq2, hq3, _⟩ := ih (p + 1) (by omega) (by omega)
          exact ⟨q, hq1, by omega, hq3, fun _ _ _ => by omega⟩
    · rw [if_neg hc]
      exact ⟨p, rfl, le_refl _, hp, fun _ h1 h2 => absurd ⟨h1, h2⟩ hc⟩

/-! ## Facts about `make_reply` -/

theorem foldedText_nulfree (first : Bytes) (conts : List Bytes) (h1 : ∀ c ∈ first, c ≠ 0)
    (h2 : ∀ l ∈ conts, ∀ c ∈ l, c ≠ 0) : ∀ c ∈ foldedText first conts, c ≠ 0 := by
  induction conts generalizing first with
  | nil => simpa [foldedText] using h1
  | cons l ls ih =>
    intro c hc
    simp only [foldedText, List.mem_append, List.mem_cons] at hc
    rcases hc with hc | hc | hc | hc
    · exact h1 c hc
    · omega
    · omega
    · exact ih l (h2 l (List.mem_cons_self _ _))
        (fun l2 hl2 => h2 l2 (List.mem_cons_of_mem _ hl2)) c hc

theorem isText_ne_zero {c : Nat} (h : isText c = true) : c ≠ 0 := by
  simp only [isText, Bool.or_eq_true, beq_iff_eq, decide_eq_true_eq] at h
  omega

theorem value_nulfree (h : HeaderLine) (hok : h.Ok) : ∀ c ∈ h.value, c ≠ 0 := by
  obtain ⟨_, _, _, _, _, hf1, hf2⟩ := hok
  exact foldedText_nulfree h.first h.conts (fun c hc => isText_ne_zero (hf1 c hc))
    (fun l hl c hc => isText_ne_zero ((hf2 l hl).2 c hc))

theorem valueRange_inRange (b : Bytes) (h : HeaderLine) (hok : h.Ok) (off : Nat) (rest : Bytes)
    (hd : b.drop off = h.render ++ rest) : InRange b (valueRange h off) h.value := by
  have hd1 : b.drop off = (h.name ++ (h.pad ++ 58 :: h.lws)) ++ (h.value ++ (13 :: 10 :: rest)) := by
    rw [hd]; simp [HeaderLine.render]
  have hd2 := drop_add_of_drop _ _ hd1
  have hl : (h.name ++ (h.pad ++ 58 :: h.lws)).length
      = h.name.length + h.pad.length + 1 + h.lws.length := by
    simp only [List.length_append, List.length_cons]; omega
  rw [hl] at hd2
  exact ⟨value_nulfree h hok, rfl, _, hd2⟩

theorem firstWanted_value (b : Bytes) (head alt : Option Bytes) (rest : Bytes) :
    ∀ (hs : List HeaderLine) (off : Nat), (∀ h ∈ hs, h.Ok) →
      b.drop off = renderHeaders hs ++ rest → ∀ v, firstValue head alt hs = some v →
      ∃ r, firstWanted head alt hs off = some r ∧ InRange b r v := by
  intro hs
  induction hs with
  | nil => intro off _ _ v hv; simp [firstValue, wantedValues] at hv
  | cons h hs ih =>
    intro off hok hd v hv
    have hd1 : b.drop off = h.render ++ (renderHeaders hs ++ rest) := by
      rw [hd]; simp [renderHeaders]
    by_cases hw : wanted head alt h = true
    · simp only [firstValue, wantedValues, List.filter_cons, hw, if_true, List.map_cons,
        List.head?_cons, Option.some.injEq] at hv
      refine ⟨valueRange h off, by simp [firstWanted, hw], ?_⟩
      rw [← hv]
      exact valueRange_inRange b h (hok h (List.mem_cons_self _ _)) off _ hd1
    · have hv2 : firstValue head alt hs = some v := by
        simpa [firstValue, wantedValues, List.filter_cons, hw] using hv
      obtain ⟨r, hr, hin⟩ := ih (off + h.render.length)
        (fun x hx => hok x (List.mem_cons_of_mem _ hx)) (drop_add_of_drop _ _ hd1) v hv2
      exact ⟨r, by simp only [firstWanted, if_neg hw]; exact hr, hin⟩

theorem allWanted_values (b : Bytes) (head alt : Option Bytes) (rest : Bytes) :
    ∀ (hs : List HeaderLine) (off : Nat), (∀ h ∈ hs, h.Ok) →
      b.drop off = renderHeaders hs ++ rest →
      List.Forall₂ (InRange b) (allWanted head alt hs off) (wantedValues head alt hs) := by
  intro hs
  induction hs with
  | nil => intro off _ _; simp [allWanted, wantedValues]
  | cons h hs ih =>
    intro off hok hd
    have hd1 : b.drop off = h.render ++ (renderHeaders hs ++ rest) := by
      rw [hd]; simp [renderHeaders]
    have ih2 := ih (off + h.render.length)
      (fun x hx => hok x (List.mem_cons_of_mem _ hx)) (drop_add_of_drop _ _ hd1)
    by_cases hw : wanted head alt h = true
    · simp only [allWanted, wantedValues, List.filter_cons, hw, if_true, List.map_cons]
      exact List.Forall₂.cons (valueRange_inRange b h (hok h (List.mem_cons_self _ _)) off _ hd1)
        ih2
    · simp only [allWanted, wantedValues, List.filter_cons, if_neg hw]
      exact ih2

/-- One call of `sip_add_header` of `make_reply` with a value of the received message,
when there is room for the line and two more octets. -/
theorem add_range_written (rx tx : Bytes) (txp txe : Nat) (content : Bytes) (st : Bytes × Nat)
    (name value : Bytes) (r : Nat × Nat) (h : Written tx txp content st)
    (hname : ∀ c ∈ name, c ≠ 0) (hin : InRange rx r value)
    (hroom : txp + (content ++ replyLine name value).length + 2 ≤ txe)
    (htx : txe ≤ tx.length) :
    Written tx txp (content ++ replyLine name value) (add_range rx txe st name r) := by
  obtain ⟨h1, h2, h3⟩ := h
  obtain ⟨hv, hr, tail, hd⟩ := hin
  simp only [replyLine, List.length_append, List.length_cons, List.length_nil] at hroom
  unfold add_range sip_add_header
  rw [add_header_with_spec 0 [] [] st.1 name rx value tail st.2 txe r.1 (some r.2) hname hv hd
    (Or.inr (by rw [hr])), if_pos (by omega)]
  dsimp only
  have hf := writeAt_line_facts st.1 (name ++ [58, 32] ++ [] ++ value ++ [] ++ [13, 10]) st.2 txe 2
    (by omega) (by simp only [List.length_append, List.length_cons, List.length_nil]; omega)
    (by omega)
  refine ⟨?_, ?_, ?_⟩
  · simp only [replyLine, List.length_append, List.length_cons, List.length_nil]; omega
  · rw [hf.1, h2]; simp [replyLine]
  · rw [hf.2.1, h3]

/-- One call of `sip_add_header` of `make_reply` with a string, when there is room for the
line and two more octets. -/
theorem add_string_written (tx : Bytes) (txp txe : Nat) (content : Bytes) (st : Bytes × Nat)
    (name value : Bytes) (h : Written tx txp content st)
    (hname : ∀ c ∈ name, c ≠ 0) (hv : ∀ c ∈ value, c ≠ 0)
    (hroom : txp + (content ++ replyLine name value).length + 2 ≤ txe)
    (htx : txe ≤ tx.length) :
    Written tx txp (content ++ replyLine name value) (add_string txe st name value) := by
  obtain ⟨h1, h2, h3⟩ := h
  simp only [replyLine, List.length_append, List.length_cons, List.length_nil] at hroom
  unfold add_string sip_add_header
  rw [add_header_with_spec 0 [] [] st.1 name value value [] st.2 txe 0 none hname hv (by simp)
    (Or.inl ⟨rfl, rfl⟩), if_pos (by omega)]
  dsimp only
  have hf := writeAt_line_facts st.1 (name ++ [58, 32] ++ [] ++ value ++ [] ++ [13, 10]) st.2 txe 2
    (by omega) (by simp only [List.length_append, List.length_cons, List.length_nil]; omega)
    (by omega)
  refine ⟨?_, ?_, ?_⟩
  · simp only [replyLine, List.length_append, List.length_cons, List.length_nil]; omega
  · rw [hf.1, h2]; simp [replyLine]
  · rw [hf.2.1, h3]

/-- The loop of `make_reply` over the Via headers. -/
theorem reply_via_written (rx tx : Bytes) (txp txe : Nat) (htx : txe ≤ tx.length) :
    ∀ (rs : List (Nat × Nat)) (vs : List Bytes), List.Forall₂ (InRange rx) rs vs →
      ∀ (content : Bytes) (st : Bytes × Nat), Written tx txp content st →
      txp + (content ++ replyVias vs).length + 2 ≤ txe →
      Written tx txp (content ++ replyVias vs) (reply_via rx txe rs st) := by
  intro rs vs hall
  induction hall with
  | nil => intro content st h _; simpa [replyVias, reply_via] using h
  | cons hin _ ih =>
    intro content st h hroom
    simp only [replyVias, List.length_append] at hroom
    simp only [replyVias, reply_via]
    rw [← List.append_assoc]
    exact ih _ _ (add_range_written rx tx txp txe content st [118] _ _ h (by decide) hin
      (by simp only [List.length_append]; omega) htx)
      (by simp only [List.length_append]; omega)

theorem decimalFuel_digits : ∀ (fuel n : Nat) (acc : Bytes),
    (∀ c ∈ acc, 48 ≤ c ∧ c ≤ 57) → ∀ c ∈ decimalFuel fuel n acc, 48 ≤ c ∧ c ≤ 57 := by
  intro fuel
  induction fuel with
  | zero => intro n acc h; simpa [decimalFuel] using h
  | succ k ih =>
    intro n acc h
    rw [decimalFuel.eq_2]
    by_cases hn : n < 10
    · rw [if_pos hn]
      intro c hc
      simp only [List.mem_cons] at hc
      rcases hc with hc | hc
      · omega
      · exact h c hc
    · rw [if_neg hn]
      refine ih _ _ ?_
      intro c hc
      simp only [List.mem_cons] at hc
      rcases hc with hc | hc
      · omega
      · exact h c hc

theorem printedUnsigned_digits (n : Int) : ∀ c ∈ printedUnsigned n, 48 ≤ c ∧ c ≤ 57 :=
  decimalFuel_digits 10 _ [] (fun _ hc => absurd hc (List.not_mem_nil _))

/-- The call of `sip_add_extra` of `make_reply` after a line that ends with the octet `c0`
and CR LF, when there is room. -/
theorem add_tag_core (C0 M : Bytes) (c0 txe : Nat) (rport : Int) (sep : Bytes) (h0 : 0 ≤ rport)
    (hsep : sep = if c0 = 32 ∨ c0 = 58 then [] else [59])
    (hroom : C0.length + (printedUnsigned rport).length + 10 ≤ txe)
    (htx : txe ≤ (C0 ++ c0 :: 13 :: 10 :: M).length) :
    (add_tag txe rport (C0 ++ c0 :: 13 :: 10 :: M, C0.length + 3)).2
        = C0.length + 1 + (sep ++ tagName ++ [61] ++ printedUnsigned rport ++ [13, 10]).length ∧
    (add_tag txe rport (C0 ++ c0 :: 13 :: 10 :: M, C0.length + 3)).1.take
        (C0.length + 1 + (sep ++ tagName ++ [61] ++ printedUnsigned rport ++ [13, 10]).length)
        = C0 ++ [c0] ++ (sep ++ tagName ++ [61] ++ printedUnsigned rport ++ [13, 10]) ∧
    (add_tag txe rport (C0 ++ c0 :: 13 :: 10 :: M, C0.length + 3)).1.length
        = (C0 ++ c0 :: 13 :: 10 :: M).length := by
  have hdig : ∀ c ∈ printedUnsigned rport, c ≠ 0 := fun c hc => by
    have := printedUnsigned_digits rport c hc
    omega
  have hsl : sep.length ≤ 1 := by
    rw [hsep]; split <;> simp
  have hspec := sip_add_extra_spec C0 M tagName (printedUnsigned rport) (printedUnsigned rport) []
    c0 0 txe none 59 0 0 (by decide) (by simp) (Or.inl ⟨rfl, hdig, rfl⟩)
  have htl : tagName.length = 3 := rfl
  rw [if_neg (by rw [htl]; push_cast; simp only [if_neg (show ¬ ((0 : Nat) ≠ 0) from by simp)]; omega)]
    at hspec
  rw [extra_sep_nowrap, byteBefore_append_cons] at hspec
  have hs2 : (if (59 : Nat) ≠ 0 ∧ c0 ≠ 32 ∧ c0 ≠ 58 then [59] else []) = sep := by
    rw [hsep]
    by_cases hc : c0 = 32 ∨ c0 = 58
    · rw [if_pos hc, if_neg (by omega)]
    · rw [if_neg hc, if_pos ⟨by decide, by omega, by omega⟩]
  rw [hs2] at hspec
  simp only [if_neg (show ¬ ((0 : Nat) ≠ 0) from by simp), List.append_nil] at hspec
  unfold add_tag
  rw [if_pos h0]
  dsimp only
  rw [hspec]
  dsimp only
  have hlen : (sep ++ tagName ++ [61] ++ printedUnsigned rport ++ [13, 10]).length
      = sep.length + 3 + 1 + (printedUnsigned rport).length + 2 := by
    simp only [List.length_append, List.length_cons, List.length_nil, htl]
  refine ⟨rfl, ?_, ?_⟩
  · rw [take_writeAt _ _ _ [0] (by simp only [List.length_append, List.length_cons]; omega),
      take_append_cons_self]
  · exact length_writeAt _ _ _ (by
      rw [List.length_append, hlen]
      simp only [List.length_cons, List.length_nil]
      omega)

/-- The call of `sip_add_extra` of `make_reply` after a stored line `L0`, `c0`, CR LF. -/
theorem add_tag_line (tx : Bytes) (txp txe : Nat) (content : Bytes) (st : Bytes × Nat)
    (rport : Int) (L0 : Bytes) (c0 : Nat) (sep : Bytes) (h0 : 0 ≤ rport)
    (h : Written tx txp (content ++ (L0 ++ [c0] ++ [13, 10])) st)
    (hsep : sep = if c0 = 32 ∨ c0 = 58 then [] else [59])
    (hroom : txp + content.length + L0.length + (printedUnsigned rport).length + 10 ≤ txe)
    (htx : txe ≤ tx.length) :
    Written tx txp
      (content ++ (L0 ++ [c0] ++ (sep ++ tagName ++ [61] ++ printedUnsigned rport ++ [13, 10])))
      (add_tag txe rport st) := by
  obtain ⟨h1, h2, h3⟩ := h
  have htl : (tx.take txp).length = txp := by
    rw [List.length_take]; omega
  obtain ⟨C0, hC0⟩ : ∃ C0, C0 = tx.take txp ++ content ++ L0 := ⟨_, rfl⟩
  have hCl : C0.length = txp + content.length + L0.length := by
    rw [hC0, List.length_append, List.length_append, htl]
  have hmem : st.1 = C0 ++ c0 :: 13 :: 10 :: st.1.drop st.2 := by
    have := (List.take_append_drop st.2 st.1).symm
    rw [h2] at this
    refine this.trans ?_
    rw [hC0]
    simp
  have hpos : st.2 = C0.length + 3 := by
    rw [h1, hCl]
    simp only [List.length_append, List.length_cons, List.length_nil]
    omega
  have hst : st = (C0 ++ c0 :: 13 :: 10 :: st.1.drop st.2, C0.length + 3) := by
    rw [← hmem, ← hpos]
  obtain ⟨M, hM⟩ : ∃ M, M = st.1.drop st.2 := ⟨_, rfl⟩
  rw [← hM] at hst hmem
  have hcore := add_tag_core C0 M c0 txe rport sep h0 hsep (by omega)
    (by rw [← hmem, h3]; exact htx)
  rw [← hst] at hcore
  obtain ⟨c1, c2, c3⟩ := hcore
  have hlen : (content ++ (L0 ++ [c0] ++ (sep ++ tagName ++ [61] ++ printedUnsigned rport ++ [13, 10]))).length
      = content.length + L0.length + 1
        + (sep ++ tagName ++ [61] ++ printedUnsigned rport ++ [13, 10]).length := by
    simp only [List.length_append, List.length_cons, List.length_nil]
    omega
  have hpos2 : (add_tag txe rport st).2 = txp + (content ++ (L0 ++ [c0]
      ++ (sep ++ tagName ++ [61] ++ printedUnsigned rport ++ [13, 10]))).length := by
    rw [c1, hlen, hCl]; omega
  refine ⟨hpos2, ?_, ?_⟩
  · rw [c1, c2, hC0]
    simp
  · rw [c3, ← hmem, h3]

theorem getLastD_concat_octet (v : Bytes) (x d : Nat) : (v ++ [x]).getLastD d = x := by
  simp [List.getLastD_eq_getLast?]

/-- The call of `sip_add_extra` of `make_reply` after the line of the To value. -/
theorem add_tag_written (tx : Bytes) (txp txe : Nat) (content : Bytes) (st : Bytes × Nat)
    (name value : Bytes) (rport : Int)
    (h : Written tx txp (content ++ replyLine name value) st)
    (hroom : txp + (content ++ replyLine name (tagged rport value)).length + 3 ≤ txe)
    (htx : txe ≤ tx.length) :
    Written tx txp (content ++ replyLine name (tagged rport value)) (add_tag txe rport st) := by
  by_cases h0 : 0 ≤ rport
  · rcases List.eq_nil_or_concat value with hv | ⟨v0, x, hv⟩
    · subst hv
      have hsep : tagSeparator [] = if (32 : Nat) = 32 ∨ (32 : Nat) = 58 then [] else [59] := rfl
      have hw : Written tx txp (content ++ ((name ++ [58]) ++ [32] ++ [13, 10])) st := by
        simpa [replyLine] using h
      have hroom2 := hroom
      have htn : tagName.length = 3 := rfl
      simp only [replyLine, tagged, if_pos h0, List.length_append, List.length_cons,
        List.length_nil, htn] at hroom2
      have := add_tag_line tx txp txe content st rport (name ++ [58]) 32 (tagSeparator []) h0 hw
        hsep (by simp only [List.length_append, List.length_cons, List.length_nil]; omega) htx
      simpa [replyLine, tagged, if_pos h0] using this
    · rw [List.concat_eq_append] at hv
      subst hv
      have hsep : tagSeparator (v0 ++ [x]) = if x = 32 ∨ x = 58 then [] else [59] := by
        unfold tagSeparator
        rw [getLastD_concat_octet]
      have hw : Written tx txp (content ++ ((name ++ [58, 32] ++ v0) ++ [x] ++ [13, 10])) st := by
        simpa [replyLine] using h
      have hroom2 := hroom
      have htn : tagName.length = 3 := rfl
      simp only [replyLine, tagged, if_pos h0, List.length_append, List.length_cons,
        List.length_nil, htn] at hroom2
      have := add_tag_line tx txp txe content st rport (name ++ [58, 32] ++ v0) x
        (tagSeparator (v0 ++ [x])) h0 hw hsep
        (by simp only [List.length_append, List.length_cons, List.length_nil]; omega) htx
      simpa [replyLine, tagged, if_pos h0] using this
  · have e1 : tagged rport value = value := by unfold tagged; rw [if_neg h0]
    have e2 : add_tag txe rport st = st := by unfold add_tag; rw [if_neg h0]
    rw [e1, e2]
    exact h

theorem length_le_renderHeaders (hs : List HeaderLine) :
    hs.length ≤ (renderHeaders hs).length := by
  induction hs with
  | nil => simp [renderHeaders]
  | cons h hs ih =>
    have := render_length h
    simp only [renderHeaders, List.length_append, List.length_cons]
    omega

theorem replyLine_length (name value : Bytes) :
    (replyLine name value).length = name.length + value.length + 4 := by
  simp only [replyLine, List.length_append, List.length_cons, List.length_nil]
  omega

theorem tagged_length (rport : Int) (value : Bytes) :
    value.length ≤ (tagged rport value).length := by
  unfold tagged
  split
  · simp only [List.length_append]; omega
  · exact le_refl _

/-- What `make_reply` stores for a message made of a start line, header lines and the
empty line that has a From, a To, a Call-ID and a CSeq header, when the output has room
for the lines and three more octets: the lines of `replyLines`. -/
theorem make_reply_written (start : Bytes) (sconts : List Bytes) (hs : List HeaderLine)
    (body post tx : Bytes) (txp txe : Nat) (rport : Int) (rev : Bool) (f t i c : Bytes)
    (hstart : FoldedOk start sconts) (hok : ∀ h ∈ hs, h.Ok)
    (hf : firstValue (some hdrFrom) (some [102]) hs = some f)
    (ht : firstValue (some hdrTo) (some [116]) hs = some t)
    (hi : firstValue (some hdrCallID) (some [105]) hs = some i)
    (hc : firstValue (some hdrCSeq) none hs = some c)
    (hroom : txp + (replyLines rev rport (wantedValues (some hdrVia) (some [118]) hs)
      f t i c).length + 3 ≤ txe)
    (htx : txe ≤ tx.length) :
    Written tx txp (replyLines rev rport (wantedValues (some hdrVia) (some [118]) hs) f t i c)
      (make_reply (renderMessage start sconts hs body ++ post)
        (renderMessage start sconts hs body).length txe rport rev (tx, txp)) := by
  obtain ⟨rx, hrx⟩ : ∃ rx, rx = renderMessage start sconts hs body ++ post := ⟨_, rfl⟩
  obtain ⟨rxe, hrxe⟩ : ∃ rxe, rxe = (renderMessage start sconts hs body).length := ⟨_, rfl⟩
  obtain ⟨off, hoff⟩ : ∃ off, off = (foldedText start sconts).length + 2 := ⟨_, rfl⟩
  rw [← hrx, ← hrxe]
  have hnul : ∀ (head alt : Option Bytes),
      (head = some hdrFrom ∨ head = some hdrTo ∨ head = some hdrCallID ∨ head = some hdrCSeq
        ∨ head = some hdrVia) →
      (alt = none ∨ alt = some [102] ∨ alt = some [116] ∨ alt = some [105] ∨ alt = some [118]) →
      (∀ n, head = some n → ∀ x ∈ n, x ≠ 0) ∧ (∀ n, alt = some n → ∀ x ∈ n, x ≠ 0) := by
    intro head alt h1 h2
    constructor
    · intro n hn
      rcases h1 with h | h | h | h | h <;>
        (rw [h] at hn; simp only [Option.some.injEq] at hn; rw [← hn]; decide)
    · intro n hn
      rcases h2 with h | h | h | h | h
      · rw [h] at hn; exact absurd hn (by simp)
      all_goals (rw [h] at hn; simp only [Option.some.injEq] at hn; rw [← hn]; decide)
  have hfind : ∀ (head alt : Option Bytes),
      (∀ n, head = some n → ∀ x ∈ n, x ≠ 0) ∧ (∀ n, alt = some n → ∀ x ∈ n, x ≠ 0) →
      sip_find_header rx (some 0) rxe head alt none = firstWanted head alt hs off := by
    intro head alt hn
    have := sip_find_header_message [] post start sconts hs body head alt hstart hok hn.1 hn.2
    simpa [hrx, hrxe, hoff] using this
  have hd0 : rx.drop 0 = foldedText start sconts
      ++ 13 :: 10 :: (renderHeaders hs ++ 13 :: 10 :: (body ++ post)) := by
    rw [hrx]; simp [renderMessage]
  have hd : rx.drop off = renderHeaders hs ++ 13 :: 10 :: (body ++ post) := by
    have := drop_add_of_drop _ _ hd0
    rw [hoff]
    have h2 := drop_succ_of_drop (drop_succ_of_drop this)
    simpa [Nat.add_assoc] using h2
  have hlen : rxe = (foldedText start sconts).length + 2 + (renderHeaders hs).length + 2
      + body.length := by
    rw [hrxe]
    simp only [renderMessage, List.length_append, List.length_cons]; omega
  have hval : ∀ (head alt : Option Bytes) (v : Bytes),
      (∀ n, head = some n → ∀ x ∈ n, x ≠ 0) ∧ (∀ n, alt = some n → ∀ x ∈ n, x ≠ 0) →
      firstValue head alt hs = some v →
      ∃ r, sip_find_header rx (some 0) rxe head alt none = some r ∧ InRange rx r v := by
    intro head alt v hn hv
    rw [hfind head alt hn]
    exact firstWanted_value rx head alt _ hs off hok hd v hv
  obtain ⟨rF, eF, inF⟩ := hval _ _ f (hnul _ _ (Or.inl rfl) (Or.inr (Or.inl rfl))) hf
  obtain ⟨rT, eT, inT⟩ := hval _ _ t (hnul _ _ (Or.inr (Or.inl rfl)) (Or.inr (Or.inr (Or.inl rfl)))) ht
  obtain ⟨rI, eI, inI⟩ := hval _ _ i
    (hnul _ _ (Or.inr (Or.inr (Or.inl rfl))) (Or.inr (Or.inr (Or.inr (Or.inl rfl))))) hi
  obtain ⟨rC, eC, inC⟩ := hval _ _ c
    (hnul _ _ (Or.inr (Or.inr (Or.inr (Or.inl rfl)))) (Or.inl rfl)) hc
  have hnV := hnul (some hdrVia) (some [118]) (Or.inr (Or.inr (Or.inr (Or.inr rfl))))
    (Or.inr (Or.inr (Or.inr (Or.inr rfl))))
  have eV : find_header_all rx (some 0) rxe (some hdrVia) (some [118]) (rxe + 1) none
      = allWanted (some hdrVia) (some [118]) hs off :=
    find_header_all_run rx 0 rxe _ _ (body ++ post) hnV.1 hnV.2 hs off none (rxe + 1) hok
      (by omega) hd (by omega) (hfind _ _ hnV)
      (by have := length_le_renderHeaders hs; omega)
  have inV := allWanted_values rx (some hdrVia) (some [118]) _ hs off hok hd
  have h0 : Written tx txp [] (tx, txp) := ⟨rfl, by simp, rfl⟩
  have hlt := tagged_length rport t
  unfold make_reply
  simp only [eF, eT, eI, eC, eV]
  cases rev with
  | true =>
    simp only [replyLines, if_true] at hroom ⊢
    simp only [List.length_append, replyLine_length] at hroom
    have s1 := add_string_written tx txp txe [] (tx, txp) [118] dummyVia h0 (by decide)
      (by decide) (by simp only [List.length_append, replyLine_length, List.length_nil]; omega) htx
    have s2 := add_range_written rx tx txp txe _ _ [116] f rF s1 (by decide) inF
      (by simp only [List.length_append, replyLine_length, List.length_nil]; omega) htx
    have s3 := add_range_written rx tx txp txe _ _ [102] t rT s2 (by decide) inT
      (by simp only [List.length_append, replyLine_length, List.length_nil]; omega) htx
    have s3t := add_tag_written tx txp txe _ _ [102] t rport s3
      (by simp only [List.length_append, replyLine_length, List.length_nil]; omega) htx
    have s4 := add_range_written rx tx txp txe _ _ [105] i rI s3t (by decide) inI
      (by simp only [List.length_append, replyLine_length, List.length_nil]; omega) htx
    simpa using s4
  | false =>
    simp only [replyLines, Bool.false_eq_true, if_false] at hroom ⊢
    simp only [List.length_append, replyLine_length] at hroom
    have s1 := reply_via_written rx tx txp txe htx _ _ inV [] (tx, txp) h0
      (by simp only [List.length_append, List.length_nil]; omega)
    have s2 := add_range_written rx tx txp txe _ _ [102] f rF s1 (by decide) inF
      (by simp only [List.length_append, replyLine_length, List.length_nil]; omega) htx
    have s3 := add_range_written rx tx txp txe _ _ [116] t rT s2 (by decide) inT
      (by simp only [List.length_append, replyLine_length, List.length_nil]; omega) htx
    have s3t := add_tag_written tx txp txe _ _ [116] t rport s3
      (by simp only [List.length_append, replyLine_length, List.length_nil]; omega) htx
    have s4 := add_range_written rx tx txp txe _ _ [105] i rI s3t (by decide) inI
      (by simp only [List.length_append, replyLine_length, List.length_nil]; omega) htx
    have s5 := add_range_written rx tx txp txe _ _ hdrCSeq c rC s4 (by decide) inC
      (by simp only [List.length_append, replyLine_length, List.length_nil]; omega) htx
    simpa using s5

theorem decimalFrom_shift (l : Bytes) :
    ∀ v, decimalFrom v l = v * 10 ^ l.length + decimalFrom 0 l := by
  induction l with
  | nil => intro v; simp [decimalFrom]
  | cons d l ih =>
    intro v
    rw [decimalFrom_cons, decimalFrom_cons, ih (v * 10 + (d - 48)), ih (0 * 10 + (d - 48))]
    simp only [List.length_cons, Nat.pow_succ]
    ring

theorem decimalValue_cons (d : Nat) (l : Bytes) :
    decimalValue (d :: l) = (d - 48) * 10 ^ l.length + decimalValue l := by
  unfold decimalValue
  rw [decimalFrom_cons, decimalFrom_shift l (0 * 10 + (d - 48))]
  simp

/-- The digits that `%u` prints stand for the number printed: ten digits are enough. -/
theorem decimalFuel_value : ∀ (fuel n : Nat) (acc : Bytes), n < 10 ^ fuel →
    decimalValue (decimalFuel fuel n acc) = n * 10 ^ acc.length + decimalValue acc := by
  intro fuel
  induction fuel with
  | zero =>
    intro n acc hn
    have : n = 0 := by simpa using hn
    subst this
    simp [decimalFuel]
  | succ k ih =>
    intro n acc hn
    rw [decimalFuel.eq_2]
    by_cases h10 : n < 10
    · rw [if_pos h10, decimalValue_cons]
      simp
    · rw [if_neg h10, ih (n / 10) _ (by
        rw [Nat.pow_succ] at hn
        exact Nat.div_lt_of_lt_mul (by omega)), decimalValue_cons]
      simp only [List.length_cons, Nat.add_sub_cancel_left, Nat.pow_succ]
      have := Nat.div_add_mod n 10
      nth_rewrite 3 [← this]
      ring

theorem printedUnsigned_value (rport : Int) (h0 : 0 ≤ rport) (h1 : rport < 2147483648) :
    decimalValue (printedUnsigned rport) = rport.toNat := by
  unfold printedUnsigned
  have hm : rport % 4294967296 = rport := Int.emod_eq_of_lt h0 (by omega)
  rw [hm, decimalFuel_value 10 _ [] (by omega)]
  simp [decimalValue, decimalFrom]

/-! ## Facts about the line tail in `sip_add_extra` -/

/-- The set up of the playback leaves `request` at or before an octet of the program that
no prefix can hold: an octet that is not a digit, '=', '-', '!' or '*'. -/
theorem playback_program_request (mem : Bytes) (p e : Nat) (hpe : p ≤ e) :
    ∃ q, (playback_program mem p e).request = some q ∧
      (playback_program mem p e).erequest = some e ∧ p ≤ q ∧ q ≤ e ∧
      ∀ k, p ≤ k → k < e → isdigit (byteAt mem k) = false → byteAt mem k ≠ 61 →
        byteAt mem k ≠ 45 → byteAt mem k ≠ 33 → byteAt mem k ≠ 42 → q ≤ k := by
  obtain ⟨r, hr⟩ : ∃ r, r = (read_unsigned mem p e).2 := ⟨_, rfl⟩
  obtain ⟨p1, hp1⟩ : ∃ p1, p1 = if r < e ∧ byteAt mem r = 61 then r + 1 else p := ⟨_, rfl⟩
  obtain ⟨p2, hp2⟩ : ∃ p2, p2 = scanWhile mem (fun c => c == 45) p1 e := ⟨_, rfl⟩
  obtain ⟨p3, hp3⟩ : ∃ p3, p3 = scanWhile mem (fun c => c == 33) p2 e := ⟨_, rfl⟩
  obtain ⟨v, hv⟩ : ∃ v, v = (read_unsigned mem p3 e).2 := ⟨_, rfl⟩
  have hrp : r = scanWhile mem isdigit p e := by rw [hr, read_unsigned_pos]
  have hvp : v = scanWhile mem isdigit p3 e := by rw [hv, read_unsigned_pos]
  have hr1 : p ≤ r := by rw [hrp]; exact scanWhile_ge' mem isdigit p e
  have hr2 : r ≤ e := by rw [hrp]; exact scanWhile_le' mem isdigit p e hpe
  have hp1b : p ≤ p1 ∧ p1 ≤ e := by
    rw [hp1]; split <;> omega
  have hp2b : p1 ≤ p2 ∧ p2 ≤ e := by
    rw [hp2]; exact ⟨scanWhile_ge' mem _ p1 e, scanWhile_le' mem _ p1 e hp1b.2⟩
  have hp3b : p2 ≤ p3 ∧ p3 ≤ e := by
    rw [hp3]; exact ⟨scanWhile_ge' mem _ p2 e, scanWhile_le' mem _ p2 e hp2b.2⟩
  have hvb : p3 ≤ v ∧ v ≤ e := by
    rw [hvp]; exact ⟨scanWhile_ge' mem _ p3 e, scanWhile_le' mem _ p3 e hp3b.2⟩
  obtain ⟨q, hq⟩ : ∃ q, q = if v < e ∧ byteAt mem v = 42 then v + 1 else p3 := ⟨_, rfl⟩
  have hreq : (playback_program mem p e).request = some q
      ∧ (playback_program mem p e).erequest = some e := by
    unfold playback_program
    simp only [← hr, ← hp1, ← hp2, ← hp3, ← hv]
    by_cases hc : v < e ∧ byteAt mem v = 42
    · rw [if_pos hc]; rw [if_pos hc] at hq; exact ⟨by rw [hq], rfl⟩
    · rw [if_neg hc]; rw [if_neg hc] at hq; exact ⟨by rw [hq], rfl⟩
  refine ⟨q, hreq.1, hreq.2, ?_, ?_, ?_⟩
  · rw [hq]; split <;> omega
  · rw [hq]; split <;> omega
  · intro k hpk hke hdig h61 h45 h33 h42
    have hrk : r ≤ k := by
      rw [hrp]; exact scanWhile_le_stop mem isdigit e k (Or.inr hdig) _ p rfl hpk
    have hp1k : p1 ≤ k := by
      rw [hp1]
      by_cases hc : r < e ∧ byteAt mem r = 61
      · rw [if_pos hc]
        have : r ≠ k := fun h => h61 (by rw [← h]; exact hc.2)
        omega
      · rw [if_neg hc]; exact hpk
    have hp2k : p2 ≤ k := by
      rw [hp2]
      exact scanWhile_le_stop mem _ e k (Or.inr (by simpa using h45)) _ p1 rfl hp1k
    have hp3k : p3 ≤ k := by
      rw [hp3]
      exact scanWhile_le_stop mem _ e k (Or.inr (by simpa using h33)) _ p2 rfl hp2k
    have hvk : v ≤ k := by
      rw [hvp]; exact scanWhile_le_stop mem isdigit e k (Or.inr hdig) _ p3 rfl hp3k
    rw [hq]
    by_cases hc : v < e ∧ byteAt mem v = 42
    · rw [if_pos hc]
      have : v ≠ k := fun h => h42 (by rw [← h]; exact hc.2)
      omega
    · rw [if_neg hc]; exact hp3k

/-! ## C1: `read_unsigned` -/

/-- C1: for every buffer, cursor `p` and bound `e` with `p ≤ e`, when the value of
the maximal run of ASCII digits that starts at `p` and lies before `e` fits a signed
32-bit int, `read_unsigned` returns that decimal value (0 for the empty run, leading
zeros allowed) and leaves the cursor exactly at the end of the run, which is not
past `e`. -/
theorem read_unsigned_digit_run (b : Bytes) (p e : Nat) (hpe : p ≤ e)
    (hfit : decimalValue (digitRun b p e) < 2147483648) :
    read_unsigned b p e
        = (((decimalValue (digitRun b p e) : Nat) : Int), p + (digitRun b p e).length)
      ∧ p + (digitRun b p e).length ≤ e
      ∧ decimalValue [] = 0 := by
  refine ⟨?_, ?_, rfl⟩
  · have h := read_unsigned_loop_run b e (e - p) p 0 rfl hfit
    simpa [read_unsigned, decimalValue] using h
  · have := digitRun_length_le b p e
    omega

/-- C1 on the test vector of `test_sip_parsers.c`: on "0123hi" with end 6 the value is
123 and the cursor is at offset 4; with end 2 the value is 1 and the cursor is the end. -/
theorem read_unsigned_digit_run_witness :
    (read_unsigned [48, 49, 50, 51, 104, 105] 0 6 = (123, 4) ∧ 0 + 4 ≤ 6)
      ∧ (read_unsigned [48, 49, 50, 51, 104, 105] 0 2 = (1, 2) ∧ 0 + 2 ≤ 2) := by
  have h6 := read_unsigned_digit_run [48, 49, 50, 51, 104, 105] 0 6 (by decide) (by decide)
  have h2 := read_unsigned_digit_run [48, 49, 50, 51, 104, 105] 0 2 (by decide) (by decide)
  have r6 : digitRun [48, 49, 50, 51, 104, 105] 0 6 = [48, 49, 50, 51] := by decide
  have r2 : digitRun [48, 49, 50, 51, 104, 105] 0 2 = [48, 49] := by decide
  rw [r6] at h6
  rw [r2] at h2
  exact ⟨⟨h6.1, h6.2.1⟩, ⟨h2.1, h2.2.1⟩⟩

/-! ## C2: `sip_esc_cmp` against a percent-encoding -/

/-- C2 (the code departs from the claim): the range "%41" is a percent-encoding of the
C string "A", yet `sip_esc_cmp` returns -1, with the end given and with the end absent:
its guard `s + 3 < e` leaves an escape that ends the range undecoded (the sibling
`sip_esc_esc_cmp` tests `s + 3 <= e`). With one more octet after it the escape is
decoded: "%41x" compares equal to "Ax". -/
theorem sip_esc_cmp_final_escape :
    sip_esc_cmp [37, 52, 49] (some 0) (some 3) (some [65]) = -1
      ∧ sip_esc_cmp [37, 52, 49] (some 0) none (some [65]) = -1
      ∧ sip_esc_cmp [37, 52, 49, 120] (some 0) (some 4) (some [65, 120]) = 0 := by
  decide

/-! ## C3: `sip_deescape` twice -/

/-- C3: for every NUL-free input `x` without '%' (held NUL-terminated in `src`, or
given by its range) and every output limit `et - t`, de-escaping the output of
`sip_deescape (x)` again under the same limit returns the same length and produces
the same octets. -/
theorem sip_deescape_idempotent (src out out2 x rest : Bytes) (t et t2 et2 f : Nat)
    (ef : Option Nat)
    (hnul : ∀ c ∈ x, c ≠ 0) (hpct : ∀ c ∈ x, c ≠ 37)
    (hsrc : src.drop f = x ++ rest)
    (hef : (ef = none ∧ rest.headD 0 = 0) ∨ ef = some (f + x.length))
    (hout : et ≤ out.length) (hout2 : et2 ≤ out2.length)
    (hlim : et2 - t2 = et - t) :
    ∀ ef2 : Option Nat,
      ef2 = none ∨ ef2 = some (t + (sip_deescape out t et src (some f) ef).2) →
      (sip_deescape out2 t2 et2 (sip_deescape out t et src (some f) ef).1 (some t) ef2).2
          = (sip_deescape out t et src (some f) ef).2
        ∧ slice (sip_deescape out2 t2 et2 (sip_deescape out t et src (some f) ef).1
              (some t) ef2).1 t2
            (t2 + (sip_deescape out2 t2 et2 (sip_deescape out t et src (some f) ef).1
              (some t) ef2).2)
          = slice (sip_deescape out t et src (some f) ef).1 t
              (t + (sip_deescape out t et src (some f) ef).2) := by
  intro ef2 hef2
  have h1 := sip_deescape_plain src out t et f ef x rest hpct hsrc hout
    (by rcases hef with ⟨h, hr⟩ | h
        · exact Or.inl ⟨h, hnul, hr⟩
        · exact Or.inr h)
  rw [h1] at hef2 ⊢
  simp only at hef2 ⊢
  -- the octets produced by the first call
  have hylen : (x.take (et - (t + 1))).length = min x.length (et - (t + 1)) := by
    simp [List.length_take, Nat.min_comm]
  have hyle : (x.take (et - (t + 1))).length ≤ et - (t + 1) := by
    rw [hylen]; exact Nat.min_le_right _ _
  have hmem : ∀ c ∈ x.take (et - (t + 1)), c ∈ x := fun c hc => List.mem_of_mem_take hc
  rw [← hylen] at hef2 ⊢
  obtain ⟨rest1, hd1, hr1⟩ := deescape_output_drop out t et _ hout hyle
  have h2 := sip_deescape_plain _ out2 t2 et2 t ef2 (x.take (et - (t + 1))) rest1
    (fun c hc => hpct c (hmem c hc)) hd1 hout2
    (by rcases hef2 with h | h
        · exact Or.inl ⟨h, fun c hc => hnul c (hmem c hc), hr1⟩
        · exact Or.inr h)
  rw [h2]
  simp only
  have hk : et2 - (t2 + 1) = et - (t + 1) := by omega
  have hmin : min (x.take (et - (t + 1))).length (et2 - (t2 + 1))
      = (x.take (et - (t + 1))).length := by
    rw [hk]; exact Nat.min_eq_left hyle
  have htake : (x.take (et - (t + 1))).take (et2 - (t2 + 1)) = x.take (et - (t + 1)) := by
    rw [hk]; exact List.take_of_length_le hyle
  rw [hmin, htake]
  refine ⟨rfl, ?_⟩
  rw [deescape_output_slice out2 t2 et2 _ hout2 (by rw [hk]; exact hyle),
    deescape_output_slice out t et _ hout hyle]

/-- C3 on "ab" with limit 2: the first call produces "a" (length 1), and so does the
second call on that output. -/
theorem sip_deescape_idempotent_witness :
    (sip_deescape [7, 7, 7] 0 2 (sip_deescape [7, 7, 7] 0 2 [97, 98] (some 0) none).1
        (some 0) none).2
        = (sip_deescape [7, 7, 7] 0 2 [97, 98] (some 0) none).2
      ∧ slice (sip_deescape [7, 7, 7] 0 2 (sip_deescape [7, 7, 7] 0 2 [97, 98] (some 0) none).1
            (some 0) none).1 0
          (0 + (sip_deescape [7, 7, 7] 0 2
            (sip_deescape [7, 7, 7] 0 2 [97, 98] (some 0) none).1 (some 0) none).2)
        = slice (sip_deescape [7, 7, 7] 0 2 [97, 98] (some 0) none).1 0
            (0 + (sip_deescape [7, 7, 7] 0 2 [97, 98] (some 0) none).2) :=
  sip_deescape_idempotent [97, 98] [7, 7, 7] [7, 7, 7] [97, 98] [] 0 2 0 2 0 none
    (by decide) (by decide) (by decide) (Or.inl ⟨rfl, rfl⟩) (by decide) (by decide) (by decide)
    none (Or.inl rfl)

/-! ## C4: `sip_find_header` called again and again with `prev` -/

/-- C4: in a message made of a start line, header lines and the empty line, calling
`sip_find_header` first with `prev` absent and then with `prev` set to the start
returned by the call before returns the value range of every header line whose field
name equals `head` or `alt`, once each and in document order, and then `NULL`: with
more calls allowed (`fuel`) than there are header lines, the ranges returned before the
first `NULL` are exactly those of `allWanted`. -/
theorem sip_find_header_iterated (pre post start : Bytes) (sconts : List Bytes)
    (hs : List HeaderLine) (body : Bytes) (head alt : Option Bytes) (fuel : Nat)
    (hstart : FoldedOk start sconts) (hok : ∀ h ∈ hs, h.Ok)
    (hhead : ∀ n, head = some n → ∀ c ∈ n, c ≠ 0)
    (halt : ∀ n, alt = some n → ∀ c ∈ n, c ≠ 0)
    (hfuel : hs.length < fuel) :
    find_header_all (pre ++ (renderMessage start sconts hs body ++ post)) (some pre.length)
        (pre.length + (renderMessage start sconts hs body).length) head alt fuel none
      = allWanted head alt hs (pre.length + (foldedText start sconts).length + 2) := by
  have hd : (pre ++ (renderMessage start sconts hs body ++ post)).drop pre.length
      = foldedText start sconts ++ 13 :: 10 :: (renderHeaders hs ++ 13 :: 10 :: (body ++ post)) := by
    simp [renderMessage]
  have hd2 : (pre ++ (renderMessage start sconts hs body ++ post)).drop
      (pre.length + (foldedText start sconts).length + 2)
      = renderHeaders hs ++ 13 :: 10 :: (body ++ post) := by
    have := drop_add_of_drop _ _ hd
    exact drop_succ_of_drop (drop_succ_of_drop this)
  have hlen : (renderMessage start sconts hs body).length
      = (foldedText start sconts).length + 2 + (renderHeaders hs).length + 2 + body.length := by
    simp only [renderMessage, List.length_append, List.length_cons]; omega
  exact find_header_all_run _ pre.length _ head alt (body ++ post) hhead halt hs _ none fuel
    hok (by omega) hd2 (by omega)
    (sip_find_header_message pre post start sconts hs body head alt hstart hok hhead halt)
    hfuel


/-- C4 on the sample message: the calls return the values of Via: one, of v: two with
its continuation line, and of VIA : three, and then `NULL`; the line Via: body after
the empty line is not returned. -/
theorem sip_find_header_iterated_witness :
    find_header_all ([] ++ (renderMessage sampleStart [] sampleHeaders sampleBody ++ []))
        (some 0) 90 (some [86, 105, 97]) (some [118]) 5 none
      = [(29, 32), (52, 62), (70, 75)] :=
  sip_find_header_iterated [] [] sampleStart [] sampleHeaders sampleBody (some [86, 105, 97])
    (some [118]) 5 (by decide) (by decide) (by decide) (by decide) (by decide)

/-! ## C5: the first call of `sip_find_header` -/

/-- C5: in a message made of a start line, header lines and the empty line, with `prev`
absent, `sip_find_header (head, alt)` returns `NULL` when no header line has a field name
equal to `head` or `alt` ignoring ASCII case (either may be absent); otherwise it returns
the value range of the first such header line `h`: the range starts after the colon and
the SP/HT after it (`valueRange`), and its octets are the value of `h`, continuation
lines included, without the final CR LF. -/
theorem sip_find_header_first (pre post start : Bytes) (sconts : List Bytes)
    (hs : List HeaderLine) (body : Bytes) (head alt : Option Bytes)
    (hstart : FoldedOk start sconts) (hok : ∀ h ∈ hs, h.Ok)
    (hhead : ∀ n, head = some n → ∀ c ∈ n, c ≠ 0)
    (halt : ∀ n, alt = some n → ∀ c ∈ n, c ≠ 0) :
    (sip_find_header (pre ++ (renderMessage start sconts hs body ++ post)) (some pre.length)
          (pre.length + (renderMessage start sconts hs body).length) head alt none = none
        ∧ ∀ h ∈ hs, wanted head alt h = false)
      ∨ ∃ hs1 h hs2, hs = hs1 ++ h :: hs2 ∧ (∀ x ∈ hs1, wanted head alt x = false)
          ∧ wanted head alt h = true
          ∧ sip_find_header (pre ++ (renderMessage start sconts hs body ++ post))
              (some pre.length) (pre.length + (renderMessage start sconts hs body).length)
              head alt none
            = some (valueRange h
                (pre.length + (foldedText start sconts).length + 2 + (renderHeaders hs1).length))
          ∧ slice (pre ++ (renderMessage start sconts hs body ++ post))
              (valueRange h
                (pre.length + (foldedText start sconts).length + 2
                  + (renderHeaders hs1).length)).1
              (valueRange h
                (pre.length + (foldedText start sconts).length + 2
                  + (renderHeaders hs1).length)).2
            = h.value := by
  rw [sip_find_header_message pre post start sconts hs body head alt hstart hok hhead halt]
  have hd : (pre ++ (renderMessage start sconts hs body ++ post)).drop pre.length
      = foldedText start sconts ++ 13 :: 10 :: (renderHeaders hs ++ 13 :: 10 :: (body ++ post)) := by
    simp [renderMessage]
  have hd2 : (pre ++ (renderMessage start sconts hs body ++ post)).drop
      (pre.length + (foldedText start sconts).length + 2)
      = renderHeaders hs ++ 13 :: 10 :: (body ++ post) := by
    have := drop_add_of_drop _ _ hd
    exact drop_succ_of_drop (drop_succ_of_drop this)
  exact firstWanted_spec _ head alt _ hs _ hd2

/-- C5 on the sample message: "Via" or "v" first matches the line Via: one, whose value
is the range [29,32), and "X-None" matches no line (the second part is C5 at that
input). -/
theorem sip_find_header_first_witness :
    sip_find_header sampleMessage (some 0) 90 (some [86, 105, 97]) (some [118]) none
        = some (29, 32)
      ∧ slice sampleMessage 29 32 = [111, 110, 101]
      ∧ ((sip_find_header ([] ++ (renderMessage sampleStart [] sampleHeaders sampleBody ++ []))
              (some 0) (0 + (renderMessage sampleStart [] sampleHeaders sampleBody).length)
              (some [88, 45, 78, 111, 110, 101]) none none = none
            ∧ ∀ h ∈ sampleHeaders, wanted (some [88, 45, 78, 111, 110, 101]) none h = false)
          ∨ ∃ hs1 h hs2, sampleHeaders = hs1 ++ h :: hs2
              ∧ (∀ x ∈ hs1, wanted (some [88, 45, 78, 111, 110, 101]) none x = false)
              ∧ wanted (some [88, 45, 78, 111, 110, 101]) none h = true
              ∧ sip_find_header
                  ([] ++ (renderMessage sampleStart [] sampleHeaders sampleBody ++ []))
                  (some 0) (0 + (renderMessage sampleStart [] sampleHeaders sampleBody).length)
                  (some [88, 45, 78, 111, 110, 101]) none none
                = some (valueRange h
                    (0 + (foldedText sampleStart []).length + 2 + (renderHeaders hs1).length))
              ∧ slice ([] ++ (renderMessage sampleStart [] sampleHeaders sampleBody ++ []))
                  (valueRange h
                    (0 + (foldedText sampleStart []).length + 2
                      + (renderHeaders hs1).length)).1
                  (valueRange h
                    (0 + (foldedText sampleStart []).length + 2
                      + (renderHeaders hs1).length)).2
                = h.value) :=
  ⟨by decide, by decide,
    sip_find_header_first [] [] sampleStart [] sampleHeaders sampleBody
      (some [88, 45, 78, 111, 110, 101]) none (by decide) (by decide) (by decide) (by decide)⟩

/-! ## C6: `sip_find_header` and the empty line -/

/-- C6, as amended: for every buffer, every message `[p,e)` in it and every header name,
with `prev` absent or the start of a value returned by an earlier call,
`sip_find_header` never returns a range that begins after an empty line that follows the
first line of the message. -/
theorem sip_find_header_stops_at_empty_line (b : Bytes) (p e : Nat) (head alt : Option Bytes)
    (prev : Option Nat) (i : Nat) (hprev : PrevOk b p e prev) (hempty : EmptyLineAt b p i) :
    ∀ s en, sip_find_header b (some p) e head alt prev = some (s, en) → s ≤ i := by
  obtain ⟨hpi, hlf, hline⟩ := hempty
  have hi : byteAt b i = 10 ∨ byteAt b i = 13 := hline.imp id (fun h => h.1)
  have hinv : ∀ pv, prev = some pv → pv < e → pv < i := by
    induction hprev with
    | absent => intro pv h; exact absurd h (by simp)
    | returned head' alt' prev' s' en' _ hcall ih =>
      intro pv h hpv
      simp only [Option.some.injEq] at h
      subst h
      exact (sip_find_header_barrier b p e head' alt' prev' i hpi hlf hi ih s' en' hcall).2 hpv
  intro s en h
  exact (sip_find_header_barrier b p e head alt prev i hpi hlf hi hinv s en h).1


/-- C6 on the message X / Foo: a / Foo: b / (empty line) / Foo: c: the call with `prev`
at the value returned first (offset 8) returns the range [16,17), before the empty line
at offset 19; the line after the empty line is not reached. -/
theorem sip_find_header_stops_at_empty_line_witness :
    sip_find_header [88, 13, 10, 70, 111, 111, 58, 32, 97, 13, 10, 70, 111, 111, 58, 32, 98, 13,
        10, 13, 10, 70, 111, 111, 58, 32, 99, 13, 10] (some 0) 29 (some [70, 111, 111]) none
        (some 8) = some (16, 17)
      ∧ 16 ≤ 19 :=
  ⟨by decide,
    sip_find_header_stops_at_empty_line [88, 13, 10, 70, 111, 111, 58, 32, 97, 13, 10, 70, 111,
        111, 58, 32, 98, 13, 10, 13, 10, 70, 111, 111, 58, 32, 99, 13, 10] 0 29
      (some [70, 111, 111]) none (some 8) 19
      (PrevOk.returned (some [70, 111, 111]) none none 8 9 PrevOk.absent (by decide))
      (by unfold EmptyLineAt; decide) 16 17 (by decide)⟩

/-- C6 as stated fails on a message whose first line is empty: in CR LF / Foo: x /
(empty line) the first empty line is at offset 0, and the call for "Foo" returns the
range [7,8), which begins after it: `sip_find_header` always takes the first line for the
request or status line. -/
theorem sip_find_header_leading_empty_line :
    byteAt [13, 10, 70, 111, 111, 58, 32, 120, 13, 10, 13, 10] 0 = 13
      ∧ byteAt [13, 10, 70, 111, 111, 58, 32, 120, 13, 10, 13, 10] 1 = 10
      ∧ sip_find_header [13, 10, 70, 111, 111, 58, 32, 120, 13, 10, 13, 10] (some 0) 12
        (some [70, 111, 111]) none none = some (7, 8) := by
  decide

/-! ## C7: `sip_find_semi` on a tag after a URI in angle brackets -/

/-- C7: on "<u>;tag=v" (u without '>', v without ';' or ',' and not ending in SP or HT,
the parameter name and the tag both reading "tag" in any letter case), `sip_find_semi`
returns exactly the range of v. -/
theorem sip_find_semi_tag_value (pre u name v post tag : Bytes)
    (hu : ∀ c ∈ u, c ≠ 62)
    (hv : ∀ c ∈ v, c ≠ 59 ∧ c ≠ 44)
    (hvt : v = [] ∨ ∃ v1 c, v = v1 ++ [c] ∧ isSPHT c = false)
    (hname : name.map tolower = [116, 97, 103])
    (htag : tag.map tolower = [116, 97, 103]) :
    sip_find_semi (pre ++ 60 :: (u ++ 62 :: 59 :: (name ++ 61 :: (v ++ post))))
        (some pre.length) (some (pre.length + (u.length + v.length + 7))) tag
      = some (pre.length + (u.length + 7), pre.length + (u.length + 7) + v.length)
    ∧ slice (pre ++ 60 :: (u ++ 62 :: 59 :: (name ++ 61 :: (v ++ post))))
        (pre.length + (u.length + 7)) (pre.length + (u.length + 7) + v.length) = v := by
  obtain ⟨n0, n1, n2, rfl, hn0, hn1, hn2, hc0, hc1, hc2⟩ := tag_case_variant name hname
  obtain ⟨t0, t1, t2, rfl, ht0, ht1, ht2, hd0, hd1, hd2⟩ := tag_case_variant tag htag
  generalize hb : pre ++ 60 :: (u ++ 62 :: 59 :: ([n0, n1, n2] ++ 61 :: (v ++ post))) = b
  generalize hs : pre.length = s
  generalize he : s + (u.length + v.length + 7) = e
  -- the buffer seen from each position of the scan
  have hdrop0 : b.drop s = 60 :: (u ++ 62 :: 59 :: n0 :: n1 :: n2 :: 61 :: (v ++ post)) := by
    rw [← hb, ← hs]; simp
  have hdrop1 : b.drop (s + (u.length + 1))
      = 62 :: 59 :: n0 :: n1 :: n2 :: 61 :: (v ++ post) := by
    have := drop_add_of_drop (60 :: u) _ (by simpa using hdrop0)
    simpa using this
  have hdrop2 : b.drop (s + (u.length + 2)) = 59 :: n0 :: n1 :: n2 :: 61 :: (v ++ post) := by
    have := drop_succ_of_drop hdrop1
    simpa [Nat.add_assoc] using this
  have hdrop3 : b.drop (s + (u.length + 3)) = n0 :: n1 :: n2 :: 61 :: (v ++ post) := by
    have := drop_succ_of_drop hdrop2
    simpa [Nat.add_assoc] using this
  have hdrop6 : b.drop (s + (u.length + 6)) = 61 :: (v ++ post) := by
    have := drop_add_of_drop [n0, n1, n2] _ (by simpa using hdrop3)
    simpa [Nat.add_assoc] using this
  have hdrop7 : b.drop (s + (u.length + 7)) = v ++ post := by
    have := drop_succ_of_drop hdrop6
    simpa [Nat.add_assoc] using this
  have hb0 : byteAt b s = 60 := byteAt_of_drop hdrop0
  have hb2 : byteAt b (s + (u.length + 2)) = 59 := byteAt_of_drop hdrop2
  have hb3 : byteAt b (s + (u.length + 3)) = n0 := byteAt_of_drop hdrop3
  have hb4 : byteAt b (s + (u.length + 3) + 1) = n1 := byteAt_of_drop (drop_succ_of_drop hdrop3)
  have hb5 : byteAt b (s + (u.length + 3) + 1 + 1) = n2 :=
    byteAt_of_drop (drop_succ_of_drop (drop_succ_of_drop hdrop3))
  have hb6 : byteAt b (s + (u.length + 6)) = 61 := byteAt_of_drop hdrop6
  have hse : s < e := by omega
  have hdisp : skip_display b s e = s :=
    skip_display_stop b s e hse (by rw [hb0]; decide) (by rw [hb0]; decide)
      (by rw [hb0]; decide)
  have hscan1 : scanWhile b (fun c => c != 62) s e = s + (u.length + 1) := by
    have := scanWhile_run b (fun c => c != 62) e
      (62 :: 59 :: n0 :: n1 :: n2 :: 61 :: (v ++ post)) (60 :: u) s (by simpa using hdrop0)
      (fun x hx => by
        rcases List.mem_cons.mp hx with h | h
        · subst h; decide
        · simpa using hu x h)
      (by simp only [List.length_cons]; omega) (Or.inr rfl)
    simpa using this
  have hscan2 : scanWhile b (fun c => decide (32 < c) && c != 61 && c != 59 && c != 44)
      (s + (u.length + 2)) e = s + (u.length + 2) :=
    scanWhile_stop _ _ _ _ (Or.inr (by rw [hb2]; decide))
  have hscan2b : scanWhile b (fun c => c != 59 && c != 44) (s + (u.length + 2)) e
      = s + (u.length + 2) :=
    scanWhile_stop _ _ _ _ (Or.inr (by rw [hb2]; decide))
  unfold sip_find_semi sip_skip_display
  simp only [rangeEnd, hdisp]
  have hfuel : e - s + 1 = (u.length + v.length + 5) + 1 + 1 + 1 := by omega
  rw [hfuel]
  rw [find_semi_loop.eq_2]
  simp only
  rw [if_pos hse, if_pos hb0, hscan1, if_pos (by omega)]
  have hp2 : s + (u.length + 1) + 1 = s + (u.length + 2) := by omega
  rw [hp2, find_semi_loop.eq_2]
  simp only
  rw [if_pos (by omega), hb2, if_neg (by decide), if_neg (by decide), hscan2,
    if_neg (fun h => Nat.lt_irrefl _ h.1), hscan2b, hb2,
    if_neg (fun h => absurd h.2 (by decide)), if_pos (by omega)]
  have hp3 : s + (u.length + 2) + 1 = s + (u.length + 3) := by omega
  -- the parameter name
  have hP0 : (fun c => decide (32 < c) && c != 61 && c != 59 && c != 44) n0 = true := by
    rcases hc0 with h | h <;> subst h <;> decide
  have hP1 : (fun c => decide (32 < c) && c != 61 && c != 59 && c != 44) n1 = true := by
    rcases hc1 with h | h <;> subst h <;> decide
  have hP2 : (fun c => decide (32 < c) && c != 61 && c != 59 && c != 44) n2 = true := by
    rcases hc2 with h | h <;> subst h <;> decide
  have hn60 : n0 ≠ 60 := by rcases hc0 with h | h <;> subst h <;> decide
  have hn32 : ¬ n0 ≤ 32 := by rcases hc0 with h | h <;> subst h <;> decide
  have hn2s : isSPHT n2 = false := by rcases hc2 with h | h <;> subst h <;> decide
  have hscan3 : scanWhile b (fun c => decide (32 < c) && c != 61 && c != 59 && c != 44)
      (s + (u.length + 3)) e = s + (u.length + 6) := by
    have := scanWhile_run b (fun c => decide (32 < c) && c != 61 && c != 59 && c != 44) e
      (61 :: (v ++ post)) [n0, n1, n2] (s + (u.length + 3)) (by simpa using hdrop3)
      (fun x hx => by
        simp only [List.mem_cons, List.mem_singleton, List.not_mem_nil, or_false] at hx
        rcases hx with h | h | h
        · rw [h]; exact hP0
        · rw [h]; exact hP1
        · rw [h]; exact hP2)
      (by simp only [List.length_cons, List.length_nil]; omega) (Or.inr rfl)
    simpa [Nat.add_assoc] using this
  have hback3 : scanBack b isSPHT (s + (u.length + 3)) (s + (u.length + 6))
      = s + (u.length + 6) := by
    have := scanBack_run b isSPHT (s + (u.length + 3)) [n0, n1, n2] (61 :: (v ++ post))
      (Or.inr ⟨[n0, n1], n2, rfl, hn2s⟩) [] (by simpa using hdrop3) (by simp)
    simpa [Nat.add_assoc] using this
  have hstrlen : strlen [t0, t1, t2] 0 = 3 := by
    have := strlen_of_drop [t0, t1, t2] 0 [t0, t1, t2] [] (by simp)
      (fun c hc => by
        simp only [List.mem_cons, List.mem_singleton, List.not_mem_nil, or_false] at hc
        rcases hc with h | h | h
        · rcases hd0 with h0 | h0 <;> omega
        · rcases hd1 with h0 | h0 <;> omega
        · rcases hd2 with h0 | h0 <;> omega) rfl
    simpa using this
  have hmatch : tagMatches b [t0, t1, t2] (s + (u.length + 3)) (s + (u.length + 6)) = true := by
    unfold tagMatches
    have h3 : s + (u.length + 6) - (s + (u.length + 3)) = 3 := by omega
    have e0 : byteAt [t0, t1, t2] 0 = t0 := rfl
    have e1 : byteAt [t0, t1, t2] (0 + 1) = t1 := rfl
    have e2 : byteAt [t0, t1, t2] (0 + 1 + 1) = t2 := rfl
    rw [hstrlen, h3]
    simp [strncasecmp, hb3, hb4, hb5, e0, e1, e2, ht0, ht1, ht2, hn0, hn1, hn2]
    omega
  have hscan7 : scanWhile b (fun c => c != 59 && c != 44) (s + (u.length + 6) + 1) e
      = s + (u.length + 7) + v.length := by
    have h7 : s + (u.length + 6) + 1 = s + (u.length + 7) := by omega
    rw [h7]
    exact scanWhile_run b (fun c => c != 59 && c != 44) e post v (s + (u.length + 7)) hdrop7
      (fun x hx => by have := hv x hx; simp [this.1, this.2]) (by omega) (Or.inl (by omega))
  have hback7 : scanBack b isSPHT (s + (u.length + 6) + 1) (s + (u.length + 7) + v.length)
      = s + (u.length + 7) + v.length := by
    have h7 : s + (u.length + 6) + 1 = s + (u.length + 7) := by omega
    rw [h7]
    have := scanBack_run b isSPHT (s + (u.length + 7)) v post hvt [] (by simpa using hdrop7)
      (by simp)
    simpa using this
  rw [hp3, find_semi_loop.eq_2]
  simp only
  rw [if_pos (by omega), hb3, if_neg hn60, if_neg hn32, hscan3, hback3, hmatch,
    if_pos ⟨by omega, by omega, rfl⟩, hb6, if_neg (by omega), hscan7, hback7]
  refine ⟨by congr 2, ?_⟩
  unfold slice
  rw [hdrop7]
  simp

/-- C7 on the spec's example: "<x>;tag=1" with tag "tag" gives the range [8,9), "1". -/
theorem sip_find_semi_tag_value_witness :
    sip_find_semi [60, 120, 62, 59, 116, 97, 103, 61, 49] (some 0) (some 9) [116, 97, 103]
        = some (8, 9)
      ∧ slice [60, 120, 62, 59, 116, 97, 103, 61, 49] 8 9 = [49] :=
  sip_find_semi_tag_value [] [120] [116, 97, 103] [49] [] [116, 97, 103]
    (by decide) (by decide) (Or.inr ⟨[], 49, rfl, rfl⟩) (by decide) (by decide)

/-! ## C8: `sip_find_semi` and sections in angle brackets -/

/-- C8, as amended: the input is a display name `d` (what `sip_skip_display` skips), an
optional section `<u>`, text `w` without '<', and then the end of the range or a ','.
Whatever `sip_find_semi` returns, for every tag, lies within `w`: not inside the `<u>`
section and not after that ','. -/
theorem sip_find_semi_section_opaque (pre d ang w tail post tag : Bytes)
    (hang : ang = [] ∨ ∃ u, ang = 60 :: (u ++ [62]) ∧ ∀ c ∈ u, c ≠ 62)
    (hw : ∀ c ∈ w, c ≠ 60)
    (htail : tail = [] ∨ ∃ t, tail = 44 :: t)
    (hdisp : skip_display (pre ++ (d ++ (ang ++ (w ++ (tail ++ post))))) pre.length
        (pre.length + (d.length + (ang.length + (w.length + tail.length))))
      = pre.length + d.length) :
    ∀ st en,
      sip_find_semi (pre ++ (d ++ (ang ++ (w ++ (tail ++ post))))) (some pre.length)
          (some (pre.length + (d.length + (ang.length + (w.length + tail.length))))) tag
        = some (st, en) →
      pre.length + d.length + ang.length ≤ st ∧ st ≤ en
        ∧ en ≤ pre.length + d.length + ang.length + w.length := by
  intro st en h
  generalize hb : pre ++ (d ++ (ang ++ (w ++ (tail ++ post)))) = b at h hdisp
  generalize he : pre.length + (d.length + (ang.length + (w.length + tail.length))) = e
    at h hdisp
  have hdrop0 : b.drop (pre.length + d.length) = ang ++ (w ++ (tail ++ post)) := by
    have h1 : b.drop pre.length = d ++ (ang ++ (w ++ (tail ++ post))) := by
      rw [← hb]; simp
    exact drop_add_of_drop d _ h1
  have hdropw : b.drop (pre.length + d.length + ang.length) = w ++ (tail ++ post) :=
    drop_add_of_drop ang _ hdrop0
  have hdropt : b.drop (pre.length + d.length + ang.length + w.length) = tail ++ post :=
    drop_add_of_drop w _ hdropw
  have hc : pre.length + d.length + ang.length + w.length = e
      ∨ byteAt b (pre.length + d.length + ang.length + w.length) = 44 := by
    rcases htail with ht | ⟨t, ht⟩
    · left; rw [← he, ht]; simp; omega
    · right; rw [ht] at hdropt; exact byteAt_of_drop hdropt
  have hno : ∀ i, pre.length + d.length + ang.length ≤ i →
      i < pre.length + d.length + ang.length + w.length → byteAt b i ≠ 60 :=
    fun i hi hil => hw _ (byteAt_mem_of_drop w _ hdropw i hi hil)
  unfold sip_find_semi sip_skip_display at h
  simp only [rangeEnd, hdisp] at h
  rcases hang with ha | ⟨u, ha, hu⟩
  · subst ha
    simp only [List.length_nil, Nat.add_zero] at hno hc h ⊢
    exact find_semi_loop_bounds b e tag _ (by omega) hc _ _ (by omega) hno st en h
  · have hal : ang.length = u.length + 2 := by rw [ha]; simp
    have hscan : scanWhile b (fun c => c != 62) (pre.length + d.length) e
        = pre.length + d.length + (u.length + 1) := by
      have := scanWhile_run b (fun c => c != 62) e (62 :: (w ++ (tail ++ post))) (60 :: u)
        (pre.length + d.length) (by rw [hdrop0, ha]; simp)
        (fun x hx => by
          rcases List.mem_cons.mp hx with h | h
          · subst h; decide
          · simpa using hu x h)
        (by simp only [List.length_cons]; omega) (Or.inr rfl)
      simpa using this
    have hb0 : byteAt b (pre.length + d.length) = 60 := by
      rw [ha] at hdrop0; exact byteAt_of_drop hdrop0
    rw [find_semi_loop.eq_2] at h
    simp only at h
    rw [if_pos (by omega), if_pos hb0, hscan, if_pos (by omega)] at h
    have hp : pre.length + d.length + (u.length + 1) + 1
        = pre.length + d.length + ang.length := by omega
    rw [hp] at h
    exact find_semi_loop_bounds b e tag _ (by omega) hc _ _ (by omega) hno st en h

/-- C8 on the value made of the quoted name "a,b", SP and <x;tag=1>;tag=7,tag=5: the
',' inside the display name does not stop the scan, the tag inside the section and the
tag after the ',' are passed over, and the one in between, at [20,21), is returned. -/
theorem sip_find_semi_section_opaque_witness :
    sip_find_semi [34, 97, 44, 98, 34, 32, 60, 120, 59, 116, 97, 103, 61, 49, 62, 59, 116, 97,
        103, 61, 55, 44, 116, 97, 103, 61, 53] (some 0) (some 27) [116, 97, 103] = some (20, 21)
      ∧ (0 + 6 + 9 ≤ 20 ∧ 20 ≤ 21 ∧ 21 ≤ 0 + 6 + 9 + 6) :=
  ⟨by decide,
    sip_find_semi_section_opaque [] [34, 97, 44, 98, 34, 32]
      [60, 120, 59, 116, 97, 103, 61, 49, 62] [59, 116, 97, 103, 61, 55]
      [44, 116, 97, 103, 61, 53] [] [116, 97, 103]
      (Or.inr ⟨[120, 59, 116, 97, 103, 61, 49], rfl, by decide⟩) (by decide)
      (Or.inr ⟨_, rfl⟩) (by decide) 20 21 (by decide)⟩

/-- C8 as stated fails: in "a<x;tag=1;y>" the '<' does not begin a segment, and the
range returned for tag "tag" is [8,9), inside the section [1,12); in the value made of the quoted name "a,b" and ;tag=1 the
value returned, [10,11), lies after the ',' at offset 2, which is outside any section. -/
theorem sip_find_semi_section_scanned :
    sip_find_semi [97, 60, 120, 59, 116, 97, 103, 61, 49, 59, 121, 62] (some 0) (some 12)
        [116, 97, 103] = some (8, 9)
      ∧ sip_find_semi [34, 97, 44, 98, 34, 59, 116, 97, 103, 61, 49] (some 0) (some 11)
        [116, 97, 103] = some (10, 11) := by
  decide

/-! ## C9: `sip_find_host` -/

/-- C9: on scheme ':' userinfo '@' H [':' port] [';' params] (scheme a non-empty run of
letters; userinfo without '@', ';' or ','; port a run of digits; params without ','; H a
non-empty run of letters, digits, '.' and '-', or a bracketed literal whose inside has
none of ']', '@', ';', ',') `sip_find_host` returns exactly the range of H, brackets
included. -/
theorem sip_find_host_uri (pre scheme user host port params post : Bytes)
    (hscheme : scheme ≠ [] ∧ ∀ c ∈ scheme, isalpha c = true)
    (huser : ∀ c ∈ user, c ≠ 64 ∧ c ≠ 59 ∧ c ≠ 44)
    (hhost : (host ≠ [] ∧ ∀ c ∈ host, isHostChar c = true)
      ∨ ∃ lit, host = 91 :: (lit ++ [93]) ∧ ∀ c ∈ lit, c ≠ 93 ∧ c ≠ 64 ∧ c ≠ 59 ∧ c ≠ 44)
    (hport : port = [] ∨ ∃ ds, port = 58 :: ds ∧ ∀ c ∈ ds, isdigit c = true)
    (hparams : params = [] ∨ ∃ ps, params = 59 :: ps ∧ ∀ c ∈ ps, c ≠ 44) :
    sip_find_host (pre ++ (scheme ++ 58 :: (user ++ 64 :: (host ++ (port ++ (params ++ post))))))
        (some pre.length)
        (some (pre.length + (scheme.length + 1 + (user.length + 1
          + (host.length + (port.length + params.length))))))
      = some (pre.length + (scheme.length + 1 + (user.length + 1)),
          pre.length + (scheme.length + 1 + (user.length + 1)) + host.length)
    ∧ slice (pre ++ (scheme ++ 58 :: (user ++ 64 :: (host ++ (port ++ (params ++ post))))))
        (pre.length + (scheme.length + 1 + (user.length + 1)))
        (pre.length + (scheme.length + 1 + (user.length + 1)) + host.length) = host := by
  generalize hb : pre ++ (scheme ++ 58 :: (user ++ 64 :: (host ++ (port ++ (params ++ post)))))
    = b
  -- the positions of the parts
  obtain ⟨s, hs⟩ : ∃ s, s = pre.length := ⟨_, rfl⟩
  obtain ⟨p1, hp1⟩ : ∃ p1, p1 = s + scheme.length := ⟨_, rfl⟩
  obtain ⟨s1, hs1⟩ : ∃ s1, s1 = p1 + 1 := ⟨_, rfl⟩
  obtain ⟨a1, ha1⟩ : ∃ a1, a1 = s1 + user.length := ⟨_, rfl⟩
  obtain ⟨s2, hs2⟩ : ∃ s2, s2 = a1 + 1 := ⟨_, rfl⟩
  obtain ⟨h2, hh2⟩ : ∃ h2, h2 = s2 + host.length := ⟨_, rfl⟩
  obtain ⟨e1, he1⟩ : ∃ e1, e1 = h2 + port.length := ⟨_, rfl⟩
  obtain ⟨e, he⟩ : ∃ e, e = e1 + params.length := ⟨_, rfl⟩
  have hE : pre.length + (scheme.length + 1 + (user.length + 1
      + (host.length + (port.length + params.length)))) = e := by omega
  have hS2 : pre.length + (scheme.length + 1 + (user.length + 1)) = s2 := by omega
  rw [hE, hS2, ← hs, ← hh2]
  have hd_s : b.drop s = scheme ++ 58 :: (user ++ 64 :: (host ++ (port ++ (params ++ post)))) := by
    rw [← hb, hs]; simp
  have hd_p1 : b.drop p1 = 58 :: (user ++ 64 :: (host ++ (port ++ (params ++ post)))) := by
    rw [hp1]; exact drop_add_of_drop _ _ hd_s
  have hd_s1 : b.drop s1 = user ++ 64 :: (host ++ (port ++ (params ++ post))) := by
    rw [hs1]; exact drop_succ_of_drop hd_p1
  have hd_a1 : b.drop a1 = 64 :: (host ++ (port ++ (params ++ post))) := by
    rw [ha1]; exact drop_add_of_drop _ _ hd_s1
  have hd_s2 : b.drop s2 = host ++ (port ++ (params ++ post)) := by
    rw [hs2]; exact drop_succ_of_drop hd_a1
  have hd_h2 : b.drop h2 = port ++ (params ++ post) := by
    rw [hh2]; exact drop_add_of_drop _ _ hd_s2
  have hd_e1 : b.drop e1 = params ++ post := by
    rw [he1]; exact drop_add_of_drop _ _ hd_h2
  -- octets of the parts
  have hhost64 : ∀ c ∈ host, c ≠ 64 ∧ c ≠ 59 ∧ c ≠ 44 := by
    intro c hc
    rcases hhost with ⟨_, hh⟩ | ⟨lit, hl, hlit⟩
    · have := isHostChar_range (hh c hc); omega
    · rw [hl] at hc
      simp only [List.mem_cons, List.mem_append, List.mem_singleton, List.not_mem_nil,
        or_false] at hc
      rcases hc with h | h | h
      · omega
      · have := hlit c h; omega
      · omega
  have hport64 : ∀ c ∈ port, c ≠ 64 ∧ c ≠ 59 ∧ c ≠ 44 := by
    intro c hc
    rcases hport with h | ⟨ds, h, hds⟩
    · rw [h] at hc; exact absurd hc (List.not_mem_nil _)
    · rw [h] at hc
      rcases List.mem_cons.mp hc with h | h
      · omega
      · have := isdigit_range (hds c h); omega
  have hparams44 : ∀ c ∈ params, c ≠ 44 := by
    intro c hc
    rcases hparams with h | ⟨ps, h, hps⟩
    · rw [h] at hc; exact absurd hc (List.not_mem_nil _)
    · rw [h] at hc
      rcases List.mem_cons.mp hc with h | h
      · omega
      · exact hps c h
  have hscheme44 : ∀ c ∈ scheme, c ≠ 44 ∧ c ≠ 60 ∧ c ≠ 34 ∧ isLWS c = false := by
    intro c hc
    have := isalpha_range (hscheme.2 c hc)
    refine ⟨by omega, by omega, by omega, ?_⟩
    simp only [isLWS, Bool.or_eq_false_iff, beq_eq_false_iff_ne]
    omega
  obtain ⟨c0, sch, hsch⟩ : ∃ c0 sch, scheme = c0 :: sch := by
    cases hsc : scheme with
    | nil => exact absurd hsc hscheme.1
    | cons c0 sch => exact ⟨c0, sch, rfl⟩
  have hb_s : byteAt b s = c0 := byteAt_of_drop (by rw [hd_s, hsch]; rfl)
  have hc0 := hscheme44 c0 (by rw [hsch]; exact List.mem_cons_self _ _)
  have hse : s < e := by
    have : scheme.length = sch.length + 1 := by rw [hsch]; rfl
    omega
  -- sip_find_uri: no display name, no '<', no ','
  have hscanTok : scanWhile b isTokenChar s e = p1 := by
    rw [scanWhile_run b isTokenChar e _ scheme s hd_s
      (fun x hx => isTokenChar_of_isalpha (hscheme.2 x hx)) (by omega) (Or.inr rfl), hp1]
  have hdisp : skip_display b s e = s := by
    unfold skip_display
    simp only
    rw [skip_space_stop b s e (Or.inr (by rw [hb_s]; exact hc0.2.2.2)),
      if_neg (fun h => hc0.2.2.1 (hb_s ▸ h.2)),
      tokenLoop_break b e _ s p1 hse hscanTok (by omega)
        (by rw [byteAt_of_drop hd_p1]; decide),
      skip_space_stop b s e (Or.inr (by rw [hb_s]; exact hc0.2.2.2))]
  have hscanComma : scanWhile b (fun c => c != 44) s e = e := by
    have := scanWhile_run b (fun c => c != 44) e post
      (scheme ++ 58 :: (user ++ 64 :: (host ++ (port ++ params)))) s
      (by rw [hd_s]; simp)
      (fun x hx => by
        simp only [List.mem_cons, List.mem_append] at hx
        apply ne_of_bne
        rcases hx with h | h | h | h | h | h | h
        · exact (hscheme44 x h).1
        · omega
        · exact (huser x h).2.2
        · omega
        · exact (hhost64 x h).2.2
        · exact (hport64 x h).2.2
        · exact hparams44 x h)
      (by simp only [List.length_append, List.length_cons]; omega)
      (Or.inl (by simp only [List.length_append, List.length_cons]; omega))
    rw [this]
    simp only [List.length_append, List.length_cons]; omega
  have huri : find_uri b s e = some (s, e) := by
    unfold find_uri
    simp only
    have hn44 : ¬ (s < e ∧ byteAt b s = 44) := fun h => hc0.1 (hb_s ▸ h.2)
    have hn60 : ¬ (s < e ∧ byteAt b s = 60) := fun h => hc0.2.1 (hb_s ▸ h.2)
    have hne : ¬ s = e := by omega
    rw [hdisp, if_neg hn44, if_neg hn60, hscanComma]
    simp only
    rw [if_neg hne]
  -- sip_find_host: the scheme, the first ';', the last '@'
  have hscanAlpha : scanWhile b isalpha s e = p1 := by
    rw [scanWhile_run b isalpha e _ scheme s hd_s hscheme.2 (by omega) (Or.inr rfl), hp1]
  have hb_p1 : byteAt b p1 = 58 := byteAt_of_drop hd_p1
  have hscanSemi : scanWhile b (fun c => c != 59) s1 e = e1 := by
    have := scanWhile_run b (fun c => c != 59) e (params ++ post)
      (user ++ 64 :: (host ++ port)) s1 (by rw [hd_s1]; simp)
      (fun x hx => by
        simp only [List.mem_cons, List.mem_append] at hx
        apply ne_of_bne
        rcases hx with h | h | h | h
        · exact (huser x h).2.1
        · omega
        · exact (hhost64 x h).2.1
        · exact (hport64 x h).2.1)
      (by simp only [List.length_append, List.length_cons]; omega)
      (by
        rcases hparams with h | ⟨ps, h, _⟩
        · left; rw [h] at he; simp only [List.length_append, List.length_cons]
          simp only [List.length_nil] at he; omega
        · right; rw [h]; rfl)
    rw [this]
    simp only [List.length_append, List.length_cons]; omega
  have hscanAt : scanBack b (fun c => c != 64) s1 e1 = s2 := by
    have := scanBack_run b (fun c => c != 64) s1 (user ++ [64]) (params ++ post)
      (Or.inr ⟨user, 64, rfl, rfl⟩) (host ++ port) (by rw [hd_s1]; simp)
      (fun x hx => by
        apply ne_of_bne
        rcases List.mem_append.mp hx with h | h
        · exact (hhost64 x h).1
        · exact (hport64 x h).1)
    have hq : s1 + (user ++ [64]).length + (host ++ port).length = e1 := by
      simp only [List.length_append, List.length_cons, List.length_nil]; omega
    rw [hq] at this
    rw [this]
    simp only [List.length_append, List.length_cons, List.length_nil]; omega
  have hhostlen : 0 < host.length := by
    rcases hhost with ⟨hne, _⟩ | ⟨lit, hl, _⟩
    · exact List.length_pos.mpr hne
    · rw [hl]; simp
  have hhostScan : (if s2 < e1 ∧ byteAt b s2 = 91 then
        (if scanWhile b (fun c => c != 93) s2 e1 < e1
            ∧ byteAt b (scanWhile b (fun c => c != 93) s2 e1) = 93
          then scanWhile b (fun c => c != 93) s2 e1 + 1
          else scanWhile b (fun c => c != 93) s2 e1)
      else scanWhile b isHostChar s2 e1) = h2 := by
    rcases hhost with ⟨hne, hh⟩ | ⟨lit, hl, hlit⟩
    · obtain ⟨c, hs', hc⟩ : ∃ c hs', host = c :: hs' := by
        cases hc : host with
        | nil => exact absurd hc hne
        | cons c hs' => exact ⟨c, hs', rfl⟩
      have hbc : byteAt b s2 = c := byteAt_of_drop (by rw [hd_s2, hc]; rfl)
      have hc91 : c ≠ 91 := by
        have := isHostChar_range (hh c (by rw [hc]; exact List.mem_cons_self _ _)); omega
      have hn : ¬ (s2 < e1 ∧ byteAt b s2 = 91) := fun h => hc91 (hbc ▸ h.2)
      rw [if_neg hn, scanWhile_run b isHostChar e1 _ host s2 hd_s2 hh (by omega)
        (by
          rcases hport with h | ⟨ds, h, _⟩
          · left; rw [h] at he1; simp only [List.length_nil] at he1; omega
          · right; rw [h]; rfl), hh2]
    · have hbc : byteAt b s2 = 91 := byteAt_of_drop (by rw [hd_s2, hl]; rfl)
      have hlen : host.length = lit.length + 2 := by rw [hl]; simp
      have hscan : scanWhile b (fun c => c != 93) s2 e1 = s2 + (lit.length + 1) := by
        have := scanWhile_run b (fun c => c != 93) e1 (93 :: (port ++ (params ++ post)))
          (91 :: lit) s2 (by rw [hd_s2, hl]; simp)
          (fun x hx => by
            apply ne_of_bne
            rcases List.mem_cons.mp hx with h | h
            · omega
            · exact (hlit x h).1)
          (by simp only [List.length_cons]; omega) (Or.inr rfl)
        simpa using this
      have hb93 : byteAt b (s2 + (lit.length + 1)) = 93 := by
        have := drop_add_of_drop (91 :: lit) (93 :: (port ++ (params ++ post)))
          (by rw [hd_s2, hl]; simp)
        exact byteAt_of_drop (by simpa using this)
      have hp : s2 < e1 ∧ byteAt b s2 = 91 := ⟨by omega, hbc⟩
      have hq : s2 + (lit.length + 1) < e1 ∧ byteAt b (s2 + (lit.length + 1)) = 93 :=
        ⟨by omega, hb93⟩
      rw [if_pos hp, hscan, if_pos hq]
      omega
  have hcolon : p1 < e ∧ byteAt b p1 = 58 := ⟨by omega, hb_p1⟩
  have hne : ¬ s2 = h2 := by omega
  refine ⟨?_, ?_⟩
  · unfold sip_find_host
    simp only [rangeEnd, huri]
    rw [hscanAlpha, if_pos hcolon, ← hs1, hscanSemi, hscanAt, hhostScan, if_neg hne]
  · unfold slice
    rw [hd_s2, hh2]
    simp


/-- C9 on the spec's example: "sip:user@[2001:db8::1]:5060;lr" gives the range [9,22),
"[2001:db8::1]". -/
theorem sip_find_host_uri_witness :
    sip_find_host [115, 105, 112, 58, 117, 115, 101, 114, 64, 91, 50, 48, 48, 49, 58, 100, 98,
        56, 58, 58, 49, 93, 58, 53, 48, 54, 48, 59, 108, 114] (some 0) (some 30) = some (9, 22)
      ∧ slice [115, 105, 112, 58, 117, 115, 101, 114, 64, 91, 50, 48, 48, 49, 58, 100, 98,
        56, 58, 58, 49, 93, 58, 53, 48, 54, 48, 59, 108, 114] 9 22
        = [91, 50, 48, 48, 49, 58, 100, 98, 56, 58, 58, 49, 93] :=
  sip_find_host_uri [] [115, 105, 112] [117, 115, 101, 114]
    [91, 50, 48, 48, 49, 58, 100, 98, 56, 58, 58, 49, 93] [58, 53, 48, 54, 48] [59, 108, 114] []
    ⟨by decide, by decide⟩ (by decide)
    (Or.inr ⟨[50, 48, 48, 49, 58, 100, 98, 56, 58, 58, 49], rfl, by decide⟩)
    (Or.inr ⟨[53, 48, 54, 48], rfl, by decide⟩) (Or.inr ⟨[108, 114], rfl, by decide⟩)

/-! ## C10: `sip_find_uri` -/

/-- C10: for a header value made of an optional display name (a quoted string, which may
hold '<', '>' or ',', or a run of tokens each followed by a space), then '<' U '>' and
anything after, with U non-empty and free of '>', `sip_find_uri` returns exactly the
range of U; for a value that begins with neither a display name nor '<', it returns the
range from the first non-space octet up to the next ',' or the end (`UriValue` lists
both forms with the offsets of the range). -/
theorem sip_find_uri_value (pre val post : Bytes) (st en : Nat) (h : UriValue val st en) :
    sip_find_uri (pre ++ (val ++ post)) (some pre.length) (some (pre.length + val.length))
      = some (pre.length + st, pre.length + en) := by
  generalize hb : pre ++ (val ++ post) = b
  have hd : b.drop pre.length = val ++ post := by rw [← hb]; simp
  cases h with
  | angle ws disp U rest hws hdisp hU hU62 =>
    simp only [List.length_append, List.length_cons] at hd ⊢
    have hd0 : b.drop pre.length = ws ++ (disp ++ 60 :: (U ++ 62 :: (rest ++ post))) := by
      rw [hd]; simp
    have hUl : 0 < U.length := List.length_pos.mpr hU
    have hskip := skip_display_display b
      (pre.length + (ws.length + (disp.length + (U.length + (rest.length + 1) + 1))))
      pre.length ws disp 60 _ hws hdisp (by decide) (by decide) (by decide) hd0 (by omega)
    have hd1 : b.drop (pre.length + ws.length + disp.length)
        = 60 :: (U ++ 62 :: (rest ++ post)) :=
      drop_add_of_drop _ _ (drop_add_of_drop _ _ hd0)
    have hb1 : byteAt b (pre.length + ws.length + disp.length) = 60 := byteAt_of_drop hd1
    have hscan : scanWhile b (fun c => c != 62) (pre.length + ws.length + disp.length + 1)
        (pre.length + (ws.length + (disp.length + (U.length + (rest.length + 1) + 1))))
        = pre.length + ws.length + disp.length + 1 + U.length :=
      scanWhile_run b (fun c => c != 62) _ _ U _ (drop_succ_of_drop hd1)
        (fun x hx => ne_of_bne (hU62 x hx)) (by omega) (Or.inr rfl)
    have hn44 : ¬ (pre.length + ws.length + disp.length
          < pre.length + (ws.length + (disp.length + (U.length + (rest.length + 1) + 1)))
        ∧ byteAt b (pre.length + ws.length + disp.length) = 44) :=
      fun h => by rw [hb1] at h; exact absurd h.2 (by decide)
    have hy60 : pre.length + ws.length + disp.length
          < pre.length + (ws.length + (disp.length + (U.length + (rest.length + 1) + 1)))
        ∧ byteAt b (pre.length + ws.length + disp.length) = 60 := ⟨by omega, hb1⟩
    have hne : ¬ pre.length + ws.length + disp.length + 1
        = pre.length + ws.length + disp.length + 1 + U.length := by omega
    unfold sip_find_uri find_uri
    simp only [rangeEnd]
    rw [hskip, if_neg hn44, if_pos hy60, hscan]
    simp only
    rw [if_neg hne]
    congr 2 <;> omega
  | plain ws w tail hws hw hw44 hhead htok htail =>
    simp only [List.length_append] at hd ⊢
    have hd0 : b.drop pre.length = ws ++ (w ++ (tail ++ post)) := by
      rw [hd]; simp
    have hskip := skip_display_plain b (pre.length + (ws.length + (w.length + tail.length)))
      pre.length ws w tail post hws hw hhead htok htail hd0 (by omega)
    obtain ⟨w0, wr, hw0⟩ : ∃ w0 wr, w = w0 :: wr := by
      cases hc : w with
      | nil => exact absurd hc hw
      | cons w0 wr => exact ⟨w0, wr, rfl⟩
    have hh := hhead w0 (by rw [hw0]; rfl)
    have hwl : 0 < w.length := List.length_pos.mpr hw
    have hd1 : b.drop (pre.length + ws.length) = w ++ (tail ++ post) :=
      drop_add_of_drop _ _ hd0
    have hb1 : byteAt b (pre.length + ws.length) = w0 := byteAt_of_drop (by rw [hd1, hw0]; rfl)
    have hscan : scanWhile b (fun c => c != 44) (pre.length + ws.length)
        (pre.length + (ws.length + (w.length + tail.length)))
        = pre.length + ws.length + w.length :=
      scanWhile_run b (fun c => c != 44) _ _ w _ hd1
        (fun x hx => ne_of_bne (hw44 x hx)) (by omega)
        (by
          rcases htail with ht | ⟨t, ht⟩
          · left; rw [ht]; simp only [List.length_nil]; omega
          · right; rw [ht]; rfl)
    have hn44 : ¬ (pre.length + ws.length
          < pre.length + (ws.length + (w.length + tail.length))
        ∧ byteAt b (pre.length + ws.length) = 44) :=
      fun h => hw44 w0 (by rw [hw0]; exact List.mem_cons_self _ _) (hb1 ▸ h.2)
    have hn60 : ¬ (pre.length + ws.length
          < pre.length + (ws.length + (w.length + tail.length))
        ∧ byteAt b (pre.length + ws.length) = 60) :=
      fun h => hh.2.2 (hb1 ▸ h.2)
    have hne : ¬ pre.length + ws.length = pre.length + ws.length + w.length := by omega
    unfold sip_find_uri find_uri
    simp only [rangeEnd]
    rw [hskip, if_neg hn44, if_neg hn60, hscan]
    simp only
    rw [if_neg hne]
    congr 2; omega


/-- C10 on the spec's example: in "Alice" (quoted), SP, <mailto:alice@x>;project=demo the
URI is the range [9,23), mailto:alice@x; and in sip:a@b,c without display name the URI
is the range [0,7), up to the ','. -/
theorem sip_find_uri_value_witness :
    sip_find_uri [34, 65, 108, 105, 99, 101, 34, 32, 60, 109, 97, 105, 108, 116, 111, 58, 97,
        108, 105, 99, 101, 64, 120, 62, 59, 112, 114, 111, 106, 101, 99, 116, 61, 100, 101,
        109, 111] (some 0) (some 37) = some (9, 23)
      ∧ sip_find_uri [115, 105, 112, 58, 97, 64, 98, 44, 99] (some 0) (some 9) = some (0, 7) := by
  have h1 := sip_find_uri_value [] _ [] _ _
    (UriValue.angle [] [34, 65, 108, 105, 99, 101, 34, 32]
      [109, 97, 105, 108, 116, 111, 58, 97, 108, 105, 99, 101, 64, 120]
      [59, 112, 114, 111, 106, 101, 99, 116, 61, 100, 101, 109, 111] (by decide)
      (Display.quoted [65, 108, 105, 99, 101] [32]
        (QuotedBody.plain _ _ (by decide) (by decide)
          (QuotedBody.plain _ _ (by decide) (by decide)
            (QuotedBody.plain _ _ (by decide) (by decide)
              (QuotedBody.plain _ _ (by decide) (by decide)
                (QuotedBody.plain _ _ (by decide) (by decide) QuotedBody.nil)))))
        (by decide))
      (by decide) (by decide))
  have h2 := sip_find_uri_value [] _ [] _ _
    (UriValue.plain [] [115, 105, 112, 58, 97, 64, 98] [44, 99] (by decide) (by decide)
      (by decide) (by decide) (by decide) (Or.inr ⟨[99], rfl⟩))
  exact ⟨by simpa using h1, by simpa using h2⟩

/-! ## C11: `sip_find_display` -/

/-- C11, counterexample: on the value `"a " <x>` (a quoted string whose content ends
with a space) `sip_find_display` returns the range `[1,3)`, the content "a " of the
quoted string, and the last octet of that range is a space: the white space that is
trimmed is the white space after the closing quote, not the white space inside the
quotes. -/
theorem sip_find_display_keeps_inner_space :
    sip_find_display [34, 97, 32, 34, 32, 60, 120, 62] (some 0) none = some (1, 3) ∧
      slice [34, 97, 32, 34, 32, 60, 120, 62] 1 3 = [97, 32] ∧
      isLWS (byteAt [34, 97, 32, 34, 32, 60, 120, 62] (3 - 1)) = true := by
  decide

/-- C11, amended: on a value that, after white space, begins with a quoted string closed
by a '"' (a backslash keeps the octet after it inside the string), `sip_find_display`
returns the range between the two quotes, whatever follows the string: the white space
after the closing quote is left out, white space inside the quotes is kept. On a run of
tokens, each followed by a space, and then '<', it returns the run without the white
space at its end. On a value that begins with '<', and on a single atom (octets other
than white space, the first not '"') that ends the range, it returns absent.
`DisplayValue` lists the four forms with the offsets of the result. -/
theorem sip_find_display_value (pre val post : Bytes) (r : Option (Nat × Nat))
    (h : DisplayValue val r) :
    sip_find_display (pre ++ (val ++ post)) (some pre.length) (some (pre.length + val.length))
      = r.map (fun x => (pre.length + x.1, pre.length + x.2)) := by
  generalize hb : pre ++ (val ++ post) = b
  have hd : b.drop pre.length = val ++ post := by rw [← hb]; simp
  cases h with
  | quoted ws body tail hws hbody =>
    have hd0 : b.drop pre.length = ws ++ (34 :: (body ++ 34 :: (tail ++ post))) := by
      rw [hd]; simp
    rw [sip_find_display_quoted b pre.length _ ws body tail post hws hbody hd0
      (by simp only [List.length_append, List.length_cons]; omega)]
    simp only [Option.map_some', Option.some.injEq, Prod.mk.injEq]
    exact ⟨Nat.add_assoc _ _ _, by simp only [Nat.add_assoc]⟩
  | tokens ws toks tok w rest hws htoks =>
    have hd0 : b.drop pre.length
        = ws ++ (renderTokens (toks ++ [(tok, w)]) ++ 60 :: (rest ++ post)) := by
      rw [hd]; simp
    rw [sip_find_display_tokens b pre.length _ ws toks tok w rest post hws htoks hd0
      (by simp only [List.length_append, List.length_cons]; omega)]
    simp only [Option.map_some', Option.some.injEq, Prod.mk.injEq]
    exact ⟨trivial, by simp only [Nat.add_assoc]⟩
  | angle ws rest hws =>
    have hd0 : b.drop pre.length = ws ++ (60 :: (rest ++ post)) := by
      rw [hd]; simp
    have hd1 : b.drop (pre.length + ws.length) = 60 :: (rest ++ post) :=
      drop_add_of_drop _ _ hd0
    have hb1 : byteAt b (pre.length + ws.length) = 60 := byteAt_of_drop hd1
    have hlt : pre.length + ws.length < pre.length + (ws ++ 60 :: rest).length := by
      simp only [List.length_append, List.length_cons]; omega
    have hskip0 : skip_space b pre.length (pre.length + (ws ++ 60 :: rest).length)
        = pre.length + ws.length :=
      scanWhile_run b isLWS _ _ ws _ hd0 hws (by omega) (Or.inr rfl)
    have hsd := skip_display_stop b (pre.length + ws.length) _ hlt (by rw [hb1]; rfl)
      (by rw [hb1]; decide) (by rw [hb1]; rfl)
    rw [sip_find_display_none b _ _ _ hskip0 hsd]
    rfl
  | atom ws a ws2 hws ha hal hq hws2 =>
    have hd0 : b.drop pre.length = ws ++ (a ++ (ws2 ++ post)) := by
      rw [hd]; simp
    obtain ⟨a0, ar, ha0⟩ : ∃ a0 ar, a = a0 :: ar := by
      cases hc : a with
      | nil => exact absurd hc ha
      | cons a0 ar => exact ⟨a0, ar, rfl⟩
    have h0l : isLWS a0 = false := hal a0 (by rw [ha0]; exact List.mem_cons_self _ _)
    have hskip0 : skip_space b pre.length (pre.length + (ws ++ (a ++ ws2)).length)
        = pre.length + ws.length :=
      scanWhile_run b isLWS _ _ ws _ hd0 hws
        (by simp only [List.length_append]; omega) (Or.inr (by rw [ha0]; exact h0l))
    have hd1 : b.drop (pre.length + ws.length) = [] ++ (a ++ (ws2 ++ post)) :=
      drop_add_of_drop _ _ hd0
    have hsd := skip_display_atom b (pre.length + (ws ++ (a ++ ws2)).length)
      (pre.length + ws.length) [] a ws2 post (by simp) ha hal hq hws2 hd1
      (by simp only [List.length_append, List.length_nil]; omega)
    rw [sip_find_display_none b _ _ _ hskip0 (by simpa using hsd)]
    rfl

theorem sip_find_display_value_witness :
    sip_find_display [32, 34, 97, 92, 34, 98, 34, 32, 32, 60, 120, 62] (some 0) (some 12)
        = some (2, 6)
      ∧ sip_find_display [65, 108, 32, 66, 111, 98, 32, 32, 60, 120, 62] (some 0) (some 11)
        = some (0, 6)
      ∧ sip_find_display [32, 60, 120, 62] (some 0) (some 4) = none
      ∧ sip_find_display [32, 104, 46, 120, 32] (some 0) (some 5) = none := by
  have h1 := sip_find_display_value [] _ [] _
    (DisplayValue.quoted [32] [97, 92, 34, 98] [32, 32, 60, 120, 62] (by decide)
      (QuotedBody.plain _ _ (by decide) (by decide)
        (QuotedBody.escaped _ _ (QuotedBody.plain _ _ (by decide) (by decide) QuotedBody.nil))))
  have h2 := sip_find_display_value [] _ [] _
    (DisplayValue.tokens [] [([65, 108], [])] [66, 111, 98] [32] [120, 62] (by decide)
      (by decide))
  have h3 := sip_find_display_value [] _ [] _ (DisplayValue.angle [32] [120, 62] (by decide))
  have h4 := sip_find_display_value [] _ [] _
    (DisplayValue.atom [32] [104, 46, 120] [32] (by decide) (by decide) (by decide)
      (by decide) (by decide))
  exact ⟨by simpa using h1, by simpa using h2, by simpa using h3, by simpa using h4⟩

/-! ## C12: `sip_find_list` -/

/-- C12, counterexample: on the list "<>,a" `sip_find_list` returns absent, although the
list has the element "<>" that ends at the ',' at position 2 and, after it, the element
"a" (which a call from position 2 returns): `sip_find_uri` finds no URI in the empty
"<>" and stores `NULL` into the position of the element loop, and `sip_find_list`
returns that `NULL`. -/
theorem sip_find_list_empty_angle :
    sip_find_list [60, 62, 44, 97] (some 0) none = none ∧
      sip_find_list [60, 62, 44, 97] (some 2) none = some (3, 4) := by
  decide

/-- C12, amended: after white space and commas (empty elements), on an element made of
octets other than ',', '"' and '<', of quoted strings and of sections in angle brackets
that are closed and not empty (`ListElem`), followed by ',' or by the end of the range,
`sip_find_list` returns the range of the element: it ends at the first ',' that is
neither inside a quoted string nor inside angle brackets. Iterating it, each call from
the end that the call before has returned, over pieces without quotes, '<', ',' and
white space that are joined by ',' yields exactly the ranges of the non-empty pieces, in
order, and the call after the last of them returns absent. -/
theorem sip_find_list_elements :
    (∀ (pre lead el tail post : Bytes), (∀ c ∈ lead, isLWS c = true ∨ c = 44) →
      ListElem el → el ≠ [] → (∀ c, el.head? = some c → isLWS c = false) →
      (tail = [] ∨ ∃ t, tail = 44 :: t) →
      sip_find_list (pre ++ (lead ++ (el ++ (tail ++ post)))) (some pre.length)
          (some (pre.length + (lead ++ (el ++ tail)).length))
        = some (pre.length + lead.length, pre.length + lead.length + el.length)) ∧
    (∀ (pre post : Bytes) (pieces : List Bytes) (fuel : Nat),
      (∀ x ∈ pieces, ∀ c ∈ x, isLWS c = false ∧ c ≠ 44 ∧ c ≠ 34 ∧ c ≠ 60) →
      pieces.length < fuel →
      find_list_all (pre ++ (joinComma pieces ++ post))
          (pre.length + (joinComma pieces).length) fuel pre.length
        = pieceRanges pre.length pieces ∧
      sip_find_list (pre ++ (joinComma pieces ++ post))
          (some (lastEnd pre.length (pieceRanges pre.length pieces)))
          (some (pre.length + (joinComma pieces).length)) = none) := by
  constructor
  · intro pre lead el tail post hlead hel hne hhead htail
    generalize hb : pre ++ (lead ++ (el ++ (tail ++ post))) = b
    have hd : b.drop pre.length = lead ++ (el ++ (tail ++ post)) := by rw [← hb]; simp
    refine sip_find_list_element b pre.length _ lead el (tail ++ post) hlead hel hne hhead hd
      (by simp only [List.length_append]; omega) ?_
    rcases htail with h | ⟨t, h⟩
    · exact Or.inl (by rw [h]; simp only [List.length_append, List.length_nil]; omega)
    · exact Or.inr (by rw [h]; rfl)
  · intro pre post pieces fuel hp hfuel
    generalize hb : pre ++ (joinComma pieces ++ post) = b
    have hd : b.drop pre.length = [] ++ (joinComma pieces ++ post) := by rw [← hb]; simp
    have h1 := find_list_all_pieces b (pre.length + (joinComma pieces).length) post pieces []
      pre.length fuel (by simp) hp hd (by simp) hfuel
    simp only [List.length_nil, Nat.add_zero] at h1
    refine ⟨h1, ?_⟩
    have h2 := find_list_all_ends b (pre.length + (joinComma pieces).length) fuel pre.length
      (by rw [h1]; exact Nat.lt_of_le_of_lt (pieceRanges_length pieces _) hfuel)
    rw [h1] at h2
    exact h2

theorem sip_find_list_elements_witness :
    sip_find_list [34, 83, 109, 105, 116, 104, 44, 32, 74, 34, 32, 60, 115, 105, 112, 58, 97,
        44, 98, 64, 99, 62, 44, 32, 60, 115, 105, 112, 58, 100, 64, 101, 62] (some 0) (some 33)
      = some (0, 22) := by
  have h := sip_find_list_elements.1 [] []
    [34, 83, 109, 105, 116, 104, 44, 32, 74, 34, 32, 60, 115, 105, 112, 58, 97, 44, 98, 64, 99,
      62]
    [44, 32, 60, 115, 105, 112, 58, 100, 64, 101, 62] [] (by simp)
    (ListElem.quoted [83, 109, 105, 116, 104, 44, 32, 74]
      [32, 60, 115, 105, 112, 58, 97, 44, 98, 64, 99, 62]
      (QuotedBody.plain _ _ (by decide) (by decide)
        (QuotedBody.plain _ _ (by decide) (by decide)
          (QuotedBody.plain _ _ (by decide) (by decide)
            (QuotedBody.plain _ _ (by decide) (by decide)
              (QuotedBody.plain _ _ (by decide) (by decide)
                (QuotedBody.plain _ _ (by decide) (by decide)
                  (QuotedBody.plain _ _ (by decide) (by decide)
                    (QuotedBody.plain _ _ (by decide) (by decide) QuotedBody.nil))))))))
      (ListElem.plain 32 _ (by decide) (by decide) (by decide)
        (ListElem.angle [115, 105, 112, 58, 97, 44, 98, 64, 99] [] (by decide) (by decide)
          ListElem.nil)))
    (by decide) (by decide) (Or.inr ⟨_, rfl⟩)
  simpa using h

/-! ## C13: `sip_find_local` -/

/-- C13: for a range `[s,e)` with `s ≤ e` (the end possibly given by the terminating NUL),
let `s1` be `s + 4` when the range starts with "sip:" in any letter case and `s` otherwise.
`sip_find_local` returns absent exactly when no '@' lies in `[s1,e)`, and when `a` is the
position of the first '@' of `[s1,e)` it returns the range `[s1,a)`. -/
theorem sip_find_local_first_at (b : Bytes) (s : Nat) (e : Option Nat)
    (hse : s ≤ rangeEnd b s e) :
    (sip_find_local b (some s) e = none ↔
      ∀ i, (if startsWithSip b s (rangeEnd b s e) then s + 4 else s) ≤ i →
        i < rangeEnd b s e → byteAt b i ≠ 64) ∧
    ∀ a, (if startsWithSip b s (rangeEnd b s e) then s + 4 else s) ≤ a →
      a < rangeEnd b s e → byteAt b a = 64 →
      (∀ i, (if startsWithSip b s (rangeEnd b s e) then s + 4 else s) ≤ i → i < a →
        byteAt b i ≠ 64) →
      sip_find_local b (some s) e
        = some (if startsWithSip b s (rangeEnd b s e) then s + 4 else s, a) := by
  obtain ⟨e1, he1⟩ : ∃ e1, e1 = rangeEnd b s e := ⟨_, rfl⟩
  obtain ⟨s1, hs1⟩ : ∃ s1, s1 = if startsWithSip b s e1 then s + 4 else s := ⟨_, rfl⟩
  rw [← he1] at hse ⊢
  rw [← hs1]
  have hcode : (if s + 4 ≤ e1 ∧ strncasecmp b s [115, 105, 112, 58] 0 4 = 0 then s + 4
      else s) = s1 := by
    rw [hs1]
    by_cases h : startsWithSip b s e1 = true
    · rw [if_pos ((sip_prefix_test b s e1).mpr h), if_pos h]
    · rw [if_neg (fun h2 => h ((sip_prefix_test b s e1).mp h2)), if_neg h]
  have hs1e : s1 ≤ e1 := by
    rw [hs1]
    by_cases h : startsWithSip b s e1 = true
    · rw [if_pos h]; exact ((sip_prefix_test b s e1).mpr h).1
    · rw [if_neg h]; exact hse
  have hval : sip_find_local b (some s) e
      = if scanWhile b (fun c => c != 64) s1 e1 = e1 then none
        else some (s1, scanWhile b (fun c => c != 64) s1 e1) := by
    simp only [sip_find_local, ← he1, hcode]
  obtain ⟨a0, ha0⟩ : ∃ a0, a0 = scanWhile b (fun c => c != 64) s1 e1 := ⟨_, rfl⟩
  rw [← ha0] at hval
  have hge : s1 ≤ a0 := ha0 ▸ scanWhile_ge' b _ s1 e1
  have hle : a0 ≤ e1 := ha0 ▸ scanWhile_le' b _ s1 e1 hs1e
  have hpass : ∀ i, s1 ≤ i → i < a0 → byteAt b i ≠ 64 := by
    intro i h1 h2
    have := scanWhile_passed b (fun c => c != 64) e1 _ s1 rfl i h1 (ha0 ▸ h2)
    simpa using this
  have hstop : a0 < e1 → byteAt b a0 = 64 := by
    intro h
    have := scanWhile_at_stop b (fun c => c != 64) e1 _ s1 rfl (ha0 ▸ h)
    rw [← ha0] at this
    simpa using this
  rw [hval]
  constructor
  · constructor
    · intro h i h1 h2
      by_cases hae : a0 = e1
      · exact hpass i h1 (by omega)
      · rw [if_neg hae] at h
        exact absurd h (by simp)
    · intro h
      by_cases hae : a0 = e1
      · rw [if_pos hae]
      · exact absurd (hstop (by omega)) (h a0 hge (by omega))
  · intro a h1 h2 h3 h4
    have hlt : a0 < e1 := by
      by_contra hc
      exact hpass a h1 (by omega) h3
    have haa : a0 = a := by
      by_contra hne
      rcases Nat.lt_or_gt_of_ne hne with h | h
      · exact h4 a0 hge h (hstop hlt)
      · exact hpass a h1 h h3
    rw [if_neg (by omega), haa]

theorem sip_find_local_first_at_witness :
    sip_find_local [83, 73, 80, 58, 102, 114, 101, 100, 64, 120] (some 0) none
      = some (4, 8) := by
  have h := (sip_find_local_first_at [83, 73, 80, 58, 102, 114, 101, 100, 64, 120] 0 none
    (by decide)).2 8 (by decide) (by decide) (by decide) (by decide)
  exact h

/-! ## C14: an absent range end -/

/-- C14: on the NUL-terminated input "<x>;tag=1" `sip_find_semi` with the end absent
returns `NULL`, and with the end at the terminating zero (position 9) it returns the
value "1" of the parameter "tag": the function lacks the line
`if (!e) e = s + strlen (s);` that the other eight scanners have. For each of those eight
the result with the end absent is the result with the end at the terminating zero. -/
theorem sip_find_semi_absent_end :
    sip_find_semi [60, 120, 62, 59, 116, 97, 103, 61, 49] (some 0) none [116, 97, 103] = none ∧
    strlen [60, 120, 62, 59, 116, 97, 103, 61, 49] 0 = 9 ∧
    sip_find_semi [60, 120, 62, 59, 116, 97, 103, 61, 49] (some 0) (some 9) [116, 97, 103]
      = some (8, 9) ∧
    (∀ (b : Bytes) (s : Nat),
      sip_skip_space b (some s) none = sip_skip_space b (some s) (some (s + strlen b s)) ∧
      sip_skip_display b (some s) none = sip_skip_display b (some s) (some (s + strlen b s)) ∧
      sip_find_display b (some s) none = sip_find_display b (some s) (some (s + strlen b s)) ∧
      sip_find_local b (some s) none = sip_find_local b (some s) (some (s + strlen b s)) ∧
      sip_find_uri b (some s) none = sip_find_uri b (some s) (some (s + strlen b s)) ∧
      sip_find_host b (some s) none = sip_find_host b (some s) (some (s + strlen b s)) ∧
      (∀ (fuel : Nat) (tag : Bytes), sip_find_comma fuel b (some s) none tag
        = sip_find_comma fuel b (some s) (some (s + strlen b s)) tag) ∧
      sip_find_list b (some s) none = sip_find_list b (some s) (some (s + strlen b s))) := by
  refine ⟨by decide, by decide, by decide, ?_⟩
  intro b s
  exact ⟨rfl, rfl, rfl, rfl, rfl, rfl, fun _ _ => rfl, rfl⟩

/-! ## C15: the results of the scanners lie within the input range -/

/-- C15: for each of the nine scanners and every range `[s,e)` with `s ≤ e`, the end given
or, where the scanner allows it, absent with the terminating NUL at `e`, a present result
`[st,en)` satisfies `s ≤ st`, `st ≤ en` and `en ≤ e`. The loop of `sip_find_comma` need
not end: the statement is about the result of a run of any number of iterations. -/
theorem scanner_results_in_range (b : Bytes) (s e : Nat) (hse : s ≤ e) (st en : Nat) :
    (sip_find_request b (some s) e = some (st, en) → s ≤ st ∧ st ≤ en ∧ en ≤ e) ∧
    (∀ eo, rangeEnd b s eo = e → sip_find_display b (some s) eo = some (st, en) →
      s ≤ st ∧ st ≤ en ∧ en ≤ e) ∧
    (∀ eo, rangeEnd b s eo = e → sip_find_local b (some s) eo = some (st, en) →
      s ≤ st ∧ st ≤ en ∧ en ≤ e) ∧
    (∀ eo, rangeEnd b s eo = e → sip_find_uri b (some s) eo = some (st, en) →
      s ≤ st ∧ st ≤ en ∧ en ≤ e) ∧
    (∀ eo, rangeEnd b s eo = e → sip_find_host b (some s) eo = some (st, en) →
      s ≤ st ∧ st ≤ en ∧ en ≤ e) ∧
    (∀ eo tag, rangeEnd b s eo = e → sip_find_semi b (some s) eo tag = some (st, en) →
      s ≤ st ∧ st ≤ en ∧ en ≤ e) ∧
    (∀ eo fuel tag, rangeEnd b s eo = e →
      sip_find_comma fuel b (some s) eo tag = some (some (st, en)) →
      s ≤ st ∧ st ≤ en ∧ en ≤ e) ∧
    (∀ eo, rangeEnd b s eo = e → sip_find_list b (some s) eo = some (st, en) →
      s ≤ st ∧ st ≤ en ∧ en ≤ e) ∧
    (∀ head alt prev, sip_find_header b (some s) e head alt prev = some (st, en) →
      s ≤ st ∧ st ≤ en ∧ en ≤ e) := by
  refine ⟨sip_find_request_bounds b s e hse st en, ?_, ?_, ?_, ?_, ?_, ?_, ?_, ?_⟩
  · intro eo he h
    have := sip_find_display_bounds b s eo (by rw [he]; exact hse) st en h
    rw [he] at this; exact this
  · intro eo he h
    have := sip_find_local_bounds b s eo (by rw [he]; exact hse) st en h
    rw [he] at this; exact this
  · intro eo he h
    have := sip_find_uri_bounds b s eo (by rw [he]; exact hse) st en h
    rw [he] at this; exact this
  · intro eo he h
    have := sip_find_host_bounds b s eo (by rw [he]; exact hse) st en h
    rw [he] at this; exact this
  · intro eo tag he h
    cases eo with
    | none => exact absurd h (by simp [sip_find_semi, sip_skip_display])
    | some e1 =>
      have he1 : e1 = e := he
      subst he1
      exact sip_find_semi_bounds b s e1 tag hse st en h
  · intro eo fuel tag he h
    have := sip_find_comma_bounds fuel b s eo tag (by rw [he]; exact hse) st en h
    rw [he] at this; exact this
  · intro eo he h
    have := sip_find_list_bounds b s eo (by rw [he]; exact hse) st en h
    rw [he] at this; exact this
  · intro head alt prev h
    exact sip_find_header_bounds b s e head alt prev hse st en h

theorem scanner_results_in_range_witness :
    sip_find_local [83, 73, 80, 58, 102, 114, 101, 100, 64, 120] (some 0) none = some (4, 8) ∧
      (0 ≤ 4 ∧ 4 ≤ 8 ∧ 8 ≤ 10) :=
  ⟨by decide, (scanner_results_in_range [83, 73, 80, 58, 102, 114, 101, 100, 64, 120] 0 10
    (by decide) 4 8).2.2.1 none (by decide) (by decide)⟩

/-! ## C16: `sip_deescape` and its output limit -/

/-- C16: for a present input and an output limit `et - t` of at least 1, `sip_deescape`
returns a length `n` with `n + 1 ≤ et - t`, the least of the full length and `et - t - 1`; the `n` octets it has stored are the first
`n` of the octets that it stores when the limit is larger than the input is long (a run
that the limit does not stop); and the octet after them is NUL. -/
theorem sip_deescape_limit (src out out2 : Bytes) (t et t2 et2 f : Nat) (ef : Option Nat)
    (hL : t + 1 ≤ et) (hlen : et ≤ out.length) (hlen2 : et2 ≤ out2.length)
    (hbig : t2 + (rangeEnd src f ef - f) < et2) :
    (sip_deescape out t et src (some f) ef).2 + 1 ≤ et - t ∧
    (sip_deescape out t et src (some f) ef).2
      = min (sip_deescape out2 t2 et2 src (some f) ef).2 (et - t - 1) ∧
    slice (sip_deescape out t et src (some f) ef).1 t
        (t + (sip_deescape out t et src (some f) ef).2)
      = (slice (sip_deescape out2 t2 et2 src (some f) ef).1 t2
          (t2 + (sip_deescape out2 t2 et2 src (some f) ef).2)).take
          (sip_deescape out t et src (some f) ef).2 ∧
    byteAt (sip_deescape out t et src (some f) ef).1
      (t + (sip_deescape out t et src (some f) ef).2) = 0 := by
  obtain ⟨d, hd⟩ : ∃ d, d = decodeFrom src (rangeEnd src f ef) (rangeEnd src f ef - f) f :=
    ⟨_, rfl⟩
  have hdl : d.length ≤ rangeEnd src f ef - f := hd ▸ decodeFrom_length src _ _ f
  have h2 : d.take (et2 - (t2 + 1)) = d := List.take_of_length_le (by omega)
  rw [sip_deescape_decode src out t et f ef hlen, sip_deescape_decode src out2 t2 et2 f ef hlen2,
    ← hd, h2]
  simp only
  have hk : et - t - 1 = et - (t + 1) := by omega
  rw [hk]
  refine ⟨?_, ?_, ?_, ?_⟩
  · have : (List.take (et - (t + 1)) d).length ≤ et - (t + 1) := by
      rw [List.length_take]; exact Nat.min_le_left _ _
    omega
  · rw [List.length_take, Nat.min_comm]
  · rw [deescape_output_slice out t et _ hlen (by rw [List.length_take]; exact Nat.min_le_left _ _),
      deescape_output_slice out2 t2 et2 d hlen2 (by omega), List.length_take]
    by_cases hkd : et - (t + 1) ≤ d.length
    · rw [Nat.min_eq_left hkd]
    · rw [Nat.min_eq_right (by omega), List.take_of_length_le (by omega),
        List.take_of_length_le (le_refl _)]
  · exact byteAt_set_self _ _

theorem sip_deescape_limit_witness :
    (sip_deescape [170, 170, 170] 0 3 [97, 37, 52, 49, 98]  (some 0) none).2
      = min (sip_deescape [170, 170, 170, 170, 170, 170] 0 6 [97, 37, 52, 49, 98] (some 0) none).2
          (3 - 0 - 1) :=
  (sip_deescape_limit [97, 37, 52, 49, 98] [170, 170, 170] [170, 170, 170, 170, 170, 170]
    0 3 0 6 0 none (by decide) (by decide) (by decide) (by decide)).2.1

/-! ## C17: `sip_deescape` decodes a percent-encoding -/

/-- C17: when `x` is an encoding of the octets `c` (each octet written as itself, if it is
not '%', or as '%' and two hexadecimal digits of either case), `sip_deescape` on `x` with
a limit that has room for `c` and the final NUL stores exactly `c` and returns its length;
and the value `(h & 15) + 9` for a letter, `(h & 15)` otherwise, that the source computes
for a hexadecimal digit `h` is the hexadecimal value of `h`. -/
theorem sip_deescape_decodes (src out x c rest : Bytes) (t et f : Nat) (ef : Option Nat)
    (henc : Encodes x c) (hd : src.drop f = x ++ rest) (hlen : et ≤ out.length)
    (hlim : t + c.length < et)
    (hef : (ef = none ∧ (∀ o ∈ x, o ≠ 0) ∧ rest.headD 0 = 0) ∨ ef = some (f + x.length)) :
    (sip_deescape out t et src (some f) ef).2 = c.length ∧
    slice (sip_deescape out t et src (some f) ef).1 t (t + c.length) = c ∧
    ∀ h, isxdigit h = true → hexNibble h = hexValue h := by
  have hE : rangeEnd src f ef = f + x.length := by
    rcases hef with ⟨h, hx, hr⟩ | h
    · subst h; simp only [rangeEnd]; rw [strlen_of_drop src f x rest hd hx hr]
    · subst h; rfl
  have hfu : f + x.length - f = x.length := by omega
  have htake : c.take (et - (t + 1)) = c := List.take_of_length_le (by omega)
  rw [sip_deescape_decode src out t et f ef hlen, hE, hfu,
    decodeFrom_encodes src rest henc x.length f (le_refl _) hd, htake]
  exact ⟨rfl, deescape_output_slice out t et c hlen (by omega),
    fun h hh => hexNibble_eq_hexValue hh⟩

theorem sip_deescape_decodes_witness :
    (sip_deescape [170, 170, 170, 170, 170] 0 5 [97, 37, 52, 49, 37, 50, 102, 98] (some 0) none).2
        = 4 ∧
      slice (sip_deescape [170, 170, 170, 170, 170] 0 5 [97, 37, 52, 49, 37, 50, 102, 98]
        (some 0) none).1 0 (0 + 4) = [97, 65, 47, 98] :=
  have h := sip_deescape_decodes [97, 37, 52, 49, 37, 50, 102, 98] [170, 170, 170, 170, 170]
    [97, 37, 52, 49, 37, 50, 102, 98] [97, 65, 47, 98] [] 0 5 0 none
    (Encodes.literal 97 _ _ (by decide) (Encodes.escaped 52 49 _ _ (by decide) (by decide)
      (Encodes.escaped 50 102 _ _ (by decide) (by decide)
        (Encodes.literal 98 _ _ (by decide) Encodes.nil))))
    (by decide) (by decide) (by decide) (Or.inl ⟨rfl, by decide, rfl⟩)
  ⟨h.1, h.2.1⟩

/-! ## C18: `sip_add_header` and the room in the buffer -/

/-- C18: for an output buffer with write position `pp` and end `e`, a name and a value
without NUL (the value given by its range or by its terminating NUL), `sip_add_header`
succeeds exactly when `e - pp` is at least the two lengths plus 6. On success the write
position advances by the two lengths plus 4, the content before the new write position
is the content before the old one followed by the name, ": ", the value, CR LF; the
octet at the new write position is the NUL that ends the output of `sprintf`, and the
memory after it is unchanged. On overflow the function returns `NULL` and neither the
memory nor the write position changes. -/
theorem sip_add_header_room (buf name src value rest : Bytes) (pp e start : Nat)
    (stop : Option Nat) (hname : ∀ c ∈ name, c ≠ 0) (hvalue : ∀ c ∈ value, c ≠ 0)
    (hd : src.drop start = value ++ rest)
    (hstop : (stop = none ∧ rest.headD 0 = 0) ∨ stop = some (start + value.length))
    (he : e ≤ buf.length) :
    ((sip_add_header buf pp e name src (some start) stop).1 ≠ none ↔
      name.length + value.length + 6 ≤ e - pp) ∧
    (name.length + value.length + 6 ≤ e - pp →
      (sip_add_header buf pp e name src (some start) stop).2.2
        = pp + (name.length + value.length + 4) ∧
      (sip_add_header buf pp e name src (some start) stop).2.1.take
          (pp + (name.length + value.length + 4))
        = buf.take pp ++ (name ++ [58, 32] ++ value ++ [13, 10]) ∧
      (sip_add_header buf pp e name src (some start) stop).2.1.length = buf.length ∧
      byteAt (sip_add_header buf pp e name src (some start) stop).2.1
        (pp + (name.length + value.length + 4)) = 0 ∧
      (sip_add_header buf pp e name src (some start) stop).2.1.drop
          (pp + (name.length + value.length + 4) + 1)
        = buf.drop (pp + (name.length + value.length + 4) + 1)) ∧
    (¬ name.length + value.length + 6 ≤ e - pp →
      sip_add_header buf pp e name src (some start) stop = (none, buf, pp)) := by
  have hspec := add_header_with_spec 0 [] [] buf name src value rest pp e start stop hname
    hvalue hd hstop
  have hl : (name ++ [58, 32] ++ value ++ [13, 10]).length
      = name.length + value.length + 4 := by
    simp only [List.length_append, List.length_cons, List.length_nil]; omega
  simp only [List.append_nil, Nat.add_zero] at hspec
  unfold sip_add_header
  rw [hspec, hl]
  by_cases hroom : name.length + value.length + 6 ≤ e - pp
  · rw [if_pos hroom]
    have hf := writeAt_line_facts buf (name ++ [58, 32] ++ value ++ [13, 10]) pp e 2 he
      (by rw [hl]; omega) (by omega)
    rw [hl] at hf
    exact ⟨⟨fun _ => hroom, fun _ => by simp⟩, fun _ => ⟨rfl, hf.1, hf.2.1, hf.2.2.1, hf.2.2.2⟩,
      fun h => absurd hroom h⟩
  · rw [if_neg hroom]
    exact ⟨⟨fun h => absurd rfl h, fun h => absurd h hroom⟩, fun h => absurd h hroom,
      fun _ => rfl⟩

theorem sip_add_header_room_witness :
    (sip_add_header (List.replicate 12 170) 2 12 [118] [120, 121, 122] (some 0) none).2.2
        = 2 + (1 + 3 + 4) ∧
      (sip_add_header (List.replicate 12 170) 2 12 [118] [120, 121, 122] (some 0) none).2.1.take
          (2 + (1 + 3 + 4))
        = [170, 170] ++ ([118] ++ [58, 32] ++ [120, 121, 122] ++ [13, 10]) :=
  have h := (sip_add_header_room (List.replicate 12 170) [118] [120, 121, 122] [120, 121, 122]
    [] 2 12 0 none (by decide) (by decide) (by decide) (Or.inl ⟨rfl, rfl⟩) (by decide)).2.1
    (by decide)
  ⟨h.1, h.2.1⟩

/-! ## C19: the position that `sip_add_header` returns -/

/-- C19, counterexample: the call that stores the header "v: xyz" at the write position 2
returns the position 2, where the name "v" of the stored line starts; the stored value
"xyz" starts at the position 5. -/
theorem sip_add_header_returns_line_start :
    (sip_add_header (List.replicate 12 170) 2 12 [118] [120, 121, 122] (some 0) none).1
        = some 2 ∧
      slice (sip_add_header (List.replicate 12 170) 2 12 [118] [120, 121, 122] (some 0) none).2.1
        2 5 = [118, 58, 32] ∧
      slice (sip_add_header (List.replicate 12 170) 2 12 [118] [120, 121, 122] (some 0) none).2.1
        5 8 = [120, 121, 122] := by
  decide

/-- C19, amended: for every successful call of `sip_add_header` with a name and a value
without NUL, the returned position is the write position before the call; the name of
the stored line starts there, and the stored value starts two octets after the name. -/
theorem sip_add_header_returns_old_position (buf name src value rest : Bytes)
    (pp e start : Nat) (stop : Option Nat) (hname : ∀ c ∈ name, c ≠ 0)
    (hvalue : ∀ c ∈ value, c ≠ 0) (hd : src.drop start = value ++ rest)
    (hstop : (stop = none ∧ rest.headD 0 = 0) ∨ stop = some (start + value.length))
    (he : e ≤ buf.length)
    (hok : (sip_add_header buf pp e name src (some start) stop).1 ≠ none) :
    (sip_add_header buf pp e name src (some start) stop).1 = some pp ∧
    slice (sip_add_header buf pp e name src (some start) stop).2.1 pp (pp + name.length)
      = name ∧
    slice (sip_add_header buf pp e name src (some start) stop).2.1 (pp + name.length + 2)
      (pp + name.length + 2 + value.length) = value := by
  have hspec := add_header_with_spec 0 [] [] buf name src value rest pp e start stop hname
    hvalue hd hstop
  simp only [List.append_nil, Nat.add_zero] at hspec
  unfold sip_add_header at hok ⊢
  rw [hspec] at hok ⊢
  by_cases hroom : name.length + value.length + 6 ≤ e - pp
  · rw [if_pos hroom]
    have h1 := drop_writeAt buf pp (name ++ [58, 32] ++ value ++ [13, 10] ++ [0]) (by omega)
    have h2 : (writeAt buf pp (name ++ [58, 32] ++ value ++ [13, 10] ++ [0])).drop pp
        = name ++ ([58, 32] ++ (value ++ ([13, 10] ++ ([0] ++ buf.drop
          (pp + (name ++ [58, 32] ++ value ++ [13, 10] ++ [0]).length))))) := by
      rw [h1]; simp only [List.append_assoc]
    have h3 := drop_add_of_drop name _ h2
    have h4 := drop_add_of_drop [58, 32] _ h3
    refine ⟨rfl, ?_, ?_⟩
    · unfold slice
      simp only
      rw [h2, Nat.add_sub_cancel_left, List.take_left']
      rfl
    · unfold slice
      simp only
      have e1 : pp + name.length + [58, 32].length = pp + name.length + 2 := rfl
      rw [e1] at h4
      rw [h4, Nat.add_sub_cancel_left, List.take_left']
      rfl
  · rw [if_neg hroom] at hok
    exact absurd rfl hok

theorem sip_add_header_returns_old_position_witness :
    (sip_add_header (List.replicate 12 170) 2 12 [118] [120, 121, 122] (some 0) none).1
      = some 2 :=
  (sip_add_header_returns_old_position (List.replicate 12 170) [118] [120, 121, 122]
    [120, 121, 122] [] 2 12 0 none (by decide) (by decide) (by decide) (Or.inl ⟨rfl, rfl⟩)
    (by decide) (by decide)).1

/-! ## C20: the lines that a sequence of composer calls stores -/

/-- C20: from an output buffer with write position `pp` within the buffer (`pp ≤ e`),
after any sequence of calls of `sip_add_header` and `sip_add_header_angle`, whether they
succeed or fail, with names and values free of CR, LF and NUL, the write position is
still within the buffer and the content before it is the content at the start followed
by a concatenation of complete lines `name ": " value CR LF` (for
`sip_add_header_angle` the value of the line is the given value in angle brackets). -/
theorem add_header_calls_complete_lines (calls : List AddCall) (buf : Bytes) (pp e : Nat)
    (hpp : pp ≤ e) (he : e ≤ buf.length) (hclean : ∀ c ∈ calls, c.Clean) :
    pp ≤ (runCalls e calls (buf, pp)).2 ∧ (runCalls e calls (buf, pp)).2 ≤ e ∧
    ∃ lines : List Bytes, (∀ l ∈ lines, IsLine l) ∧
      (runCalls e calls (buf, pp)).1.take (runCalls e calls (buf, pp)).2
        = buf.take pp ++ lines.flatten := by
  induction calls generalizing buf pp with
  | nil => exact ⟨le_refl _, hpp, [], by simp, by simp [runCalls]⟩
  | cons c cs ih =>
    obtain ⟨h1, h2, h3, ls, hls, htake⟩ :=
      AddCall.apply_step c buf pp e hpp he (hclean c (List.mem_cons_self _ _))
    obtain ⟨k1, k2, lines, hlines, hk⟩ := ih (AddCall.apply e (buf, pp) c).1
      (AddCall.apply e (buf, pp) c).2 h2 (by rw [h3]; exact he)
      (fun d hd => hclean d (List.mem_cons_of_mem _ hd))
    have hrun : runCalls e (c :: cs) (buf, pp)
        = runCalls e cs ((AddCall.apply e (buf, pp) c).1, (AddCall.apply e (buf, pp) c).2) := rfl
    rw [hrun]
    refine ⟨by omega, k2, ls ++ lines, ?_, ?_⟩
    · intro l hl
      rcases List.mem_append.mp hl with h | h
      · exact hls l h
      · exact hlines l h
    · rw [hk, htake, List.flatten_append, List.append_assoc]

theorem add_header_calls_complete_lines_witness :
    (runCalls 20 [⟨false, [118], [120, 121, 122], some 0, none⟩,
        ⟨true, [116], [97, 98, 99, 100, 101, 102, 103, 104], some 0, some 8⟩,
        ⟨true, [102], [97], some 0, some 1⟩] (List.replicate 20 170, 0)).2 ≤ 20 :=
  (add_header_calls_complete_lines [⟨false, [118], [120, 121, 122], some 0, none⟩,
      ⟨true, [116], [97, 98, 99, 100, 101, 102, 103, 104], some 0, some 8⟩,
      ⟨true, [102], [97], some 0, some 1⟩] (List.replicate 20 170) 0 20 (by decide) (by decide)
    (by
      intro c hc
      simp only [List.mem_cons, List.mem_singleton, List.not_mem_nil, or_false] at hc
      rcases hc with h | h | h
      · subst h
        exact ⟨by decide, fun s hs => ⟨[120, 121, 122], [], by
          cases hs; exact ⟨rfl, by decide, Or.inl ⟨rfl, rfl⟩⟩⟩⟩
      · subst h
        exact ⟨by decide, fun s hs => ⟨[97, 98, 99, 100, 101, 102, 103, 104], [], by
          cases hs; exact ⟨rfl, by decide, Or.inr rfl⟩⟩⟩
      · subst h
        exact ⟨by decide, fun s hs => ⟨[97], [], by
          cases hs; exact ⟨rfl, by decide, Or.inr rfl⟩⟩⟩)).2.1

/-! ## C21: the columns of the lines after `sip_add_extra` with wrap -/

/-- C22: the memory holds the line "x: yyy...y" of 119 columns and CR LF (write position
121), the buffer end is 127. The call with tag "a", value "b", separator ',' and wrap
set succeeds (the room test asks for 8 octets after the line), breaks the line, and
stores ',' CR LF HT "a=b" CR at the positions 119..126, LF at the position 127, which
is the buffer end, and the NUL at the position 128: the new write position 128 is past
the buffer end. The room test does not count the three octets CR LF HT of the line
break. A call that reports overflow changes nothing; and a successful call that cannot
break the line (no wrap, or a separator other than ',') leaves the write position and
the NUL before the buffer end and changes nothing from the buffer end on. -/
theorem sip_add_extra_break_overflow :
    (sip_add_extra ([120, 58, 32] ++ List.replicate 116 121 ++ [13, 10] ++ List.replicate 9 170)
        121 127 (some [97]) [98] (some 0) none 44 0 1).1 = some 120 ∧
    (sip_add_extra ([120, 58, 32] ++ List.replicate 116 121 ++ [13, 10] ++ List.replicate 9 170)
        121 127 (some [97]) [98] (some 0) none 44 0 1).2.2 = 128 ∧
    (sip_add_extra ([120, 58, 32] ++ List.replicate 116 121 ++ [13, 10] ++ List.replicate 9 170)
        121 127 (some [97]) [98] (some 0) none 44 0 1).2.1.drop 119
      = [44, 13, 10, 9, 97, 61, 98, 13, 10, 0, 170] ∧
    ([120, 58, 32] ++ List.replicate 116 121 ++ [13, 10] ++ List.replicate 9 170).drop 127
      = [170, 170, 170] ∧
    (∀ (buf : Bytes) (pp e : Nat) (tag : Option Bytes) (src : Bytes) (start stop : Option Nat)
      (comma quote wrap : Nat),
      (sip_add_extra buf pp e tag src start stop comma quote wrap).1 = none →
      (sip_add_extra buf pp e tag src start stop comma quote wrap).2.1 = buf ∧
      (sip_add_extra buf pp e tag src start stop comma quote wrap).2.2 = pp) ∧
    (∀ (buf : Bytes) (pp e : Nat) (tag : Option Bytes) (src : Bytes) (start stop : Option Nat)
      (comma quote wrap : Nat), (wrap = 0 ∨ comma ≠ 44) →
      (∀ s, start = some s → s ≤ rangeEnd src s stop) → e ≤ buf.length →
      (sip_add_extra buf pp e tag src start stop comma quote wrap).1 ≠ none →
      (sip_add_extra buf pp e tag src start stop comma quote wrap).2.2 < e ∧
      (sip_add_extra buf pp e tag src start stop comma quote wrap).2.1.length = buf.length ∧
      (sip_add_extra buf pp e tag src start stop comma quote wrap).2.1.drop e = buf.drop e) := by
  refine ⟨by decide, by decide, by decide, by decide, ?_, ?_⟩
  · intro buf pp e tag src start stop comma quote wrap h
    unfold sip_add_extra at h ⊢
    simp only at h ⊢
    by_cases hc : (e : Int) < (rewind buf pp : Int) + (tagLen tag : Int) + 2
        + valueLen src start stop + 2 + 2 + (if quote ≠ 0 then 2 else 0)
    · rw [if_pos hc]
      exact ⟨rfl, rfl⟩
    · rw [if_neg hc] at h
      exact absurd h (by simp)
  · intro buf pp e tag src start stop comma quote wrap hw hn he hok
    exact sip_add_extra_within buf pp e tag src start stop comma quote wrap hw hn he hok

/-! ## C23: what `sip_add_extra` appends to the last line -/

/-- C23: for an output buffer whose content ends with a non-empty line `L` and CR LF, and
every successful call of `sip_add_extra` with a tag, a value, a separator `sep`, no quote
and no wrap: afterwards the content is what was before the last line, then `L`, then
`sep` (left out when `L` ends with a space or ':'), the tag, '=', the value and CR LF.
The octet after the content is the NUL sentinel, the memory after it is unchanged, and
the sentinel lies before the buffer end. -/
theorem sip_add_extra_appends (pre L0 M t src value rest : Bytes) (c0 s e : Nat)
    (stop : Option Nat) (sep : Nat) (ht : ∀ c ∈ t, c ≠ 0) (hd : src.drop s = value ++ rest)
    (hstop : (stop = none ∧ (∀ c ∈ value, c ≠ 0) ∧ rest.headD 0 = 0)
      ∨ stop = some (s + value.length))
    (hsep : sep ≠ 0) (he : e ≤ (pre ++ (L0 ++ [c0]) ++ [13, 10] ++ M).length)
    (hok : (sip_add_extra (pre ++ (L0 ++ [c0]) ++ [13, 10] ++ M)
      (pre.length + (L0 ++ [c0]).length + 2) e (some t) src (some s) stop sep 0 0).1 ≠ none) :
    (sip_add_extra (pre ++ (L0 ++ [c0]) ++ [13, 10] ++ M)
        (pre.length + (L0 ++ [c0]).length + 2) e (some t) src (some s) stop sep 0 0).2.1.take
      (sip_add_extra (pre ++ (L0 ++ [c0]) ++ [13, 10] ++ M)
        (pre.length + (L0 ++ [c0]).length + 2) e (some t) src (some s) stop sep 0 0).2.2
      = pre ++ ((L0 ++ [c0]) ++ (if c0 = 32 ∨ c0 = 58 then [] else [sep]) ++ t ++ [61] ++ value
          ++ [13, 10]) ∧
    byteAt (sip_add_extra (pre ++ (L0 ++ [c0]) ++ [13, 10] ++ M)
        (pre.length + (L0 ++ [c0]).length + 2) e (some t) src (some s) stop sep 0 0).2.1
      (sip_add_extra (pre ++ (L0 ++ [c0]) ++ [13, 10] ++ M)
        (pre.length + (L0 ++ [c0]).length + 2) e (some t) src (some s) stop sep 0 0).2.2 = 0 ∧
    (sip_add_extra (pre ++ (L0 ++ [c0]) ++ [13, 10] ++ M)
        (pre.length + (L0 ++ [c0]).length + 2) e (some t) src (some s) stop sep 0 0).2.1.drop
      ((sip_add_extra (pre ++ (L0 ++ [c0]) ++ [13, 10] ++ M)
        (pre.length + (L0 ++ [c0]).length + 2) e (some t) src (some s) stop sep 0 0).2.2 + 1)
      = (pre ++ (L0 ++ [c0]) ++ [13, 10] ++ M).drop
        ((sip_add_extra (pre ++ (L0 ++ [c0]) ++ [13, 10] ++ M)
          (pre.length + (L0 ++ [c0]).length + 2) e (some t) src (some s) stop sep 0 0).2.2 + 1) ∧
    (sip_add_extra (pre ++ (L0 ++ [c0]) ++ [13, 10] ++ M)
        (pre.length + (L0 ++ [c0]).length + 2) e (some t) src (some s) stop sep 0 0).2.2 < e := by
  obtain ⟨C0, hC0⟩ : ∃ C0, C0 = pre ++ L0 := ⟨_, rfl⟩
  have hbuf : pre ++ (L0 ++ [c0]) ++ [13, 10] ++ M = C0 ++ c0 :: 13 :: 10 :: M := by
    rw [hC0]; simp
  have hpp : pre.length + (L0 ++ [c0]).length + 2 = C0.length + 3 := by
    rw [hC0]; simp only [List.length_append, List.length_singleton]; omega
  rw [hbuf] at hok he ⊢
  rw [hpp] at hok ⊢
  have hspec := sip_add_extra_spec C0 M t src value rest c0 s e stop sep 0 0 ht hd hstop
  simp only [ne_eq, not_true_eq_false, if_false, List.append_nil, Int.add_zero] at hspec
  rw [hspec] at hok ⊢
  by_cases hroom : (e : Int) < ((C0.length + 1 : Nat) : Int) + (t.length : Int) + 2
      + (value.length : Int) + 2 + 2
  · rw [if_pos hroom] at hok; exact absurd rfl hok
  · rw [if_neg hroom]
    have hbb : byteBefore (C0 ++ c0 :: 13 :: 10 :: M) (C0.length + 1) = c0 :=
      byteBefore_append_cons C0 c0 _
    rw [extra_sep_nowrap, hbb]
    obtain ⟨sp, hsp⟩ : ∃ sp : Bytes, sp = if sep ≠ 0 ∧ c0 ≠ 32 ∧ c0 ≠ 58 then [sep] else [] :=
      ⟨_, rfl⟩
    have hsp2 : (if c0 = 32 ∨ c0 = 58 then [] else [sep]) = sp := by
      rw [hsp]
      by_cases h1 : c0 = 32 ∨ c0 = 58
      · rw [if_pos h1, if_neg (fun h => by rcases h1 with h1 | h1 <;> simp [h1] at h)]
      · rw [if_neg h1, if_pos ⟨hsep, fun h => h1 (Or.inl h), fun h => h1 (Or.inr h)⟩]
    have hspl : sp.length ≤ 1 := by
      rw [hsp]; split <;> simp
    rw [← hsp, hsp2]
    obtain ⟨body, hbody⟩ : ∃ body, body = sp ++ t ++ [61] ++ value ++ [13, 10] := ⟨_, rfl⟩
    rw [← hbody]
    have hbl : body.length = sp.length + t.length + 1 + value.length + 2 := by
      rw [hbody]; simp only [List.length_append, List.length_cons, List.length_nil]
    have hf := writeAt_line_facts (C0 ++ c0 :: 13 :: 10 :: M) body (C0.length + 1) e 1 he
      (by push_cast at hroom; omega) (le_refl _)
    dsimp only
    refine ⟨?_, hf.2.2.1, hf.2.2.2, by push_cast at hroom; omega⟩
    rw [hf.1, take_append_cons_self, hbody, hC0]
    simp

theorem sip_add_extra_appends_witness :
    (sip_add_extra ([] ++ ([116, 58, 32, 60, 115, 105, 112, 58, 120] ++ [62]) ++ [13, 10]
        ++ List.replicate 12 170)
        (([] : Bytes).length + ([116, 58, 32, 60, 115, 105, 112, 58, 120] ++ [62] : Bytes).length + 2)
        24 (some [116, 97, 103]) [49, 50, 51, 52] (some 0) none 59 0 0).2.1.take
      (sip_add_extra ([] ++ ([116, 58, 32, 60, 115, 105, 112, 58, 120] ++ [62]) ++ [13, 10]
        ++ List.replicate 12 170)
        (([] : Bytes).length + ([116, 58, 32, 60, 115, 105, 112, 58, 120] ++ [62] : Bytes).length + 2)
        24 (some [116, 97, 103]) [49, 50, 51, 52] (some 0) none 59 0 0).2.2
      = [116, 58, 32, 60, 115, 105, 112, 58, 120, 62, 59, 116, 97, 103, 61, 49, 50, 51, 52,
          13, 10] := by
  have h := (sip_add_extra_appends [] [116, 58, 32, 60, 115, 105, 112, 58, 120]
    (List.replicate 12 170) [116, 97, 103] [49, 50, 51, 52] [49, 50, 51, 52] [] 62 0 24 none 59
    (by decide) rfl (Or.inl ⟨rfl, by decide, rfl⟩) (by decide) (by decide) (by decide)).1
  simpa using h

/-! ## C24: the files that a playback program opens -/

/-- C24: the program is `r` times '-', `t` times '!', an optional repeat prefix (digits
of a value from 1 to 2^31 - 1, then '*') and a body of stems with single dots; a stem is
one to 95 octets out of letters, digits, '+', '-' and '/', the first not '/', and without
'!' and repeat prefix the first stem does not begin with '-'. The files "aai.wav",
"sit.wav" (when asked for) and those of the stems can be opened. Then the set up followed
by `r + t + N * k` calls of `nextfile` opens "aai.wav" `r` times, "sit.wav" `t` times and
the `k` files of the body in order, `N` times (`N` the repeat value, 1 without prefix),
and no other file; the outcome is still unset, and the next call of `nextfile` sets it to
the empty string and opens nothing. -/
theorem playback_sequence (fs : Files) (mem : Bytes) (p0 e r t : Nat) (digits : Option Bytes)
    (f : Bytes) (l : List Bytes) (rest : Bytes)
    (hd : mem.drop p0 = programOf r t digits f l ++ rest)
    (he : p0 + (programOf r t digits f l).length = e)
    (hstems : ∀ s ∈ f :: l, StemOk s)
    (hminus : t = 0 → digits = none → f.head? ≠ some 45)
    (hdig : ∀ d, digits = some d →
      (∀ c ∈ d, isdigit c = true) ∧ 1 ≤ decimalValue d ∧ decimalValue d < 2147483648)
    (haai : 0 < r → fs.readable (wavName [97, 97, 105]) = true)
    (hsit : 0 < t → fs.readable (wavName [115, 105, 116]) = true)
    (hread : ∀ s ∈ f :: l, fs.readable (wavName s) = true) :
    nextfiles fs mem e (r + (t + repeatCount digits * (f :: l).length))
        (playback_program mem p0 e).start
      = some ({ request := some (e - (dotted f l).length), rp := .msg e, ring := 0, sit := 0,
                count := 0, minute := 600, done := none, temp_fd := false, saved := false,
                outfilename := none },
          List.replicate r (wavName [97, 97, 105]) ++ (List.replicate t (wavName [115, 105, 116])
            ++ (List.replicate (repeatCount digits) ((f :: l).map wavName)).flatten)) ∧
    nextfile fs mem e { request := some (e - (dotted f l).length), rp := .msg e, ring := 0,
                        sit := 0, count := 0, minute := 600, done := none, temp_fd := false,
                        saved := false, outfilename := none }
      = some ({ request := some (e - (dotted f l).length), rp := .msg e, ring := 0, sit := 0,
                count := 0, minute := 600, done := some [], temp_fd := false, saved := false,
                outfilename := none }, [], none) := by
  refine ⟨?_, nextfile_finish fs mem e _ rfl rfl rfl rfl⟩
  have hN := repeatCount_bounds digits hdig
  obtain ⟨N, hNeq⟩ : ∃ N, repeatCount digits = N + 1 := ⟨repeatCount digits - 1, by omega⟩
  rw [playback_program_spec mem p0 e r t digits f l rest hd he hstems hminus hdig]
  unfold Program.start
  dsimp only
  have hdq : mem.drop (e - (dotted f l).length) = dotted f l ++ rest := by
    have h := drop_add_of_drop (List.replicate r 45 ++ (List.replicate t 33 ++ repeatPrefix digits))
      (dotted f l ++ rest) (by rw [hd]; simp [programOf])
    have hq : p0 + (List.replicate r 45 ++ (List.replicate t 33 ++ repeatPrefix digits)).length
        = e - (dotted f l).length := by
      rw [← he]; simp only [programOf, List.length_append]; omega
    rw [hq] at h
    exact h
  have hle : e - (dotted f l).length + (dotted f l).length = e := by
    rw [← he]; simp only [programOf, List.length_append]; omega
  obtain ⟨rp1, hrp1, h1⟩ := nextfiles_rings fs mem e (t + repeatCount digits * (f :: l).length) r
    { request := some (e - (dotted f l).length), rp := .null, ring := r, sit := t,
      count := (repeatCount digits : Int), minute := 600, done := none, temp_fd := false,
      saved := false, outfilename := none } rfl (Or.inl rfl) rfl (by simp) haai
  obtain ⟨rp2, hrp2, h2⟩ := nextfiles_sits fs mem e (repeatCount digits * (f :: l).length) t
    { request := some (e - (dotted f l).length), rp := rp1, ring := 0, sit := t,
      count := (repeatCount digits : Int), minute := 600, done := none, temp_fd := false,
      saved := false, outfilename := none } rfl rfl hrp1 rfl (by simp) hsit
  have h3 := nextfiles_rounds fs mem e (e - (dotted f l).length) f l rest hdq hle hstems hread 0 N
    { request := some (e - (dotted f l).length), rp := rp2, ring := 0, sit := 0,
      count := (repeatCount digits : Int), minute := 600, done := none, temp_fd := false,
      saved := false, outfilename := none } rfl rfl hrp2 rfl rfl (by simp only [hNeq]) (by omega)
  rw [Nat.add_zero, ← hNeq] at h3
  rw [h1]
  dsimp only
  rw [h2]
  dsimp only
  rw [h3]
  simp [opened_after, nextfiles]

theorem playback_sequence_witness :
    nextfiles everyFile [45, 45, 33, 50, 42, 97, 46, 98] 8 7
        (playback_program [45, 45, 33, 50, 42, 97, 46, 98] 0 8).start
      = some ({ request := some 5, rp := .msg 8, ring := 0, sit := 0,
                count := 0, minute := 600, done := none, temp_fd := false, saved := false,
                outfilename := none },
          [[97, 97, 105, 46, 119, 97, 118], [97, 97, 105, 46, 119, 97, 118],
           [115, 105, 116, 46, 119, 97, 118], [97, 46, 119, 97, 118], [98, 46, 119, 97, 118],
           [97, 46, 119, 97, 118], [98, 46, 119, 97, 118]]) ∧
    nextfile everyFile [45, 45, 33, 50, 42, 97, 46, 98] 8
        { request := some 5, rp := .msg 8, ring := 0, sit := 0, count := 0, minute := 600,
          done := none, temp_fd := false, saved := false, outfilename := none }
      = some ({ request := some 5, rp := .msg 8, ring := 0, sit := 0,
                count := 0, minute := 600, done := some [], temp_fd := false, saved := false,
                outfilename := none }, [], none) :=
  playback_sequence everyFile [45, 45, 33, 50, 42, 97, 46, 98] 0 8 2 1 (some [50]) [97] [[98]] []
    rfl rfl (by decide) (by decide) (by
      intro d hd
      cases hd
      decide) (fun _ => rfl) (fun _ => rfl) (fun _ _ => rfl)

/-! ## C25: a dot between two stems -/

/-- C25: with every file there to be opened, the program "a.b" makes `nextfile` open
"a.wav" and then "b.wav", and the third call ends the playback: "100ms.wav" is not opened
for the dot between the two stems. With two dots, "a..b", the files are "a.wav",
"100ms.wav", "b.wav": the first dot after a stem is passed with the stem, and only a
further dot is a pause. -/
theorem nextfile_single_dot :
    nextfiles everyFile [97, 46, 98] 3 5 (playback_program [97, 46, 98] 0 3).start
      = some ({ request := some 0, rp := .msg 3, ring := 0, sit := 0, count := 0, minute := 600,
                done := some [], temp_fd := false, saved := false, outfilename := none },
          [[97, 46, 119, 97, 118], [98, 46, 119, 97, 118]]) ∧
    nextfiles everyFile [97, 46, 46, 98] 4 5 (playback_program [97, 46, 46, 98] 0 4).start
      = some ({ request := some 0, rp := .msg 4, ring := 0, sit := 0, count := 0, minute := 600,
                done := some [], temp_fd := false, saved := false, outfilename := none },
          [[97, 46, 119, 97, 118], [49, 48, 48, 109, 115, 46, 119, 97, 118],
           [98, 46, 119, 97, 118]]) := by
  decide

/-! ## C26: alternates -/

/-- C26: `rp` is at an atom, a stem `f` and alternates `l`, each after a '?', that ends at
the end of the program or before an octet that is neither '?' nor a file octet (a dot,
for one); the stems are of one to 95 file octets, the first not '/'; no ring and no SIT is
left. Whatever files there are, one call of `nextfile` gives to `open` the names of the
stems in order up to the first that opens, that one is the file played, and none is played
when none opens; `rp` is left after the whole atom, and after the dot when one follows. -/
theorem nextfile_alternates (fs : Files) (mem : Bytes) (e p : Nat) (st : Playback) (f : Bytes)
    (l : List Bytes) (rest : Bytes) (hring : st.ring = 0) (hsit : st.sit = 0)
    (hrp : st.rp = .msg p)
    (hd : mem.drop p = (f ++ altTail l) ++ rest) (hle : p + (f ++ altTail l).length ≤ e)
    (hstems : ∀ s ∈ f :: l, StemOk s)
    (hstop : p + (f ++ altTail l).length = e
      ∨ (rest.headD 0 ≠ 63 ∧ isFileChar (rest.headD 0) false = false)) :
    nextfile fs mem e st
      = some ({ st with rp := .msg (p + (f ++ altTail l).length
              + (if p + (f ++ altTail l).length ≠ e ∧ rest.headD 0 = 46 then 1 else 0)) },
          ((f :: l).map wavName).takeWhile (fun n => !fs.readable n)
            ++ (((f :: l).map wavName).find? fs.readable).toList,
          ((f :: l).map wavName).find? fs.readable) := by
  rw [← openCalls_eq]
  exact nextfile_atom fs mem e p st f l rest hring hsit hrp hd hle hstems hstop

theorem nextfile_alternates_witness :
    nextfile { readable := fun n => n == [99, 46, 119, 97, 118] || n == [100, 46, 119, 97, 118],
               creatable := fun _ => false, mkstemp := none }
        [97, 63, 98, 63, 99, 63, 100, 46, 100] 9
        { request := some 0, rp := .msg 0, ring := 0, sit := 0, count := 0, minute := 600,
          done := none, temp_fd := false, saved := false, outfilename := none }
      = some ({ request := some 0, rp := .msg 8, ring := 0, sit := 0, count := 0, minute := 600,
                done := none, temp_fd := false, saved := false, outfilename := none },
          [[97, 46, 119, 97, 118], [98, 46, 119, 97, 118], [99, 46, 119, 97, 118]],
          some [99, 46, 119, 97, 118]) :=
  nextfile_alternates _ [97, 63, 98, 63, 99, 63, 100, 46, 100] 9 0 _ [97] [[98], [99], [100]]
    [46, 100] rfl rfl rfl rfl (by decide) (by decide) (Or.inr ⟨by decide, by decide⟩)

/-! ## C27: the keys of a telephone-event packet -/

/-- C27, counterexample: `request` and `erequest` are those that the set up of the
playback leaves for the program. With the program "a#", a packet of payload type 101 with
the event octet 5 makes the outcome "5": the key 5 ends the call although the program
ends with '#'. With the programs "2*", "*" and "-*" the same packet leaves the outcome
absent: the final '*' belongs to the repeat prefix, `request` is `erequest`, and no key
ends the call although the program ends with '*'. -/
theorem rtp_in_suffix_keys :
    (rtp_in [97, 35] (playback_program [97, 35] 0 2).request
      (playback_program [97, 35] 0 2).erequest false
      [128, 101, 0, 0, 0, 0, 0, 0, 0, 0, 0, 0, 5, 0, 0, 0]
      16 { channels := 1, datalen := 0, written := [], done := none }).done = some [53] ∧
    (rtp_in [50, 42] (playback_program [50, 42] 0 2).request
      (playback_program [50, 42] 0 2).erequest false
      [128, 101, 0, 0, 0, 0, 0, 0, 0, 0, 0, 0, 5, 0, 0, 0]
      16 { channels := 1, datalen := 0, written := [], done := none }).done = none ∧
    (rtp_in [42] (playback_program [42] 0 1).request
      (playback_program [42] 0 1).erequest false
      [128, 101, 0, 0, 0, 0, 0, 0, 0, 0, 0, 0, 5, 0, 0, 0]
      16 { channels := 1, datalen := 0, written := [], done := none }).done = none ∧
    (rtp_in [45, 42] (playback_program [45, 42] 0 2).request
      (playback_program [45, 42] 0 2).erequest false
      [128, 101, 0, 0, 0, 0, 0, 0, 0, 0, 0, 0, 5, 0, 0, 0]
      16 { channels := 1, datalen := 0, written := [], done := none }).done = none := by
  decide

/-- C27, amended: `request` and `erequest` are those that the set up of the playback
leaves for the program `[p,e)`: `erequest` is `e`, and `request` is a position `q` after
the prefixes of the program (a number and '=', the '-', the '!', a number and '*'). For
every received packet of more than 12 octets with payload type 101 and event octet `k`:
when `q < e` (something is left of the program after its prefixes), the last octet of the
program is '*' or '#' and `k` is at most 11, the outcome becomes the string of the `k`-th
character of "0123456789*#", for '#' as for '*'; otherwise the outcome stays as it was.
And `q` is at or before every octet of the program that is not a digit, '=', '-', '!' or
'*': when the program has such an octet, `q < e`; it has one when it ends with '#'. -/
theorem rtp_in_key (mem : Bytes) (p e : Nat) (temp_fd : Bool) (buf : Bytes) (len : Int)
    (m : Media) (hpe : p ≤ e) (hlen : 12 < len) (hpt : byteAt buf 1 % 128 = 101) :
    ∃ q, (playback_program mem p e).request = some q ∧
      (playback_program mem p e).erequest = some e ∧ p ≤ q ∧ q ≤ e ∧
      (rtp_in mem (playback_program mem p e).request (playback_program mem p e).erequest
          temp_fd buf len m).done
        = (if q < e ∧ (byteBefore mem e = 42 ∨ byteBefore mem e = 35) ∧ byteAt buf 12 ≤ 11 then
            some [byteAt [48, 49, 50, 51, 52, 53, 54, 55, 56, 57, 42, 35] (byteAt buf 12)]
          else m.done) ∧
      (∀ k, p ≤ k → k < e → isdigit (byteAt mem k) = false → byteAt mem k ≠ 61 →
        byteAt mem k ≠ 45 → byteAt mem k ≠ 33 → byteAt mem k ≠ 42 → q < e) ∧
      (p < e → byteBefore mem e = 35 → q < e) := by
  obtain ⟨q, h1, h2, h3, h4, h5⟩ := playback_program_request mem p e hpe
  refine ⟨q, h1, h2, h3, h4, ?_, ?_, ?_⟩
  · rw [h1, h2]
    unfold rtp_in
    rw [if_pos hlen]
    dsimp only
    rw [if_neg (by rw [hpt]; rintro ⟨_, h | h⟩ <;> omega), if_pos hpt]
    simp only [ptrGt, lastOctet, decide_eq_true_eq]
    by_cases hc : q < e ∧ (byteBefore mem e = 42 ∨ byteBefore mem e = 35) ∧ byteAt buf 12 ≤ 11
    · rw [if_pos hc, if_pos hc]
      simp only
      rw [keys_getD _ (by omega)]
    · rw [if_neg hc, if_neg hc]
  · intro k hpk hke a b c d f
    have := h5 k hpk hke a b c d f
    omega
  · intro hlt hb
    have hbe : byteAt mem (e - 1) = 35 := by
      unfold byteBefore at hb
      rw [if_neg (by omega)] at hb
      exact hb
    have := h5 (e - 1) (by omega) (by omega) (by rw [hbe]; rfl) (by omega) (by omega) (by omega)
      (by omega)
    omega

theorem rtp_in_key_witness :
    (∃ q, (playback_program [51, 42, 97, 42] 0 4).request = some q ∧
      (playback_program [51, 42, 97, 42] 0 4).erequest = some 4 ∧ 0 ≤ q ∧ q ≤ 4 ∧
      (rtp_in [51, 42, 97, 42] (playback_program [51, 42, 97, 42] 0 4).request
          (playback_program [51, 42, 97, 42] 0 4).erequest
          false [128, 101, 0, 0, 0, 0, 0, 0, 0, 0, 0, 0, 11, 0, 0, 0] 16
          { channels := 1, datalen := 0, written := [], done := none }).done
        = (if q < 4 ∧ (byteBefore [51, 42, 97, 42] 4 = 42 ∨ byteBefore [51, 42, 97, 42] 4 = 35)
              ∧ byteAt [128, 101, 0, 0, 0, 0, 0, 0, 0, 0, 0, 0, 11, 0, 0, 0] 12 ≤ 11 then
            some [byteAt [48, 49, 50, 51, 52, 53, 54, 55, 56, 57, 42, 35]
              (byteAt [128, 101, 0, 0, 0, 0, 0, 0, 0, 0, 0, 0, 11, 0, 0, 0] 12)]
          else none) ∧
      (∀ k, 0 ≤ k → k < 4 → isdigit (byteAt [51, 42, 97, 42] k) = false →
        byteAt [51, 42, 97, 42] k ≠ 61 → byteAt [51, 42, 97, 42] k ≠ 45 →
        byteAt [51, 42, 97, 42] k ≠ 33 → byteAt [51, 42, 97, 42] k ≠ 42 → q < 4) ∧
      (0 < 4 → byteBefore [51, 42, 97, 42] 4 = 35 → q < 4)) ∧
    (playback_program [51, 42, 97, 42] 0 4).request = some 2 ∧
    (rtp_in [51, 42, 97, 42] (playback_program [51, 42, 97, 42] 0 4).request
        (playback_program [51, 42, 97, 42] 0 4).erequest
        false [128, 101, 0, 0, 0, 0, 0, 0, 0, 0, 0, 0, 11, 0, 0, 0] 16
        { channels := 1, datalen := 0, written := [], done := none }).done = some [35] :=
  ⟨rtp_in_key [51, 42, 97, 42] 0 4 false [128, 101, 0, 0, 0, 0, 0, 0, 0, 0, 0, 0, 11, 0, 0, 0]
      16 { channels := 1, datalen := 0, written := [], done := none } (by decide) (by decide)
      (by decide),
    by decide, by decide⟩

/-! ## C28: the header of the recording -/

/-- C28: for every count `n` of recorded octets below 2^31 and `c` = 1 or 2, the header
written by `audio_in` has 44 octets and is the canonical WAV header except for the RIFF
chunk size: octets 4 to 7 hold `n - 36` (two's complement, little-endian), which is never
the `36 + n` of the canonical header. For 160 octets of one channel they are 124, 0, 0, 0
and not 196, 0, 0, 0. -/
theorem wav_header_chunk_size (n c : Nat) (hn : n < 2147483648) (hc : c = 1 ∨ c = 2) :
    (wav_header (n : Int) c).length = 44 ∧
    (wav_header (n : Int) c).take 4 = (canonical_wav_header n c).take 4 ∧
    (wav_header (n : Int) c).drop 8 = (canonical_wav_header n c).drop 8 ∧
    ((wav_header (n : Int) c).drop 4).take 4 = writen 4 ((n : Int) - 36) ∧
    ((canonical_wav_header n c).drop 4).take 4 = littleEndian 4 (36 + n) ∧
    writen 4 ((n : Int) - 36) ≠ littleEndian 4 (36 + n) ∧
    ((wav_header 160 1).drop 4).take 4 = [124, 0, 0, 0] ∧
    ((canonical_wav_header 160 1).drop 4).take 4 = [196, 0, 0, 0] := by
  have hw : wrapInt32 ((n : Int) - 36) = (n : Int) - 36 := by unfold wrapInt32; omega
  have hw2 : wrapInt32 (8000 * (c : Int)) = ((8000 * c : Nat) : Int) := by
    unfold wrapInt32; push_cast; omega
  have h16 : writen 4 16 = littleEndian 4 16 := writen_natCast 4 16
  have h6 : writen 2 6 = littleEndian 2 6 := writen_natCast 2 6
  have h8000 : writen 4 8000 = littleEndian 4 8000 := writen_natCast 4 8000
  have h8 : writen 2 8 = littleEndian 2 8 := writen_natCast 2 8
  have hlen : ∀ k (x : Int), (writen k x).length = k := by intro k x; simp [writen]
  have hlen2 : ∀ k (x : Nat), (littleEndian k x).length = k := by intro k x; simp [littleEndian]
  unfold wav_header canonical_wav_header
  rw [hw, hw2, h16, h6, h8000, h8, writen_natCast, writen_natCast, writen_natCast]
  refine ⟨?_, ?_, ?_, ?_, ?_, ?_, by decide, by decide⟩
  · simp [hlen, hlen2]
  · simp
  · have key : ∀ (x r : Bytes), x.length = 4 → ([82, 73, 70, 70] ++ (x ++ r)).drop 8 = r := by
      intro x r hx
      rw [← List.append_assoc]
      exact List.drop_left' (by simp [hx])
    simp only [List.append_assoc]
    rw [key _ _ (hlen 4 _), key _ _ (hlen2 4 _)]
  · simp only [List.append_assoc]
    rw [List.drop_append_eq_append_drop]
    simp [hlen]
  · simp only [List.append_assoc]
    rw [List.drop_append_eq_append_drop]
    simp [hlen2]
  · rw [← writen_natCast, writen_four, writen_four]
    intro h
    have h0 := (List.cons.inj h).1
    have : ((n : Int) - 36) % 256 = ((36 + n : Nat) : Int) % 256 := by
      have a := Int.toNat_of_nonneg (Int.emod_nonneg ((n : Int) - 36) (by decide : (256 : Int) ≠ 0))
      have b := Int.toNat_of_nonneg
        (Int.emod_nonneg (((36 + n : Nat) : Int)) (by decide : (256 : Int) ≠ 0))
      omega
    omega

theorem wav_header_chunk_size_witness :
    (wav_header 160 1).length = 44 ∧
    ((wav_header 160 1).drop 4).take 4 = [124, 0, 0, 0] ∧
    ((canonical_wav_header 160 1).drop 4).take 4 = [196, 0, 0, 0] := by
  have h := wav_header_chunk_size 160 1 (by decide) (Or.inl rfl)
  exact ⟨h.1, h.2.2.2.2.2.2.1, h.2.2.2.2.2.2.2⟩

/-! ## C29: what the worker sends -/

/-- C29, counterexample: the received INVITE has the local part "486=x", so the call is
not to be answered, and `audio_in` returns no outcome (`NULL`): the worker sends the
datagram "SIP/2.0 486 Done" and CR LF. An absent outcome does send a message. -/
theorem worker_reply_nonanswer :
    invite_nonanswer invite486 30 = 486 ∧
    send_reply (worker_reply invite486 30 (List.replicate 40 0) 40 4000 none)
      = some [83, 73, 80, 47, 50, 46, 48, 32, 52, 56, 54, 32, 68, 111, 110, 101, 13, 10] := by
  decide

/-- C29, amended: for a call that is to be answered (`nonanswer` is 0) the message of the
worker is decided by the outcome. An absent outcome sends nothing. The empty outcome
sends a datagram that begins with "BYE", the Contact URI and "SIP/2.0". An outcome `d`
that begins with a printable character sends a datagram that begins with "REFER", the
Contact URI and "SIP/2.0", and, when the output buffer has room for it, has the line
"Refer-To: " with the text of `refer_to` after the lines up to the length header; that
text is "sip:", `d` and the Contact URI from its '@' on when these have no NUL and at
most 199 octets together. -/
theorem worker_reply_outcome (rx : Bytes) (rxe : Nat) (tx : Bytes) (txe : Nat) (rport : Int)
    (hna : invite_nonanswer rx rxe = 0) (htx : txe ≤ tx.length) :
    send_reply (worker_reply rx rxe tx txe rport none) = none ∧
    (∃ rest, send_reply (worker_reply rx rxe tx txe rport (some []))
      = some (request_text methodBYE rx (contact_uri rx rxe) ++ rest)) ∧
    (∀ d : Bytes, d ≠ [] → 32 ≤ d.headD 0 → d.headD 0 < 128 →
      (∃ rest, send_reply (worker_reply rx rxe tx txe rport (some d))
        = some (request_text methodREFER rx (contact_uri rx rxe) ++ rest)) ∧
      ((request_head methodREFER cseqREFER rx rxe tx txe rport).2
          + (refer_to rx (contact_uri rx rxe) d).length + 14 ≤ txe →
        ∃ tail, send_reply (worker_reply rx rxe tx txe rport (some d))
          = some ((request_head methodREFER cseqREFER rx rxe tx txe rport).1.take
                (request_head methodREFER cseqREFER rx rxe tx txe rport).2
              ++ (hdrReferTo ++ [58, 32] ++ refer_to rx (contact_uri rx rxe) d ++ [13, 10])
              ++ tail))) ∧
    (∀ (d : Bytes) (c : Nat × Nat), contact_uri rx rxe = some c → (∀ x ∈ d, x ≠ 0) →
      (∀ x ∈ slice rx (scanWhile rx (fun x => x != 64) c.1 c.2) c.2, x ≠ 0) →
      4 + d.length + (slice rx (scanWhile rx (fun x => x != 64) c.1 c.2) c.2).length ≤ 199 →
      refer_to rx (contact_uri rx rxe) d
        = schemeSip ++ d ++ slice rx (scanWhile rx (fun x => x != 64) c.1 c.2) c.2) := by
  have hkeep : ∀ method cseq : Bytes,
      Keeps (request_text method rx (contact_uri rx rxe)).length tx.length
        (request_text method rx (contact_uri rx rxe))
        (request_head method cseq rx rxe tx txe rport) := by
    intro method cseq
    unfold request_head
    exact keeps_add_string (keeps_add_string (keeps_make_reply
      (keeps_first_line tx (request_text method rx (contact_uri rx rxe))) rx rxe txe rport true)
      txe hdrCSeq cseq) txe [108] [48]
  refine ⟨?_, ?_, ?_, ?_⟩
  · unfold worker_reply
    rw [if_neg (by rw [hna]; simp)]
    rfl
  · unfold worker_reply
    rw [if_neg (by rw [hna]; simp)]
    simp only [if_true]
    exact keeps_sent (hkeep methodBYE cseqBYE)
  · intro d hd h32 h128
    have hw : worker_reply rx rxe tx txe rport (some d)
        = add_string txe
            (add_string txe (request_head methodREFER cseqREFER rx rxe tx txe rport) hdrReferTo
              (refer_to rx (contact_uri rx rxe) d))
            hdrAuthorization digestVoicemail := by
      unfold worker_reply
      rw [if_neg (by rw [hna]; simp)]
      simp only
      rw [if_neg hd, if_pos ⟨h32, h128⟩]
    rw [hw]
    refine ⟨keeps_sent (keeps_add_string (keeps_add_string (hkeep methodREFER cseqREFER) txe _ _)
      txe _ _), ?_⟩
    intro hroom
    obtain ⟨H, hH⟩ : ∃ H, H = request_head methodREFER cseqREFER rx rxe tx txe rport := ⟨_, rfl⟩
    obtain ⟨V, hV⟩ : ∃ V, V = refer_to rx (contact_uri rx rxe) d := ⟨_, rfl⟩
    have hK := hkeep methodREFER cseqREFER
    rw [← hH] at hK hroom ⊢
    rw [← hV] at hroom ⊢
    have hHlen : tx.length ≤ H.1.length := hK.2.2.2
    have hVn : ∀ c ∈ V, c ≠ 0 := by rw [hV]; exact refer_to_nulfree rx _ d
    have hspec := add_header_with_spec 0 [] [] H.1 hdrReferTo V V [] H.2 txe 0 none
      (by decide) hVn (by simp) (Or.inl ⟨rfl, rfl⟩)
    have hr : hdrReferTo.length + V.length + 6 + 0 ≤ txe - H.2 := by
      have : hdrReferTo.length = 8 := rfl
      omega
    rw [if_pos hr] at hspec
    obtain ⟨line, hline⟩ : ∃ line, line = hdrReferTo ++ [58, 32] ++ V ++ [13, 10] := ⟨_, rfl⟩
    have hline2 : hdrReferTo ++ [58, 32] ++ [] ++ V ++ [] ++ [13, 10] = line := by
      rw [hline]; simp
    rw [hline2] at hspec
    have hll : line.length = V.length + 12 := by
      rw [hline]
      have : hdrReferTo.length = 8 := rfl
      simp only [List.length_append, List.length_cons, List.length_nil, this]
      omega
    have hs2 : add_string txe H hdrReferTo V = (writeAt H.1 H.2 (line ++ [0]), H.2 + line.length) := by
      unfold add_string sip_add_header
      rw [hspec]
    rw [← hline, hs2]
    have htake : (writeAt H.1 H.2 (line ++ [0])).take (H.2 + line.length) = H.1.take H.2 ++ line :=
      take_writeAt H.1 H.2 line [0] (by omega)
    have hlen2 : H.1.length ≤ (writeAt H.1 H.2 (line ++ [0])).length := length_writeAt_ge _ _ _
    unfold add_string sip_add_header
    rcases add_header_with_cases 0 [] [] (writeAt H.1 H.2 (line ++ [0])) (H.2 + line.length) txe
      hdrAuthorization digestVoicemail (some 0) none with hc | ⟨l2, hc⟩
    · rw [hc]
      refine ⟨[], ?_⟩
      unfold send_reply
      dsimp only
      rw [if_neg (by omega), htake]
      simp
    · rw [hc]
      refine ⟨l2 ++ [13, 10], ?_⟩
      unfold send_reply
      dsimp only
      rw [if_neg (by omega)]
      rw [take_writeAt _ (H.2 + line.length) (l2 ++ [13, 10]) [0] (by omega), htake]
  · intro d c hc hd hu hlen
    unfold refer_to
    rw [hc]
    simp only [from_at, printedRange]
    obtain ⟨a, ha⟩ : ∃ a, a = scanWhile rx (fun x => x != 64) c.1 c.2 := ⟨_, rfl⟩
    rw [← ha] at hu hlen ⊢
    have hb := contact_uri_bounds rx rxe c hc
    have hale : a ≤ c.2 := by
      rw [ha]; exact scanWhile_le rx (fun x => x != 64) c.2 _ c.1 rfl hb.1
    have hpv : printedValue rx a ((c.2 : Int) - (a : Int)) = slice rx a c.2 := by
      unfold printedValue
      rw [if_neg (by omega)]
      have : ((c.2 : Int) - (a : Int)).toNat = c.2 - a := by omega
      rw [this]
      exact cstring_of_nulfree _ hu
    rw [hpv, cstring_of_nulfree d hd]
    apply List.take_of_length_le
    have : schemeSip.length = 4 := rfl
    simp only [List.length_append, this]
    omega

theorem worker_reply_outcome_witness :
    send_reply (worker_reply inviteContact 40 (List.replicate 40 0) 40 4000 none) = none ∧
    (∃ rest, send_reply (worker_reply inviteContact 40 (List.replicate 40 0) 40 4000 (some []))
      = some ([66, 89, 69, 32, 115, 105, 112, 58, 99, 64, 100, 32, 83, 73, 80, 47, 50, 46, 48] ++ rest)) ∧
    (∃ rest, send_reply (worker_reply inviteContact 40 (List.replicate 40 0) 40 4000 (some [35]))
      = some ([82, 69, 70, 69, 82, 32, 115, 105, 112, 58, 99, 64, 100, 32, 83, 73, 80, 47, 50, 46, 48] ++ rest)) ∧
    refer_to inviteContact (contact_uri inviteContact 40) [35] = [115, 105, 112, 58, 35, 64, 100] :=
  ⟨(worker_reply_outcome inviteContact 40 (List.replicate 40 0) 40 4000 (by decide)
      (by decide)).1,
    (worker_reply_outcome inviteContact 40 (List.replicate 40 0) 40 4000 (by decide)
      (by decide)).2.1,
    ((worker_reply_outcome inviteContact 40 (List.replicate 40 0) 40 4000 (by decide)
      (by decide)).2.2.1 [35] (by decide) (by decide) (by decide)).1,
    by decide⟩

/-! ## C30: the status line of the reply -/

/-- C30: for the INVITE with the request URI "sip:=@host" and no tag in its To header,
`nonanswer` is 0 and the reply of `main` begins with the status line "SIP/2.0 200 OK": a
'=' alone does not make the call a call that is not answered, and neither does "0=". For
"sip:9999=@host" `nonanswer` is 9999 and the reply begins with "SIP/2.0 183 Call
progress". -/
theorem reply_head_equal_alone :
    invite_nonanswer inviteEqual 44 = 0 ∧
    ((reply_head inviteEqual 44 (List.replicate 64 0) 64 (some 4000) true).map
        (fun st => st.1.take st.2))
      = some
        [83, 73, 80, 47, 50, 46, 48, 32, 50, 48, 48, 32, 79, 75, 13, 10, 116, 58, 32, 60, 115,
         105, 112, 58, 120, 64, 121, 62, 59, 116, 97, 103, 61, 52, 48, 48, 48, 13, 10] ∧
    invite_nonanswer
      [73, 78, 86, 73, 84, 69, 32, 115, 105, 112, 58, 48, 61, 64, 104, 111, 115, 116, 32, 83,
       73, 80, 47, 50, 46, 48, 13, 10, 84, 111, 58, 32, 60, 115, 105, 112, 58, 120, 64, 121,
       62, 13, 10, 13, 10] 45 = 0 ∧
    invite_nonanswer invite9999 48 = 9999 ∧
    ((reply_head invite9999 48 (List.replicate 64 0) 64 (some 4000) true).map
        (fun st => st.1.take st.2))
      = some
        [83, 73, 80, 47, 50, 46, 48, 32, 49, 56, 51, 32, 67, 97, 108, 108, 32, 112, 114, 111,
         103, 114, 101, 115, 115, 13, 10, 116, 58, 32, 60, 115, 105, 112, 58, 120, 64, 121, 62,
         59, 116, 97, 103, 61, 52, 48, 48, 48, 13, 10] := by
  decide

/-! ## C31: the header lines of `make_reply` -/

/-- C31, counterexample: the received INVITE has the headers Via, From, To, Call-ID and
CSeq, and its To value "<sip:x@y> " ends with a SP; port 4000 is allocated and the output
has room. `make_reply (0)` stores the line "t: <sip:x@y> tag=4000" and `make_reply (1)`
the line "f: <sip:x@y> tag=4000": the tag is appended without the ';'. -/
theorem make_reply_tag_after_space :
    send_reply (make_reply inviteToSpace 87 80 4000 false (List.replicate 80 0, 0))
      = some
        [118, 58, 32, 97, 13, 10, 102, 58, 32, 98, 13, 10, 116, 58, 32, 60, 115, 105, 112, 58,
         120, 64, 121, 62, 32, 116, 97, 103, 61, 52, 48, 48, 48, 13, 10, 105, 58, 32, 100, 13,
         10, 67, 83, 101, 113, 58, 32, 49, 32, 73, 78, 86, 73, 84, 69, 13, 10] ∧
    send_reply (make_reply inviteToSpace 87 80 4000 true (List.replicate 80 0, 0))
      = some
        [118, 58, 32, 83, 73, 80, 47, 50, 46, 48, 47, 85, 68, 80, 32, 48, 46, 48, 46, 48, 46,
         48, 58, 53, 48, 54, 48, 13, 10, 116, 58, 32, 98, 13, 10, 102, 58, 32, 60, 115, 105,
         112, 58, 120, 64, 121, 62, 32, 116, 97, 103, 61, 52, 48, 48, 48, 13, 10, 105, 58, 32,
         100, 13, 10] := by
  decide

/-- C31, amended: the received message is made of a start line, header lines and the
empty line, and has a From, a To, a Call-ID and a CSeq header with the values `f`, `t`,
`i`, `c` (the first of each name counts); the output has room for the lines of the reply
and three more octets. Then `make_reply (0)` stores, from `txp` on, one line "v: value"
for every Via header (name `Via` or `v`) in the order of the message, then "f: " `f`,
"t: " `t`, "i: " `i` and "CSeq: " `c`; `make_reply (1)` stores "v: SIP/2.0/UDP
0.0.0.0:5060", "t: " `f`, "f: " `t` and "i: " `i`, and no CSeq. In both cases, when a port
is allocated (`rport >= 0`), the line with the value `t` ends with "tag=" and the decimal
digits of the port, after a ';' when `t` is not empty and does not end with SP or ':'.
`txp` is left at the end of the lines. -/
theorem make_reply_lines (start : Bytes) (sconts : List Bytes) (hs : List HeaderLine)
    (body post tx : Bytes) (txp txe : Nat) (rport : Int) (rev : Bool) (f t i c : Bytes)
    (hstart : FoldedOk start sconts) (hok : ∀ h ∈ hs, h.Ok)
    (hf : firstValue (some hdrFrom) (some [102]) hs = some f)
    (ht : firstValue (some hdrTo) (some [116]) hs = some t)
    (hi : firstValue (some hdrCallID) (some [105]) hs = some i)
    (hc : firstValue (some hdrCSeq) none hs = some c)
    (hport : rport < 2147483648)
    (hroom : txp + (replyLines rev rport (wantedValues (some hdrVia) (some [118]) hs)
      f t i c).length + 3 ≤ txe)
    (htx : txe ≤ tx.length) :
    (make_reply (renderMessage start sconts hs body ++ post)
        (renderMessage start sconts hs body).length txe rport rev (tx, txp)).2
      = txp + (replyLines rev rport (wantedValues (some hdrVia) (some [118]) hs) f t i c).length ∧
    (make_reply (renderMessage start sconts hs body ++ post)
        (renderMessage start sconts hs body).length txe rport rev (tx, txp)).1.take
        (txp + (replyLines rev rport (wantedValues (some hdrVia) (some [118]) hs) f t i c).length)
      = tx.take txp ++ replyLines rev rport (wantedValues (some hdrVia) (some [118]) hs) f t i c ∧
    (0 ≤ rport → decimalValue (printedUnsigned rport) = rport.toNat ∧
      (t.getLastD 32 ≠ 32 → t.getLastD 32 ≠ 58 →
        tagged rport t = t ++ [59] ++ tagName ++ [61] ++ printedUnsigned rport)) := by
  have h := make_reply_written start sconts hs body post tx txp txe rport rev f t i c hstart hok
    hf ht hi hc hroom htx
  obtain ⟨h1, h2, _⟩ := h
  refine ⟨h1, by rw [← h1]; exact h2, fun h0 => ⟨printedUnsigned_value rport h0 hport, ?_⟩⟩
  intro ha hb
  unfold tagged tagSeparator
  rw [if_pos h0, if_neg (by omega)]

theorem make_reply_lines_witness :
    (make_reply (renderMessage sampleStart [] inviteHeaders [] ++ [])
        (renderMessage sampleStart [] inviteHeaders []).length 100 4000 false
        (List.replicate 100 0, 0)).1.take
        (0 + (replyLines false 4000 (wantedValues (some hdrVia) (some [118]) inviteHeaders)
          [60, 115, 105, 112, 58, 98, 64, 104, 62] [60, 115, 105, 112, 58, 120, 64, 121, 62]
          [100] [49, 32, 73, 78, 86, 73, 84, 69]).length)
      = (List.replicate 100 0).take 0
        ++ replyLines false 4000 (wantedValues (some hdrVia) (some [118]) inviteHeaders)
          [60, 115, 105, 112, 58, 98, 64, 104, 62] [60, 115, 105, 112, 58, 120, 64, 121, 62]
          [100] [49, 32, 73, 78, 86, 73, 84, 69] ∧
    replyLines false 4000 (wantedValues (some hdrVia) (some [118]) inviteHeaders)
        [60, 115, 105, 112, 58, 98, 64, 104, 62] [60, 115, 105, 112, 58, 120, 64, 121, 62]
        [100] [49, 32, 73, 78, 86, 73, 84, 69]
      =
        [118, 58, 32, 111, 110, 101, 13, 10, 118, 58, 32, 116, 119, 111, 13, 10, 102, 58, 32,
         60, 115, 105, 112, 58, 98, 64, 104, 62, 13, 10, 116, 58, 32, 60, 115, 105, 112, 58,
         120, 64, 121, 62, 59, 116, 97, 103, 61, 52, 48, 48, 48, 13, 10, 105, 58, 32, 100, 13,
         10, 67, 83, 101, 113, 58, 32, 49, 32, 73, 78, 86, 73, 84, 69, 13, 10] :=
  ⟨(make_reply_lines sampleStart [] inviteHeaders [] [] (List.replicate 100 0) 0 100 4000 false
      [60, 115, 105, 112, 58, 98, 64, 104, 62] [60, 115, 105, 112, 58, 120, 64, 121, 62]
      [100] [49, 32, 73, 78, 86, 73, 84, 69] (by decide) (by decide) (by decide) (by decide)
      (by decide) (by decide) (by decide) (by decide) (by decide)).2.1,
    by decide⟩

/-! ## C32: the loop of `sip_find_comma` -/

/-- C32: when the range `[s,e)` begins with an octet below SP that is not HT, LF or CR
(0x01, for one), `sip_find_comma` does not return, whatever the tag: in every iteration
of its loop `sip_skip_space` and the scan of the name leave `s` where it is, and
`continue` starts the next iteration at the same place. No number of iterations is
enough for the model to return. -/
theorem sip_find_comma_stalls (b : Bytes) (s e : Nat) (tag : Bytes) (fuel : Nat) (hse : s < e)
    (hc : byteAt b s < 32) (hws : isLWS (byteAt b s) = false) :
    sip_find_comma fuel b (some s) (some e) tag = none := by
  have hsd : skip_display b s e = s :=
    skip_display_stop b s e hse hws (by omega) (by
      simp only [isTokenChar, isalpha, isupper, islower, isdigit, Bool.or_eq_false_iff,
        Bool.and_eq_false_iff, decide_eq_false_iff_not, beq_eq_false_iff_ne]
      omega)
  unfold sip_find_comma
  simp only [rangeEnd, hsd]
  induction fuel with
  | zero => rfl
  | succ n ih =>
    rw [find_comma_loop.eq_2, if_pos hse]
    simp only
    rw [skip_space_stop b s e (Or.inr hws),
      scanWhile_stop b (fun c => decide (32 < c) && c != 61) s e (Or.inr (by
        simp only [Bool.and_eq_false_iff, decide_eq_false_iff_not]
        left; omega)),
      if_pos (Or.inr (by omega))]
    exact ih

theorem sip_find_comma_stalls_witness :
    sip_find_comma 1000 [1, 97, 61, 98] (some 0) (some 4) [97] = none :=
  sip_find_comma_stalls [1, 97, 61, 98] 0 4 [97] 1000 (by decide) (by decide) (by decide)

/-! ## C33: `sip_find_list` and the rest of a list -/

/-- C33, counterexample: in the list "x,<>,y" the first call of `sip_find_list` returns
the element "x"; the call on the rest ",<>,y" returns `NULL`, although the element "y" is
still to come; and so does the call on the range "<>" alone, which holds octets that are
neither white space nor ','. -/
theorem sip_find_list_drops_rest :
    sip_find_list [120, 44, 60, 62, 44, 121] (some 0) (some 6) = some (0, 1) ∧
    sip_find_list [120, 44, 60, 62, 44, 121] (some 1) (some 6) = none ∧
    sip_find_list [60, 62] (some 0) (some 2) = none ∧
    sip_find_list [120, 44, 60, 62, 44, 121] (some 4) (some 6) = some (5, 6) := by
  decide

/-- C33, amended: for every range `[p,e)` that holds an octet that is neither white space
nor ',', and in which every '<' is followed, within the range, by an octet other than '>',
`sip_find_list` returns a present element that is not empty and lies in the range. -/
theorem sip_find_list_present (b : Bytes) (p e : Nat) (hpe : p ≤ e)
    (hex : ∃ i, p ≤ i ∧ i < e ∧ isLWS (byteAt b i) = false ∧ byteAt b i ≠ 44)
    (hangle : ∀ i, p ≤ i → i < e → byteAt b i = 60 → i + 1 < e ∧ byteAt b (i + 1) ≠ 62) :
    ∃ st en, sip_find_list b (some p) (some e) = some (st, en) ∧ p ≤ st ∧ st < en ∧ en ≤ e := by
  obtain ⟨i, hpi, hie, hil, hic⟩ := hex
  have hb1 := skip_space_bounds b p e hpe
  obtain ⟨p1, hp1⟩ : ∃ p1, p1 = skip_space b p e := ⟨_, rfl⟩
  rw [← hp1] at hb1
  have hb2 := listCommaLoop_bounds b e (e - p1) p1 hb1.2
  obtain ⟨p2, hp2⟩ : ∃ p2, p2 = listCommaLoop b e (e - p1) p1 := ⟨_, rfl⟩
  rw [← hp2] at hb2
  have hlt : p2 < e := by
    by_contra hge
    by_cases h1 : i < p1
    · have := scanWhile_passed b isLWS e _ p rfl i hpi (by rw [hp1] at h1; exact h1)
      rw [this] at hil
      exact absurd hil (by decide)
    · have := listCommaLoop_passed b e (e - p1) p1 hb1.2 i (by omega) (by rw [← hp2]; omega)
      rcases this with h | h
      · rw [h] at hil; exact absurd hil (by decide)
      · exact hic h
  have hstop := listCommaLoop_at_stop b e (e - p1) p1 (le_refl _) hb1.2
    (fun h => by rw [hp1]; exact scanWhile_at_stop b isLWS e _ p rfl (by rw [hp1] at h; exact h))
    (by rw [← hp2]; exact hlt)
  rw [← hp2] at hstop
  obtain ⟨q, hq1, hq2, hq3, hq4⟩ := listElemLoop_some b p e hangle (e - p2) p2 (by omega) hb2.2
  refine ⟨p2, q, ?_, by omega, hq4 (by omega) hlt hstop.2, hq3⟩
  unfold sip_find_list
  simp only [rangeEnd, ← hp1, ← hp2]
  rw [if_neg (by omega), hq1]

theorem sip_find_list_present_witness :
    ∃ st en, sip_find_list [32, 44, 60, 97, 62, 44, 121] (some 0) (some 7) = some (st, en) ∧
      0 ≤ st ∧ st < en ∧ en ≤ 7 :=
  sip_find_list_present [32, 44, 60, 97, 62, 44, 121] 0 7 (by decide)
    ⟨2, by decide, by decide, by decide, by decide⟩
    (fun i _ h2 h3 => by
      interval_cases i <;>
        first
        | exact absurd h3 (by decide)
        | exact ⟨by decide, by decide⟩)

/-! ## C34: `sip_esc_esc_cmp` -/

/-- C34: for two ranges `[s,e)` and `[s2,e2)` that lie in their buffers,
`sip_esc_esc_cmp` returns 0 exactly when the octets of the two ranges decode to the same
sequence, where the decoding goes from left to right and replaces every '%' that is
followed by two hex digits within the range by one octet; and the call with the two
ranges exchanged returns the negated value. -/
theorem sip_esc_esc_cmp_decoded (b b2 : Bytes) (s e s2 e2 : Nat) (hse : s ≤ e)
    (he : e ≤ b.length) (hse2 : s2 ≤ e2) (he2 : e2 ≤ b2.length) :
    (sip_esc_esc_cmp b (some s) (some e) b2 (some s2) (some e2) = 0
      ↔ percentDecode (slice b s e) = percentDecode (slice b2 s2 e2)) ∧
    sip_esc_esc_cmp b (some s) (some e) b2 (some s2) (some e2)
      = - sip_esc_esc_cmp b2 (some s2) (some e2) b (some s) (some e) := by
  have h1 := slice_drop b s e hse he
  have h2 := slice_drop b2 s2 e2 hse2 he2
  have hv1 : esc_values b e (e - s) s = percentDecode (slice b s e) := by
    have h := esc_values_decode b (b.drop e) (slice b s e).length (slice b s e) s (le_refl _) h1.1
    have hE : s + (slice b s e).length = e := by rw [h1.2]; omega
    rw [hE, h1.2] at h
    rw [h, percentDecode, h1.2]
  have hv2 : esc_values b2 e2 (e2 - s2) s2 = percentDecode (slice b2 s2 e2) := by
    have h := esc_values_decode b2 (b2.drop e2) (slice b2 s2 e2).length (slice b2 s2 e2) s2
      (le_refl _) h2.1
    have hE : s2 + (slice b2 s2 e2).length = e2 := by rw [h2.2]; omega
    rw [hE, h2.2] at h
    rw [h, percentDecode, h2.2]
  have hl : sip_esc_esc_cmp b (some s) (some e) b2 (some s2) (some e2)
      = cmpValues (percentDecode (slice b s e)) (percentDecode (slice b2 s2 e2)) := by
    unfold sip_esc_esc_cmp
    simp only [rangeEnd, Option.getD_some]
    rw [esc_esc_cmp_loop_values b e b2 e2 (e - s) s s2 (e - s) (e2 - s2) (le_refl _) (le_refl _)
      (le_refl _), hv1, hv2]
  have hr : sip_esc_esc_cmp b2 (some s2) (some e2) b (some s) (some e)
      = cmpValues (percentDecode (slice b2 s2 e2)) (percentDecode (slice b s e)) := by
    unfold sip_esc_esc_cmp
    simp only [rangeEnd, Option.getD_some]
    rw [esc_esc_cmp_loop_values b2 e2 b e (e2 - s2) s2 s (e2 - s2) (e - s) (le_refl _) (le_refl _)
      (le_refl _), hv1, hv2]
  rw [hl, hr]
  exact ⟨cmpValues_eq_zero _ _, cmpValues_swap _ _⟩

theorem sip_esc_esc_cmp_decoded_witness :
    (sip_esc_esc_cmp [37, 52, 49, 98] (some 0) (some 4) [65, 37, 54, 50] (some 0) (some 4) = 0
      ↔ percentDecode (slice [37, 52, 49, 98] 0 4) = percentDecode (slice [65, 37, 54, 50] 0 4)) ∧
    sip_esc_esc_cmp [37, 52, 49, 98] (some 0) (some 4) [65, 37, 54, 50] (some 0) (some 4)
      = - sip_esc_esc_cmp [65, 37, 54, 50] (some 0) (some 4) [37, 52, 49, 98] (some 0) (some 4) :=
  sip_esc_esc_cmp_decoded [37, 52, 49, 98] [65, 37, 54, 50] 0 4 0 4 (by decide) (by decide)
    (by decide) (by decide)

end VoipAnswer
